import Mathlib

/-!
# The io_uring event backend of the fiber library

A shallow embedding of `lib_fiber/c/src/event/event_io_uring.c` and the
properties of its operations `event_uring_add_read`, `event_uring_add_write`,
`event_uring_del_read`, `event_uring_del_write` and `event_uring_wait`.

Conventions of the embedding.

* A `FILE_EVENT *` is a natural number (an address); the file events live in
  a store `Nat → FILE_EVENT`, total, so every pointer a completion carries is
  valid.
* A callback slot (`r_proc`, `w_proc`) holds `none` for `NULL` or the address
  of a procedure. What a procedure does to the backend and to the file events
  is given by an interpretation `Procs`, a parameter of `event_uring_wait`;
  it is arbitrary unless a theorem restricts it. A procedure cannot consume
  completions. Where the calls a procedure makes on the backend are counted,
  the procedure is given by its body, a list of calls of the arming
  operations and of stores into file events (`Bodies`). Every invocation is
  recorded, together with the file event as it stands in memory when the
  procedure is entered.
* liburing and the kernel are the environment. The submission side is a
  bounded list of prepared entries: `io_uring_get_sqe` yields `NULL` when the
  list is full, `io_uring_submit` hands the list to the kernel, and preparing
  an entry leaves its user data alone (liburing 2.2 and later). The
  completion side is the list of answers the library gives to the successive
  requests for a completion made by `event_uring_wait`, each a return value
  and, when that is 0, a completion entry. The loop reads the entry after
  `io_uring_cqe_seen`; the entry is taken to keep its content until then.
* `unsigned` values are natural numbers below `2 ^ 32`; `~` is the exclusive
  or with `UINT_MAX`. The counters `appending` (`size_t`) and `count` (`int`)
  are natural numbers without wrap-around: `appending` equals the number of
  entries in the submission list, which the ring bounds by `sq_entries`
  (`runOps_counts`), and `count` is the number of completions one call takes
  out of the completion ring.
* An operation that does not return (a failed `assert`, a wait that blocks
  for ever) yields `none`.

The namespace `RedisObject` embeds `app/wizard_demo/pkv/proto/redis_object.cpp`,
the RESP object of `pkv` with its parser and printer; its conventions stand
where its definitions begin.
-/

namespace EventIoUring

/-! ## Declarations the translated file takes from its headers -/

/-- The flag bits of `FILE_EVENT.mask` and the size of the peer address
storage.  `event.h` is not among the translated sources: the four flags enter
as the positions of four pairwise distinct bits of an `unsigned`, and
`sizeof(fe->peer_addr)` as a number. -/
structure EventFlags where
  read : Nat
  write : Nat
  accept : Nat
  connect : Nat
  peer_addr_size : Nat
  ok : (read < 32 ∧ write < 32 ∧ accept < 32 ∧ connect < 32) ∧
    (read ≠ write ∧ read ≠ accept ∧ read ≠ connect) ∧
    (write ≠ accept ∧ write ≠ connect ∧ accept ≠ connect)

/-- The flag `EVENT_READ`. -/
def EVENT_READ (k : EventFlags) : Nat := 1 <<< k.read

/-- The flag `EVENT_WRITE`. -/
def EVENT_WRITE (k : EventFlags) : Nat := 1 <<< k.write

/-- The flag `EVENT_ACCEPT`. -/
def EVENT_ACCEPT (k : EventFlags) : Nat := 1 <<< k.accept

/-- The flag `EVENT_CONNECT`. -/
def EVENT_CONNECT (k : EventFlags) : Nat := 1 <<< k.connect

/-- The largest `unsigned`. -/
def UINT_MAX : Nat := 4294967295

/-- The complement `~x` of an `unsigned`. -/
def unot (x : Nat) : Nat := x ^^^ UINT_MAX

/-- The errno `ETIME` (Linux). -/
def ETIME : Int := 62

/-- The errno `EAGAIN` (Linux). -/
def EAGAIN : Int := 11

/-- The errno `ENOBUFS` (Linux). -/
def ENOBUFS : Int := 105

/-- One assignment of the flags, used for concrete runs. -/
def flags0 : EventFlags :=
  { read := 0, write := 1, accept := 2, connect := 3, peer_addr_size := 128,
    ok := by decide }

/-! ## Data model -/

/-- The fields of `FILE_EVENT` that the backend reads or writes. -/
structure FILE_EVENT where
  fd : Int
  mask : Nat
  r_proc : Option Nat
  w_proc : Option Nat
  rbuf : Nat
  rsize : Nat
  wbuf : Nat
  wsize : Nat
  rlen : Int
  wlen : Int
  iocp_sock : Int
  addr_len : Nat
deriving DecidableEq, Repr

/-- The operation prepared in a submission entry; `fe` is the file event whose
`peer_addr` and `addr_len` the operation points into. -/
inductive SqeOp where
  | accept (fd : Int) (fe : Nat) (flags : Nat)
  | read (fd : Int) (buf : Nat) (nbytes : Nat) (offset : Nat)
  | connect (fd : Int) (fe : Nat) (addrlen : Nat)
  | write (fd : Int) (buf : Nat) (nbytes : Nat) (offset : Nat)
deriving DecidableEq, Repr

/-- A submission queue entry: the prepared operation and the user data set by
`io_uring_sqe_set_data`. -/
structure io_uring_sqe where
  op : SqeOp
  user_data : Nat
deriving DecidableEq, Repr

/-- A completion queue entry. -/
structure io_uring_cqe where
  res : Int
  user_data : Nat
deriving DecidableEq, Repr

/-- The submission side of the ring: `sq` holds the entries handed out by
`io_uring_get_sqe` since the last `io_uring_submit`, at most `sq_entries` of
them; `inflight` holds the entries handed to the kernel and `submits` counts
the calls of `io_uring_submit`. -/
structure io_uring where
  sq_entries : Nat
  sq : List io_uring_sqe
  inflight : List io_uring_sqe
  submits : Nat
deriving DecidableEq, Repr

/-- The backend object `EVENT_URING`. -/
structure EVENT_URING where
  ring : io_uring
  appending : Nat
deriving DecidableEq, Repr

/-- Whether `io_uring_get_sqe` finds a free entry (it returns `NULL` otherwise). -/
def io_uring_get_sqe (ring : io_uring) : Bool :=
  decide (ring.sq.length < ring.sq_entries)

/-- Appends a prepared entry to the submission list. -/
def io_uring.push (ring : io_uring) (sqe : io_uring_sqe) : io_uring :=
  { ring with sq := ring.sq ++ [sqe] }

/-- The call `io_uring_submit`: hands every queued entry to the kernel. -/
def io_uring_submit (ring : io_uring) : io_uring :=
  { ring with sq := [], inflight := ring.inflight ++ ring.sq,
              submits := ring.submits + 1 }

/-! ## Arming and disarming -/

/-- The entry `event_uring_add_read` prepares for the file event `fe` at
address `p`, whose mask already holds `EVENT_READ`. -/
def read_sqe (k : EventFlags) (p : Nat) (fe : FILE_EVENT) : io_uring_sqe :=
  if fe.mask &&& EVENT_ACCEPT k ≠ 0 then
    { op := SqeOp.accept fe.fd p 0, user_data := p }
  else
    { op := SqeOp.read fe.fd fe.rbuf fe.rsize 0, user_data := p }

/-- The entry `event_uring_add_write` prepares for the file event `fe` at
address `p`. -/
def write_sqe (k : EventFlags) (p : Nat) (fe : FILE_EVENT) : io_uring_sqe :=
  if fe.mask &&& EVENT_CONNECT k ≠ 0 then
    { op := SqeOp.connect fe.fd p fe.addr_len, user_data := p }
  else
    { op := SqeOp.write fe.fd fe.wbuf fe.wsize 0, user_data := p }

/-- The function `event_uring_add_read` on the file event `fe` stored at `p`.
The result is `none` when `assert(sqe)` fails, otherwise the new backend, the
new file event and the return value. -/
def event_uring_add_read (k : EventFlags) (ep : EVENT_URING) (p : Nat)
    (fe : FILE_EVENT) : Option (EVENT_URING × FILE_EVENT × Int) :=
  if fe.mask &&& EVENT_READ k ≠ 0 then
    some (ep, fe, 0)
  else
    let fe1 := { fe with mask := fe.mask ||| EVENT_READ k }
    if io_uring_get_sqe ep.ring then
      let fe2 := if fe1.mask &&& EVENT_ACCEPT k ≠ 0 then
        { fe1 with addr_len := k.peer_addr_size } else fe1
      some ({ ring := ep.ring.push (read_sqe k p fe1),
              appending := ep.appending + 1 }, fe2, 0)
    else
      none

/-- The function `event_uring_add_write` on the file event `fe` stored at `p`. -/
def event_uring_add_write (k : EventFlags) (ep : EVENT_URING) (p : Nat)
    (fe : FILE_EVENT) : Option (EVENT_URING × FILE_EVENT × Int) :=
  if fe.mask &&& EVENT_WRITE k ≠ 0 then
    some (ep, fe, 0)
  else
    let fe1 := { fe with mask := fe.mask ||| EVENT_WRITE k }
    if io_uring_get_sqe ep.ring then
      some ({ ring := ep.ring.push (write_sqe k p fe1),
              appending := ep.appending + 1 }, fe1, 0)
    else
      none

/-- The function `event_uring_del_read`. -/
def event_uring_del_read (k : EventFlags) (ep : EVENT_URING)
    (fe : FILE_EVENT) : EVENT_URING × FILE_EVENT × Int :=
  if ¬ (fe.mask &&& EVENT_READ k ≠ 0) then
    (ep, fe, 0)
  else
    (ep, { fe with mask := fe.mask &&& unot (EVENT_READ k) }, 0)

/-- The function `event_uring_del_write`. -/
def event_uring_del_write (k : EventFlags) (ep : EVENT_URING)
    (fe : FILE_EVENT) : EVENT_URING × FILE_EVENT × Int :=
  if ¬ (fe.mask &&& EVENT_WRITE k ≠ 0) then
    (ep, fe, 0)
  else
    (ep, { fe with mask := fe.mask &&& unot (EVENT_WRITE k) }, 0)

/-! ## Memory -/

/-- The memory a callback or a caller works on: the backend and the file
events. -/
structure Mem where
  ep : EVENT_URING
  files : Nat → FILE_EVENT

/-! ## Waiting for completions -/

/-- The meaning of the procedures stored in callback slots: the procedure at
address `f`, called with the backend and the file event at address `p`,
turns one memory into another. -/
abbrev Procs := Nat → Nat → Mem → Mem

/-- The two interests of a file event, one per callback slot. -/
inductive Interest where
  | read
  | write
deriving DecidableEq, Repr

/-- One callback invocation: the slot (`r_proc` or `w_proc`), the procedure,
its `FILE_EVENT *` argument, and the file event as it stands in memory when
the procedure is entered. -/
structure Call where
  kind : Interest
  proc : Nat
  fe : Nat
  seen : FILE_EVENT
deriving DecidableEq, Repr

/-- One pass through the dispatch step: the completion entry, the file event
as the read half finds it, the file event as the write half finds it (after
`r_proc`, if invoked, has returned), and the callbacks invoked, in order. -/
structure Item where
  cqe : io_uring_cqe
  before : FILE_EVENT
  mid : FILE_EVENT
  calls : List Call
deriving DecidableEq, Repr

/-- One answer of liburing to a request for a completion
(`io_uring_wait_cqes` or `io_uring_peek_cqe`): the return value and, when it
is `0`, the completion entry. -/
structure Reply where
  ret : Int
  cqe : io_uring_cqe
deriving DecidableEq, Repr

/-- The structure `__kernel_timespec`. -/
structure timespec where
  tv_sec : Int
  tv_nsec : Int
deriving DecidableEq, Repr

/-- The condition `(fe->mask & EVENT_READ) && fe->r_proc`. -/
def armedRead (k : EventFlags) (fe : FILE_EVENT) : Bool :=
  decide (fe.mask &&& EVENT_READ k ≠ 0) && fe.r_proc.isSome

/-- The condition `(fe->mask & EVENT_WRITE) && fe->w_proc`. -/
def armedWrite (k : EventFlags) (fe : FILE_EVENT) : Bool :=
  decide (fe.mask &&& EVENT_WRITE k ≠ 0) && fe.w_proc.isSome

/-- The assignments of the read half: clear `EVENT_READ`, then store the
result in `iocp_sock` for an accepting file event and in `rlen` otherwise. -/
def mark_read (k : EventFlags) (res : Int) (fe : FILE_EVENT) : FILE_EVENT :=
  let fe1 := { fe with mask := fe.mask &&& unot (EVENT_READ k) }
  if fe1.mask &&& EVENT_ACCEPT k ≠ 0 then
    { fe1 with iocp_sock := res }
  else
    { fe1 with rlen := res }

/-- The assignments of the write half: clear `EVENT_WRITE`, then store the
result in `iocp_sock` for a connecting file event and in `wlen` otherwise. -/
def mark_write (k : EventFlags) (res : Int) (fe : FILE_EVENT) : FILE_EVENT :=
  let fe1 := { fe with mask := fe.mask &&& unot (EVENT_WRITE k) }
  if fe1.mask &&& EVENT_CONNECT k ≠ 0 then
    { fe1 with iocp_sock := res }
  else
    { fe1 with wlen := res }

/-- The read half of the dispatch step, for a completion with result `res`
whose user data is `p`. -/
def dispatch_read (k : EventFlags) (procs : Procs) (res : Int) (p : Nat)
    (mem : Mem) : Mem × List Call :=
  let fe := mem.files p
  if fe.mask &&& EVENT_READ k ≠ 0 then
    match fe.r_proc with
    | none => (mem, [])
    | some f =>
      let mem1 : Mem :=
        { mem with files := Function.update mem.files p (mark_read k res fe) }
      (procs f p mem1,
        [{ kind := Interest.read, proc := f, fe := p, seen := mem1.files p }])
  else
    (mem, [])

/-- The write half of the dispatch step. -/
def dispatch_write (k : EventFlags) (procs : Procs) (res : Int) (p : Nat)
    (mem : Mem) : Mem × List Call :=
  let fe := mem.files p
  if fe.mask &&& EVENT_WRITE k ≠ 0 then
    match fe.w_proc with
    | none => (mem, [])
    | some f =>
      let mem1 : Mem :=
        { mem with files := Function.update mem.files p (mark_write k res fe) }
      (procs f p mem1,
        [{ kind := Interest.write, proc := f, fe := p, seen := mem1.files p }])
  else
    (mem, [])

/-- The dispatch step for one completion entry: the read half, then the
write half on the memory the read half leaves.  Besides the memory it yields
the record of the pass. -/
def dispatch (k : EventFlags) (procs : Procs) (cqe : io_uring_cqe)
    (mem : Mem) : Mem × Item :=
  let rd := dispatch_read k procs cqe.res cqe.user_data mem
  let wr := dispatch_write k procs cqe.res cqe.user_data rd.1
  (wr.1, { cqe := cqe, before := mem.files cqe.user_data,
           mid := rd.1.files cqe.user_data, calls := rd.2 ++ wr.2 })

/-- What a call of `event_uring_wait` leaves: the return value (`none` when
the call blocks for ever), the answers not consumed, the memory, and the
passes through the dispatch step in order. -/
structure WaitResult where
  ret : Option Int
  cq : List Reply
  mem : Mem
  items : List Item

/-- The loop of `event_uring_wait`.  `cq` lists the answers liburing gives
to the successive requests of the loop.  When it is exhausted no completion
is or becomes available: `io_uring_peek_cqe` answers `-EAGAIN`, and
`io_uring_wait_cqes` answers `-ETIME` when it was given a timeout and blocks
for ever when it was not. -/
def wait_loop (k : EventFlags) (procs : Procs) (tp : Option timespec) :
    List Reply → Nat → Mem → WaitResult
  | [], count, mem =>
    if count > 0 then
      { ret := some (count : Int), cq := [], mem := mem, items := [] }
    else
      match tp with
      | some _ => { ret := some 0, cq := [], mem := mem, items := [] }
      | none => { ret := none, cq := [], mem := mem, items := [] }
  | r :: rest, count, mem =>
    if r.ret ≠ 0 then
      if r.ret = -ETIME then
        { ret := some 0, cq := rest, mem := mem, items := [] }
      else if r.ret = -EAGAIN then
        { ret := some (count : Int), cq := rest, mem := mem, items := [] }
      else
        { ret := some (-1), cq := rest, mem := mem, items := [] }
    else
      if r.cqe.res = -ENOBUFS then
        { ret := some (-1), cq := rest, mem := mem, items := [] }
      else
        let d := dispatch k procs r.cqe mem
        let out := wait_loop k procs tp rest (count + 1) d.1
        { out with items := d.2 :: out.items }

/-- The timeout handed to `io_uring_wait_cqes`: `NULL` for a negative
`timeout`. -/
def wait_timespec (timeout : Int) : Option timespec :=
  if timeout ≥ 0 then
    some { tv_sec := timeout.tdiv 1000, tv_nsec := (timeout.tmod 1000) * 1000000 }
  else
    none

/-- The flush at the head of `event_uring_wait`. -/
def wait_flush (ep : EVENT_URING) : EVENT_URING :=
  if ep.appending > 0 then
    { ring := io_uring_submit ep.ring, appending := 0 }
  else
    ep

/-- The function `event_uring_wait`. -/
def event_uring_wait (k : EventFlags) (procs : Procs) (mem : Mem)
    (cq : List Reply) (timeout : Int) : WaitResult :=
  wait_loop k procs (wait_timespec timeout) cq 0
    { mem with ep := wait_flush mem.ep }

/-- The callback invocations of a list of dispatch passes, in order. -/
def callsOf (items : List Item) : List Call :=
  (items.map Item.calls).flatten

/-- An answer that takes the loop through the dispatch step: the request
succeeds and the completion carries a result other than `-ENOBUFS`. -/
def Reply.dispatched (r : Reply) : Bool :=
  decide (r.ret = 0) && decide (r.cqe.res ≠ -ENOBUFS)

/-! ## Sequences of calls on one backend -/

/-- A call of one of the five operations of the backend: the four arming
operations on the file event at an address, or `event_uring_wait` with the
answers liburing gives during the call. -/
inductive Op where
  | add_read (p : Nat)
  | add_write (p : Nat)
  | del_read (p : Nat)
  | del_write (p : Nat)
  | wait (cq : List Reply) (timeout : Int)
deriving DecidableEq, Repr

/-- Performs one call on the memory; `none` when the call does not return. -/
def Op.run (k : EventFlags) (procs : Procs) (mem : Mem) : Op → Option Mem
  | Op.add_read p =>
    match event_uring_add_read k mem.ep p (mem.files p) with
    | none => none
    | some (ep1, fe1, _) => some { ep := ep1, files := Function.update mem.files p fe1 }
  | Op.add_write p =>
    match event_uring_add_write k mem.ep p (mem.files p) with
    | none => none
    | some (ep1, fe1, _) => some { ep := ep1, files := Function.update mem.files p fe1 }
  | Op.del_read p =>
    some { ep := (event_uring_del_read k mem.ep (mem.files p)).1,
           files := Function.update mem.files p
             (event_uring_del_read k mem.ep (mem.files p)).2.1 }
  | Op.del_write p =>
    some { ep := (event_uring_del_write k mem.ep (mem.files p)).1,
           files := Function.update mem.files p
             (event_uring_del_write k mem.ep (mem.files p)).2.1 }
  | Op.wait cq timeout =>
    match (event_uring_wait k procs mem cq timeout).ret with
    | none => none
    | some _ => some (event_uring_wait k procs mem cq timeout).mem

/-! ## Callbacks that call the backend -/

/-- One step of the body of a callback: a call of one of the four arming
operations on the file event at an address, or stores into the file events,
which leave them as `files`.  The structure `EVENT_URING` is declared in the
translated file and its functions are static, entered in the function table
by `event_io_uring_create`: code outside the file changes the backend by
calls of the operations only. -/
inductive Act where
  | add_read (p : Nat)
  | add_write (p : Nat)
  | del_read (p : Nat)
  | del_write (p : Nat)
  | store (files : Nat → FILE_EVENT)

/-- Performs one step of a callback on the memory; `none` when the call does
not return. -/
def Act.run (k : EventFlags) (mem : Mem) : Act → Option Mem
  | Act.add_read p =>
    match event_uring_add_read k mem.ep p (mem.files p) with
    | none => none
    | some (ep1, fe1, _) => some { ep := ep1, files := Function.update mem.files p fe1 }
  | Act.add_write p =>
    match event_uring_add_write k mem.ep p (mem.files p) with
    | none => none
    | some (ep1, fe1, _) => some { ep := ep1, files := Function.update mem.files p fe1 }
  | Act.del_read p =>
    some { ep := (event_uring_del_read k mem.ep (mem.files p)).1,
           files := Function.update mem.files p
             (event_uring_del_read k mem.ep (mem.files p)).2.1 }
  | Act.del_write p =>
    some { ep := (event_uring_del_write k mem.ep (mem.files p)).1,
           files := Function.update mem.files p
             (event_uring_del_write k mem.ep (mem.files p)).2.1 }
  | Act.store files => some { ep := mem.ep, files := files }

/-- The number of `add_read` / `add_write` calls that armed an idle interest
since the last flush, after the step `a` made on `mem`, when it was `n`
before: an add call that finds its interest idle counts. -/
def Act.armings (k : EventFlags) (mem : Mem) (n : Nat) : Act → Nat
  | Act.add_read p => if (mem.files p).mask &&& EVENT_READ k = 0 then n + 1 else n
  | Act.add_write p => if (mem.files p).mask &&& EVENT_WRITE k = 0 then n + 1 else n
  | Act.del_read _ => n
  | Act.del_write _ => n
  | Act.store _ => n

/-- Performs the steps of a callback in order from the memory `mem`, where
`n` add calls have armed an idle interest since the last flush; yields the
memory reached and that number at the end, `none` when a step does not
return. -/
def runActs (k : EventFlags) : Mem → Nat → List Act → Option (Mem × Nat)
  | mem, n, [] => some (mem, n)
  | mem, n, a :: as =>
    match a.run k mem with
    | none => none
    | some mem1 => runActs k mem1 (a.armings k mem n) as

/-- The bodies of the procedures stored in callback slots: the steps the
procedure at address `f` performs when it is called with the backend and the
file event at address `p`, which may depend on the memory it is entered
with. A body calls neither `event_uring_wait` (a procedure cannot consume
completions) nor `event_uring_free`. -/
abbrev Bodies := Nat → Nat → Mem → List Act

/-- The meaning of the procedures with the bodies `bodies`: a procedure
turns the memory it is entered with into the one its steps leave. (Where a
step does not return the procedure does not return either; the value is then
without meaning, and `Op.armings` yields `none` for the call.) -/
def procsOf (k : EventFlags) (bodies : Bodies) : Procs := fun f q mem =>
  match runActs k mem 0 (bodies f q mem) with
  | some r => r.1
  | none => mem

/-! ## The count of arming calls -/

/-- The count of arming add calls after the read half of the dispatch step,
when it was `n` before: the add calls of the body of `r_proc` that find their
interest idle count. `none` when the body does not return. -/
def read_armings (k : EventFlags) (bodies : Bodies) (res : Int) (p : Nat)
    (mem : Mem) (n : Nat) : Option Nat :=
  let fe := mem.files p
  if fe.mask &&& EVENT_READ k ≠ 0 then
    match fe.r_proc with
    | none => some n
    | some f =>
      let mem1 : Mem :=
        { mem with files := Function.update mem.files p (mark_read k res fe) }
      match runActs k mem1 n (bodies f p mem1) with
      | some r => some r.2
      | none => none
  else
    some n

/-- The count of arming add calls after the write half of the dispatch
step. -/
def write_armings (k : EventFlags) (bodies : Bodies) (res : Int) (p : Nat)
    (mem : Mem) (n : Nat) : Option Nat :=
  let fe := mem.files p
  if fe.mask &&& EVENT_WRITE k ≠ 0 then
    match fe.w_proc with
    | none => some n
    | some f =>
      let mem1 : Mem :=
        { mem with files := Function.update mem.files p (mark_write k res fe) }
      match runActs k mem1 n (bodies f p mem1) with
      | some r => some r.2
      | none => none
  else
    some n

/-- The count of arming add calls after the loop of `event_uring_wait` run on
the answers `cq` from the memory `mem`, when it was `n` before: every
completion taken through the dispatch step adds the arming add calls of the
callbacks invoked for it. `none` when a callback does not return. -/
def loop_armings (k : EventFlags) (bodies : Bodies) : List Reply → Mem → Nat → Option Nat
  | [], _, n => some n
  | r :: rest, mem, n =>
    if r.dispatched = true then
      match read_armings k bodies r.cqe.res r.cqe.user_data mem n with
      | none => none
      | some n1 =>
        match write_armings k bodies r.cqe.res r.cqe.user_data
            (dispatch_read k (procsOf k bodies) r.cqe.res r.cqe.user_data mem).1 n1 with
        | none => none
        | some n2 =>
          loop_armings k bodies rest (dispatch k (procsOf k bodies) r.cqe mem).1 n2
    else
      some n

/-- The number of `add_read` / `add_write` calls that armed an idle interest
since the last flush, after the call `op` made on `mem`, when it was `n`
before: an add call that finds its interest idle counts, whether the caller
or a callback makes it, and the flush of `event_uring_wait` (made when
`appending` is positive) starts the count anew. `none` when a callback does
not return. -/
def Op.armings (k : EventFlags) (bodies : Bodies) (mem : Mem) (n : Nat) : Op → Option Nat
  | Op.add_read p => some (if (mem.files p).mask &&& EVENT_READ k = 0 then n + 1 else n)
  | Op.add_write p => some (if (mem.files p).mask &&& EVENT_WRITE k = 0 then n + 1 else n)
  | Op.del_read _ => some n
  | Op.del_write _ => some n
  | Op.wait cq _ =>
    loop_armings k bodies cq { mem with ep := wait_flush mem.ep }
      (if mem.ep.appending > 0 then 0 else n)

/-- Performs a sequence of calls from the memory `mem`, where `n` add calls
have armed an idle interest since the last flush, the callbacks having the
bodies `bodies`; yields the memory reached and that number at the end, `none`
when a call does not return. -/
def runOps (k : EventFlags) (bodies : Bodies) : Mem → Nat → List Op → Option (Mem × Nat)
  | mem, n, [] => some (mem, n)
  | mem, n, op :: ops =>
    match op.run k (procsOf k bodies) mem, op.armings k bodies mem n with
    | some mem1, some n1 => runOps k bodies mem1 n1 ops
    | _, _ => none

/-! ## Concrete runs -/

/-- A file event with descriptor `fd` and mask `mask`, both callback slots
set. -/
def mkEvent (fd : Int) (mask : Nat) : FILE_EVENT :=
  { fd := fd, mask := mask, r_proc := some 100, w_proc := some 200,
    rbuf := 0, rsize := 0, wbuf := 0, wsize := 0, rlen := 0, wlen := 0,
    iocp_sock := 0, addr_len := 0 }

/-- An empty ring with room for `n` entries. -/
def emptyRing (n : Nat) : io_uring :=
  { sq_entries := n, sq := [], inflight := [], submits := 0 }

/-- Callbacks that leave the memory as it is. -/
def idleProcs : Procs := fun _ _ mem => mem

/-- A successful answer carrying a completion for the file event at `p`. -/
def completion (p : Nat) (res : Int) : Reply :=
  { ret := 0, cqe := { res := res, user_data := p } }

/-- The memory with an empty ring of 8 entries in which the file event at
every address `p` has descriptor `p`, mask `mask` and both callback slots
set. -/
def memWith (mask : Nat) : Mem :=
  { ep := { ring := emptyRing 8, appending := 0 },
    files := fun p => mkEvent (p : Int) mask }

/-- The memory reached from an idle descriptor 7 by `event_uring_add_read`,
`event_uring_add_write` and then `event_uring_del_read`: the read operation is
in flight, READ is cleared, WRITE is armed. -/
def staleReadMem : Option Mem :=
  match event_uring_add_read flags0 { ring := emptyRing 8, appending := 0 } 7
      (mkEvent 7 0) with
  | none => none
  | some (ep1, fe1, _) =>
    match event_uring_add_write flags0 ep1 7 fe1 with
    | none => none
    | some (ep2, fe2, _) =>
      some { ep := (event_uring_del_read flags0 ep2 fe2).1,
             files := fun _ => (event_uring_del_read flags0 ep2 fe2).2.1 }

/-- A backend whose submission list is full: one entry, room for one. -/
def fullBackend : EVENT_URING :=
  { ring := { sq_entries := 1, sq := [read_sqe flags0 9 (mkEvent 9 1)],
              inflight := [], submits := 0 },
    appending := 1 }


/-- A backend whose submission list of two entries is full. -/
def fullBackend2 : EVENT_URING :=
  { ring := { sq_entries := 2,
              sq := [read_sqe flags0 8 (mkEvent 8 1), write_sqe flags0 9 (mkEvent 9 2)],
              inflight := [], submits := 0 },
    appending := 2 }

/-- Callbacks of which the one entered for the file event at address 5 calls
`event_uring_del_read` on the file event at address 6; the others leave the
memory as it is. -/
def disarmProcs : Procs := fun _ q mem =>
  if q = 5 then
    { ep := (event_uring_del_read flags0 mem.ep (mem.files 6)).1,
      files := Function.update mem.files 6
        (event_uring_del_read flags0 mem.ep (mem.files 6)).2.1 }
  else
    mem

/-- The memory with an empty ring of 8 entries in which descriptor 5 is armed
for READ and every other file event is idle, both callback slots set: the
state `event_uring_add_read` on 5 and 7 and then `event_uring_del_read` on 7
leave in the file events. -/
def mixedMem : Mem :=
  { ep := { ring := emptyRing 8, appending := 0 },
    files := fun p => if p = 5 then mkEvent 5 1 else mkEvent (p : Int) 0 }

/-- Bodies in which `r_proc` (the procedure at address 100) arms READ again
on its file event by `event_uring_add_read`, and `w_proc` does nothing. -/
def rearmBodies : Bodies := fun f p _ => if f = 100 then [Act.add_read p] else []

/-! ## Notions used in the statements -/

/-- Callbacks that neither arm nor disarm: they leave the mask and the two
callback slots of every file event as they find them. -/
def KeepsArming (procs : Procs) : Prop :=
  ∀ f q mem p, ((procs f q mem).files p).mask = (mem.files p).mask ∧
    ((procs f q mem).files p).r_proc = (mem.files p).r_proc ∧
    ((procs f q mem).files p).w_proc = (mem.files p).w_proc

/-- Callbacks that do not re-arm: an interest that is armed (bit set,
callback set) when a callback returns was armed when it was entered. -/
def NoRearm (k : EventFlags) (procs : Procs) : Prop :=
  ∀ f q mem p,
    (armedRead k ((procs f q mem).files p) = true → armedRead k (mem.files p) = true) ∧
    (armedWrite k ((procs f q mem).files p) = true → armedWrite k (mem.files p) = true)

/-- Callbacks that do not disarm: an interest that is armed (bit set, callback
set) when a callback is entered is armed, with the same callback in its slot,
when the callback returns. -/
def NoDisarm (k : EventFlags) (procs : Procs) : Prop :=
  ∀ f q mem p,
    (armedRead k (mem.files p) = true →
      armedRead k ((procs f q mem).files p) = true ∧
      ((procs f q mem).files p).r_proc = (mem.files p).r_proc) ∧
    (armedWrite k (mem.files p) = true →
      armedWrite k ((procs f q mem).files p) = true ∧
      ((procs f q mem).files p).w_proc = (mem.files p).w_proc)

/-- The `r_proc` invocation the read half owes a completion `cqe` when it
finds the file event `fe`: none unless READ is armed, and then one, entered
with READ cleared and the result stored. -/
def readCall (k : EventFlags) (cqe : io_uring_cqe) (fe : FILE_EVENT) : List Call :=
  if fe.mask &&& EVENT_READ k ≠ 0 then
    match fe.r_proc with
    | none => []
    | some f => [{ kind := Interest.read, proc := f, fe := cqe.user_data,
                   seen := mark_read k cqe.res fe }]
  else []

/-- The `w_proc` invocation the write half owes a completion `cqe` when it
finds the file event `fe`. -/
def writeCall (k : EventFlags) (cqe : io_uring_cqe) (fe : FILE_EVENT) : List Call :=
  if fe.mask &&& EVENT_WRITE k ≠ 0 then
    match fe.w_proc with
    | none => []
    | some f => [{ kind := Interest.write, proc := f, fe := cqe.user_data,
                   seen := mark_write k cqe.res fe }]
  else []

/-- The number of invocations of the callback of interest `i` of the file
event at `p` among the passes `items`. -/
def callsFor (i : Interest) (p : Nat) (items : List Item) : Nat :=
  (callsOf items).countP (fun c => decide (c.kind = i ∧ c.fe = p))

/-- The callback owed to the completion `r` whose file event has one armed
interest in `files`: the file event, the interest and the content of its
callback slot. -/
def owedCallback (k : EventFlags) (files : Nat → FILE_EVENT) (r : Reply) :
    Nat × Interest × Option Nat :=
  if armedRead k (files r.cqe.user_data) = true then
    (r.cqe.user_data, Interest.read, (files r.cqe.user_data).r_proc)
  else
    (r.cqe.user_data, Interest.write, (files r.cqe.user_data).w_proc)

/-- Calls `event_uring_wait` again and again, each call on the memory and
the answers the call before left, until no answer is left, at most `n` times.
Yields the return values, the passes through the dispatch step of all calls in
order, the memory and the answers left. -/
def wait_all (k : EventFlags) (procs : Procs) (timeout : Int) :
    Nat → Mem → List Reply → List (Option Int) × List Item × Mem × List Reply
  | 0, mem, cq => ([], [], mem, cq)
  | _ + 1, mem, [] => ([], [], mem, [])
  | n + 1, mem, r :: rest =>
    ((event_uring_wait k procs mem (r :: rest) timeout).ret ::
        (wait_all k procs timeout n
          (event_uring_wait k procs mem (r :: rest) timeout).mem
          (event_uring_wait k procs mem (r :: rest) timeout).cq).1,
      (event_uring_wait k procs mem (r :: rest) timeout).items ++
        (wait_all k procs timeout n
          (event_uring_wait k procs mem (r :: rest) timeout).mem
          (event_uring_wait k procs mem (r :: rest) timeout).cq).2.1,
      (wait_all k procs timeout n
        (event_uring_wait k procs mem (r :: rest) timeout).mem
        (event_uring_wait k procs mem (r :: rest) timeout).cq).2.2)

/-! ## Creation of the backend -/

/-- The function `event_io_uring_create`, up to the function table: `init_ret`
is the value `io_uring_queue_init_params` returns and `sq_entries` the
capacity of the ring it sets up. The result is `none` when `msg_fatal` ends
the program, otherwise the size handed to `io_uring_queue_init_params` and the
new backend. -/
def event_io_uring_create (size : Int) (init_ret : Int) (sq_entries : Nat) :
    Option (Int × EVENT_URING) :=
  let size1 := if size ≤ 0 ∨ size ≥ 4096 then 2048 else size
  if init_ret < 0 then
    none
  else
    some (size1, { ring := { sq_entries := sq_entries, sq := [], inflight := [],
                             submits := 0 },
                   appending := 0 })

end EventIoUring

/-!
# The RESP object of `pkv`: `redis_object.cpp`

A `redis_object` is a node of a tree: the finished children `objs_`, the child
being parsed `obj_`, the text `buf_`. All nodes of a tree share one cache of
spare objects and one bound `cache_max_` (the constructor copies both), so the
cache is threaded through the operations as a list, in the order of the
vector, and the bound is a parameter. An object is a value: every object is
owned by one place (a parent's `objs_`, a parent's `obj_`, or the cache), and
`parent_` is kept as the flag "points to the object itself".

Bytes are `Char`, strings are `List Char`. `long` has 64 bits, `int` 32 bits,
`size_t` 64 bits.
-/

namespace RedisObject

/-! ## Data model -/

/-- The states of the parser, in the order of `status_tab`, followed by the
two final states. -/
inductive redis_status where
  | redis_s_begin
  | redis_s_status
  | redis_s_error
  | redis_s_number
  | redis_s_strlen
  | redis_s_string
  | redis_s_strend
  | redis_s_arlen
  | redis_s_array
  | redis_s_null
  | redis_s_finish
  deriving DecidableEq, Repr

/-- The types of an object that `redis_object.cpp` uses. -/
inductive redis_obj_t where
  | REDIS_OBJ_UNKOWN
  | REDIS_OBJ_STATUS
  | REDIS_OBJ_ERROR
  | REDIS_OBJ_INTEGER
  | REDIS_OBJ_STRING
  | REDIS_OBJ_ARRAY
  deriving DecidableEq, Repr

open redis_status redis_obj_t

/-- The members of `redis_object`: `parent_this` is true when `parent_` points
to the object itself; `cnt_` is an `int`. -/
inductive redis_object where
  | mk (status_ : redis_status) (type_ : redis_obj_t) (parent_this : Bool)
      (obj_ : Option redis_object) (cnt_ : Int) (objs_ : List redis_object)
      (buf_ : List Char)
  deriving Repr

namespace redis_object

def status_ : redis_object → redis_status
  | mk s _ _ _ _ _ _ => s

def type_ : redis_object → redis_obj_t
  | mk _ t _ _ _ _ _ => t

def parent_this : redis_object → Bool
  | mk _ _ p _ _ _ _ => p

def obj_ : redis_object → Option redis_object
  | mk _ _ _ c _ _ _ => c

def cnt_ : redis_object → Int
  | mk _ _ _ _ n _ _ => n

def objs_ : redis_object → List redis_object
  | mk _ _ _ _ _ l _ => l

def buf_ : redis_object → List Char
  | mk _ _ _ _ _ _ b => b

@[simp]
def with_status (o : redis_object) (s : redis_status) : redis_object :=
  mk s o.type_ o.parent_this o.obj_ o.cnt_ o.objs_ o.buf_

@[simp]
def with_type (o : redis_object) (t : redis_obj_t) : redis_object :=
  mk o.status_ t o.parent_this o.obj_ o.cnt_ o.objs_ o.buf_

@[simp]
def with_obj (o : redis_object) (c : Option redis_object) : redis_object :=
  mk o.status_ o.type_ o.parent_this c o.cnt_ o.objs_ o.buf_

@[simp]
def with_cnt (o : redis_object) (n : Int) : redis_object :=
  mk o.status_ o.type_ o.parent_this o.obj_ n o.objs_ o.buf_

@[simp]
def with_objs (o : redis_object) (l : List redis_object) : redis_object :=
  mk o.status_ o.type_ o.parent_this o.obj_ o.cnt_ l o.buf_

@[simp]
def with_buf (o : redis_object) (b : List Char) : redis_object :=
  mk o.status_ o.type_ o.parent_this o.obj_ o.cnt_ o.objs_ b

end redis_object

/-- Modelled from the spec: the constructor of `redis_object.cpp` sets
`parent_`, `cache_max_` and `cache_`; the initial values of the other members
are in `redis_object.h`, which is not among the sources. They are taken to be
the values `reset` restores: state begin, type unknown, no current child,
count 0, no children, empty buffer. -/
def redis_object_new : redis_object :=
  redis_object.mk redis_s_begin REDIS_OBJ_UNKOWN true none 0 [] []

/-- Modelled from the spec: `failed()` is declared in `redis_object.h`, which
is not among the sources; it is taken as the test `status_ == redis_s_null`
with which `update` leaves its loop. -/
def failed (o : redis_object) : Bool := o.status_ = redis_s_null

/-- Modelled from the spec: `finish()` is declared in `redis_object.h`, which
is not among the sources; it is taken as the test `status_ == redis_s_finish`
with which `update` leaves its loop. -/
def finish (o : redis_object) : Bool := o.status_ = redis_s_finish

/-- Function `set_parent` with a parent that is not null. -/
def set_parent (o : redis_object) : redis_object :=
  redis_object.mk o.status_ o.type_ false o.obj_ o.cnt_ o.objs_ o.buf_

/-- The allocation shared by `parse_object`, `parse_arlen` and `create_child`:
a new object when the cache is empty, else the last object of the cache, which
is removed from it; `set_parent(this)` on the object. -/
def take_child (cache : List redis_object) : List redis_object × redis_object :=
  match cache.getLast? with
  | none => (cache, set_parent redis_object_new)
  | some obj => (cache.dropLast, set_parent obj)

/-! ## `reset` -/

mutual

/-- Function `redis_object::reset`: the children go to the cache or are deleted, then
the members are set back. The cache after the call and the object after it. -/
def reset (cache_max : Nat) :
    List redis_object → redis_object → List redis_object × redis_object
  | cache, redis_object.mk _ _ _ _ _ objs _ =>
    (reset_objs cache_max cache objs, redis_object_new)

/-- The loop of `reset` over `objs_`. A child that is kept is appended to the
cache first and reset afterwards: the slot of the cache and the child are one
object, so the slot holds the child as its own `reset` leaves it. -/
def reset_objs (cache_max : Nat) :
    List redis_object → List redis_object → List redis_object
  | cache, [] => cache
  | cache, obj :: rest =>
    if cache.length < cache_max then
      reset_objs cache_max
        ((reset cache_max (cache ++ [obj]) obj).1.set cache.length
          (reset cache_max (cache ++ [obj]) obj).2) rest
    else
      reset_objs cache_max cache rest

end

mutual

/-- Number of objects below an object, through `objs_`. -/
def descendants : redis_object → Nat
  | redis_object.mk _ _ _ _ _ objs _ => descendants_list objs

def descendants_list : List redis_object → Nat
  | [] => 0
  | obj :: rest => 1 + descendants obj + descendants_list rest

end

/-- The object is in the state `reset` leaves: state begin, type unknown,
empty buffer, no children, no current child, count 0, parent itself. -/
def is_reset (o : redis_object) : Prop :=
  o.status_ = redis_s_begin ∧ o.type_ = REDIS_OBJ_UNKOWN ∧ o.buf_ = [] ∧
  o.objs_ = [] ∧ o.obj_ = none ∧ o.cnt_ = 0 ∧ o.parent_this = true

/-- An object with the given finished children and nothing else set. -/
def node (objs : List redis_object) : redis_object :=
  redis_object.mk redis_s_finish REDIS_OBJ_ARRAY false none objs.length objs []

/-- A finished status line. -/
def leaf (text : List Char) : redis_object :=
  redis_object.mk redis_s_finish REDIS_OBJ_STATUS false none 0 [] text

/-! ## The C library -/

def LONG_MAX : Int := 9223372036854775807

def LONG_MIN : Int := -9223372036854775808

/-- The conversion of a `long` to `int`: the low 32 bits, signed. -/
def to_int (v : Int) : Int := (v + 2147483648) % 4294967296 - 2147483648

/-- The conversion of an `int` to `size_t`. -/
def to_size_t (v : Int) : Nat := (v % 18446744073709551616).toNat

/-- Function `isspace` in the C locale. -/
def isspace (c : Char) : Bool :=
  c = ' ' || c = '\t' || c = '\n' || c = '\x0b' || c = '\x0c' || c = '\r'

def isdigit (c : Char) : Bool := 48 ≤ c.toNat && c.toNat ≤ 57

def digit_val (c : Char) : Nat := c.toNat - 48

/-- Function `strtol(s, &endptr, 10)` on the bytes of a buffer: white space, an
optional sign, decimal digits; the scan stops at the first other byte, the
terminating or an embedded NUL included. The value, limited to the range of
`long`, and the number of bytes `endptr` is past the start (0 when there is no
digit). -/
def strtol (s : List Char) : Int × Nat :=
  let s1 := s.dropWhile isspace
  let sign := if s1.head? = some '-' ∨ s1.head? = some '+' then 1 else 0
  let digits := (s1.drop sign).takeWhile isdigit
  let v : Int := ((digits.foldl (fun a c => 10 * a + digit_val c) 0 : Nat) : Int)
  let r : Int := if s1.head? = some '-' then -v else v
  if digits = [] then (0, 0)
  else
    (if LONG_MAX < r then LONG_MAX else if r < LONG_MIN then LONG_MIN else r,
      (s.takeWhile isspace).length + sign + digits.length)

def digit_char (d : Nat) : Char := Char.ofNat (48 + d)

/-- Decimal digits of `n`, most significant first; the first argument bounds
the number of digits. -/
def to_digits : Nat → Nat → List Char
  | 0, _ => []
  | f + 1, n =>
    if n < 10 then [digit_char n] else to_digits f (n / 10) ++ [digit_char (n % 10)]

/-- Function `std::to_string` of an unsigned value. -/
def to_string_nat (n : Nat) : List Char := to_digits (n + 1) n

/-- Function `std::to_string` of a `long long`. -/
def to_string_int (n : Int) : List Char :=
  if n < 0 then '-' :: to_string_nat n.natAbs else to_string_nat n.natAbs

/-! ## The parser -/

/-- What stops a call: an assertion that fails, an index outside
`status_tab`, or the bound on the steps of the model. -/
inductive Fault where
  | assertion
  | bounds
  | fuel
  deriving DecidableEq, Repr

/-- The cache, the object and the input left after a call. -/
abbrev Res := Except Fault (List redis_object × redis_object × List Char)

/-- Function `get_line`: the input left, the buffer and `found`. -/
def get_line : List Char → List Char → List Char × List Char × Bool
  | [], buf => ([], buf, false)
  | c :: data, buf =>
    if c = '\r' then get_line data buf
    else if c = '\n' then (data, buf, true)
    else get_line data (buf ++ [c])

/-- Function `get_data` with `want` bytes wanted in all: the input left and `buf_`. -/
def get_data (data buf : List Char) (want : Nat) : Except Fault (List Char × List Char) :=
  if ¬ buf.length < want then .error Fault.assertion
  else
    let want1 := want - buf.length
    let want2 := if want1 > data.length then data.length else want1
    .ok (data.drop want2, buf ++ data.take want2)

/-- Function `get_length`, with `cnt_` for `res`: the object, the input left, `found`.
After `buf_.clear()` the byte at `endptr` is the one the buffer held there
(NUL past its end). -/
def get_length (o : redis_object) (data : List Char) :
    Except Fault (redis_object × List Char × Bool) :=
  let r := get_line data o.buf_
  if r.2.2 = false then
    if r.1.length ≠ 0 then .error Fault.assertion
    else .ok (o.with_buf r.2.1, r.1, false)
  else if r.2.1 = [] then
    .ok ((o.with_buf r.2.1).with_status redis_s_null, r.1, true)
  else
    let n := strtol r.2.1
    let o1 := (o.with_cnt (to_int n.1)).with_buf []
    if n.2 = 0 ∨ r.2.1.getD n.2 '\x00' ≠ '\x00' then
      .ok (o1.with_status redis_s_null, r.1, true)
    else .ok (o1, r.1, true)

def parse_begin (cache : List redis_object) (o : redis_object) : List Char → Res
  | [] => .ok (cache, o, [])
  | c :: data =>
    .ok (cache,
      o.with_status
        (if c = ':' then redis_s_number
         else if c = '+' then redis_s_status
         else if c = '-' then redis_s_error
         else if c = '$' then redis_s_strlen
         else if c = '*' then redis_s_arlen
         else redis_s_null),
      data)

/-- The body shared by `parse_status`, `parse_error` and `parse_number`, which
differ in the type they set. -/
def parse_line (t : redis_obj_t) (cache : List redis_object) (o : redis_object)
    (data : List Char) : Res :=
  let r := get_line data o.buf_
  if r.2.2 = false then
    if r.1.length ≠ 0 then .error Fault.assertion
    else .ok (cache, o.with_buf r.2.1, r.1)
  else if r.2.1 = [] then
    .ok (cache, (o.with_buf r.2.1).with_status redis_s_null, r.1)
  else
    .ok (cache, ((o.with_buf r.2.1).with_type t).with_status redis_s_finish, r.1)

def parse_status : List redis_object → redis_object → List Char → Res :=
  parse_line REDIS_OBJ_STATUS

def parse_error : List redis_object → redis_object → List Char → Res :=
  parse_line REDIS_OBJ_ERROR

def parse_number : List redis_object → redis_object → List Char → Res :=
  parse_line REDIS_OBJ_INTEGER

def parse_strlen (cache : List redis_object) (o : redis_object) (data : List Char) : Res :=
  match get_length (o.with_cnt 0) data with
  | .error e => .error e
  | .ok (o1, data1, found) =>
    if o1.status_ = redis_s_null ∨ found = false then .ok (cache, o1, data1)
    else if o1.cnt_ ≤ 0 then .ok (cache, o1.with_status redis_s_finish, data1)
    else .ok (cache, (o1.with_type REDIS_OBJ_STRING).with_status redis_s_string, data1)

def parse_string (cache : List redis_object) (o : redis_object) (data : List Char) : Res :=
  match get_data data o.buf_ (to_size_t o.cnt_) with
  | .error e => .error e
  | .ok (data1, buf1) =>
    if buf1.length = to_size_t o.cnt_ then
      .ok (cache, (o.with_buf buf1).with_status redis_s_strend, data1)
    else .ok (cache, o.with_buf buf1, data1)

def parse_strend (cache : List redis_object) (o : redis_object) (data : List Char) : Res :=
  let r := get_line data []
  if r.2.1 ≠ [] then .ok (cache, o.with_status redis_s_null, r.1)
  else if r.2.2 = false then
    if r.1.length ≠ 0 then .error Fault.assertion
    else .ok (cache, o, r.1)
  else .ok (cache, o.with_status redis_s_finish, r.1)

def parse_arlen (cache : List redis_object) (o : redis_object) (data : List Char) : Res :=
  match get_length (o.with_cnt 0) data with
  | .error e => .error e
  | .ok (o1, data1, found) =>
    if o1.status_ = redis_s_null ∨ found = false then .ok (cache, o1, data1)
    else if o1.cnt_ ≤ 0 then .ok (cache, o1.with_status redis_s_finish, data1)
    else
      .ok ((take_child cache).1,
        ((o1.with_type REDIS_OBJ_ARRAY).with_status redis_s_array).with_obj
          (some (take_child cache).2),
        data1)

/-- Function `parse_array`, given `parse_object`. -/
def parse_array (parse_object : List redis_object → redis_object → List Char → Res)
    (cache : List redis_object) (o : redis_object) (data : List Char) : Res :=
  if o.obj_.isNone then .error Fault.assertion
  else parse_object cache o data

/-- The call `(this->*(status_tab[status_].func))(data, len)`, given
`parse_object`; the table has no entry for the two final states. -/
def status_tab (parse_object : List redis_object → redis_object → List Char → Res)
    (cache : List redis_object) (o : redis_object) (data : List Char) : Res :=
  match o.status_ with
  | redis_s_begin => parse_begin cache o data
  | redis_s_status => parse_status cache o data
  | redis_s_error => parse_error cache o data
  | redis_s_number => parse_number cache o data
  | redis_s_strlen => parse_strlen cache o data
  | redis_s_string => parse_string cache o data
  | redis_s_strend => parse_strend cache o data
  | redis_s_arlen => parse_arlen cache o data
  | redis_s_array => parse_array parse_object cache o data
  | redis_s_null => .error Fault.bounds
  | redis_s_finish => .error Fault.bounds

/-- The end of `parse_object`, after `obj_->update` has returned `child`: the
cache and the object. -/
def parse_object_done (cache : List redis_object) (o child : redis_object) :
    List redis_object × redis_object :=
  if failed child then
    (cache, (o.with_obj (some child)).with_status redis_s_null)
  else if ¬ finish child then (cache, o.with_obj (some child))
  else if (o.objs_ ++ [child]).length = to_size_t o.cnt_ then
    (cache, ((o.with_objs (o.objs_ ++ [child])).with_obj none).with_status redis_s_finish)
  else
    ((take_child cache).1,
      (o.with_objs (o.objs_ ++ [child])).with_obj (some (take_child cache).2))

mutual

/-- Function `redis_object::update`; the first argument bounds the depth of the calls
and the turns of the loops. -/
def update : Nat → List redis_object → redis_object → List Char → Res
  | 0, _, _, _ => .error Fault.fuel
  | n + 1, cache, o, data =>
    if failed o ∨ finish o then .ok (cache, o, data)
    else if o.obj_.isSome then parse_object n cache o data
    else update_loop n cache o data

/-- Function `redis_object::parse_object`. -/
def parse_object : Nat → List redis_object → redis_object → List Char → Res
  | 0, _, _, _ => .error Fault.fuel
  | n + 1, cache, o, data =>
    if ¬ 0 < o.cnt_ then .error Fault.assertion
    else
      match o.obj_ with
      | none => .error Fault.assertion
      | some child =>
        match update n cache child data with
        | .error e => .error e
        | .ok (cache1, child1, data1) =>
          .ok ((parse_object_done cache1 o child1).1, (parse_object_done cache1 o child1).2,
            data1)

/-- The loop `while (len > 0)` of `update`. -/
def update_loop : Nat → List redis_object → redis_object → List Char → Res
  | 0, _, _, _ => .error Fault.fuel
  | n + 1, cache, o, data =>
    if data.length = 0 then .ok (cache, o, data)
    else
      match status_tab (parse_object n) cache o data with
      | .error e => .error e
      | .ok (cache1, o1, data1) =>
        if o1.status_ = redis_s_null ∨ o1.status_ = redis_s_finish then
          .ok (cache1, o1, data1)
        else update_loop n cache1 o1 data1

end

/-- The caller's loop of the claims: `update` is called again until the input
is exhausted or the object is finished or failed. -/
def feed : Nat → List redis_object → redis_object → List Char → Res
  | 0, _, _, _ => .error Fault.fuel
  | n + 1, cache, o, data =>
    if data.length = 0 ∨ failed o ∨ finish o then .ok (cache, o, data)
    else
      match update n cache o data with
      | .error e => .error e
      | .ok (cache1, o1, data1) => feed n cache1 o1 data1

/-! ## The parser byte by byte

The state an object and the cache are in after one more byte, as the code
computes it on an input of that one byte; `run` does so for a sequence of
bytes. An object that is finished or failed is left as it is. -/

/-- The table on a single byte, for an object that has no current child. -/
def step_flat (cache : List redis_object) (o : redis_object) (c : Char) :
    List redis_object × redis_object :=
  match status_tab (fun _ _ _ => .error Fault.assertion) cache o [c] with
  | .ok r => (r.1, r.2.1)
  | .error _ => (cache, o)

/-- One byte: an array passes it to its current child and then does the end of
`parse_object`; any other object takes it through the table. -/
def step1 : List redis_object → redis_object → Char → List redis_object × redis_object
  | cache, redis_object.mk st ty pa (some child) cnt objs buf, c =>
    if st = redis_s_array then
      parse_object_done (step1 cache child c).1
        (redis_object.mk st ty pa (some child) cnt objs buf) (step1 cache child c).2
    else (cache, redis_object.mk st ty pa (some child) cnt objs buf)
  | cache, redis_object.mk st ty pa none cnt objs buf, c =>
    step_flat cache (redis_object.mk st ty pa none cnt objs buf) c

/-- The bytes of `data` one after the other. -/
def run (s : List redis_object × redis_object) (data : List Char) :
    List redis_object × redis_object :=
  data.foldl (fun s c => step1 s.1 s.2 c) s

/-- Finished or failed. -/
def done (o : redis_object) : Bool := failed o || finish o

/-- Number of objects on the chain of current children below an object. -/
def depth : redis_object → Nat
  | redis_object.mk _ _ _ (some child) _ _ _ => depth child + 1
  | redis_object.mk _ _ _ none _ _ _ => 0

/-- What holds of an object the parser has reached: in the state array there
is a current child, itself as the parser leaves it and neither finished nor
failed, and the count is positive; in the other states that are not final
there is no current child; in the state string the buffer holds fewer bytes
than the count; in the states begin, strlen and arlen the count is 0. -/
def node_ok : redis_object → Bool
  | redis_object.mk st _ _ (some child) cnt _ _ =>
    match st with
    | redis_s_array => node_ok child && !(done child) && decide (0 < cnt)
    | redis_s_null => true
    | redis_s_finish => true
    | _ => false
  | redis_object.mk st _ _ none cnt _ buf =>
    match st with
    | redis_s_array => false
    | redis_s_string => decide (buf.length < to_size_t cnt)
    | redis_s_begin => decide (cnt = 0)
    | redis_s_strlen => decide (cnt = 0)
    | redis_s_arlen => decide (cnt = 0)
    | _ => true

/-- Every object of the cache is as the constructor or `reset` leaves it. -/
def all_fresh (cache : List redis_object) : Prop :=
  ∀ x ∈ cache, x = redis_object_new

/-- No proper prefix of `pre` takes the object to a final state. -/
def minimal (s : List redis_object × redis_object) (pre : List Char) : Prop :=
  ∀ p q, pre = p ++ q → q ≠ [] → done (run s p).2 = false

/-- A call on `data` that leaves `rest` and the state `s1` has taken the bytes
`pre0` through the parser one by one, none but the last of them reaching a
final state, and has skipped the bytes `pre1`, which it does only when the
object has failed; it has taken at least one byte if there was one. -/
def consumes (s : List redis_object × redis_object) (data : List Char)
    (s1 : List redis_object × redis_object) (rest : List Char) : Prop :=
  ∃ pre0 pre1, data = pre0 ++ (pre1 ++ rest) ∧ s1 = run s pre0 ∧ minimal s pre0 ∧
    (pre1 ≠ [] → failed s1.2 = true) ∧ (data ≠ [] → pre0 ≠ [])

/-- An object without current child that the table can be called on. -/
def flat (o : redis_object) : Prop :=
  o.obj_ = none ∧ node_ok o = true ∧ done o = false

/-- What holds of one table call `r` on `c :: rest`, `s1` being the state
after `c` and `r1` the same call on what follows `c`: either the state of the
parser is the same after `c` and the call goes on as `r1`, or the call ends
there, skipping input only when the object has failed. -/
def splits (r : Res) (r1 : Res) (o : redis_object)
    (s1 : List redis_object × redis_object) (rest : List Char) : Prop :=
  (s1.2.status_ = o.status_ ∧ r = r1) ∨
  (s1.2.status_ ≠ o.status_ ∧ ∃ pre1 rest1, rest = pre1 ++ rest1 ∧
    r = .ok (s1.1, s1.2, rest1) ∧ (pre1 ≠ [] → failed s1.2 = true))

/-- The table on `c :: rest` against the table on `c` alone. -/
def flat_step_ok (po : List redis_object → redis_object → List Char → Res)
    (cache : List redis_object) (o : redis_object) (c : Char) (rest : List Char) : Prop :=
  node_ok (step_flat cache o c).2 = true ∧ all_fresh (step_flat cache o c).1 ∧
  splits (status_tab po cache o (c :: rest))
    (status_tab po (step_flat cache o c).1 (step_flat cache o c).2 rest) o
    (step_flat cache o c) rest

/-- With enough steps allowed the call `f` on `data` returns, never stopped by
an assertion, having consumed input as `consumes` says and leaving an object
and a cache as the parser leaves them. -/
def call_ok (f : Nat → List redis_object → redis_object → List Char → Res)
    (cache : List redis_object) (o : redis_object) (data : List Char) : Prop :=
  ∃ N s1 rest, (∀ n, N ≤ n → f n cache o data = .ok (s1.1, s1.2, rest)) ∧
    consumes (cache, o) data s1 rest ∧ node_ok s1.2 = true ∧ all_fresh s1.1

/-- As `call_ok`, for a call that goes on until the input is exhausted or the
object is finished or failed. -/
def call_ends (f : Nat → List redis_object → redis_object → List Char → Res)
    (cache : List redis_object) (o : redis_object) (data : List Char) : Prop :=
  ∃ N s1 rest, (∀ n, N ≤ n → f n cache o data = .ok (s1.1, s1.2, rest)) ∧
    consumes (cache, o) data s1 rest ∧ node_ok s1.2 = true ∧ all_fresh s1.1 ∧
    (rest ≠ [] → done s1.2 = true)

/-- As `consumes`, without the claim that a byte was taken. -/
def took (s : List redis_object × redis_object) (data : List Char)
    (s1 : List redis_object × redis_object) (rest : List Char) : Prop :=
  ∃ pre0 pre1, data = pre0 ++ (pre1 ++ rest) ∧ s1 = run s pre0 ∧ minimal s pre0 ∧
    (pre1 ≠ [] → failed s1.2 = true)

/-- With enough steps allowed the caller's loop on `data` returns, never
stopped by an assertion, with input left only when the object is finished or
failed. -/
def feed_ok (cache : List redis_object) (o : redis_object) (data : List Char)
    (s1 : List redis_object × redis_object) (rest : List Char) : Prop :=
  (∃ N, ∀ n, N ≤ n → feed n cache o data = .ok (s1.1, s1.2, rest)) ∧
    took (cache, o) data s1 rest ∧ node_ok s1.2 = true ∧ all_fresh s1.1 ∧
    (rest ≠ [] → done s1.2 = true)

/-! ## Building and printing -/

/-- Function `set_status`: the object after the call. -/
def set_status (o : redis_object) (data : List Char) : redis_object :=
  (o.with_type REDIS_OBJ_STATUS).with_buf data

/-- Function `set_error`: the object after the call. -/
def set_error (o : redis_object) (data : List Char) : redis_object :=
  (o.with_type REDIS_OBJ_ERROR).with_buf data

/-- Function `set_number`: the object after the call. -/
def set_number (o : redis_object) (n : Int) : redis_object :=
  (o.with_type REDIS_OBJ_INTEGER).with_buf (to_string_int n)

/-- Function `set_string`: the object after the call; an empty `data` leaves `buf_`. -/
def set_string (o : redis_object) (data : List Char) : redis_object :=
  if data.isEmpty then o.with_type REDIS_OBJ_STRING
  else (o.with_type REDIS_OBJ_STRING).with_buf data

/-- Function `create_child`: the cache and the object after the call; the child
returned is the last of `objs_`. -/
def create_child (cache : List redis_object) (o : redis_object) :
    List redis_object × redis_object :=
  ((take_child cache).1,
    ((if o.obj_.isNone then o.with_type REDIS_OBJ_ARRAY else o).with_objs
      (o.objs_ ++ [(take_child cache).2])).with_cnt
      (to_int ((o.objs_ ++ [(take_child cache).2]).length % 18446744073709551616)))

/-- What an object is built from: a status line, an error line, a number, a
bulk string, or an array of such. -/
inductive Built where
  | status (text : List Char)
  | error (text : List Char)
  | number (n : Int)
  | string (data : List Char)
  | array (children : List Built)

mutual

/-- The calls that build `b` in the object `o`: one of the setters, or for an
array `create_child` and the building of the child it returns, child after
child. -/
def build : List redis_object → Built → redis_object → List redis_object × redis_object
  | cache, Built.status text, o => (cache, set_status o text)
  | cache, Built.error text, o => (cache, set_error o text)
  | cache, Built.number n, o => (cache, set_number o n)
  | cache, Built.string data, o => (cache, set_string o data)
  | cache, Built.array children, o => build_children cache children o

def build_children :
    List redis_object → List Built → redis_object → List redis_object × redis_object
  | cache, [], o => (cache, o)
  | cache, b :: bs, o =>
    build_children
      (build (create_child cache o).1 b
        ((create_child cache o).2.objs_.getLastD redis_object_new)).1
      bs
      ((create_child cache o).2.with_objs
        ((create_child cache o).2.objs_.dropLast ++
          [(build (create_child cache o).1 b
            ((create_child cache o).2.objs_.getLastD redis_object_new)).2]))

end

/-- The `switch (type_)` of `to_string`, with `CRLF` being `"\n"`: what is
appended for the object itself. -/
def to_string_self (ty : redis_obj_t) (buf : List Char) : List Char :=
  match ty with
  | REDIS_OBJ_STATUS => '+' :: buf ++ ['\n']
  | REDIS_OBJ_ERROR => '-' :: buf ++ ['\n']
  | REDIS_OBJ_INTEGER => ':' :: buf ++ ['\n']
  | REDIS_OBJ_STRING => '$' :: to_string_nat buf.length ++ '\n' :: buf ++ ['\n']
  | _ => []

mutual

/-- Function `to_string`: the output and the value returned. -/
def to_string : redis_object → List Char → List Char × Bool
  | redis_object.mk _ ty _ _ _ objs buf, out =>
    if (to_string_objs objs
        (if objs.isEmpty then out else out ++ '*' :: to_string_nat objs.length ++ ['\n'])).2
        = false then
      ((to_string_objs objs
        (if objs.isEmpty then out else out ++ '*' :: to_string_nat objs.length ++ ['\n'])).1,
        false)
    else
      ((to_string_objs objs
        (if objs.isEmpty then out else out ++ '*' :: to_string_nat objs.length ++ ['\n'])).1
          ++ to_string_self ty buf,
        true)

/-- The loop of `to_string` over `objs_`. -/
def to_string_objs : List redis_object → List Char → List Char × Bool
  | [], out => (out, true)
  | obj :: rest, out =>
    if (to_string obj out).2 = false then ((to_string obj out).1, false)
    else to_string_objs rest (to_string obj out).1

end

mutual

/-- The type, the text and the children of an object, in an object whose other
members are those of a new one. -/
def content : redis_object → redis_object
  | redis_object.mk _ ty _ _ _ objs buf =>
    redis_object.mk redis_s_begin ty true none 0 (content_list objs) buf

def content_list : List redis_object → List redis_object
  | [] => []
  | obj :: rest => content obj :: content_list rest

end

mutual

/-- The text that printing gives for `b`. -/
def encode : Built → List Char
  | Built.status text => '+' :: text ++ ['\n']
  | Built.error text => '-' :: text ++ ['\n']
  | Built.number n => ':' :: to_string_int n ++ ['\n']
  | Built.string data => '$' :: to_string_nat data.length ++ '\n' :: data ++ ['\n']
  | Built.array children =>
    '*' :: to_string_nat children.length ++ '\n' :: encode_list children

def encode_list : List Built → List Char
  | [] => []
  | b :: bs => encode b ++ encode_list bs

end

mutual

/-- The object the parser ends with on the text of `b`; `pa` is its parent
flag. -/
def parsed (pa : Bool) : Built → redis_object
  | Built.status text => redis_object.mk redis_s_finish REDIS_OBJ_STATUS pa none 0 [] text
  | Built.error text => redis_object.mk redis_s_finish REDIS_OBJ_ERROR pa none 0 [] text
  | Built.number n =>
    redis_object.mk redis_s_finish REDIS_OBJ_INTEGER pa none 0 [] (to_string_int n)
  | Built.string data =>
    redis_object.mk redis_s_finish REDIS_OBJ_STRING pa none data.length [] data
  | Built.array children =>
    redis_object.mk redis_s_finish REDIS_OBJ_ARRAY pa none children.length
      (parsed_list children) []

def parsed_list : List Built → List redis_object
  | [] => []
  | b :: bs => parsed false b :: parsed_list bs

end

mutual

/-- The objects the round trip is about: status and error lines with a text
that is not empty and has no CR or LF, numbers, bulk strings that are not
empty and shorter than 2^31 bytes, arrays that are not empty, of fewer than
2^31 such objects. -/
def well_built : Built → Bool
  | Built.status text => !text.isEmpty && !(text.contains '\r') && !(text.contains '\n')
  | Built.error text => !text.isEmpty && !(text.contains '\r') && !(text.contains '\n')
  | Built.number _ => true
  | Built.string data => !data.isEmpty && decide (data.length < 2147483648)
  | Built.array children =>
    !children.isEmpty && decide (children.length < 2147483648) && well_built_list children

def well_built_list : List Built → Bool
  | [] => true
  | b :: bs => well_built b && well_built_list bs

end

/-- A state in which bytes other than CR and LF are added to `buf_`. -/
def gathers (st : redis_status) (cnt : Int) : Prop :=
  st = redis_s_status ∨ st = redis_s_error ∨ st = redis_s_number ∨
    ((st = redis_s_strlen ∨ st = redis_s_arlen) ∧ cnt = 0)

/-- The type a finished line has. -/
def line_type : redis_status → redis_obj_t
  | redis_s_status => REDIS_OBJ_STATUS
  | redis_s_error => REDIS_OBJ_ERROR
  | _ => REDIS_OBJ_INTEGER

/-! ## Sequences of calls, and the pointer with its length -/

/-- A sequence of calls of `update`, one on each of the inputs `ds` in turn,
whatever a call leaves of its input: the cache and the object after the last
call. -/
def updates : Nat → List redis_object → redis_object → List (List Char) →
    Except Fault (List redis_object × redis_object)
  | _, cache, o, [] => .ok (cache, o)
  | n, cache, o, d :: ds =>
    match update n cache o d with
    | .error e => .error e
    | .ok (cache1, o1, _) => updates n cache1 o1 ds

/-- The object `o` and the cache `cache` are reached by parsing: by calls of
`update` on some inputs, from a fresh object and a cache of reset objects. -/
def reached (cache : List redis_object) (o : redis_object) : Prop :=
  ∃ cache0 n ds, all_fresh cache0 ∧ updates n cache0 redis_object_new ds = .ok (cache, o)

/-- The `len` bytes of the memory `mem` at the address `data`. -/
def bytes_at (mem : Nat → Char) (data len : Nat) : List Char :=
  (List.range len).map (fun i => mem (data + i))

/-- Function `get_line` with the pointer `data` and the length `len` kept
apart, as the source has them: the pointer and the length after the call, the
buffer and `found`. -/
def get_line_ptr (mem : Nat → Char) : Nat → Nat → List Char → Nat × Nat × List Char × Bool
  | data, 0, buf => (data, 0, buf, false)
  | data, len + 1, buf =>
    if mem data = '\r' then get_line_ptr mem (data + 1) len buf
    else if mem data = '\n' then (data + 1, len, buf, true)
    else get_line_ptr mem (data + 1) len (buf ++ [mem data])

/-- Function `get_data` with the pointer and the length kept apart: the
pointer and the length after the call, and `buf_`. -/
def get_data_ptr (mem : Nat → Char) (data len : Nat) (buf : List Char) (want : Nat) :
    Except Fault (Nat × Nat × List Char) :=
  if ¬ buf.length < want then .error Fault.assertion
  else if want - buf.length > len then
    .ok (data + len, 0, buf ++ bytes_at mem data len)
  else
    .ok (data + (want - buf.length), len - (want - buf.length),
      buf ++ bytes_at mem data (want - buf.length))

/-- Function `parse_begin` with the pointer and the length kept apart: the
object, the pointer and the length after the call. -/
def parse_begin_ptr (mem : Nat → Char) (o : redis_object) (data len : Nat) :
    redis_object × Nat × Nat :=
  if len = 0 then (o, data, len)
  else
    (o.with_status
      (if mem data = ':' then redis_s_number
       else if mem data = '+' then redis_s_status
       else if mem data = '-' then redis_s_error
       else if mem data = '$' then redis_s_strlen
       else if mem data = '*' then redis_s_arlen
       else redis_s_null),
      data + 1, len - 1)

/-! ## The parser with the pointer and the length kept apart

The functions of the parser once more, with `const char* data` an address in
a memory `mem` and `size_t& len` a number, each changed where the source
changes it. -/

/-- The cache, the object, the pointer returned and the length after a call. -/
abbrev ResPtr := Except Fault (List redis_object × redis_object × Nat × Nat)

/-- Function `get_length` with the pointer and the length kept apart: the
object, the pointer, the length and `found`. -/
def get_length_ptr (mem : Nat → Char) (o : redis_object) (data len : Nat) :
    Except Fault (redis_object × Nat × Nat × Bool) :=
  let r := get_line_ptr mem data len o.buf_
  if r.2.2.2 = false then
    if r.2.1 ≠ 0 then .error Fault.assertion
    else .ok (o.with_buf r.2.2.1, r.1, r.2.1, false)
  else if r.2.2.1 = [] then
    .ok ((o.with_buf r.2.2.1).with_status redis_s_null, r.1, r.2.1, true)
  else
    let n := strtol r.2.2.1
    let o1 := (o.with_cnt (to_int n.1)).with_buf []
    if n.2 = 0 ∨ r.2.2.1.getD n.2 '\x00' ≠ '\x00' then
      .ok (o1.with_status redis_s_null, r.1, r.2.1, true)
    else .ok (o1, r.1, r.2.1, true)

/-- The body shared by `parse_status`, `parse_error` and `parse_number`, with
the pointer and the length kept apart. -/
def parse_line_ptr (mem : Nat → Char) (t : redis_obj_t) (cache : List redis_object)
    (o : redis_object) (data len : Nat) : ResPtr :=
  let r := get_line_ptr mem data len o.buf_
  if r.2.2.2 = false then
    if r.2.1 ≠ 0 then .error Fault.assertion
    else .ok (cache, o.with_buf r.2.2.1, r.1, r.2.1)
  else if r.2.2.1 = [] then
    .ok (cache, (o.with_buf r.2.2.1).with_status redis_s_null, r.1, r.2.1)
  else
    .ok (cache, ((o.with_buf r.2.2.1).with_type t).with_status redis_s_finish, r.1, r.2.1)

def parse_strlen_ptr (mem : Nat → Char) (cache : List redis_object) (o : redis_object)
    (data len : Nat) : ResPtr :=
  match get_length_ptr mem (o.with_cnt 0) data len with
  | .error e => .error e
  | .ok (o1, data1, len1, found) =>
    if o1.status_ = redis_s_null ∨ found = false then .ok (cache, o1, data1, len1)
    else if o1.cnt_ ≤ 0 then .ok (cache, o1.with_status redis_s_finish, data1, len1)
    else
      .ok (cache, (o1.with_type REDIS_OBJ_STRING).with_status redis_s_string, data1, len1)

def parse_string_ptr (mem : Nat → Char) (cache : List redis_object) (o : redis_object)
    (data len : Nat) : ResPtr :=
  match get_data_ptr mem data len o.buf_ (to_size_t o.cnt_) with
  | .error e => .error e
  | .ok (data1, len1, buf1) =>
    if buf1.length = to_size_t o.cnt_ then
      .ok (cache, (o.with_buf buf1).with_status redis_s_strend, data1, len1)
    else .ok (cache, o.with_buf buf1, data1, len1)

def parse_strend_ptr (mem : Nat → Char) (cache : List redis_object) (o : redis_object)
    (data len : Nat) : ResPtr :=
  let r := get_line_ptr mem data len []
  if r.2.2.1 ≠ [] then .ok (cache, o.with_status redis_s_null, r.1, r.2.1)
  else if r.2.2.2 = false then
    if r.2.1 ≠ 0 then .error Fault.assertion
    else .ok (cache, o, r.1, r.2.1)
  else .ok (cache, o.with_status redis_s_finish, r.1, r.2.1)

def parse_arlen_ptr (mem : Nat → Char) (cache : List redis_object) (o : redis_object)
    (data len : Nat) : ResPtr :=
  match get_length_ptr mem (o.with_cnt 0) data len with
  | .error e => .error e
  | .ok (o1, data1, len1, found) =>
    if o1.status_ = redis_s_null ∨ found = false then .ok (cache, o1, data1, len1)
    else if o1.cnt_ ≤ 0 then .ok (cache, o1.with_status redis_s_finish, data1, len1)
    else
      .ok ((take_child cache).1,
        ((o1.with_type REDIS_OBJ_ARRAY).with_status redis_s_array).with_obj
          (some (take_child cache).2),
        data1, len1)

/-- The call through `status_tab` with the pointer and the length kept apart,
given `parse_object`. -/
def status_tab_ptr (mem : Nat → Char)
    (parse_object : List redis_object → redis_object → Nat → Nat → ResPtr)
    (cache : List redis_object) (o : redis_object) (data len : Nat) : ResPtr :=
  match o.status_ with
  | redis_s_begin =>
    .ok (cache, (parse_begin_ptr mem o data len).1, (parse_begin_ptr mem o data len).2.1,
      (parse_begin_ptr mem o data len).2.2)
  | redis_s_status => parse_line_ptr mem REDIS_OBJ_STATUS cache o data len
  | redis_s_error => parse_line_ptr mem REDIS_OBJ_ERROR cache o data len
  | redis_s_number => parse_line_ptr mem REDIS_OBJ_INTEGER cache o data len
  | redis_s_strlen => parse_strlen_ptr mem cache o data len
  | redis_s_string => parse_string_ptr mem cache o data len
  | redis_s_strend => parse_strend_ptr mem cache o data len
  | redis_s_arlen => parse_arlen_ptr mem cache o data len
  | redis_s_array =>
    if o.obj_.isNone then .error Fault.assertion else parse_object cache o data len
  | redis_s_null => .error Fault.bounds
  | redis_s_finish => .error Fault.bounds

mutual

/-- Function `redis_object::update` with the pointer and the length kept
apart; the first argument bounds the depth of the calls and the turns of the
loops. -/
def update_ptr (mem : Nat → Char) :
    Nat → List redis_object → redis_object → Nat → Nat → ResPtr
  | 0, _, _, _, _ => .error Fault.fuel
  | n + 1, cache, o, data, len =>
    if failed o ∨ finish o then .ok (cache, o, data, len)
    else if o.obj_.isSome then parse_object_ptr mem n cache o data len
    else update_loop_ptr mem n cache o data len
termination_by structural n => n

/-- Function `redis_object::parse_object` with the pointer and the length kept
apart. -/
def parse_object_ptr (mem : Nat → Char) :
    Nat → List redis_object → redis_object → Nat → Nat → ResPtr
  | 0, _, _, _, _ => .error Fault.fuel
  | n + 1, cache, o, data, len =>
    if ¬ 0 < o.cnt_ then .error Fault.assertion
    else
      match o.obj_ with
      | none => .error Fault.assertion
      | some child =>
        match update_ptr mem n cache child data len with
        | .error e => .error e
        | .ok (cache1, child1, data1, len1) =>
          .ok ((parse_object_done cache1 o child1).1, (parse_object_done cache1 o child1).2,
            data1, len1)
termination_by structural n => n

/-- The loop `while (len > 0)` of `update` with the pointer and the length
kept apart. -/
def update_loop_ptr (mem : Nat → Char) :
    Nat → List redis_object → redis_object → Nat → Nat → ResPtr
  | 0, _, _, _, _ => .error Fault.fuel
  | n + 1, cache, o, data, len =>
    if len = 0 then .ok (cache, o, data, len)
    else
      match status_tab_ptr mem (parse_object_ptr mem n) cache o data len with
      | .error e => .error e
      | .ok (cache1, o1, data1, len1) =>
        if o1.status_ = redis_s_null ∨ o1.status_ = redis_s_finish then
          .ok (cache1, o1, data1, len1)
        else update_loop_ptr mem n cache1 o1 data1 len1
termination_by structural n => n

end

/-- A call with pointer and length, from `data` and `len`, and the call on the
list of the bytes agree: both fail alike, or the pointer has advanced by what
the length has lost and the list left is that of the bytes at the pointer
returned. -/
def agrees (mem : Nat → Char) (data len : Nat) (rp : ResPtr) (r : Res) : Prop :=
  match rp with
  | .error e => r = .error e
  | .ok (cache1, o1, data1, len1) =>
    data1 + len1 = data + len ∧ len1 ≤ len ∧ r = .ok (cache1, o1, bytes_at mem data1 len1)

end RedisObject

namespace EventIoUring

/-! ## Bits of the mask -/

theorem land_two_pow_ne_zero (m i : Nat) :
    m &&& 2 ^ i ≠ 0 ↔ m.testBit i = true := by
  rw [Nat.and_two_pow]
  cases h : m.testBit i <;> simp

theorem land_two_pow_eq_zero (m i : Nat) :
    m &&& 2 ^ i = 0 ↔ m.testBit i = false := by
  rw [Nat.and_two_pow]
  cases h : m.testBit i <;> simp

theorem testBit_unot_two_pow (i j : Nat) :
    (unot (2 ^ i)).testBit j = (decide (i = j) ^^ decide (j < 32)) := by
  have h : UINT_MAX = 2 ^ 32 - 1 := by decide
  rw [unot, h, Nat.testBit_xor, Nat.testBit_two_pow, Nat.testBit_two_pow_sub_one]

theorem testBit_clear (m i j : Nat) (hm : m < 2 ^ 32) :
    (m &&& unot (2 ^ i)).testBit j = (m.testBit j && decide (j ≠ i)) := by
  rw [Nat.testBit_and, testBit_unot_two_pow]
  by_cases hj : j < 32
  · by_cases hij : i = j
    · subst hij; simp [hj]
    · have : j ≠ i := fun h => hij h.symm
      simp [hj, hij, this]
  · have hmj : m.testBit j = false :=
      Nat.testBit_lt_two_pow (lt_of_lt_of_le hm (Nat.pow_le_pow_right (by decide) (by omega)))
    simp [hmj]

theorem testBit_set (m i j : Nat) :
    (m ||| 2 ^ i).testBit j = (m.testBit j || decide (j = i)) := by
  rw [Nat.testBit_or, Nat.testBit_two_pow]
  by_cases hij : i = j
  · subst hij; simp
  · have : j ≠ i := fun h => hij h.symm
    simp [hij, this]

theorem set_land_self (m i : Nat) : (m ||| 2 ^ i) &&& 2 ^ i ≠ 0 := by
  rw [land_two_pow_ne_zero, testBit_set]; simp

theorem set_land_other (m i j : Nat) (h : j ≠ i) :
    (m ||| 2 ^ i) &&& 2 ^ j = m &&& 2 ^ j := by
  rw [Nat.and_two_pow, Nat.and_two_pow, testBit_set]; simp [h]

theorem clear_land_self (m i : Nat) (hi : i < 32) :
    (m &&& unot (2 ^ i)) &&& 2 ^ i = 0 := by
  rw [land_two_pow_eq_zero, Nat.testBit_and, testBit_unot_two_pow]; simp [hi]

theorem clear_land_other (m i j : Nat) (hj : j < 32) (h : j ≠ i) :
    (m &&& unot (2 ^ i)) &&& 2 ^ j = m &&& 2 ^ j := by
  have hij : i ≠ j := fun e => h e.symm
  rw [Nat.and_two_pow, Nat.and_two_pow, Nat.testBit_and, testBit_unot_two_pow]
  simp [hj, hij]

theorem EVENT_READ_eq (k : EventFlags) : EVENT_READ k = 2 ^ k.read :=
  Nat.one_shiftLeft _

theorem EVENT_WRITE_eq (k : EventFlags) : EVENT_WRITE k = 2 ^ k.write :=
  Nat.one_shiftLeft _

theorem EVENT_ACCEPT_eq (k : EventFlags) : EVENT_ACCEPT k = 2 ^ k.accept :=
  Nat.one_shiftLeft _

theorem EVENT_CONNECT_eq (k : EventFlags) : EVENT_CONNECT k = 2 ^ k.connect :=
  Nat.one_shiftLeft _

/-! ## The two halves of the dispatch step -/

theorem mark_read_mask (k : EventFlags) (res : Int) (fe : FILE_EVENT) :
    (mark_read k res fe).mask = fe.mask &&& unot (EVENT_READ k) := by
  simp only [mark_read]; split <;> rfl

theorem mark_read_r_proc (k : EventFlags) (res : Int) (fe : FILE_EVENT) :
    (mark_read k res fe).r_proc = fe.r_proc := by
  simp only [mark_read]; split <;> rfl

theorem mark_read_w_proc (k : EventFlags) (res : Int) (fe : FILE_EVENT) :
    (mark_read k res fe).w_proc = fe.w_proc := by
  simp only [mark_read]; split <;> rfl

theorem mark_write_mask (k : EventFlags) (res : Int) (fe : FILE_EVENT) :
    (mark_write k res fe).mask = fe.mask &&& unot (EVENT_WRITE k) := by
  simp only [mark_write]; split <;> rfl

theorem mark_write_r_proc (k : EventFlags) (res : Int) (fe : FILE_EVENT) :
    (mark_write k res fe).r_proc = fe.r_proc := by
  simp only [mark_write]; split <;> rfl

theorem mark_write_w_proc (k : EventFlags) (res : Int) (fe : FILE_EVENT) :
    (mark_write k res fe).w_proc = fe.w_proc := by
  simp only [mark_write]; split <;> rfl

theorem mark_read_land_read (k : EventFlags) (res : Int) (fe : FILE_EVENT) :
    (mark_read k res fe).mask &&& EVENT_READ k = 0 := by
  rw [mark_read_mask, EVENT_READ_eq]; exact clear_land_self _ _ k.ok.1.1

theorem mark_read_land_write (k : EventFlags) (res : Int) (fe : FILE_EVENT) :
    (mark_read k res fe).mask &&& EVENT_WRITE k = fe.mask &&& EVENT_WRITE k := by
  rw [mark_read_mask, EVENT_READ_eq, EVENT_WRITE_eq]
  exact clear_land_other _ _ _ k.ok.1.2.1 (fun h => k.ok.2.1.1 h.symm)

theorem mark_read_land_accept (k : EventFlags) (res : Int) (fe : FILE_EVENT) :
    (mark_read k res fe).mask &&& EVENT_ACCEPT k = fe.mask &&& EVENT_ACCEPT k := by
  rw [mark_read_mask, EVENT_READ_eq, EVENT_ACCEPT_eq]
  exact clear_land_other _ _ _ k.ok.1.2.2.1 (fun h => k.ok.2.1.2.1 h.symm)

theorem mark_write_land_write (k : EventFlags) (res : Int) (fe : FILE_EVENT) :
    (mark_write k res fe).mask &&& EVENT_WRITE k = 0 := by
  rw [mark_write_mask, EVENT_WRITE_eq]; exact clear_land_self _ _ k.ok.1.2.1

theorem mark_write_land_read (k : EventFlags) (res : Int) (fe : FILE_EVENT) :
    (mark_write k res fe).mask &&& EVENT_READ k = fe.mask &&& EVENT_READ k := by
  rw [mark_write_mask, EVENT_READ_eq, EVENT_WRITE_eq]
  exact clear_land_other _ _ _ k.ok.1.1 k.ok.2.1.1

theorem mark_write_land_connect (k : EventFlags) (res : Int) (fe : FILE_EVENT) :
    (mark_write k res fe).mask &&& EVENT_CONNECT k = fe.mask &&& EVENT_CONNECT k := by
  rw [mark_write_mask, EVENT_WRITE_eq, EVENT_CONNECT_eq]
  exact clear_land_other _ _ _ k.ok.1.2.2.2 (fun h => k.ok.2.2.2.1 h.symm)

theorem mark_read_stores (k : EventFlags) (res : Int) (fe : FILE_EVENT) :
    (fe.mask &&& EVENT_ACCEPT k ≠ 0 →
      mark_read k res fe =
        { fe with mask := fe.mask &&& unot (EVENT_READ k), iocp_sock := res }) ∧
    (fe.mask &&& EVENT_ACCEPT k = 0 →
      mark_read k res fe =
        { fe with mask := fe.mask &&& unot (EVENT_READ k), rlen := res }) := by
  have h := mark_read_land_accept k res fe
  rw [mark_read_mask] at h
  constructor
  · intro ha; simp only [mark_read, h]; rw [if_pos ha]
  · intro ha; simp only [mark_read, h]; rw [if_neg (not_not.2 ha)]

theorem mark_write_stores (k : EventFlags) (res : Int) (fe : FILE_EVENT) :
    (fe.mask &&& EVENT_CONNECT k ≠ 0 →
      mark_write k res fe =
        { fe with mask := fe.mask &&& unot (EVENT_WRITE k), iocp_sock := res }) ∧
    (fe.mask &&& EVENT_CONNECT k = 0 →
      mark_write k res fe =
        { fe with mask := fe.mask &&& unot (EVENT_WRITE k), wlen := res }) := by
  have h := mark_write_land_connect k res fe
  rw [mark_write_mask] at h
  constructor
  · intro ha; simp only [mark_write, h]; rw [if_pos ha]
  · intro ha; simp only [mark_write, h]; rw [if_neg (not_not.2 ha)]

theorem armedRead_iff (k : EventFlags) (fe : FILE_EVENT) :
    armedRead k fe = true ↔ fe.mask &&& EVENT_READ k ≠ 0 ∧ ∃ f, fe.r_proc = some f := by
  simp [armedRead, Option.isSome_iff_exists]

theorem armedWrite_iff (k : EventFlags) (fe : FILE_EVENT) :
    armedWrite k fe = true ↔ fe.mask &&& EVENT_WRITE k ≠ 0 ∧ ∃ f, fe.w_proc = some f := by
  simp [armedWrite, Option.isSome_iff_exists]

theorem dispatch_read_calls (k : EventFlags) (procs : Procs) (res : Int) (p : Nat)
    (mem : Mem) :
    (dispatch_read k procs res p mem).2 =
      readCall k { res := res, user_data := p } (mem.files p) := by
  unfold dispatch_read readCall
  by_cases h : (mem.files p).mask &&& EVENT_READ k ≠ 0
  · rw [if_pos h, if_pos h]
    cases hf : (mem.files p).r_proc <;> simp
  · rw [if_neg h, if_neg h]

theorem dispatch_write_calls (k : EventFlags) (procs : Procs) (res : Int) (p : Nat)
    (mem : Mem) :
    (dispatch_write k procs res p mem).2 =
      writeCall k { res := res, user_data := p } (mem.files p) := by
  unfold dispatch_write writeCall
  by_cases h : (mem.files p).mask &&& EVENT_WRITE k ≠ 0
  · rw [if_pos h, if_pos h]
    cases hf : (mem.files p).w_proc <;> simp
  · rw [if_neg h, if_neg h]

theorem dispatch_read_idle (k : EventFlags) (procs : Procs) (res : Int) (p : Nat)
    (mem : Mem) (h : armedRead k (mem.files p) = false) :
    dispatch_read k procs res p mem = (mem, []) := by
  unfold dispatch_read
  by_cases hb : (mem.files p).mask &&& EVENT_READ k ≠ 0
  · cases hf : (mem.files p).r_proc with
    | none => rw [if_pos hb, hf]
    | some f => simp [armedRead, hb, hf] at h
  · rw [if_neg hb]

theorem dispatch_write_idle (k : EventFlags) (procs : Procs) (res : Int) (p : Nat)
    (mem : Mem) (h : armedWrite k (mem.files p) = false) :
    dispatch_write k procs res p mem = (mem, []) := by
  unfold dispatch_write
  by_cases hb : (mem.files p).mask &&& EVENT_WRITE k ≠ 0
  · cases hf : (mem.files p).w_proc with
    | none => rw [if_pos hb, hf]
    | some f => simp [armedWrite, hb, hf] at h
  · rw [if_neg hb]

theorem dispatch_read_armed (k : EventFlags) (procs : Procs) (res : Int) (p : Nat)
    (mem : Mem) (f : Nat) (hb : (mem.files p).mask &&& EVENT_READ k ≠ 0)
    (hf : (mem.files p).r_proc = some f) :
    (dispatch_read k procs res p mem).1 =
      procs f p
        { ep := mem.ep,
          files := Function.update mem.files p (mark_read k res (mem.files p)) } := by
  unfold dispatch_read
  rw [if_pos hb, hf]

theorem dispatch_write_armed (k : EventFlags) (procs : Procs) (res : Int) (p : Nat)
    (mem : Mem) (f : Nat) (hb : (mem.files p).mask &&& EVENT_WRITE k ≠ 0)
    (hf : (mem.files p).w_proc = some f) :
    (dispatch_write k procs res p mem).1 =
      procs f p
        { ep := mem.ep,
          files := Function.update mem.files p (mark_write k res (mem.files p)) } := by
  unfold dispatch_write
  rw [if_pos hb, hf]

theorem dispatch_read_keeps (k : EventFlags) (procs : Procs) (hk : KeepsArming procs)
    (res : Int) (q : Nat) (mem : Mem) (x : Nat) :
    ((dispatch_read k procs res q mem).1.files x).r_proc = (mem.files x).r_proc ∧
    ((dispatch_read k procs res q mem).1.files x).w_proc = (mem.files x).w_proc ∧
    ((dispatch_read k procs res q mem).1.files x).mask =
      (if x = q ∧ armedRead k (mem.files q) = true then
        (mem.files q).mask &&& unot (EVENT_READ k) else (mem.files x).mask) := by
  cases ha : armedRead k (mem.files q) with
  | false =>
    rw [dispatch_read_idle k procs res q mem ha]
    simp
  | true =>
    obtain ⟨hb, f, hf⟩ := (armedRead_iff k _).1 ha
    rw [dispatch_read_armed k procs res q mem f hb hf]
    obtain ⟨h1, h2, h3⟩ := hk f q
      { ep := mem.ep,
        files := Function.update mem.files q (mark_read k res (mem.files q)) } x
    rw [h1, h2, h3]
    by_cases hx : x = q
    · subst hx
      simp [mark_read_mask, mark_read_r_proc, mark_read_w_proc]
    · simp [Function.update_noteq hx, hx]

theorem dispatch_write_keeps (k : EventFlags) (procs : Procs) (hk : KeepsArming procs)
    (res : Int) (q : Nat) (mem : Mem) (x : Nat) :
    ((dispatch_write k procs res q mem).1.files x).r_proc = (mem.files x).r_proc ∧
    ((dispatch_write k procs res q mem).1.files x).w_proc = (mem.files x).w_proc ∧
    ((dispatch_write k procs res q mem).1.files x).mask =
      (if x = q ∧ armedWrite k (mem.files q) = true then
        (mem.files q).mask &&& unot (EVENT_WRITE k) else (mem.files x).mask) := by
  cases ha : armedWrite k (mem.files q) with
  | false =>
    rw [dispatch_write_idle k procs res q mem ha]
    simp
  | true =>
    obtain ⟨hb, f, hf⟩ := (armedWrite_iff k _).1 ha
    rw [dispatch_write_armed k procs res q mem f hb hf]
    obtain ⟨h1, h2, h3⟩ := hk f q
      { ep := mem.ep,
        files := Function.update mem.files q (mark_write k res (mem.files q)) } x
    rw [h1, h2, h3]
    by_cases hx : x = q
    · subst hx
      simp [mark_write_mask, mark_write_r_proc, mark_write_w_proc]
    · simp [Function.update_noteq hx, hx]

theorem armed_after_read (k : EventFlags) (procs : Procs) (hk : KeepsArming procs)
    (res : Int) (q : Nat) (mem : Mem) (x : Nat) :
    armedRead k ((dispatch_read k procs res q mem).1.files x) =
      (armedRead k (mem.files x) && decide (x ≠ q)) ∧
    armedWrite k ((dispatch_read k procs res q mem).1.files x) =
      armedWrite k (mem.files x) := by
  obtain ⟨h1, h2, h3⟩ := dispatch_read_keeps k procs hk res q mem x
  unfold armedRead armedWrite
  rw [h1, h2, h3]
  by_cases hx : x = q
  · subst hx
    cases ha : armedRead k (mem.files x) with
    | false =>
      have ha' := ha
      simp only [armedRead] at ha'
      rw [if_neg (by simp [ha]), ha']
      simp
    | true =>
      have e1 := clear_land_self (mem.files x).mask k.read k.ok.1.1
      have e2 := clear_land_other (mem.files x).mask k.read k.write k.ok.1.2.1
        (fun h => k.ok.2.1.1 h.symm)
      simp [EVENT_READ_eq, EVENT_WRITE_eq, e1, e2]
  · simp [hx]

theorem armed_after_write (k : EventFlags) (procs : Procs) (hk : KeepsArming procs)
    (res : Int) (q : Nat) (mem : Mem) (x : Nat) :
    armedRead k ((dispatch_write k procs res q mem).1.files x) =
      armedRead k (mem.files x) ∧
    armedWrite k ((dispatch_write k procs res q mem).1.files x) =
      (armedWrite k (mem.files x) && decide (x ≠ q)) := by
  obtain ⟨h1, h2, h3⟩ := dispatch_write_keeps k procs hk res q mem x
  unfold armedRead armedWrite
  rw [h1, h2, h3]
  by_cases hx : x = q
  · subst hx
    cases ha : armedWrite k (mem.files x) with
    | false =>
      have ha' := ha
      simp only [armedWrite] at ha'
      rw [if_neg (by simp [ha]), ha']
      simp
    | true =>
      have e1 := clear_land_self (mem.files x).mask k.write k.ok.1.2.1
      have e2 := clear_land_other (mem.files x).mask k.write k.read k.ok.1.1 k.ok.2.1.1
      simp [EVENT_READ_eq, EVENT_WRITE_eq, e1, e2]
  · simp [hx]

/-! ## The loop of `event_uring_wait` -/

theorem wait_loop_dispatched (k : EventFlags) (procs : Procs) (tp : Option timespec)
    (r : Reply) (rest : List Reply) (count : Nat) (mem : Mem)
    (h : r.dispatched = true) :
    wait_loop k procs tp (r :: rest) count mem =
      { wait_loop k procs tp rest (count + 1) (dispatch k procs r.cqe mem).1 with
        items := (dispatch k procs r.cqe mem).2 ::
          (wait_loop k procs tp rest (count + 1) (dispatch k procs r.cqe mem).1).items } := by
  simp only [Reply.dispatched, Bool.and_eq_true, decide_eq_true_eq] at h
  rw [wait_loop]
  simp [h.1, h.2]

theorem wait_loop_stopped (k : EventFlags) (procs : Procs) (tp : Option timespec)
    (r : Reply) (rest : List Reply) (count : Nat) (mem : Mem)
    (h : r.dispatched = false) :
    (wait_loop k procs tp (r :: rest) count mem).items = [] ∧
    (wait_loop k procs tp (r :: rest) count mem).mem = mem ∧
    (wait_loop k procs tp (r :: rest) count mem).cq = rest ∧
    (wait_loop k procs tp (r :: rest) count mem).ret =
      (if r.ret = -ETIME then some 0
       else if r.ret = -EAGAIN then some (count : Int) else some (-1)) := by
  rw [wait_loop]
  by_cases h0 : r.ret = 0
  · have hb : r.cqe.res = -ENOBUFS := by
      simpa [Reply.dispatched, h0] using h
    simp [h0, hb, ETIME, EAGAIN]
  · simp only [ne_eq, h0, not_false_eq_true, if_true]
    split
    · simp
    · split <;> simp

theorem wait_loop_nil (k : EventFlags) (procs : Procs) (tp : Option timespec)
    (count : Nat) (mem : Mem) :
    (wait_loop k procs tp [] count mem).items = [] ∧
    (wait_loop k procs tp [] count mem).mem = mem ∧
    (wait_loop k procs tp [] count mem).cq = [] ∧
    (wait_loop k procs tp [] count mem).ret =
      (if count > 0 then some (count : Int)
       else match tp with
        | some _ => some 0
        | none => none) := by
  simp only [wait_loop]
  split
  · simp
  · cases tp <;> simp

theorem wait_loop_items_cqe (k : EventFlags) (procs : Procs) (tp : Option timespec) :
    ∀ (cq : List Reply) (count : Nat) (mem : Mem),
      (wait_loop k procs tp cq count mem).items.map Item.cqe =
        (cq.takeWhile Reply.dispatched).map Reply.cqe := by
  intro cq
  induction cq with
  | nil => intro count mem; simp [(wait_loop_nil k procs tp count mem).1]
  | cons r rest ih =>
    intro count mem
    cases h : r.dispatched with
    | false =>
      simp [(wait_loop_stopped k procs tp r rest count mem h).1, List.takeWhile_cons, h]
    | true =>
      rw [wait_loop_dispatched k procs tp r rest count mem h]
      simp [List.takeWhile_cons, h, ih, dispatch]

theorem wait_loop_items_forall (k : EventFlags) (procs : Procs) (tp : Option timespec)
    (P : Item → Prop) (hP : ∀ cqe mem, P (dispatch k procs cqe mem).2) :
    ∀ (cq : List Reply) (count : Nat) (mem : Mem),
      ∀ it ∈ (wait_loop k procs tp cq count mem).items, P it := by
  intro cq
  induction cq with
  | nil => intro count mem it hit; simp [(wait_loop_nil k procs tp count mem).1] at hit
  | cons r rest ih =>
    intro count mem it hit
    cases h : r.dispatched with
    | false => simp [(wait_loop_stopped k procs tp r rest count mem h).1] at hit
    | true =>
      rw [wait_loop_dispatched k procs tp r rest count mem h] at hit
      simp only [List.mem_cons] at hit
      rcases hit with rfl | hit
      · exact hP _ _
      · exact ih _ _ it hit

theorem wait_loop_ret (k : EventFlags) (procs : Procs) (tp : Option timespec) :
    ∀ (cq : List Reply) (count : Nat) (mem : Mem),
      (wait_loop k procs tp cq count mem).ret =
        (match cq.dropWhile Reply.dispatched with
         | [] =>
           if count + (cq.takeWhile Reply.dispatched).length > 0 then
             some ((count + (cq.takeWhile Reply.dispatched).length : Nat) : Int)
           else match tp with
            | some _ => some 0
            | none => none
         | r :: _ =>
           if r.ret = -ETIME then some 0
           else if r.ret = -EAGAIN then
             some ((count + (cq.takeWhile Reply.dispatched).length : Nat) : Int)
           else some (-1)) ∧
      (wait_loop k procs tp cq count mem).cq = (cq.dropWhile Reply.dispatched).tail := by
  intro cq
  induction cq with
  | nil =>
    intro count mem
    simp [(wait_loop_nil k procs tp count mem).2.2]
  | cons r rest ih =>
    intro count mem
    cases h : r.dispatched with
    | false =>
      simp [(wait_loop_stopped k procs tp r rest count mem h).2.2, List.dropWhile_cons,
        List.takeWhile_cons, h]
    | true =>
      rw [wait_loop_dispatched k procs tp r rest count mem h]
      obtain ⟨e1, e2⟩ := ih (count + 1) (dispatch k procs r.cqe mem).1
      simp only [List.dropWhile_cons, List.takeWhile_cons, h, if_true, List.length_cons]
      rw [e1, e2]
      have : count + 1 + (List.takeWhile Reply.dispatched rest).length =
          count + ((List.takeWhile Reply.dispatched rest).length + 1) := by omega
      rw [this]
      exact ⟨rfl, rfl⟩

theorem dispatch_item_spec (k : EventFlags) (procs : Procs) (cqe : io_uring_cqe)
    (mem : Mem) :
    (dispatch k procs cqe mem).2.cqe = cqe ∧
    (dispatch k procs cqe mem).2.before = mem.files cqe.user_data ∧
    (dispatch k procs cqe mem).2.calls =
      readCall k cqe (dispatch k procs cqe mem).2.before ++
        writeCall k cqe (dispatch k procs cqe mem).2.mid ∧
    (armedRead k (dispatch k procs cqe mem).2.before = false →
      (dispatch k procs cqe mem).2.mid = (dispatch k procs cqe mem).2.before) := by
  refine ⟨rfl, rfl, ?_, ?_⟩
  · simp only [dispatch]
    rw [dispatch_read_calls, dispatch_write_calls]
  · intro h
    simp only [dispatch] at h ⊢
    rw [dispatch_read_idle k procs cqe.res cqe.user_data mem h]

theorem dispatch_item_keeps (k : EventFlags) (procs : Procs) (hk : KeepsArming procs)
    (cqe : io_uring_cqe) (mem : Mem) :
    armedWrite k (dispatch k procs cqe mem).2.mid =
      armedWrite k (dispatch k procs cqe mem).2.before := by
  simp only [dispatch]
  exact (armed_after_read k procs hk cqe.res cqe.user_data mem cqe.user_data).2

theorem armed_after_dispatch (k : EventFlags) (procs : Procs) (hk : KeepsArming procs)
    (cqe : io_uring_cqe) (mem : Mem) (x : Nat) :
    armedRead k ((dispatch k procs cqe mem).1.files x) =
      (armedRead k (mem.files x) && decide (x ≠ cqe.user_data)) ∧
    armedWrite k ((dispatch k procs cqe mem).1.files x) =
      (armedWrite k (mem.files x) && decide (x ≠ cqe.user_data)) := by
  simp only [dispatch]
  obtain ⟨r1, r2⟩ := armed_after_read k procs hk cqe.res cqe.user_data mem x
  obtain ⟨w1, w2⟩ := armed_after_write k procs hk cqe.res cqe.user_data
    (dispatch_read k procs cqe.res cqe.user_data mem).1 x
  rw [w1, w2, r1, r2]
  exact ⟨rfl, rfl⟩

theorem countP_readCall (k : EventFlags) (cqe : io_uring_cqe) (fe : FILE_EVENT)
    (i : Interest) (p : Nat) :
    (readCall k cqe fe).countP (fun c => decide (c.kind = i ∧ c.fe = p)) =
      (if i = Interest.read ∧ cqe.user_data = p ∧ armedRead k fe = true then 1 else 0) := by
  unfold readCall
  by_cases hb : fe.mask &&& EVENT_READ k ≠ 0
  · rw [if_pos hb]
    cases hf : fe.r_proc with
    | none => simp [armedRead, hf]
    | some f =>
      have ha : armedRead k fe = true := by simp [armedRead, hb, hf]
      by_cases hi : Interest.read = i
      · by_cases hp : cqe.user_data = p
        · simp [ha, hi.symm, hp]
        · simp [ha, hp]
      · have hi' : ¬ i = Interest.read := fun e => hi e.symm
        simp [hi, hi']
  · have ha : armedRead k fe = false := by
      simp only [armedRead]; simp [hb]
    rw [if_neg hb]; simp [ha]

theorem countP_writeCall (k : EventFlags) (cqe : io_uring_cqe) (fe : FILE_EVENT)
    (i : Interest) (p : Nat) :
    (writeCall k cqe fe).countP (fun c => decide (c.kind = i ∧ c.fe = p)) =
      (if i = Interest.write ∧ cqe.user_data = p ∧ armedWrite k fe = true then 1 else 0) := by
  unfold writeCall
  by_cases hb : fe.mask &&& EVENT_WRITE k ≠ 0
  · rw [if_pos hb]
    cases hf : fe.w_proc with
    | none => simp [armedWrite, hf]
    | some f =>
      have ha : armedWrite k fe = true := by simp [armedWrite, hb, hf]
      by_cases hi : Interest.write = i
      · by_cases hp : cqe.user_data = p
        · simp [ha, hi.symm, hp]
        · simp [ha, hp]
      · have hi' : ¬ i = Interest.write := fun e => hi e.symm
        simp [hi, hi']
  · have ha : armedWrite k fe = false := by
      simp only [armedWrite]; simp [hb]
    rw [if_neg hb]; simp [ha]

theorem callsFor_cons (i : Interest) (p : Nat) (it : Item) (items : List Item) :
    callsFor i p (it :: items) =
      it.calls.countP (fun c => decide (c.kind = i ∧ c.fe = p)) + callsFor i p items := by
  simp [callsFor, callsOf, List.countP_append]

theorem callsFor_dispatch (k : EventFlags) (procs : Procs) (hk : KeepsArming procs)
    (cqe : io_uring_cqe) (mem : Mem) (p : Nat) :
    (dispatch k procs cqe mem).2.calls.countP
        (fun c => decide (c.kind = Interest.read ∧ c.fe = p)) =
      (if cqe.user_data = p ∧ armedRead k (mem.files p) = true then 1 else 0) ∧
    (dispatch k procs cqe mem).2.calls.countP
        (fun c => decide (c.kind = Interest.write ∧ c.fe = p)) =
      (if cqe.user_data = p ∧ armedWrite k (mem.files p) = true then 1 else 0) := by
  obtain ⟨_, hb, hc, _⟩ := dispatch_item_spec k procs cqe mem
  have hm := dispatch_item_keeps k procs hk cqe mem
  rw [hc, List.countP_append, List.countP_append, countP_readCall, countP_writeCall,
    countP_readCall, countP_writeCall, hm, hb]
  by_cases hp : cqe.user_data = p
  · subst hp; simp
  · simp [hp]

theorem callsFor_wait_loop (k : EventFlags) (procs : Procs) (hk : KeepsArming procs)
    (tp : Option timespec) (p : Nat) :
    ∀ (cq : List Reply) (count : Nat) (mem : Mem),
      callsFor Interest.read p (wait_loop k procs tp cq count mem).items =
        (if armedRead k (mem.files p) = true ∧
            (∃ r ∈ cq.takeWhile Reply.dispatched, r.cqe.user_data = p) then 1 else 0) ∧
      callsFor Interest.write p (wait_loop k procs tp cq count mem).items =
        (if armedWrite k (mem.files p) = true ∧
            (∃ r ∈ cq.takeWhile Reply.dispatched, r.cqe.user_data = p) then 1 else 0) := by
  intro cq
  induction cq with
  | nil =>
    intro count mem
    simp [(wait_loop_nil k procs tp count mem).1, callsFor, callsOf]
  | cons r rest ih =>
    intro count mem
    cases h : r.dispatched with
    | false =>
      simp [(wait_loop_stopped k procs tp r rest count mem h).1, callsFor, callsOf,
        List.takeWhile_cons, h]
    | true =>
      rw [wait_loop_dispatched k procs tp r rest count mem h]
      obtain ⟨ihr, ihw⟩ := ih (count + 1) (dispatch k procs r.cqe mem).1
      obtain ⟨ar, aw⟩ := armed_after_dispatch k procs hk r.cqe mem p
      obtain ⟨cr, cw⟩ := callsFor_dispatch k procs hk r.cqe mem p
      simp only [callsFor_cons, ihr, ihw, ar, aw, cr, cw, List.takeWhile_cons, h, if_true]
      by_cases hp : r.cqe.user_data = p
      · subst hp
        constructor
        · cases armedRead k (mem.files r.cqe.user_data) <;> simp
        · cases armedWrite k (mem.files r.cqe.user_data) <;> simp
      · have hp' : p ≠ r.cqe.user_data := fun e => hp e.symm
        constructor
        · cases armedRead k (mem.files p) <;> simp [hp, hp']
        · cases armedWrite k (mem.files p) <;> simp [hp, hp']

theorem readCall_kinds (k : EventFlags) (cqe : io_uring_cqe) (fe : FILE_EVENT) :
    (readCall k cqe fe).map Call.kind =
      (if armedRead k fe = true then [Interest.read] else []) := by
  unfold readCall
  by_cases hb : fe.mask &&& EVENT_READ k ≠ 0
  · rw [if_pos hb]
    cases hf : fe.r_proc <;> simp [armedRead, hb, hf]
  · have ha : armedRead k fe = false := by
      simp only [armedRead]; simp [hb]
    rw [if_neg hb]; simp [ha]

theorem writeCall_kinds (k : EventFlags) (cqe : io_uring_cqe) (fe : FILE_EVENT) :
    (writeCall k cqe fe).map Call.kind =
      (if armedWrite k fe = true then [Interest.write] else []) := by
  unfold writeCall
  by_cases hb : fe.mask &&& EVENT_WRITE k ≠ 0
  · rw [if_pos hb]
    cases hf : fe.w_proc <;> simp [armedWrite, hb, hf]
  · have ha : armedWrite k fe = false := by
      simp only [armedWrite]; simp [hb]
    rw [if_neg hb]; simp [ha]

theorem dispatch_keeps_procs (k : EventFlags) (procs : Procs) (hk : KeepsArming procs)
    (cqe : io_uring_cqe) (mem : Mem) (x : Nat) :
    ((dispatch k procs cqe mem).1.files x).r_proc = (mem.files x).r_proc ∧
    ((dispatch k procs cqe mem).1.files x).w_proc = (mem.files x).w_proc := by
  simp only [dispatch]
  obtain ⟨r1, r2, _⟩ := dispatch_read_keeps k procs hk cqe.res cqe.user_data mem x
  obtain ⟨w1, w2, _⟩ := dispatch_write_keeps k procs hk cqe.res cqe.user_data
    (dispatch_read k procs cqe.res cqe.user_data mem).1 x
  rw [w1, w2, r1, r2]
  exact ⟨rfl, rfl⟩

theorem readCall_idle (k : EventFlags) (cqe : io_uring_cqe) (fe : FILE_EVENT)
    (h : armedRead k fe = false) : readCall k cqe fe = [] := by
  have := readCall_kinds k cqe fe
  rw [h] at this
  simpa using this

theorem writeCall_idle (k : EventFlags) (cqe : io_uring_cqe) (fe : FILE_EVENT)
    (h : armedWrite k fe = false) : writeCall k cqe fe = [] := by
  have := writeCall_kinds k cqe fe
  rw [h] at this
  simpa using this

theorem readCall_armed (k : EventFlags) (cqe : io_uring_cqe) (fe : FILE_EVENT)
    (h : armedRead k fe = true) :
    (readCall k cqe fe).map (fun c => (c.fe, c.kind, some c.proc)) =
      [(cqe.user_data, Interest.read, fe.r_proc)] := by
  obtain ⟨hb, f, hf⟩ := (armedRead_iff k fe).1 h
  unfold readCall
  rw [if_pos hb, hf]
  rfl

theorem writeCall_armed (k : EventFlags) (cqe : io_uring_cqe) (fe : FILE_EVENT)
    (h : armedWrite k fe = true) :
    (writeCall k cqe fe).map (fun c => (c.fe, c.kind, some c.proc)) =
      [(cqe.user_data, Interest.write, fe.w_proc)] := by
  obtain ⟨hb, f, hf⟩ := (armedWrite_iff k fe).1 h
  unfold writeCall
  rw [if_pos hb, hf]
  rfl

theorem wait_loop_all_calls (k : EventFlags) (procs : Procs) (hk : KeepsArming procs)
    (tp : Option timespec) :
    ∀ (cq : List Reply) (count : Nat) (mem : Mem),
      (∀ r ∈ cq, r.dispatched = true) →
      (cq.map (fun r => r.cqe.user_data)).Nodup →
      (∀ r ∈ cq, armedRead k (mem.files r.cqe.user_data) ≠
        armedWrite k (mem.files r.cqe.user_data)) →
      (callsOf (wait_loop k procs tp cq count mem).items).map
          (fun c => (c.fe, c.kind, some c.proc)) =
        cq.map (owedCallback k mem.files) := by
  intro cq
  induction cq with
  | nil =>
    intro count mem _ _ _
    simp [(wait_loop_nil k procs tp count mem).1, callsOf]
  | cons r rest ih =>
    intro count mem hd hn ha
    have hr : r.dispatched = true := hd r (List.mem_cons_self _ _)
    rw [wait_loop_dispatched k procs tp r rest count mem hr]
    simp only [List.map_cons, List.nodup_cons, List.mem_map, not_exists, not_and] at hn
    have hne : ∀ r' ∈ rest, r'.cqe.user_data ≠ r.cqe.user_data :=
      fun r' hr' => hn.1 r' hr'
    have hsame : ∀ r' ∈ rest,
        armedRead k ((dispatch k procs r.cqe mem).1.files r'.cqe.user_data) =
          armedRead k (mem.files r'.cqe.user_data) ∧
        armedWrite k ((dispatch k procs r.cqe mem).1.files r'.cqe.user_data) =
          armedWrite k (mem.files r'.cqe.user_data) := by
      intro r' hr'
      obtain ⟨e1, e2⟩ := armed_after_dispatch k procs hk r.cqe mem r'.cqe.user_data
      rw [e1, e2]
      simp [hne r' hr']
    have ih' := ih (count + 1) (dispatch k procs r.cqe mem).1
      (fun r' hr' => hd r' (List.mem_cons_of_mem _ hr')) hn.2
      (fun r' hr' => by
        rw [(hsame r' hr').1, (hsame r' hr').2]
        exact ha r' (List.mem_cons_of_mem _ hr'))
    have hrest : rest.map (owedCallback k (dispatch k procs r.cqe mem).1.files) =
        rest.map (owedCallback k mem.files) := by
      apply List.map_congr_left
      intro r' hr'
      obtain ⟨p1, p2⟩ := dispatch_keeps_procs k procs hk r.cqe mem r'.cqe.user_data
      simp only [owedCallback, (hsame r' hr').1, p1, p2]
    obtain ⟨_, hb, hc, hm⟩ := dispatch_item_spec k procs r.cqe mem
    have hmk := dispatch_item_keeps k procs hk r.cqe mem
    have hone := ha r (List.mem_cons_self _ _)
    simp only [callsOf, List.map_cons, List.flatten_cons, List.map_append]
    have htail := ih'
    simp only [callsOf] at htail
    rw [htail, hrest, hc, List.map_append]
    rw [hb] at hmk ⊢
    cases har : armedRead k (mem.files r.cqe.user_data) with
    | true =>
      have haw : armedWrite k (mem.files r.cqe.user_data) = false := by
        rw [har] at hone
        cases h' : armedWrite k (mem.files r.cqe.user_data) with
        | false => rfl
        | true => rw [h'] at hone; exact absurd rfl hone
      rw [readCall_armed k r.cqe _ har, writeCall_idle k r.cqe _ (hmk.trans haw)]
      simp [owedCallback, har]
    | false =>
      have haw : armedWrite k (mem.files r.cqe.user_data) = true := by
        rw [har] at hone
        cases h' : armedWrite k (mem.files r.cqe.user_data) with
        | false => rw [h'] at hone; exact absurd rfl hone
        | true => rfl
      have hmid := hm (by rw [hb]; exact har)
      rw [hb] at hmid
      rw [readCall_idle k r.cqe _ har, hmid, writeCall_armed k r.cqe _ haw]
      simp [owedCallback, har]

theorem wait_loop_idle (k : EventFlags) (procs : Procs) (tp : Option timespec) :
    ∀ (cq : List Reply) (count : Nat) (mem : Mem),
      (∀ r ∈ cq, armedRead k (mem.files r.cqe.user_data) = false ∧
        armedWrite k (mem.files r.cqe.user_data) = false) →
      callsOf (wait_loop k procs tp cq count mem).items = [] ∧
      (wait_loop k procs tp cq count mem).mem = mem := by
  intro cq
  induction cq with
  | nil =>
    intro count mem _
    simp [(wait_loop_nil k procs tp count mem).1, (wait_loop_nil k procs tp count mem).2.1,
      callsOf]
  | cons r rest ih =>
    intro count mem h
    cases hd : r.dispatched with
    | false =>
      obtain ⟨h1, h2, _⟩ := wait_loop_stopped k procs tp r rest count mem hd
      simp [h1, h2, callsOf]
    | true =>
      obtain ⟨hr, hw⟩ := h r (List.mem_cons_self _ _)
      have e1 : dispatch_read k procs r.cqe.res r.cqe.user_data mem = (mem, []) :=
        dispatch_read_idle k procs _ _ mem hr
      have e2 : dispatch_write k procs r.cqe.res r.cqe.user_data mem = (mem, []) :=
        dispatch_write_idle k procs _ _ mem hw
      have ed : dispatch k procs r.cqe mem =
          (mem, { cqe := r.cqe, before := mem.files r.cqe.user_data,
                  mid := mem.files r.cqe.user_data, calls := [] }) := by
        simp only [dispatch, e1, e2, List.append_nil]
      rw [wait_loop_dispatched k procs tp r rest count mem hd, ed]
      obtain ⟨i1, i2⟩ := ih (count + 1) mem (fun r' hr' => h r' (List.mem_cons_of_mem _ hr'))
      refine ⟨?_, i2⟩
      simp only [callsOf, List.map_cons, List.flatten_cons, List.nil_append]
      exact i1

/-! ## Callbacks that do not re-arm -/

theorem noRearm_of_keepsArming (k : EventFlags) (procs : Procs) (hk : KeepsArming procs) :
    NoRearm k procs := by
  intro f q mem p
  obtain ⟨h1, h2, h3⟩ := hk f q mem p
  simp only [armedRead, armedWrite, h1, h2, h3]
  exact ⟨id, id⟩

theorem armed_mark_read (k : EventFlags) (res : Int) (fe : FILE_EVENT) :
    armedRead k (mark_read k res fe) = false ∧
    armedWrite k (mark_read k res fe) = armedWrite k fe := by
  simp only [armedRead, armedWrite, mark_read_land_read, mark_read_land_write,
    mark_read_w_proc]
  simp

theorem armed_mark_write (k : EventFlags) (res : Int) (fe : FILE_EVENT) :
    armedWrite k (mark_write k res fe) = false ∧
    armedRead k (mark_write k res fe) = armedRead k fe := by
  simp only [armedRead, armedWrite, mark_write_land_read, mark_write_land_write,
    mark_write_r_proc]
  simp

theorem armed_after_read_le (k : EventFlags) (procs : Procs) (hn : NoRearm k procs)
    (res : Int) (q : Nat) (mem : Mem) (x : Nat) :
    (armedRead k ((dispatch_read k procs res q mem).1.files x) = true →
      armedRead k (mem.files x) = true ∧ x ≠ q) ∧
    (armedWrite k ((dispatch_read k procs res q mem).1.files x) = true →
      armedWrite k (mem.files x) = true) := by
  cases ha : armedRead k (mem.files q) with
  | false =>
    rw [dispatch_read_idle k procs res q mem ha]
    refine ⟨fun h => ⟨h, ?_⟩, id⟩
    intro e; subst e; rw [ha] at h; cases h
  | true =>
    obtain ⟨hb, f, hf⟩ := (armedRead_iff k _).1 ha
    rw [dispatch_read_armed k procs res q mem f hb hf]
    obtain ⟨n1, n2⟩ := hn f q
      { ep := mem.ep,
        files := Function.update mem.files q (mark_read k res (mem.files q)) } x
    by_cases hx : x = q
    · subst hx
      simp only [Function.update_same] at n1 n2
      constructor
      · intro h
        have := n1 h
        rw [(armed_mark_read k res _).1] at this
        cases this
      · intro h
        have := n2 h
        rw [(armed_mark_read k res _).2] at this
        exact this
    · simp only [Function.update_noteq hx] at n1 n2
      exact ⟨fun h => ⟨n1 h, hx⟩, n2⟩

theorem armed_after_write_le (k : EventFlags) (procs : Procs) (hn : NoRearm k procs)
    (res : Int) (q : Nat) (mem : Mem) (x : Nat) :
    (armedRead k ((dispatch_write k procs res q mem).1.files x) = true →
      armedRead k (mem.files x) = true) ∧
    (armedWrite k ((dispatch_write k procs res q mem).1.files x) = true →
      armedWrite k (mem.files x) = true ∧ x ≠ q) := by
  cases ha : armedWrite k (mem.files q) with
  | false =>
    rw [dispatch_write_idle k procs res q mem ha]
    refine ⟨id, fun h => ⟨h, ?_⟩⟩
    intro e; subst e; rw [ha] at h; cases h
  | true =>
    obtain ⟨hb, f, hf⟩ := (armedWrite_iff k _).1 ha
    rw [dispatch_write_armed k procs res q mem f hb hf]
    obtain ⟨n1, n2⟩ := hn f q
      { ep := mem.ep,
        files := Function.update mem.files q (mark_write k res (mem.files q)) } x
    by_cases hx : x = q
    · subst hx
      simp only [Function.update_same] at n1 n2
      constructor
      · intro h
        have := n1 h
        rw [(armed_mark_write k res _).2] at this
        exact this
      · intro h
        have := n2 h
        rw [(armed_mark_write k res _).1] at this
        cases this
    · simp only [Function.update_noteq hx] at n1 n2
      exact ⟨n1, fun h => ⟨n2 h, hx⟩⟩

theorem armed_after_dispatch_le (k : EventFlags) (procs : Procs) (hn : NoRearm k procs)
    (cqe : io_uring_cqe) (mem : Mem) (x : Nat) :
    (armedRead k ((dispatch k procs cqe mem).1.files x) = true →
      armedRead k (mem.files x) = true ∧ x ≠ cqe.user_data) ∧
    (armedWrite k ((dispatch k procs cqe mem).1.files x) = true →
      armedWrite k (mem.files x) = true ∧ x ≠ cqe.user_data) := by
  simp only [dispatch]
  obtain ⟨r1, r2⟩ := armed_after_read_le k procs hn cqe.res cqe.user_data mem x
  obtain ⟨w1, w2⟩ := armed_after_write_le k procs hn cqe.res cqe.user_data
    (dispatch_read k procs cqe.res cqe.user_data mem).1 x
  exact ⟨fun h => r1 (w1 h), fun h => ⟨r2 (w2 h).1, (w2 h).2⟩⟩

theorem callsFor_le_armed (k : EventFlags) (procs : Procs) (hn : NoRearm k procs)
    (tp : Option timespec) (p : Nat) :
    ∀ (cq : List Reply) (count : Nat) (mem : Mem),
      callsFor Interest.read p (wait_loop k procs tp cq count mem).items ≤
        (if armedRead k (mem.files p) = true then 1 else 0) ∧
      callsFor Interest.write p (wait_loop k procs tp cq count mem).items ≤
        (if armedWrite k (mem.files p) = true then 1 else 0) := by
  intro cq
  induction cq with
  | nil =>
    intro count mem
    simp [(wait_loop_nil k procs tp count mem).1, callsFor, callsOf]
  | cons r rest ih =>
    intro count mem
    cases h : r.dispatched with
    | false =>
      simp [(wait_loop_stopped k procs tp r rest count mem h).1, callsFor, callsOf]
    | true =>
      rw [wait_loop_dispatched k procs tp r rest count mem h]
      obtain ⟨ihr, ihw⟩ := ih (count + 1) (dispatch k procs r.cqe mem).1
      obtain ⟨ar, aw⟩ := armed_after_dispatch_le k procs hn r.cqe mem p
      obtain ⟨_, hb, hc, _⟩ := dispatch_item_spec k procs r.cqe mem
      have hmid : armedWrite k (dispatch k procs r.cqe mem).2.mid = true →
          armedWrite k (mem.files r.cqe.user_data) = true := by
        simp only [dispatch]
        exact (armed_after_read_le k procs hn r.cqe.res r.cqe.user_data mem
          r.cqe.user_data).2
      simp only [callsFor_cons, hc, List.countP_append, countP_readCall, countP_writeCall, hb]
      constructor
      · by_cases hp : r.cqe.user_data = p
        · subst hp
          have hz : armedRead k ((dispatch k procs r.cqe mem).1.files r.cqe.user_data)
              ≠ true := fun e => (ar e).2 rfl
          rw [if_neg hz] at ihr
          simp only [true_and, Interest.noConfusion, false_and, if_false]
          simp
          omega
        · have h0 : ¬ (armedRead k ((dispatch k procs r.cqe mem).1.files p) = true ∧
              ¬ armedRead k (mem.files p) = true) := fun e => e.2 (ar e.1).1
          simp only [hp, false_and, and_false, if_false, reduceCtorEq]
          by_cases h1 : armedRead k ((dispatch k procs r.cqe mem).1.files p) = true
          · have h2 := (ar h1).1
            rw [if_pos h1] at ihr
            rw [if_pos h2]
            omega
          · rw [if_neg h1] at ihr
            split <;> omega
      · by_cases hp : r.cqe.user_data = p
        · subst hp
          have hz : armedWrite k ((dispatch k procs r.cqe mem).1.files r.cqe.user_data)
              ≠ true := fun e => (aw e).2 rfl
          rw [if_neg hz] at ihw
          by_cases hm : armedWrite k (dispatch k procs r.cqe mem).2.mid = true
          · rw [if_pos (hmid hm)]
            simp only [reduceCtorEq, false_and, if_false]
            split <;> omega
          · simp only [reduceCtorEq, false_and, if_false, hm, and_false]
            split <;> omega
        · simp only [hp, false_and, and_false, if_false, reduceCtorEq]
          by_cases h1 : armedWrite k ((dispatch k procs r.cqe mem).1.files p) = true
          · have h2 := (aw h1).1
            rw [if_pos h1] at ihw
            rw [if_pos h2]
            omega
          · rw [if_neg h1] at ihw
            split <;> omega

theorem countP_item_le (f : Call → Bool) (items : List Item) (it : Item)
    (h : it ∈ items) : it.calls.countP f ≤ (callsOf items).countP f := by
  induction items with
  | nil => cases h
  | cons a rest ih =>
    simp only [callsOf, List.map_cons, List.flatten_cons, List.countP_append]
    rcases List.mem_cons.1 h with rfl | h'
    · omega
    · have := ih h'
      simp only [callsOf] at this
      omega

/-! ## Arming: `event_uring_add_read`, `event_uring_add_write` -/

/-- C1, counterexample: with a full submission list, `event_uring_add_read` on
a file event whose mask lacks `EVENT_READ` queues nothing and does not return:
`assert(sqe)` fails. The same for `event_uring_add_write`. -/
theorem add_on_full_queue_aborts :
    (mkEvent 4 0).mask &&& EVENT_READ flags0 = 0 ∧
    event_uring_add_read flags0 fullBackend 4 (mkEvent 4 0) = none ∧
    (mkEvent 4 0).mask &&& EVENT_WRITE flags0 = 0 ∧
    event_uring_add_write flags0 fullBackend 4 (mkEvent 4 0) = none := by
  decide

/-- C1, amended: when the submission list has a free entry, for every file
event whose mask lacks `EVENT_READ`, `event_uring_add_read` returns 0, sets
the READ bit and no other bit of the mask, appends exactly one entry (carrying
the file event as user data) to the submission list and increases `appending`
by exactly one; a second `event_uring_add_read` right after it returns 0 and
changes neither the backend nor the file event. The same holds for
`event_uring_add_write` with the WRITE bit. -/
theorem add_arms_once (k : EventFlags) (ep : EVENT_URING) (p : Nat)
    (fe : FILE_EVENT) (hroom : ep.ring.sq.length < ep.ring.sq_entries) :
    (fe.mask &&& EVENT_READ k = 0 →
      ∃ ep1 fe1 sqe, event_uring_add_read k ep p fe = some (ep1, fe1, 0) ∧
        fe1.mask &&& EVENT_READ k ≠ 0 ∧
        (∀ j, fe1.mask.testBit j = (fe.mask.testBit j || decide (j = k.read))) ∧
        ep1.ring.sq = ep.ring.sq ++ [sqe] ∧ sqe.user_data = p ∧
        ep1.appending = ep.appending + 1 ∧
        event_uring_add_read k ep1 p fe1 = some (ep1, fe1, 0)) ∧
    (fe.mask &&& EVENT_WRITE k = 0 →
      ∃ ep1 fe1 sqe, event_uring_add_write k ep p fe = some (ep1, fe1, 0) ∧
        fe1.mask &&& EVENT_WRITE k ≠ 0 ∧
        (∀ j, fe1.mask.testBit j = (fe.mask.testBit j || decide (j = k.write))) ∧
        ep1.ring.sq = ep.ring.sq ++ [sqe] ∧ sqe.user_data = p ∧
        ep1.appending = ep.appending + 1 ∧
        event_uring_add_write k ep1 p fe1 = some (ep1, fe1, 0)) := by
  have hget : io_uring_get_sqe ep.ring = true := by simp [io_uring_get_sqe, hroom]
  constructor
  · intro hidle
    have hset : (fe.mask ||| EVENT_READ k) &&& EVENT_READ k ≠ 0 := by
      rw [EVENT_READ_eq]; exact set_land_self _ _
    have hbits : ∀ j, (fe.mask ||| EVENT_READ k).testBit j =
        (fe.mask.testBit j || decide (j = k.read)) := by
      intro j; rw [EVENT_READ_eq]; exact testBit_set _ _ _
    have hud : (read_sqe k p { fe with mask := fe.mask ||| EVENT_READ k }).user_data = p := by
      unfold read_sqe; split <;> rfl
    by_cases ha : (fe.mask ||| EVENT_READ k) &&& EVENT_ACCEPT k ≠ 0
    · refine ⟨{ ring := ep.ring.push (read_sqe k p { fe with mask := fe.mask ||| EVENT_READ k }),
                appending := ep.appending + 1 },
        { fe with mask := fe.mask ||| EVENT_READ k, addr_len := k.peer_addr_size },
        read_sqe k p { fe with mask := fe.mask ||| EVENT_READ k }, ?_, hset, hbits, rfl, hud, rfl, ?_⟩
      · simp [event_uring_add_read, hidle, hget, ha]
      · simp [event_uring_add_read, hset]
    · refine ⟨{ ring := ep.ring.push (read_sqe k p { fe with mask := fe.mask ||| EVENT_READ k }),
                appending := ep.appending + 1 },
        { fe with mask := fe.mask ||| EVENT_READ k },
        read_sqe k p { fe with mask := fe.mask ||| EVENT_READ k }, ?_, hset, hbits, rfl, hud, rfl, ?_⟩
      · simp [event_uring_add_read, hidle, hget, ha]
      · simp [event_uring_add_read, hset]
  · intro hidle
    have hset : (fe.mask ||| EVENT_WRITE k) &&& EVENT_WRITE k ≠ 0 := by
      rw [EVENT_WRITE_eq]; exact set_land_self _ _
    have hbits : ∀ j, (fe.mask ||| EVENT_WRITE k).testBit j =
        (fe.mask.testBit j || decide (j = k.write)) := by
      intro j; rw [EVENT_WRITE_eq]; exact testBit_set _ _ _
    have hud : (write_sqe k p { fe with mask := fe.mask ||| EVENT_WRITE k }).user_data = p := by
      unfold write_sqe; split <;> rfl
    refine ⟨{ ring := ep.ring.push (write_sqe k p { fe with mask := fe.mask ||| EVENT_WRITE k }),
              appending := ep.appending + 1 },
      { fe with mask := fe.mask ||| EVENT_WRITE k },
      write_sqe k p { fe with mask := fe.mask ||| EVENT_WRITE k }, ?_, hset, hbits, rfl, hud, rfl, ?_⟩
    · simp [event_uring_add_write, hidle, hget]
    · simp [event_uring_add_write, hset]

/-- C1, amended, on a concrete input: arming descriptor 4 for reading on an
empty ring of 8 entries. -/
theorem add_arms_once_witness :
    (emptyRing 8).sq.length < (emptyRing 8).sq_entries ∧
    (mkEvent 4 0).mask &&& EVENT_READ flags0 = 0 ∧
    ∃ ep1 fe1 sqe,
      event_uring_add_read flags0 { ring := emptyRing 8, appending := 0 } 4
        (mkEvent 4 0) = some (ep1, fe1, 0) ∧
      fe1.mask &&& EVENT_READ flags0 ≠ 0 ∧
      (∀ j, fe1.mask.testBit j =
        ((mkEvent 4 0).mask.testBit j || decide (j = flags0.read))) ∧
      ep1.ring.sq = (emptyRing 8).sq ++ [sqe] ∧ sqe.user_data = 4 ∧
      ep1.appending = 0 + 1 ∧
      event_uring_add_read flags0 ep1 4 fe1 = some (ep1, fe1, 0) :=
  ⟨by decide, by decide,
    (add_arms_once flags0 { ring := emptyRing 8, appending := 0 } 4
      (mkEvent 4 0) (by decide)).1 (by decide)⟩

/-! ## Disarming: `event_uring_del_read`, `event_uring_del_write` -/

/-- C2: for every file event (its mask an `unsigned`), `event_uring_del_read`
returns 0, leaves the backend (submission list, `appending`) and every field
of the file event other than the mask unchanged, and clears exactly the READ
bit of the mask; on a file event without READ it changes nothing, so a second
call in a row changes nothing. The same holds for `event_uring_del_write`
with the WRITE bit. -/
theorem del_clears_only_its_bit (k : EventFlags) (ep : EVENT_URING)
    (fe : FILE_EVENT) (hm : fe.mask < 2 ^ 32) :
    ((event_uring_del_read k ep fe).2.2 = 0 ∧
      (event_uring_del_read k ep fe).1 = ep ∧
      (event_uring_del_read k ep fe).2.1 =
        { fe with mask := (event_uring_del_read k ep fe).2.1.mask } ∧
      (event_uring_del_read k ep fe).2.1.mask &&& EVENT_READ k = 0 ∧
      (∀ j, (event_uring_del_read k ep fe).2.1.mask.testBit j =
        (fe.mask.testBit j && decide (j ≠ k.read))) ∧
      (fe.mask &&& EVENT_READ k = 0 → event_uring_del_read k ep fe = (ep, fe, 0)) ∧
      event_uring_del_read k ep (event_uring_del_read k ep fe).2.1 =
        event_uring_del_read k ep fe) ∧
    ((event_uring_del_write k ep fe).2.2 = 0 ∧
      (event_uring_del_write k ep fe).1 = ep ∧
      (event_uring_del_write k ep fe).2.1 =
        { fe with mask := (event_uring_del_write k ep fe).2.1.mask } ∧
      (event_uring_del_write k ep fe).2.1.mask &&& EVENT_WRITE k = 0 ∧
      (∀ j, (event_uring_del_write k ep fe).2.1.mask.testBit j =
        (fe.mask.testBit j && decide (j ≠ k.write))) ∧
      (fe.mask &&& EVENT_WRITE k = 0 → event_uring_del_write k ep fe = (ep, fe, 0)) ∧
      event_uring_del_write k ep (event_uring_del_write k ep fe).2.1 =
        event_uring_del_write k ep fe) := by
  have hr := k.ok.1.1
  have hw := k.ok.1.2.1
  constructor
  · by_cases h : fe.mask &&& EVENT_READ k = 0
    · have hb : fe.mask.testBit k.read = false := by
        rw [EVENT_READ_eq] at h; exact (land_two_pow_eq_zero _ _).1 h
      have e : event_uring_del_read k ep fe = (ep, fe, 0) := by
        simp [event_uring_del_read, h]
      refine ⟨by rw [e], by rw [e], by rw [e], by rw [e]; exact h, ?_, fun _ => e, by rw [e]; exact e⟩
      intro j
      rw [e]
      by_cases hj : j = k.read
      · subst hj; simp [hb]
      · simp [hj]
    · have e : event_uring_del_read k ep fe =
          (ep, { fe with mask := fe.mask &&& unot (EVENT_READ k) }, 0) := by
        simp [event_uring_del_read, h]
      have hc : (fe.mask &&& unot (EVENT_READ k)) &&& EVENT_READ k = 0 := by
        rw [EVENT_READ_eq]; exact clear_land_self _ _ hr
      refine ⟨by rw [e], by rw [e], by rw [e], by rw [e]; exact hc, ?_, fun h0 => absurd h0 h, ?_⟩
      · intro j
        rw [e]; simp only [EVENT_READ_eq]; exact testBit_clear _ _ _ hm
      · rw [e]; simp [event_uring_del_read, hc]
  · by_cases h : fe.mask &&& EVENT_WRITE k = 0
    · have hb : fe.mask.testBit k.write = false := by
        rw [EVENT_WRITE_eq] at h; exact (land_two_pow_eq_zero _ _).1 h
      have e : event_uring_del_write k ep fe = (ep, fe, 0) := by
        simp [event_uring_del_write, h]
      refine ⟨by rw [e], by rw [e], by rw [e], by rw [e]; exact h, ?_, fun _ => e, by rw [e]; exact e⟩
      intro j
      rw [e]
      by_cases hj : j = k.write
      · subst hj; simp [hb]
      · simp [hj]
    · have e : event_uring_del_write k ep fe =
          (ep, { fe with mask := fe.mask &&& unot (EVENT_WRITE k) }, 0) := by
        simp [event_uring_del_write, h]
      have hc : (fe.mask &&& unot (EVENT_WRITE k)) &&& EVENT_WRITE k = 0 := by
        rw [EVENT_WRITE_eq]; exact clear_land_self _ _ hw
      refine ⟨by rw [e], by rw [e], by rw [e], by rw [e]; exact hc, ?_, fun h0 => absurd h0 h, ?_⟩
      · intro j
        rw [e]; simp only [EVENT_WRITE_eq]; exact testBit_clear _ _ _ hm
      · rw [e]; simp [event_uring_del_write, hc]

/-- C2 on a concrete input: disarming READ on descriptor 7 with READ and
WRITE armed. -/
theorem del_clears_only_its_bit_witness :
    (mkEvent 7 3).mask < 2 ^ 32 ∧
    (event_uring_del_read flags0 fullBackend (mkEvent 7 3)).2.2 = 0 ∧
    (event_uring_del_read flags0 fullBackend (mkEvent 7 3)).1 = fullBackend ∧
    (event_uring_del_read flags0 fullBackend (mkEvent 7 3)).2.1.mask
      &&& EVENT_READ flags0 = 0 ∧
    (event_uring_del_read flags0 fullBackend (mkEvent 7 3)).2.1.mask = 2 :=
  ⟨by decide,
    (del_clears_only_its_bit flags0 fullBackend (mkEvent 7 3) (by decide)).1.1,
    (del_clears_only_its_bit flags0 fullBackend (mkEvent 7 3) (by decide)).1.2.1,
    (del_clears_only_its_bit flags0 fullBackend (mkEvent 7 3) (by decide)).1.2.2.2.1,
    by decide⟩

/-! ## Dispatch: `event_uring_wait` -/

theorem keepsArming_idleProcs : KeepsArming idleProcs :=
  fun _ _ _ _ => ⟨rfl, rfl, rfl⟩

theorem readCall_spec (k : EventFlags) (cqe : io_uring_cqe) (fe : FILE_EVENT) :
    ∀ c ∈ readCall k cqe fe, c.kind = Interest.read ∧ c.fe = cqe.user_data ∧
      some c.proc = fe.r_proc ∧ c.seen = mark_read k cqe.res fe := by
  intro c hc
  unfold readCall at hc
  split at hc
  · split at hc
    · simp at hc
    · rename_i f hf
      simp only [List.mem_singleton] at hc
      subst hc
      exact ⟨rfl, rfl, hf.symm, rfl⟩
  · simp at hc

theorem writeCall_spec (k : EventFlags) (cqe : io_uring_cqe) (fe : FILE_EVENT) :
    ∀ c ∈ writeCall k cqe fe, c.kind = Interest.write ∧ c.fe = cqe.user_data ∧
      some c.proc = fe.w_proc ∧ c.seen = mark_write k cqe.res fe := by
  intro c hc
  unfold writeCall at hc
  split at hc
  · split at hc
    · simp at hc
    · rename_i f hf
      simp only [List.mem_singleton] at hc
      subst hc
      exact ⟨rfl, rfl, hf.symm, rfl⟩
  · simp at hc

/-- Every pass through the dispatch step calls `r_proc` exactly when it finds
READ armed and then `w_proc` exactly when the write half finds WRITE armed;
each callback is entered with its bit cleared and the result stored. -/
theorem item_calls (k : EventFlags) (procs : Procs) (mem : Mem) (cq : List Reply)
    (timeout : Int) :
    ∀ it ∈ (event_uring_wait k procs mem cq timeout).items,
      it.calls.map Call.kind =
        (if armedRead k it.before = true then [Interest.read] else []) ++
        (if armedWrite k it.mid = true then [Interest.write] else []) ∧
      (armedRead k it.before = false → it.mid = it.before) ∧
      (KeepsArming procs → armedWrite k it.mid = armedWrite k it.before) ∧
      (∀ c ∈ it.calls, c.fe = it.cqe.user_data ∧
        (c.kind = Interest.read → some c.proc = it.before.r_proc ∧
          c.seen = mark_read k it.cqe.res it.before) ∧
        (c.kind = Interest.write → some c.proc = it.mid.w_proc ∧
          c.seen = mark_write k it.cqe.res it.mid)) := by
  apply wait_loop_items_forall
  intro cqe m
  obtain ⟨h1, h2, h3, h4⟩ := dispatch_item_spec k procs cqe m
  refine ⟨?_, h4, fun hk => dispatch_item_keeps k procs hk cqe m, ?_⟩
  · rw [h3, List.map_append, readCall_kinds, writeCall_kinds]
  · intro c hc
    rw [h3, List.mem_append] at hc
    rw [h1]
    rcases hc with hc | hc
    · obtain ⟨e1, e2, e3, e4⟩ := readCall_spec k cqe _ c hc
      exact ⟨e2, fun _ => ⟨e3, e4⟩, fun hw => by rw [e1] at hw; cases hw⟩
    · obtain ⟨e1, e2, e3, e4⟩ := writeCall_spec k cqe _ c hc
      exact ⟨e2, (fun hr => by rw [e1] at hr; cases hr), fun _ => ⟨e3, e4⟩⟩

/-- C3, counterexample: descriptor 7 is armed for READ with `r_proc` set and
its completion arrives with the result `-ENOBUFS`; the call consumes the
completion, returns -1 and never invokes `r_proc`, and READ stays set. -/
theorem enobufs_completion_calls_nothing :
    armedRead flags0 ((memWith 1).files 7) = true ∧
    (event_uring_wait flags0 idleProcs (memWith 1) [completion 7 (-ENOBUFS)] 100).ret
      = some (-1) ∧
    (event_uring_wait flags0 idleProcs (memWith 1) [completion 7 (-ENOBUFS)] 100).cq
      = [] ∧
    callsFor Interest.read 7
      (event_uring_wait flags0 idleProcs (memWith 1) [completion 7 (-ENOBUFS)] 100).items
      = 0 ∧
    ((event_uring_wait flags0 idleProcs (memWith 1) [completion 7 (-ENOBUFS)] 100).mem.files
      7).mask &&& EVENT_READ flags0 ≠ 0 := by
  decide

/-- C3, amended: in any single `event_uring_wait` call every callback is
entered with its mask bit already cleared. The call takes through the
dispatch step exactly the successful answers at the head of the queue whose
result is not `-ENOBUFS`. When the callbacks do not re-arm, no callback of any
file event is invoked more than once in the call, and each interest that is
armed (bit set, callback set) when such a completion of its file event reaches
its half of the dispatch step has its callback invoked exactly once in the
call, however many further completions the call takes up for that file event.
When the callbacks neither arm nor disarm, this holds for each interest armed
at the call for whose file event such a completion is in the queue. -/
theorem dispatch_exactly_once (k : EventFlags) (procs : Procs) (mem : Mem)
    (cq : List Reply) (timeout : Int) :
    (∀ it ∈ (event_uring_wait k procs mem cq timeout).items, ∀ c ∈ it.calls,
      (c.kind = Interest.read → c.seen.mask &&& EVENT_READ k = 0) ∧
      (c.kind = Interest.write → c.seen.mask &&& EVENT_WRITE k = 0)) ∧
    (event_uring_wait k procs mem cq timeout).items.map Item.cqe =
      (cq.takeWhile Reply.dispatched).map Reply.cqe ∧
    (NoRearm k procs →
      (∀ p,
        callsFor Interest.read p (event_uring_wait k procs mem cq timeout).items ≤ 1 ∧
        callsFor Interest.write p (event_uring_wait k procs mem cq timeout).items ≤ 1) ∧
      (∀ it ∈ (event_uring_wait k procs mem cq timeout).items,
        (armedRead k it.before = true →
          callsFor Interest.read it.cqe.user_data
            (event_uring_wait k procs mem cq timeout).items = 1) ∧
        (armedWrite k it.mid = true →
          callsFor Interest.write it.cqe.user_data
            (event_uring_wait k procs mem cq timeout).items = 1))) ∧
    (KeepsArming procs → ∀ p,
      (∃ r ∈ cq.takeWhile Reply.dispatched, r.cqe.user_data = p) →
      (armedRead k (mem.files p) = true →
        callsFor Interest.read p (event_uring_wait k procs mem cq timeout).items = 1) ∧
      (armedWrite k (mem.files p) = true →
        callsFor Interest.write p (event_uring_wait k procs mem cq timeout).items = 1)) := by
  refine ⟨?_, wait_loop_items_cqe k procs (wait_timespec timeout) cq 0
    { mem with ep := wait_flush mem.ep }, ?_, ?_⟩
  · intro it hit c hc
    obtain ⟨_, _, _, h⟩ := item_calls k procs mem cq timeout it hit
    obtain ⟨_, hr, hw⟩ := h c hc
    constructor
    · intro e; rw [(hr e).2]; exact mark_read_land_read _ _ _
    · intro e; rw [(hw e).2]; exact mark_write_land_write _ _ _
  · intro hn
    have hle : ∀ p,
        callsFor Interest.read p (event_uring_wait k procs mem cq timeout).items ≤ 1 ∧
        callsFor Interest.write p (event_uring_wait k procs mem cq timeout).items ≤ 1 := by
      intro p
      obtain ⟨hr, hw⟩ := callsFor_le_armed k procs hn (wait_timespec timeout) p cq 0
        { mem with ep := wait_flush mem.ep }
      unfold event_uring_wait
      constructor
      · refine le_trans hr ?_; split <;> omega
      · refine le_trans hw ?_; split <;> omega
    refine ⟨hle, ?_⟩
    intro it hit
    have hcalls : it.calls = readCall k it.cqe it.before ++ writeCall k it.cqe it.mid := by
      revert it
      apply wait_loop_items_forall
      intro cqe m
      obtain ⟨h1, _, h3, _⟩ := dispatch_item_spec k procs cqe m
      rw [h1]; exact h3
    constructor
    · intro ha
      have hge := countP_item_le
        (fun c => decide (c.kind = Interest.read ∧ c.fe = it.cqe.user_data)) _ it hit
      rw [hcalls, List.countP_append, countP_readCall, if_pos ⟨rfl, rfl, ha⟩] at hge
      have := (hle it.cqe.user_data).1
      unfold callsFor at this ⊢
      omega
    · intro ha
      have hge := countP_item_le
        (fun c => decide (c.kind = Interest.write ∧ c.fe = it.cqe.user_data)) _ it hit
      rw [hcalls, List.countP_append, countP_writeCall, if_pos ⟨rfl, rfl, ha⟩] at hge
      have := (hle it.cqe.user_data).2
      unfold callsFor at this ⊢
      omega
  · intro hk p hp
    obtain ⟨hr, hw⟩ := callsFor_wait_loop k procs hk (wait_timespec timeout) p cq 0
      { mem with ep := wait_flush mem.ep }
    constructor
    · intro ha
      unfold event_uring_wait
      rw [hr, if_pos ⟨ha, hp⟩]
    · intro ha
      unfold event_uring_wait
      rw [hw, if_pos ⟨ha, hp⟩]

/-- C3, amended, on a concrete input: descriptor 7 armed for READ and one
completion give one `r_proc` call, the return value 1 and a mask without
READ. -/
theorem dispatch_exactly_once_witness :
    KeepsArming idleProcs ∧
    (∃ r ∈ [completion 7 10].takeWhile Reply.dispatched, r.cqe.user_data = 7) ∧
    armedRead flags0 ((memWith 1).files 7) = true ∧
    callsFor Interest.read 7
      (event_uring_wait flags0 idleProcs (memWith 1) [completion 7 10] 100).items = 1 ∧
    (event_uring_wait flags0 idleProcs (memWith 1) [completion 7 10] 100).ret = some 1 ∧
    ((event_uring_wait flags0 idleProcs (memWith 1) [completion 7 10] 100).mem.files
      7).mask &&& EVENT_READ flags0 = 0 :=
  ⟨keepsArming_idleProcs, ⟨completion 7 10, by decide, rfl⟩, by decide,
    ((dispatch_exactly_once flags0 idleProcs (memWith 1) [completion 7 10] 100).2.2.2
      keepsArming_idleProcs 7 ⟨completion 7 10, by decide, rfl⟩).1 (by decide),
    by decide, by decide⟩

/-- C4, counterexample: descriptor 7 has READ and WRITE armed, both callbacks
set; for its one completion the dispatch step invokes `r_proc` and then
`w_proc`. -/
theorem both_armed_calls_both :
    armedRead flags0 ((memWith 3).files 7) = true ∧
    armedWrite flags0 ((memWith 3).files 7) = true ∧
    (event_uring_wait flags0 idleProcs (memWith 3) [completion 7 10] 100).items.map
        (fun it => it.calls.map Call.kind)
      = [[Interest.read, Interest.write]] := by
  decide

/-- C4, amended: for every completion entry that `event_uring_wait` takes
through the dispatch step, `r_proc` is invoked exactly when READ is armed
(bit set, callback set) and `w_proc` exactly when, after that, WRITE is
armed; each is entered after its interest bit was cleared and the result
stored. So exactly one callback is invoked when exactly one interest is
armed, and both, `r_proc` first, when both are armed and `r_proc` leaves the
arming alone. -/
theorem dispatch_calls_each_armed_interest (k : EventFlags) (procs : Procs)
    (mem : Mem) (cq : List Reply) (timeout : Int) :
    ∀ it ∈ (event_uring_wait k procs mem cq timeout).items,
      it.calls.map Call.kind =
        (if armedRead k it.before = true then [Interest.read] else []) ++
        (if armedWrite k it.mid = true then [Interest.write] else []) ∧
      (armedRead k it.before = false → it.mid = it.before) ∧
      (KeepsArming procs → armedWrite k it.mid = armedWrite k it.before) ∧
      (∀ c ∈ it.calls,
        (c.kind = Interest.read → some c.proc = it.before.r_proc ∧
          c.seen = mark_read k it.cqe.res it.before ∧
          c.seen.mask &&& EVENT_READ k = 0 ∧
          (c.seen.iocp_sock = it.cqe.res ∨ c.seen.rlen = it.cqe.res)) ∧
        (c.kind = Interest.write → some c.proc = it.mid.w_proc ∧
          c.seen = mark_write k it.cqe.res it.mid ∧
          c.seen.mask &&& EVENT_WRITE k = 0 ∧
          (c.seen.iocp_sock = it.cqe.res ∨ c.seen.wlen = it.cqe.res))) := by
  intro it hit
  obtain ⟨h1, h2, h3, h4⟩ := item_calls k procs mem cq timeout it hit
  refine ⟨h1, h2, h3, ?_⟩
  intro c hc
  obtain ⟨_, hr, hw⟩ := h4 c hc
  constructor
  · intro e
    obtain ⟨e1, e2⟩ := hr e
    refine ⟨e1, e2, by rw [e2]; exact mark_read_land_read _ _ _, ?_⟩
    rw [e2]
    by_cases ha : it.before.mask &&& EVENT_ACCEPT k = 0
    · right; rw [(mark_read_stores k it.cqe.res it.before).2 ha]
    · left; rw [(mark_read_stores k it.cqe.res it.before).1 ha]
  · intro e
    obtain ⟨e1, e2⟩ := hw e
    refine ⟨e1, e2, by rw [e2]; exact mark_write_land_write _ _ _, ?_⟩
    rw [e2]
    by_cases ha : it.mid.mask &&& EVENT_CONNECT k = 0
    · right; rw [(mark_write_stores k it.cqe.res it.mid).2 ha]
    · left; rw [(mark_write_stores k it.cqe.res it.mid).1 ha]

/-- C4, amended, on a concrete input: descriptor 7 with only WRITE armed gets
exactly the `w_proc` call for its completion. -/
theorem dispatch_calls_each_armed_interest_witness :
    (dispatch flags0 idleProcs (completion 7 10).cqe (memWith 2)).2 ∈
      (event_uring_wait flags0 idleProcs (memWith 2) [completion 7 10] 100).items ∧
    armedRead flags0
      (dispatch flags0 idleProcs (completion 7 10).cqe (memWith 2)).2.before = false ∧
    (dispatch flags0 idleProcs (completion 7 10).cqe (memWith 2)).2.mid =
      (dispatch flags0 idleProcs (completion 7 10).cqe (memWith 2)).2.before ∧
    (dispatch flags0 idleProcs (completion 7 10).cqe (memWith 2)).2.calls.map Call.kind
      = [Interest.write] :=
  ⟨by decide, by decide,
    (dispatch_calls_each_armed_interest flags0 idleProcs (memWith 2)
      [completion 7 10] 100 _ (by decide)).2.1 (by decide),
    by decide⟩

/-- C7: for every memory (so every set of armed events), every behaviour of
the callbacks and every timeout >= 0, when the wait for the first completion
ends with `-ETIME` (either no answer is left and the timeout runs out, or the
library answers `-ETIME`), `event_uring_wait` returns 0, invokes no callback
and leaves every file event unchanged. -/
theorem timeout_returns_zero (k : EventFlags) (procs : Procs) (mem : Mem)
    (cq : List Reply) (timeout : Int) (ht : 0 ≤ timeout)
    (hcq : cq = [] ∨ ∃ r rest, cq = r :: rest ∧ r.ret = -ETIME) :
    (event_uring_wait k procs mem cq timeout).ret = some 0 ∧
    (event_uring_wait k procs mem cq timeout).items = [] ∧
    callsOf (event_uring_wait k procs mem cq timeout).items = [] ∧
    (event_uring_wait k procs mem cq timeout).mem.files = mem.files := by
  unfold event_uring_wait
  rcases hcq with rfl | ⟨r, rest, rfl, hr⟩
  · obtain ⟨h1, h2, _, h4⟩ := wait_loop_nil k procs (wait_timespec timeout) 0
      { mem with ep := wait_flush mem.ep }
    rw [h1, h2, h4]
    have htp : wait_timespec timeout =
        some { tv_sec := timeout.tdiv 1000, tv_nsec := (timeout.tmod 1000) * 1000000 } := by
      simp [wait_timespec, ht]
    rw [htp]
    simp [callsOf]
  · have hd : r.dispatched = false := by
      have : r.ret ≠ 0 := by rw [hr]; decide
      simp [Reply.dispatched, this]
    obtain ⟨h1, h2, _, h4⟩ := wait_loop_stopped k procs (wait_timespec timeout) r rest 0
      { mem with ep := wait_flush mem.ep } hd
    rw [h1, h2, h4, if_pos hr]
    simp [callsOf]

/-- C7 on a concrete input: descriptor 3 armed for READ, `wait(500)` with no
completion returns 0 and leaves READ armed. -/
theorem timeout_returns_zero_witness :
    (0 : Int) ≤ 500 ∧
    (event_uring_wait flags0 idleProcs (memWith 1) [] 500).ret = some 0 ∧
    callsOf (event_uring_wait flags0 idleProcs (memWith 1) [] 500).items = [] ∧
    (event_uring_wait flags0 idleProcs (memWith 1) [] 500).mem.files
      = (memWith 1).files ∧
    armedRead flags0
      ((event_uring_wait flags0 idleProcs (memWith 1) [] 500).mem.files 3) = true :=
  ⟨by decide,
    (timeout_returns_zero flags0 idleProcs (memWith 1) [] 500 (by decide)
      (Or.inl rfl)).1,
    (timeout_returns_zero flags0 idleProcs (memWith 1) [] 500 (by decide)
      (Or.inl rfl)).2.2.1,
    (timeout_returns_zero flags0 idleProcs (memWith 1) [] 500 (by decide)
      (Or.inl rfl)).2.2.2,
    by decide⟩

/-! ## Callbacks that do not disarm -/

theorem noDisarm_of_keepsArming (k : EventFlags) (procs : Procs) (hk : KeepsArming procs) :
    NoDisarm k procs := by
  intro f q mem p
  obtain ⟨h1, h2, h3⟩ := hk f q mem p
  simp only [armedRead, armedWrite, h1, h2, h3]
  exact ⟨fun h => ⟨h, trivial⟩, fun h => ⟨h, trivial⟩⟩

theorem noDisarm_idleProcs (k : EventFlags) : NoDisarm k idleProcs :=
  fun _ _ _ _ => ⟨fun h => ⟨h, rfl⟩, fun h => ⟨h, rfl⟩⟩

theorem armed_kept_by_read (k : EventFlags) (procs : Procs) (hk : NoDisarm k procs)
    (res : Int) (q : Nat) (mem : Mem) (x : Nat) :
    (armedWrite k (mem.files x) = true →
      armedWrite k ((dispatch_read k procs res q mem).1.files x) = true ∧
      ((dispatch_read k procs res q mem).1.files x).w_proc = (mem.files x).w_proc) ∧
    (x ≠ q → armedRead k (mem.files x) = true →
      armedRead k ((dispatch_read k procs res q mem).1.files x) = true ∧
      ((dispatch_read k procs res q mem).1.files x).r_proc = (mem.files x).r_proc) := by
  cases ha : armedRead k (mem.files q) with
  | false =>
    rw [dispatch_read_idle k procs res q mem ha]
    exact ⟨fun h => ⟨h, rfl⟩, fun _ h => ⟨h, rfl⟩⟩
  | true =>
    obtain ⟨hb, f, hf⟩ := (armedRead_iff k _).1 ha
    rw [dispatch_read_armed k procs res q mem f hb hf]
    obtain ⟨n1, n2⟩ := hk f q
      { ep := mem.ep,
        files := Function.update mem.files q (mark_read k res (mem.files q)) } x
    constructor
    · intro hw
      have hw1 : armedWrite k (Function.update mem.files q
          (mark_read k res (mem.files q)) x) = true ∧
          (Function.update mem.files q (mark_read k res (mem.files q)) x).w_proc =
            (mem.files x).w_proc := by
        by_cases hx : x = q
        · subst hx
          rw [Function.update_same, (armed_mark_read k res _).2, mark_read_w_proc]
          exact ⟨hw, rfl⟩
        · rw [Function.update_noteq hx]
          exact ⟨hw, rfl⟩
      obtain ⟨a, b⟩ := n2 hw1.1
      exact ⟨a, b.trans hw1.2⟩
    · intro hx hr
      have hr1 : armedRead k (Function.update mem.files q
          (mark_read k res (mem.files q)) x) = true := by
        rw [Function.update_noteq hx]; exact hr
      obtain ⟨a, b⟩ := n1 hr1
      refine ⟨a, b.trans ?_⟩
      show (Function.update mem.files q (mark_read k res (mem.files q)) x).r_proc = _
      rw [Function.update_noteq hx]

theorem armed_kept_by_write (k : EventFlags) (procs : Procs) (hk : NoDisarm k procs)
    (res : Int) (q : Nat) (mem : Mem) (x : Nat) :
    (armedRead k (mem.files x) = true →
      armedRead k ((dispatch_write k procs res q mem).1.files x) = true ∧
      ((dispatch_write k procs res q mem).1.files x).r_proc = (mem.files x).r_proc) ∧
    (x ≠ q → armedWrite k (mem.files x) = true →
      armedWrite k ((dispatch_write k procs res q mem).1.files x) = true ∧
      ((dispatch_write k procs res q mem).1.files x).w_proc = (mem.files x).w_proc) := by
  cases ha : armedWrite k (mem.files q) with
  | false =>
    rw [dispatch_write_idle k procs res q mem ha]
    exact ⟨fun h => ⟨h, rfl⟩, fun _ h => ⟨h, rfl⟩⟩
  | true =>
    obtain ⟨hb, f, hf⟩ := (armedWrite_iff k _).1 ha
    rw [dispatch_write_armed k procs res q mem f hb hf]
    obtain ⟨n1, n2⟩ := hk f q
      { ep := mem.ep,
        files := Function.update mem.files q (mark_write k res (mem.files q)) } x
    constructor
    · intro hw
      have hw1 : armedRead k (Function.update mem.files q
          (mark_write k res (mem.files q)) x) = true ∧
          (Function.update mem.files q (mark_write k res (mem.files q)) x).r_proc =
            (mem.files x).r_proc := by
        by_cases hx : x = q
        · subst hx
          rw [Function.update_same, (armed_mark_write k res _).2, mark_write_r_proc]
          exact ⟨hw, rfl⟩
        · rw [Function.update_noteq hx]
          exact ⟨hw, rfl⟩
      obtain ⟨a, b⟩ := n1 hw1.1
      exact ⟨a, b.trans hw1.2⟩
    · intro hx hr
      have hr1 : armedWrite k (Function.update mem.files q
          (mark_write k res (mem.files q)) x) = true := by
        rw [Function.update_noteq hx]; exact hr
      obtain ⟨a, b⟩ := n2 hr1
      refine ⟨a, b.trans ?_⟩
      show (Function.update mem.files q (mark_write k res (mem.files q)) x).w_proc = _
      rw [Function.update_noteq hx]

theorem armed_kept_by_dispatch (k : EventFlags) (procs : Procs) (hk : NoDisarm k procs)
    (cqe : io_uring_cqe) (mem : Mem) (x : Nat) (hx : x ≠ cqe.user_data) :
    (armedRead k (mem.files x) = true →
      armedRead k ((dispatch k procs cqe mem).1.files x) = true ∧
      ((dispatch k procs cqe mem).1.files x).r_proc = (mem.files x).r_proc) ∧
    (armedWrite k (mem.files x) = true →
      armedWrite k ((dispatch k procs cqe mem).1.files x) = true ∧
      ((dispatch k procs cqe mem).1.files x).w_proc = (mem.files x).w_proc) := by
  simp only [dispatch]
  obtain ⟨r1, r2⟩ := armed_kept_by_read k procs hk cqe.res cqe.user_data mem x
  obtain ⟨w1, w2⟩ := armed_kept_by_write k procs hk cqe.res cqe.user_data
    (dispatch_read k procs cqe.res cqe.user_data mem).1 x
  constructor
  · intro h
    obtain ⟨a, b⟩ := r2 hx h
    obtain ⟨c, d⟩ := w1 a
    exact ⟨c, d.trans b⟩
  · intro h
    obtain ⟨a, b⟩ := r1 h
    obtain ⟨c, d⟩ := w2 hx a
    exact ⟨c, d.trans b⟩

theorem mem_of_map_singleton {α β : Type} (g : α → β) (l : List α) (t : β)
    (h : l.map g = [t]) : ∃ c ∈ l, g c = t := by
  cases l with
  | nil => cases h
  | cons a l =>
    simp only [List.map_cons, List.cons.injEq] at h
    exact ⟨a, List.mem_cons_self _ _, h.1⟩

theorem wait_loop_owed (k : EventFlags) (procs : Procs) (hk : NoDisarm k procs)
    (tp : Option timespec) (files0 : Nat → FILE_EVENT) :
    ∀ (cq : List Reply) (count : Nat) (mem : Mem),
      (∀ r ∈ cq, r.dispatched = true) →
      (cq.map (fun r => r.cqe.user_data)).Nodup →
      (∀ r ∈ cq,
        (armedRead k (files0 r.cqe.user_data) = true →
          armedRead k (mem.files r.cqe.user_data) = true ∧
          (mem.files r.cqe.user_data).r_proc = (files0 r.cqe.user_data).r_proc) ∧
        (armedRead k (files0 r.cqe.user_data) = false →
          armedWrite k (mem.files r.cqe.user_data) = true ∧
          (mem.files r.cqe.user_data).w_proc = (files0 r.cqe.user_data).w_proc)) →
      List.Forall₂ (fun r it => it.cqe = r.cqe ∧
          ∃ c ∈ it.calls, (c.fe, c.kind, some c.proc) = owedCallback k files0 r)
        cq (wait_loop k procs tp cq count mem).items := by
  intro cq
  induction cq with
  | nil =>
    intro count mem _ _ _
    rw [(wait_loop_nil k procs tp count mem).1]
    exact List.Forall₂.nil
  | cons r rest ih =>
    intro count mem hd hn ha
    have hr : r.dispatched = true := hd r (List.mem_cons_self _ _)
    rw [wait_loop_dispatched k procs tp r rest count mem hr]
    simp only [List.map_cons, List.nodup_cons, List.mem_map, not_exists, not_and] at hn
    have hne : ∀ r' ∈ rest, r'.cqe.user_data ≠ r.cqe.user_data :=
      fun r' hr' => hn.1 r' hr'
    refine List.Forall₂.cons ?_ (ih (count + 1) (dispatch k procs r.cqe mem).1
      (fun r' hr' => hd r' (List.mem_cons_of_mem _ hr')) hn.2 ?_)
    · obtain ⟨hq, hb, hc, hm⟩ := dispatch_item_spec k procs r.cqe mem
      refine ⟨hq, ?_⟩
      rw [hc, hb]
      obtain ⟨a1, a2⟩ := ha r (List.mem_cons_self _ _)
      cases h0 : armedRead k (files0 r.cqe.user_data) with
      | true =>
        obtain ⟨b1, b2⟩ := a1 h0
        obtain ⟨c, hcm, hce⟩ := mem_of_map_singleton _ _ _ (readCall_armed k r.cqe _ b1)
        refine ⟨c, List.mem_append_left _ hcm, ?_⟩
        rw [hce, b2]
        simp [owedCallback, h0]
      | false =>
        obtain ⟨b1, b2⟩ := a2 h0
        have hmid : armedWrite k (dispatch k procs r.cqe mem).2.mid = true ∧
            (dispatch k procs r.cqe mem).2.mid.w_proc =
              (mem.files r.cqe.user_data).w_proc := by
          simp only [dispatch]
          exact (armed_kept_by_read k procs hk r.cqe.res r.cqe.user_data mem
            r.cqe.user_data).1 b1
        obtain ⟨c, hcm, hce⟩ := mem_of_map_singleton _ _ _
          (writeCall_armed k r.cqe _ hmid.1)
        refine ⟨c, List.mem_append_right _ hcm, ?_⟩
        rw [hce, hmid.2, b2]
        simp [owedCallback, h0]
    · intro r' hr'
      obtain ⟨a1, a2⟩ := ha r' (List.mem_cons_of_mem _ hr')
      obtain ⟨d1, d2⟩ := armed_kept_by_dispatch k procs hk r.cqe mem r'.cqe.user_data
        (hne r' hr')
      constructor
      · intro h0
        obtain ⟨b1, b2⟩ := a1 h0
        obtain ⟨e1, e2⟩ := d1 b1
        exact ⟨e1, e2.trans b2⟩
      · intro h0
        obtain ⟨b1, b2⟩ := a2 h0
        obtain ⟨e1, e2⟩ := d2 b1
        exact ⟨e1, e2.trans b2⟩

/-- C6, counterexample: descriptors 5 and 6 are armed for READ only, with
`r_proc` set, and both completions are queued; the `r_proc` of descriptor 5
calls `event_uring_del_read` on descriptor 6. The call takes both completions
and returns 2, and the only callback it invokes is the `r_proc` of
descriptor 5. -/
theorem disarmed_completion_skips_callback :
    armedRead flags0 ((memWith 1).files 5) = true ∧
    armedWrite flags0 ((memWith 1).files 5) = false ∧
    armedRead flags0 ((memWith 1).files 6) = true ∧
    armedWrite flags0 ((memWith 1).files 6) = false ∧
    (event_uring_wait flags0 disarmProcs (memWith 1)
      [completion 5 10, completion 6 20] 1000).ret = some 2 ∧
    (event_uring_wait flags0 disarmProcs (memWith 1)
      [completion 5 10, completion 6 20] 1000).cq = [] ∧
    (callsOf (event_uring_wait flags0 disarmProcs (memWith 1)
      [completion 5 10, completion 6 20] 1000).items).map
        (fun c => (c.fe, c.kind)) = [(5, Interest.read)] := by
  decide

/-- C6, amended: when the callbacks do not disarm (an interest armed when a
callback is entered is armed, with the same callback, when it returns), for
every n >= 1 completions queued at the call (successful answers, none with
the result `-ENOBUFS`, so the call does not end in an error) that belong to n
distinct file events, each with exactly one interest armed, a single
`event_uring_wait` call returns n, leaves no answer in the queue, takes the n
completions through the dispatch step in queue order and, in the pass of each
completion, invokes the callback owed to it. When the callbacks neither arm
nor disarm, these n invocations are all the invocations of the call. -/
theorem wait_drains_queue (k : EventFlags) (procs : Procs) (hk : NoDisarm k procs)
    (mem : Mem) (cq : List Reply) (timeout : Int) (hne : cq ≠ [])
    (hok : ∀ r ∈ cq, r.ret = 0 ∧ r.cqe.res ≠ -ENOBUFS)
    (hnd : (cq.map (fun r => r.cqe.user_data)).Nodup)
    (hone : ∀ r ∈ cq, armedRead k (mem.files r.cqe.user_data) ≠
      armedWrite k (mem.files r.cqe.user_data)) :
    (event_uring_wait k procs mem cq timeout).ret = some (cq.length : Int) ∧
    (event_uring_wait k procs mem cq timeout).cq = [] ∧
    (event_uring_wait k procs mem cq timeout).items.map Item.cqe = cq.map Reply.cqe ∧
    List.Forall₂ (fun r it => it.cqe = r.cqe ∧
        ∃ c ∈ it.calls, (c.fe, c.kind, some c.proc) = owedCallback k mem.files r)
      cq (event_uring_wait k procs mem cq timeout).items ∧
    (KeepsArming procs →
      (callsOf (event_uring_wait k procs mem cq timeout).items).map
          (fun c => (c.fe, c.kind, some c.proc)) = cq.map (owedCallback k mem.files) ∧
      (callsOf (event_uring_wait k procs mem cq timeout).items).length = cq.length) := by
  have hd : ∀ r ∈ cq, r.dispatched = true := by
    intro r hr
    simp [Reply.dispatched, (hok r hr).1, (hok r hr).2]
  have htake : cq.takeWhile Reply.dispatched = cq := List.takeWhile_eq_self_iff.2 hd
  have hdrop : cq.dropWhile Reply.dispatched = [] := List.dropWhile_eq_nil_iff.2 hd
  have hpos : 0 < cq.length := List.length_pos.2 hne
  obtain ⟨hr, hq⟩ := wait_loop_ret k procs (wait_timespec timeout) cq 0
    { mem with ep := wait_flush mem.ep }
  have hitems := wait_loop_items_cqe k procs (wait_timespec timeout) cq 0
    { mem with ep := wait_flush mem.ep }
  have howed := wait_loop_owed k procs hk (wait_timespec timeout) mem.files cq 0
    { mem with ep := wait_flush mem.ep } hd hnd (fun r hr' =>
      ⟨fun h => ⟨h, rfl⟩, fun h => by
        have h1 := hone r hr'
        rw [h] at h1
        cases hw : armedWrite k (mem.files r.cqe.user_data) with
        | false => rw [hw] at h1; exact absurd rfl h1
        | true => exact ⟨rfl, rfl⟩⟩)
  rw [htake] at hitems
  rw [hdrop, htake] at hr
  rw [hdrop] at hq
  unfold event_uring_wait
  refine ⟨?_, hq, hitems, howed, ?_⟩
  · rw [hr]
    simp only [Nat.zero_add]
    rw [if_pos hpos]
  · intro hka
    have hcalls := wait_loop_all_calls k procs hka (wait_timespec timeout) cq 0
      { mem with ep := wait_flush mem.ep } hd hnd hone
    refine ⟨hcalls, ?_⟩
    have := congrArg List.length hcalls
    simpa using this

/-- C6, amended, on a concrete input: descriptors 5 and 6 both complete,
`wait(1000)` returns 2 with both `r_proc` callbacks invoked. -/
theorem wait_drains_queue_witness :
    NoDisarm flags0 idleProcs ∧
    (event_uring_wait flags0 idleProcs (memWith 1)
      [completion 5 10, completion 6 20] 1000).ret = some 2 ∧
    (event_uring_wait flags0 idleProcs (memWith 1)
      [completion 5 10, completion 6 20] 1000).cq = [] ∧
    (callsOf (event_uring_wait flags0 idleProcs (memWith 1)
      [completion 5 10, completion 6 20] 1000).items).map
        (fun c => (c.fe, c.kind, some c.proc)) =
      [(5, Interest.read, some 100), (6, Interest.read, some 100)] :=
  ⟨noDisarm_idleProcs flags0,
    (wait_drains_queue flags0 idleProcs (noDisarm_idleProcs flags0) (memWith 1)
      [completion 5 10, completion 6 20] 1000 (by decide) (by decide) (by decide)
      (by decide)).1,
    (wait_drains_queue flags0 idleProcs (noDisarm_idleProcs flags0) (memWith 1)
      [completion 5 10, completion 6 20] 1000 (by decide) (by decide) (by decide)
      (by decide)).2.1,
    ((wait_drains_queue flags0 idleProcs (noDisarm_idleProcs flags0) (memWith 1)
      [completion 5 10, completion 6 20] 1000 (by decide) (by decide) (by decide)
      (by decide)).2.2.2.2 keepsArming_idleProcs).1⟩

/-! ## Completions that find no armed interest -/

theorem wait_loop_count (k : EventFlags) (procs : Procs) (tp tp' : Option timespec) :
    ∀ (cq : List Reply) (count count' : Nat) (mem : Mem),
      (wait_loop k procs tp cq count mem).items =
        (wait_loop k procs tp' cq count' mem).items ∧
      (wait_loop k procs tp cq count mem).mem =
        (wait_loop k procs tp' cq count' mem).mem ∧
      (wait_loop k procs tp cq count mem).cq =
        (wait_loop k procs tp' cq count' mem).cq := by
  intro cq
  induction cq with
  | nil =>
    intro count count' mem
    obtain ⟨a1, a2, a3, _⟩ := wait_loop_nil k procs tp count mem
    obtain ⟨b1, b2, b3, _⟩ := wait_loop_nil k procs tp' count' mem
    rw [a1, a2, a3, b1, b2, b3]
    exact ⟨rfl, rfl, rfl⟩
  | cons r rest ih =>
    intro count count' mem
    cases hd : r.dispatched with
    | false =>
      obtain ⟨a1, a2, a3, _⟩ := wait_loop_stopped k procs tp r rest count mem hd
      obtain ⟨b1, b2, b3, _⟩ := wait_loop_stopped k procs tp' r rest count' mem hd
      rw [a1, a2, a3, b1, b2, b3]
      exact ⟨rfl, rfl, rfl⟩
    | true =>
      rw [wait_loop_dispatched k procs tp r rest count mem hd,
        wait_loop_dispatched k procs tp' r rest count' mem hd]
      obtain ⟨i1, i2, i3⟩ := ih (count + 1) (count' + 1) (dispatch k procs r.cqe mem).1
      simp only
      rw [i1]
      exact ⟨rfl, i2, i3⟩

theorem dispatch_idle (k : EventFlags) (procs : Procs) (cqe : io_uring_cqe) (mem : Mem)
    (hr : armedRead k (mem.files cqe.user_data) = false)
    (hw : armedWrite k (mem.files cqe.user_data) = false) :
    dispatch k procs cqe mem =
      (mem, { cqe := cqe, before := mem.files cqe.user_data,
              mid := mem.files cqe.user_data, calls := [] }) := by
  have e1 : dispatch_read k procs cqe.res cqe.user_data mem = (mem, []) :=
    dispatch_read_idle k procs _ _ mem hr
  have e2 : dispatch_write k procs cqe.res cqe.user_data mem = (mem, []) :=
    dispatch_write_idle k procs _ _ mem hw
  simp only [dispatch, e1, e2, List.append_nil]

theorem wait_loop_skip (k : EventFlags) (procs : Procs) (tp : Option timespec)
    (r : Reply) (rest : List Reply) (hd : r.dispatched = true) :
    ∀ (pre : List Reply) (count : Nat) (mem : Mem),
      (∀ x ∈ pre, x.dispatched = true) →
      armedRead k ((wait_loop k procs tp pre count mem).mem.files r.cqe.user_data)
        = false →
      armedWrite k ((wait_loop k procs tp pre count mem).mem.files r.cqe.user_data)
        = false →
      (wait_loop k procs tp (pre ++ r :: rest) count mem).mem =
        (wait_loop k procs tp (pre ++ rest) count mem).mem ∧
      callsOf (wait_loop k procs tp (pre ++ r :: rest) count mem).items =
        callsOf (wait_loop k procs tp (pre ++ rest) count mem).items ∧
      (wait_loop k procs tp (pre ++ r :: rest) count mem).cq =
        (wait_loop k procs tp (pre ++ rest) count mem).cq ∧
      (wait_loop k procs tp (pre ++ r :: rest) count mem).items =
        (wait_loop k procs tp (pre ++ rest) count mem).items.take pre.length ++
          { cqe := r.cqe,
            before := (wait_loop k procs tp pre count mem).mem.files r.cqe.user_data,
            mid := (wait_loop k procs tp pre count mem).mem.files r.cqe.user_data,
            calls := [] } ::
          (wait_loop k procs tp (pre ++ rest) count mem).items.drop pre.length := by
  intro pre
  induction pre with
  | nil =>
    intro count mem _ hr hw
    rw [(wait_loop_nil k procs tp count mem).2.1] at hr hw ⊢
    simp only [List.nil_append, List.length_nil, List.take_zero, List.drop_zero]
    rw [wait_loop_dispatched k procs tp r rest count mem hd,
      dispatch_idle k procs r.cqe mem hr hw]
    obtain ⟨i1, i2, i3⟩ := wait_loop_count k procs tp tp rest (count + 1) count mem
    simp only
    rw [i1]
    refine ⟨i2, ?_, i3, rfl⟩
    simp [callsOf]
  | cons x pre ih =>
    intro count mem hp hr hw
    have hx : x.dispatched = true := hp x (List.mem_cons_self _ _)
    rw [wait_loop_dispatched k procs tp x pre count mem hx] at hr hw ⊢
    simp only at hr hw
    simp only [List.cons_append, List.length_cons]
    rw [wait_loop_dispatched k procs tp x (pre ++ r :: rest) count mem hx,
      wait_loop_dispatched k procs tp x (pre ++ rest) count mem hx]
    obtain ⟨j1, j2, j3, j4⟩ := ih (count + 1) (dispatch k procs x.cqe mem).1
      (fun y hy => hp y (List.mem_cons_of_mem _ hy)) hr hw
    simp only [List.take_succ_cons, List.drop_succ_cons, List.cons_append]
    refine ⟨j1, ?_, j3, ?_⟩
    · simp only [callsOf, List.map_cons, List.flatten_cons]
      have := j2
      simp only [callsOf] at this
      rw [this]
    · rw [j4]

theorem del_read_idle (k : EventFlags) (ep : EVENT_URING) (fe : FILE_EVENT) :
    armedRead k (event_uring_del_read k ep fe).2.1 = false := by
  have hc : (event_uring_del_read k ep fe).2.1.mask &&& EVENT_READ k = 0 := by
    unfold event_uring_del_read
    split
    · rename_i h; exact not_not.1 h
    · rw [EVENT_READ_eq]; exact clear_land_self _ _ k.ok.1.1
  simp [armedRead, hc]

theorem del_write_idle (k : EventFlags) (ep : EVENT_URING) (fe : FILE_EVENT) :
    armedWrite k (event_uring_del_write k ep fe).2.1 = false := by
  have hc : (event_uring_del_write k ep fe).2.1.mask &&& EVENT_WRITE k = 0 := by
    unfold event_uring_del_write
    split
    · rename_i h; exact not_not.1 h
    · rw [EVENT_WRITE_eq]; exact clear_land_self _ _ k.ok.1.2.1
  simp [armedWrite, hc]

/-- C8, counterexample: on descriptor 7 a read and a write are submitted and
READ is then cleared by `event_uring_del_read`; when the completion of the
read (result 5) arrives, `event_uring_wait` invokes `w_proc` for it and
stores 5 in `wlen`. -/
theorem stale_read_completion_reaches_w_proc :
    staleReadMem.map (fun m => armedRead flags0 (m.files 7)) = some false ∧
    staleReadMem.map (fun m =>
      (event_uring_wait flags0 idleProcs m [completion 7 5] 100).items.map
        (fun it => it.calls.map Call.kind)) = some [[Interest.write]] ∧
    staleReadMem.map (fun m => (m.files 7).wlen) = some 0 ∧
    staleReadMem.map (fun m =>
      ((event_uring_wait flags0 idleProcs m [completion 7 5] 100).mem.files 7).wlen)
      = some 5 := by
  decide

/-- C8, amended: in every call of `event_uring_wait`, whatever the queue holds
and whatever the callbacks do, a completion that finds its file event as
`event_uring_del_read` leaves it (READ cleared) with the WRITE interest not
armed (WRITE bit clear or `w_proc` not set) is absorbed silently, and so is
one that finds it as `event_uring_del_write` leaves it with READ not armed.
The pass of such a completion invokes no callback, and the call leaves the
memory (every field of every file event, and the backend), the callback
invocations and the answers not consumed exactly as the same call on the
queue without that completion leaves them; the record of the call differs by
the one pass without invocation. The memory a completion finds is the one the
call on the answers queued before it leaves. When the completion finds READ
cleared and the WRITE interest armed, the pass invokes `w_proc` for it, and
nothing else; when it finds WRITE cleared and the READ interest armed, the
pass invokes `r_proc` for it, first. -/
theorem stale_completion_absorbed (k : EventFlags) (procs : Procs) (mem : Mem)
    (cq : List Reply) (timeout : Int) :
    (∀ it ∈ (event_uring_wait k procs mem cq timeout).items,
      ∀ (ep : EVENT_URING) (fe : FILE_EVENT),
        (it.before = (event_uring_del_read k ep fe).2.1 →
          armedWrite k it.before = false → it.calls = [] ∧ it.mid = it.before) ∧
        (it.before = (event_uring_del_write k ep fe).2.1 →
          armedRead k it.before = false → it.calls = [] ∧ it.mid = it.before) ∧
        (it.before = (event_uring_del_read k ep fe).2.1 →
          armedWrite k it.before = true →
          it.calls.map Call.kind = [Interest.write]) ∧
        (it.before = (event_uring_del_write k ep fe).2.1 →
          armedRead k it.before = true →
          (it.calls.map Call.kind).head? = some Interest.read)) ∧
    (∀ (pre : List Reply) (r : Reply) (rest : List Reply) (ep : EVENT_URING)
        (fe : FILE_EVENT),
      cq = pre ++ r :: rest →
      (∀ x ∈ pre, x.dispatched = true) → r.dispatched = true →
      ((event_uring_wait k procs mem pre timeout).mem.files r.cqe.user_data =
          (event_uring_del_read k ep fe).2.1 ∧
        armedWrite k
          ((event_uring_wait k procs mem pre timeout).mem.files r.cqe.user_data) = false) ∨
      ((event_uring_wait k procs mem pre timeout).mem.files r.cqe.user_data =
          (event_uring_del_write k ep fe).2.1 ∧
        armedRead k
          ((event_uring_wait k procs mem pre timeout).mem.files r.cqe.user_data) = false) →
      (event_uring_wait k procs mem cq timeout).mem =
        (event_uring_wait k procs mem (pre ++ rest) timeout).mem ∧
      callsOf (event_uring_wait k procs mem cq timeout).items =
        callsOf (event_uring_wait k procs mem (pre ++ rest) timeout).items ∧
      (event_uring_wait k procs mem cq timeout).cq =
        (event_uring_wait k procs mem (pre ++ rest) timeout).cq ∧
      (event_uring_wait k procs mem cq timeout).items =
        (event_uring_wait k procs mem (pre ++ rest) timeout).items.take pre.length ++
          { cqe := r.cqe,
            before := (event_uring_wait k procs mem pre timeout).mem.files r.cqe.user_data,
            mid := (event_uring_wait k procs mem pre timeout).mem.files r.cqe.user_data,
            calls := [] } ::
          (event_uring_wait k procs mem (pre ++ rest) timeout).items.drop pre.length) := by
  constructor
  · unfold event_uring_wait
    apply wait_loop_items_forall k procs (wait_timespec timeout)
      (fun it => ∀ (ep : EVENT_URING) (fe : FILE_EVENT),
        (it.before = (event_uring_del_read k ep fe).2.1 →
          armedWrite k it.before = false → it.calls = [] ∧ it.mid = it.before) ∧
        (it.before = (event_uring_del_write k ep fe).2.1 →
          armedRead k it.before = false → it.calls = [] ∧ it.mid = it.before) ∧
        (it.before = (event_uring_del_read k ep fe).2.1 →
          armedWrite k it.before = true →
          it.calls.map Call.kind = [Interest.write]) ∧
        (it.before = (event_uring_del_write k ep fe).2.1 →
          armedRead k it.before = true →
          (it.calls.map Call.kind).head? = some Interest.read))
    intro cqe m ep fe
    obtain ⟨_, _, hc, hm⟩ := dispatch_item_spec k procs cqe m
    refine ⟨?_, ?_, ?_, ?_⟩
    rotate_left 3
    · intro _ hr
      rw [hc, List.map_append, readCall_kinds, hr]
      rfl
    · intro hb hw
      have hr : armedRead k (dispatch k procs cqe m).2.before = false := by
        rw [hb]; exact del_read_idle k ep fe
      have hmid := hm hr
      rw [hc, hmid, readCall_idle k cqe _ hr, writeCall_idle k cqe _ hw]
      exact ⟨rfl, rfl⟩
    · intro hb hr
      have hw : armedWrite k (dispatch k procs cqe m).2.before = false := by
        rw [hb]; exact del_write_idle k ep fe
      have hmid := hm hr
      rw [hc, hmid, readCall_idle k cqe _ hr, writeCall_idle k cqe _ hw]
      exact ⟨rfl, rfl⟩
    · intro hb hw
      have hr : armedRead k (dispatch k procs cqe m).2.before = false := by
        rw [hb]; exact del_read_idle k ep fe
      have hmid := hm hr
      rw [hc, hmid, List.map_append, readCall_kinds, writeCall_kinds, hr, hw]
      rfl
  · intro pre r rest ep fe hcq hp hd hst
    subst hcq
    unfold event_uring_wait at hst ⊢
    have hidle : armedRead k ((wait_loop k procs (wait_timespec timeout) pre 0
          { mem with ep := wait_flush mem.ep }).mem.files r.cqe.user_data) = false ∧
        armedWrite k ((wait_loop k procs (wait_timespec timeout) pre 0
          { mem with ep := wait_flush mem.ep }).mem.files r.cqe.user_data) = false := by
      rcases hst with ⟨h1, h2⟩ | ⟨h1, h2⟩
      · exact ⟨by rw [h1]; exact del_read_idle k ep fe, h2⟩
      · exact ⟨h2, by rw [h1]; exact del_write_idle k ep fe⟩
    exact wait_loop_skip k procs (wait_timespec timeout) r rest hd pre 0
      { mem with ep := wait_flush mem.ep } hp hidle.1 hidle.2

/-- C8, amended, on a concrete input: descriptor 5 is armed for READ, the READ
of descriptor 7 was cleared by `event_uring_del_read`, and the completions of
both are queued, that of 5 first. The call leaves the memory and the callback
invocations as the call on the completion of 5 alone does: `r_proc` of 5 is
invoked, nothing is invoked for 7 and no field of 7 changes. -/
theorem stale_completion_absorbed_witness :
    (event_uring_wait flags0 idleProcs mixedMem [completion 5 10] 100).mem.files 7 =
      (event_uring_del_read flags0 mixedMem.ep (mkEvent 7 1)).2.1 ∧
    (event_uring_wait flags0 idleProcs mixedMem [completion 5 10, completion 7 5]
        100).mem =
      (event_uring_wait flags0 idleProcs mixedMem [completion 5 10] 100).mem ∧
    callsOf (event_uring_wait flags0 idleProcs mixedMem
        [completion 5 10, completion 7 5] 100).items =
      callsOf (event_uring_wait flags0 idleProcs mixedMem [completion 5 10] 100).items ∧
    (callsOf (event_uring_wait flags0 idleProcs mixedMem
        [completion 5 10, completion 7 5] 100).items).map (fun c => (c.fe, c.kind)) =
      [(5, Interest.read)] ∧
    (event_uring_wait flags0 idleProcs mixedMem
        [completion 5 10, completion 7 5] 100).mem.files 7 = mixedMem.files 7 :=
  ⟨by decide,
    ((stale_completion_absorbed flags0 idleProcs mixedMem
      [completion 5 10, completion 7 5] 100).2 [completion 5 10] (completion 7 5) []
      mixedMem.ep (mkEvent 7 1) rfl (by decide) (by decide)
      (Or.inl ⟨by decide, by decide⟩)).1,
    ((stale_completion_absorbed flags0 idleProcs mixedMem
      [completion 5 10, completion 7 5] 100).2 [completion 5 10] (completion 7 5) []
      mixedMem.ep (mkEvent 7 1) rfl (by decide) (by decide)
      (Or.inl ⟨by decide, by decide⟩)).2.1,
    by decide, by decide⟩

/-- C9, counterexample: descriptor 9 has ACCEPT and READ set and `r_proc`
set; the completion delivered for it carries the result `-ENOBUFS`.
`event_uring_wait` returns -1, does not store the result in `iocp_sock`,
keeps READ set and invokes no callback. -/
theorem accept_enobufs_not_recorded :
    (memWith 5).files 9 = mkEvent 9 5 ∧
    (mkEvent 9 5).mask &&& EVENT_ACCEPT flags0 ≠ 0 ∧
    (mkEvent 9 5).mask &&& EVENT_READ flags0 ≠ 0 ∧
    (mkEvent 9 5).r_proc = some 100 ∧
    (event_uring_wait flags0 idleProcs (memWith 5) [completion 9 (-ENOBUFS)] 100).ret
      = some (-1) ∧
    ((event_uring_wait flags0 idleProcs (memWith 5)
      [completion 9 (-ENOBUFS)] 100).mem.files 9).iocp_sock = 0 ∧
    ((event_uring_wait flags0 idleProcs (memWith 5)
      [completion 9 (-ENOBUFS)] 100).mem.files 9).mask &&& EVENT_READ flags0 ≠ 0 ∧
    callsOf (event_uring_wait flags0 idleProcs (memWith 5)
      [completion 9 (-ENOBUFS)] 100).items = [] := by
  decide

/-- C9, amended: the entries `event_uring_wait` takes through the dispatch
step are the successful answers at the head of the queue whose result is not
`-ENOBUFS`. For each of them, with result r: if the file event has READ set
and `r_proc` set, `r_proc` is invoked exactly once, first, entered with READ
cleared and every other mask bit (ACCEPT included) kept, and with r stored in
`iocp_sock` (all other fields, `rlen` included, unchanged) when ACCEPT is set
and in `rlen` (all other fields unchanged) when it is not. Symmetrically, if
the write half finds WRITE set and `w_proc` set, `w_proc` is invoked exactly
once, last, with WRITE cleared and r stored in `iocp_sock` when CONNECT is set
and in `wlen` when it is not. -/
theorem result_stored_by_mode (k : EventFlags) (procs : Procs) (mem : Mem)
    (cq : List Reply) (timeout : Int) :
    (event_uring_wait k procs mem cq timeout).items.map Item.cqe =
      (cq.takeWhile Reply.dispatched).map Reply.cqe ∧
    ∀ it ∈ (event_uring_wait k procs mem cq timeout).items,
      (it.before.mask &&& EVENT_READ k ≠ 0 → ∀ f, it.before.r_proc = some f →
        it.calls.head? = some (Call.mk Interest.read f it.cqe.user_data
          (mark_read k it.cqe.res it.before)) ∧
        it.calls.countP (fun c => decide (c.kind = Interest.read)) = 1 ∧
        (mark_read k it.cqe.res it.before).mask &&& EVENT_READ k = 0 ∧
        (mark_read k it.cqe.res it.before).mask &&& EVENT_ACCEPT k =
          it.before.mask &&& EVENT_ACCEPT k ∧
        (it.before.mask &&& EVENT_ACCEPT k ≠ 0 →
          mark_read k it.cqe.res it.before =
            { it.before with mask := it.before.mask &&& unot (EVENT_READ k),
                             iocp_sock := it.cqe.res }) ∧
        (it.before.mask &&& EVENT_ACCEPT k = 0 →
          mark_read k it.cqe.res it.before =
            { it.before with mask := it.before.mask &&& unot (EVENT_READ k),
                             rlen := it.cqe.res })) ∧
      (it.mid.mask &&& EVENT_WRITE k ≠ 0 → ∀ f, it.mid.w_proc = some f →
        it.calls.getLast? = some (Call.mk Interest.write f it.cqe.user_data
          (mark_write k it.cqe.res it.mid)) ∧
        it.calls.countP (fun c => decide (c.kind = Interest.write)) = 1 ∧
        (mark_write k it.cqe.res it.mid).mask &&& EVENT_WRITE k = 0 ∧
        (mark_write k it.cqe.res it.mid).mask &&& EVENT_CONNECT k =
          it.mid.mask &&& EVENT_CONNECT k ∧
        (it.mid.mask &&& EVENT_CONNECT k ≠ 0 →
          mark_write k it.cqe.res it.mid =
            { it.mid with mask := it.mid.mask &&& unot (EVENT_WRITE k),
                          iocp_sock := it.cqe.res }) ∧
        (it.mid.mask &&& EVENT_CONNECT k = 0 →
          mark_write k it.cqe.res it.mid =
            { it.mid with mask := it.mid.mask &&& unot (EVENT_WRITE k),
                          wlen := it.cqe.res })) := by
  refine ⟨wait_loop_items_cqe k procs (wait_timespec timeout) cq 0
    { mem with ep := wait_flush mem.ep }, ?_⟩
  apply wait_loop_items_forall
  intro cqe m
  obtain ⟨h1, h2, h3, h4⟩ := dispatch_item_spec k procs cqe m
  rw [h1]
  constructor
  · intro hb f hf
    have hrc : readCall k cqe (dispatch k procs cqe m).2.before =
        [{ kind := Interest.read, proc := f, fe := cqe.user_data,
           seen := mark_read k cqe.res (dispatch k procs cqe m).2.before }] := by
      unfold readCall; rw [if_pos hb, hf]
    have hwk := writeCall_kinds k cqe (dispatch k procs cqe m).2.mid
    have hwc : (writeCall k cqe (dispatch k procs cqe m).2.mid).countP
        (fun c => decide (c.kind = Interest.read)) = 0 := by
      rw [List.countP_eq_zero]
      intro c hc
      have := (writeCall_spec k cqe _ c hc).1
      simp [this]
    refine ⟨?_, ?_, mark_read_land_read _ _ _, mark_read_land_accept _ _ _,
      (mark_read_stores _ _ _).1, (mark_read_stores _ _ _).2⟩
    · rw [h3, hrc]; rfl
    · rw [h3, List.countP_append, hwc, hrc]; rfl
  · intro hb f hf
    have hwc : writeCall k cqe (dispatch k procs cqe m).2.mid =
        [{ kind := Interest.write, proc := f, fe := cqe.user_data,
           seen := mark_write k cqe.res (dispatch k procs cqe m).2.mid }] := by
      unfold writeCall; rw [if_pos hb, hf]
    have hrc : (readCall k cqe (dispatch k procs cqe m).2.before).countP
        (fun c => decide (c.kind = Interest.write)) = 0 := by
      rw [List.countP_eq_zero]
      intro c hc
      have := (readCall_spec k cqe _ c hc).1
      simp [this]
    refine ⟨?_, ?_, mark_write_land_write _ _ _, mark_write_land_connect _ _ _,
      (mark_write_stores _ _ _).1, (mark_write_stores _ _ _).2⟩
    · rw [h3, hwc]; simp
    · rw [h3, List.countP_append, hrc, hwc]; rfl

/-- C9, amended, on a concrete input: descriptor 9 in ACCEPT mode, the
completion result 12 gives `iocp_sock = 12`, `rlen` untouched and one
`r_proc` call. -/
theorem result_stored_by_mode_witness :
    (dispatch flags0 idleProcs (completion 9 12).cqe (memWith 5)).2 ∈
      (event_uring_wait flags0 idleProcs (memWith 5) [completion 9 12] 100).items ∧
    (dispatch flags0 idleProcs (completion 9 12).cqe (memWith 5)).2.calls.head? =
      some (Call.mk Interest.read 100 9 (mark_read flags0 12 (mkEvent 9 5))) ∧
    (dispatch flags0 idleProcs (completion 9 12).cqe (memWith 5)).2.calls.countP
      (fun c => decide (c.kind = Interest.read)) = 1 ∧
    ((event_uring_wait flags0 idleProcs (memWith 5) [completion 9 12] 100).mem.files
      9).iocp_sock = 12 ∧
    ((event_uring_wait flags0 idleProcs (memWith 5) [completion 9 12] 100).mem.files
      9).rlen = 0 ∧
    ((event_uring_wait flags0 idleProcs (memWith 5) [completion 9 12] 100).mem.files
      9).mask = 4 :=
  ⟨by decide,
    (((result_stored_by_mode flags0 idleProcs (memWith 5) [completion 9 12] 100).2
      (dispatch flags0 idleProcs (completion 9 12).cqe (memWith 5)).2
      (by decide)).1 (by decide) 100 (by decide)).1,
    (((result_stored_by_mode flags0 idleProcs (memWith 5) [completion 9 12] 100).2
      (dispatch flags0 idleProcs (completion 9 12).cqe (memWith 5)).2
      (by decide)).1 (by decide) 100 (by decide)).2.1,
    by decide, by decide, by decide⟩

/-! ## The pending-submission count and the flush -/

theorem add_read_backend (k : EventFlags) (ep ep1 : EVENT_URING) (p : Nat)
    (fe fe1 : FILE_EVENT) (r : Int)
    (h : event_uring_add_read k ep p fe = some (ep1, fe1, r)) :
    ep1.appending =
      ep.appending + (if fe.mask &&& EVENT_READ k = 0 then 1 else 0) ∧
    ep1.ring.sq.length =
      ep.ring.sq.length + (if fe.mask &&& EVENT_READ k = 0 then 1 else 0) ∧
    ep1.ring.submits = ep.ring.submits ∧ ep1.ring.inflight = ep.ring.inflight ∧
    ep1.ring.sq_entries = ep.ring.sq_entries := by
  unfold event_uring_add_read at h
  by_cases hb : fe.mask &&& EVENT_READ k = 0
  · rw [if_neg (not_not.2 hb)] at h
    simp only at h
    split at h
    · simp only [Option.some.injEq, Prod.mk.injEq] at h
      obtain ⟨h1, _, _⟩ := h
      subst h1
      simp [hb, io_uring.push]
    · cases h
  · rw [if_pos hb] at h
    simp only [Option.some.injEq, Prod.mk.injEq] at h
    obtain ⟨h1, _, _⟩ := h
    subst h1
    simp [hb]

theorem add_write_backend (k : EventFlags) (ep ep1 : EVENT_URING) (p : Nat)
    (fe fe1 : FILE_EVENT) (r : Int)
    (h : event_uring_add_write k ep p fe = some (ep1, fe1, r)) :
    ep1.appending =
      ep.appending + (if fe.mask &&& EVENT_WRITE k = 0 then 1 else 0) ∧
    ep1.ring.sq.length =
      ep.ring.sq.length + (if fe.mask &&& EVENT_WRITE k = 0 then 1 else 0) ∧
    ep1.ring.submits = ep.ring.submits ∧ ep1.ring.inflight = ep.ring.inflight ∧
    ep1.ring.sq_entries = ep.ring.sq_entries := by
  unfold event_uring_add_write at h
  by_cases hb : fe.mask &&& EVENT_WRITE k = 0
  · rw [if_neg (not_not.2 hb)] at h
    simp only at h
    split at h
    · simp only [Option.some.injEq, Prod.mk.injEq] at h
      obtain ⟨h1, _, _⟩ := h
      subst h1
      simp [hb, io_uring.push]
    · cases h
  · rw [if_pos hb] at h
    simp only [Option.some.injEq, Prod.mk.injEq] at h
    obtain ⟨h1, _, _⟩ := h
    subst h1
    simp [hb]

theorem del_backend (k : EventFlags) (ep : EVENT_URING) (fe : FILE_EVENT) :
    (event_uring_del_read k ep fe).1 = ep ∧ (event_uring_del_write k ep fe).1 = ep := by
  constructor
  · unfold event_uring_del_read; split <;> rfl
  · unfold event_uring_del_write; split <;> rfl

theorem wait_flush_spec (ep : EVENT_URING) :
    (wait_flush ep).appending = 0 ∧
    (0 < ep.appending →
      (wait_flush ep).ring.submits = ep.ring.submits + 1 ∧
      (wait_flush ep).ring.inflight = ep.ring.inflight ++ ep.ring.sq ∧
      (wait_flush ep).ring.sq = []) ∧
    (ep.appending = 0 → wait_flush ep = ep) := by
  refine ⟨?_, ?_, ?_⟩
  · unfold wait_flush; split
    · rfl
    · omega
  · intro hp
    unfold wait_flush
    rw [if_pos hp]
    exact ⟨rfl, rfl, rfl⟩
  · intro h0
    unfold wait_flush
    rw [if_neg (by omega)]

theorem act_run_backend (k : EventFlags) (mem mem1 : Mem) (a : Act)
    (h : a.run k mem = some mem1) :
    (∀ n, mem.ep.appending = n → mem1.ep.appending = a.armings k mem n) ∧
    (∀ n, mem.ep.ring.sq.length = n → mem1.ep.ring.sq.length = a.armings k mem n) ∧
    mem1.ep.ring.submits = mem.ep.ring.submits ∧
    mem1.ep.ring.inflight = mem.ep.ring.inflight := by
  cases a with
  | add_read p =>
    simp only [Act.run] at h
    split at h
    · cases h
    · rename_i ep1 fe1 r he
      simp only [Option.some.injEq] at h
      subst h
      obtain ⟨a1, a2, a3, a4, _⟩ := add_read_backend k mem.ep ep1 p (mem.files p) fe1 r he
      simp only [Act.armings]
      refine ⟨?_, ?_, a3, a4⟩
      · intro n hn; rw [a1, hn]; split <;> rfl
      · intro n hn; rw [a2, hn]; split <;> rfl
  | add_write p =>
    simp only [Act.run] at h
    split at h
    · cases h
    · rename_i ep1 fe1 r he
      simp only [Option.some.injEq] at h
      subst h
      obtain ⟨a1, a2, a3, a4, _⟩ := add_write_backend k mem.ep ep1 p (mem.files p) fe1 r he
      simp only [Act.armings]
      refine ⟨?_, ?_, a3, a4⟩
      · intro n hn; rw [a1, hn]; split <;> rfl
      · intro n hn; rw [a2, hn]; split <;> rfl
  | del_read p =>
    simp only [Act.run, Option.some.injEq] at h
    subst h
    simp [Act.armings, (del_backend k mem.ep (mem.files p)).1]
  | del_write p =>
    simp only [Act.run, Option.some.injEq] at h
    subst h
    simp [Act.armings, (del_backend k mem.ep (mem.files p)).2]
  | store files =>
    simp only [Act.run, Option.some.injEq] at h
    subst h
    simp [Act.armings]

theorem runActs_backend (k : EventFlags) :
    ∀ (acts : List Act) (mem mem' : Mem) (n n' : Nat),
      runActs k mem n acts = some (mem', n') →
      (mem.ep.appending = n → mem'.ep.appending = n') ∧
      (mem.ep.ring.sq.length = n → mem'.ep.ring.sq.length = n') ∧
      mem'.ep.ring.submits = mem.ep.ring.submits ∧
      mem'.ep.ring.inflight = mem.ep.ring.inflight := by
  intro acts
  induction acts with
  | nil =>
    intro mem mem' n n' h
    simp only [runActs, Option.some.injEq, Prod.mk.injEq] at h
    obtain ⟨h1, h2⟩ := h
    subst h1; subst h2
    exact ⟨id, id, rfl, rfl⟩
  | cons a acts ih =>
    intro mem mem' n n' h
    simp only [runActs] at h
    split at h
    · cases h
    · rename_i mem1 h1
      obtain ⟨b1, b2, b3, b4⟩ := act_run_backend k mem mem1 a h1
      obtain ⟨c1, c2, c3, c4⟩ := ih mem1 mem' _ n' h
      exact ⟨fun hn => c1 (b1 n hn), fun hn => c2 (b2 n hn), c3.trans b3, c4.trans b4⟩

theorem runActs_mem (k : EventFlags) :
    ∀ (acts : List Act) (mem : Mem) (n n' : Nat),
      (runActs k mem n acts).map Prod.fst = (runActs k mem n' acts).map Prod.fst := by
  intro acts
  induction acts with
  | nil => intro mem n n'; rfl
  | cons a acts ih =>
    intro mem n n'
    simp only [runActs]
    cases a.run k mem with
    | none => rfl
    | some mem1 => exact ih mem1 _ _

theorem procsOf_runActs (k : EventFlags) (bodies : Bodies) (f q : Nat) (mem mem' : Mem)
    (n n' : Nat) (h : runActs k mem n (bodies f q mem) = some (mem', n')) :
    procsOf k bodies f q mem = mem' := by
  have h0 := runActs_mem k (bodies f q mem) mem 0 n
  rw [h] at h0
  simp only [procsOf]
  cases hr : runActs k mem 0 (bodies f q mem) with
  | none => rw [hr] at h0; cases h0
  | some r =>
    rw [hr] at h0
    simp only [Option.map_some', Option.some.injEq] at h0
    exact h0

theorem procsOf_submits (k : EventFlags) (bodies : Bodies) (f q : Nat) (mem : Mem) :
    (procsOf k bodies f q mem).ep.ring.submits = mem.ep.ring.submits ∧
    (procsOf k bodies f q mem).ep.ring.inflight = mem.ep.ring.inflight := by
  simp only [procsOf]
  cases hr : runActs k mem 0 (bodies f q mem) with
  | none => exact ⟨rfl, rfl⟩
  | some r =>
    obtain ⟨_, _, c3, c4⟩ := runActs_backend k (bodies f q mem) mem r.1 0 r.2 hr
    exact ⟨c3, c4⟩

theorem read_armings_spec (k : EventFlags) (bodies : Bodies) (res : Int) (p : Nat)
    (mem : Mem) (n n1 : Nat) (h : read_armings k bodies res p mem n = some n1) :
    (mem.ep.appending = n →
      (dispatch_read k (procsOf k bodies) res p mem).1.ep.appending = n1) ∧
    (mem.ep.ring.sq.length = n →
      (dispatch_read k (procsOf k bodies) res p mem).1.ep.ring.sq.length = n1) := by
  unfold read_armings at h
  unfold dispatch_read
  by_cases hb : (mem.files p).mask &&& EVENT_READ k ≠ 0
  · simp only [if_pos hb] at h ⊢
    cases hf : (mem.files p).r_proc with
    | none =>
      rw [hf] at h
      simp only [Option.some.injEq] at h
      subst h
      exact ⟨id, id⟩
    | some f =>
      rw [hf] at h
      simp only at h ⊢
      split at h
      · rename_i r hr
        simp only [Option.some.injEq] at h
        subst h
        rw [procsOf_runActs k bodies f p _ r.1 n r.2 hr]
        obtain ⟨c1, c2, _, _⟩ := runActs_backend k _ _ r.1 n r.2 hr
        exact ⟨c1, c2⟩
      · cases h
  · simp only [if_neg hb, Option.some.injEq] at h ⊢
    subst h
    exact ⟨id, id⟩

theorem write_armings_spec (k : EventFlags) (bodies : Bodies) (res : Int) (p : Nat)
    (mem : Mem) (n n1 : Nat) (h : write_armings k bodies res p mem n = some n1) :
    (mem.ep.appending = n →
      (dispatch_write k (procsOf k bodies) res p mem).1.ep.appending = n1) ∧
    (mem.ep.ring.sq.length = n →
      (dispatch_write k (procsOf k bodies) res p mem).1.ep.ring.sq.length = n1) := by
  unfold write_armings at h
  unfold dispatch_write
  by_cases hb : (mem.files p).mask &&& EVENT_WRITE k ≠ 0
  · simp only [if_pos hb] at h ⊢
    cases hf : (mem.files p).w_proc with
    | none =>
      rw [hf] at h
      simp only [Option.some.injEq] at h
      subst h
      exact ⟨id, id⟩
    | some f =>
      rw [hf] at h
      simp only at h ⊢
      split at h
      · rename_i r hr
        simp only [Option.some.injEq] at h
        subst h
        rw [procsOf_runActs k bodies f p _ r.1 n r.2 hr]
        obtain ⟨c1, c2, _, _⟩ := runActs_backend k _ _ r.1 n r.2 hr
        exact ⟨c1, c2⟩
      · cases h
  · simp only [if_neg hb, Option.some.injEq] at h ⊢
    subst h
    exact ⟨id, id⟩

theorem loop_armings_spec (k : EventFlags) (bodies : Bodies) (tp : Option timespec) :
    ∀ (cq : List Reply) (count : Nat) (mem : Mem) (n n' : Nat),
      loop_armings k bodies cq mem n = some n' →
      (mem.ep.appending = n →
        (wait_loop k (procsOf k bodies) tp cq count mem).mem.ep.appending = n') ∧
      (mem.ep.ring.sq.length = n →
        (wait_loop k (procsOf k bodies) tp cq count mem).mem.ep.ring.sq.length = n') := by
  intro cq
  induction cq with
  | nil =>
    intro count mem n n' h
    simp only [loop_armings, Option.some.injEq] at h
    subst h
    rw [(wait_loop_nil k _ tp count mem).2.1]
    exact ⟨id, id⟩
  | cons r rest ih =>
    intro count mem n n' h
    cases hd : r.dispatched with
    | false =>
      simp only [loop_armings, hd, Bool.false_eq_true, if_false, Option.some.injEq] at h
      subst h
      rw [(wait_loop_stopped k _ tp r rest count mem hd).2.1]
      exact ⟨id, id⟩
    | true =>
      simp only [loop_armings, hd, if_true] at h
      rw [wait_loop_dispatched k _ tp r rest count mem hd]
      simp only
      split at h
      · cases h
      · rename_i n1 h1
        split at h
        · cases h
        · rename_i n2 h2
          obtain ⟨a1, a2⟩ := read_armings_spec k bodies _ _ mem n n1 h1
          obtain ⟨b1, b2⟩ := write_armings_spec k bodies _ _ _ n1 n2 h2
          obtain ⟨c1, c2⟩ := ih (count + 1) (dispatch k (procsOf k bodies) r.cqe mem).1
            n2 n' h
          exact ⟨fun hn => c1 (b1 (a1 hn)), fun hn => c2 (b2 (a2 hn))⟩

theorem dispatch_keeps_submits (k : EventFlags) (bodies : Bodies)
    (cqe : io_uring_cqe) (mem : Mem) :
    (dispatch k (procsOf k bodies) cqe mem).1.ep.ring.submits = mem.ep.ring.submits ∧
    (dispatch k (procsOf k bodies) cqe mem).1.ep.ring.inflight = mem.ep.ring.inflight := by
  have hr : (dispatch_read k (procsOf k bodies) cqe.res cqe.user_data mem).1.ep.ring.submits
        = mem.ep.ring.submits ∧
      (dispatch_read k (procsOf k bodies) cqe.res cqe.user_data mem).1.ep.ring.inflight
        = mem.ep.ring.inflight := by
    cases ha : armedRead k (mem.files cqe.user_data) with
    | false => rw [dispatch_read_idle k _ _ _ mem ha]; exact ⟨rfl, rfl⟩
    | true =>
      obtain ⟨hb, f, hf⟩ := (armedRead_iff k _).1 ha
      rw [dispatch_read_armed k _ _ _ mem f hb hf]
      exact procsOf_submits k bodies f _ _
  have hw : ∀ m : Mem,
      (dispatch_write k (procsOf k bodies) cqe.res cqe.user_data m).1.ep.ring.submits
        = m.ep.ring.submits ∧
      (dispatch_write k (procsOf k bodies) cqe.res cqe.user_data m).1.ep.ring.inflight
        = m.ep.ring.inflight := by
    intro m
    cases ha : armedWrite k (m.files cqe.user_data) with
    | false => rw [dispatch_write_idle k _ _ _ m ha]; exact ⟨rfl, rfl⟩
    | true =>
      obtain ⟨hb, f, hf⟩ := (armedWrite_iff k _).1 ha
      rw [dispatch_write_armed k _ _ _ m f hb hf]
      exact procsOf_submits k bodies f _ _
  simp only [dispatch]
  exact ⟨(hw _).1.trans hr.1, (hw _).2.trans hr.2⟩

theorem wait_loop_keeps_submits (k : EventFlags) (bodies : Bodies)
    (tp : Option timespec) :
    ∀ (cq : List Reply) (count : Nat) (mem : Mem),
      (wait_loop k (procsOf k bodies) tp cq count mem).mem.ep.ring.submits =
        mem.ep.ring.submits ∧
      (wait_loop k (procsOf k bodies) tp cq count mem).mem.ep.ring.inflight =
        mem.ep.ring.inflight := by
  intro cq
  induction cq with
  | nil => intro count mem; rw [(wait_loop_nil k _ tp count mem).2.1]; exact ⟨rfl, rfl⟩
  | cons r rest ih =>
    intro count mem
    cases hd : r.dispatched with
    | false => rw [(wait_loop_stopped k _ tp r rest count mem hd).2.1]; exact ⟨rfl, rfl⟩
    | true =>
      rw [wait_loop_dispatched k _ tp r rest count mem hd]
      simp only
      obtain ⟨i1, i2⟩ := ih (count + 1) (dispatch k (procsOf k bodies) r.cqe mem).1
      obtain ⟨d1, d2⟩ := dispatch_keeps_submits k bodies r.cqe mem
      exact ⟨i1.trans d1, i2.trans d2⟩

theorem op_run_counts (k : EventFlags) (bodies : Bodies)
    (mem mem1 : Mem) (n n1 : Nat) (op : Op)
    (h : op.run k (procsOf k bodies) mem = some mem1)
    (hc : op.armings k bodies mem n = some n1) :
    (mem.ep.appending = n → mem1.ep.appending = n1) ∧
    (mem.ep.ring.sq.length = n → mem1.ep.ring.sq.length = n1) := by
  cases op with
  | add_read p =>
    simp only [Op.armings, Option.some.injEq] at hc
    subst hc
    simp only [Op.run] at h
    split at h
    · cases h
    · rename_i ep1 fe1 r he
      simp only [Option.some.injEq] at h
      subst h
      obtain ⟨a1, a2, _⟩ := add_read_backend k mem.ep ep1 p (mem.files p) fe1 r he
      constructor
      · intro hn; rw [a1, hn]; split <;> rfl
      · intro hn; rw [a2, hn]; split <;> rfl
  | add_write p =>
    simp only [Op.armings, Option.some.injEq] at hc
    subst hc
    simp only [Op.run] at h
    split at h
    · cases h
    · rename_i ep1 fe1 r he
      simp only [Option.some.injEq] at h
      subst h
      obtain ⟨a1, a2, _⟩ := add_write_backend k mem.ep ep1 p (mem.files p) fe1 r he
      constructor
      · intro hn; rw [a1, hn]; split <;> rfl
      · intro hn; rw [a2, hn]; split <;> rfl
  | del_read p =>
    simp only [Op.armings, Option.some.injEq] at hc
    subst hc
    simp only [Op.run, Option.some.injEq] at h
    subst h
    simp [(del_backend k mem.ep (mem.files p)).1]
  | del_write p =>
    simp only [Op.armings, Option.some.injEq] at hc
    subst hc
    simp only [Op.run, Option.some.injEq] at h
    subst h
    simp [(del_backend k mem.ep (mem.files p)).2]
  | wait cq timeout =>
    simp only [Op.armings] at hc
    simp only [Op.run] at h
    split at h
    · cases h
    · simp only [Option.some.injEq] at h
      subst h
      obtain ⟨c1, c2⟩ := loop_armings_spec k bodies (wait_timespec timeout) cq 0
        { mem with ep := wait_flush mem.ep } _ n1 hc
      obtain ⟨f1, f2, f3⟩ := wait_flush_spec mem.ep
      unfold event_uring_wait
      constructor
      · intro hn
        apply c1
        show (wait_flush mem.ep).appending = _
        rw [f1]
        by_cases h0 : mem.ep.appending > 0
        · rw [if_pos h0]
        · rw [if_neg h0]; omega
      · intro hn
        apply c2
        show (wait_flush mem.ep).ring.sq.length = _
        by_cases h0 : mem.ep.appending > 0
        · rw [if_pos h0, (f2 h0).2.2]; rfl
        · rw [if_neg h0, f3 (by omega)]; exact hn

theorem runOps_counts (k : EventFlags) (bodies : Bodies) :
    ∀ (ops : List Op) (mem mem' : Mem) (n n' : Nat),
      runOps k bodies mem n ops = some (mem', n') →
      (mem.ep.appending = n → mem'.ep.appending = n') ∧
      (mem.ep.ring.sq.length = n → mem'.ep.ring.sq.length = n') := by
  intro ops
  induction ops with
  | nil =>
    intro mem mem' n n' h
    simp only [runOps, Option.some.injEq, Prod.mk.injEq] at h
    obtain ⟨h1, h2⟩ := h
    subst h1; subst h2
    exact ⟨id, id⟩
  | cons op ops ih =>
    intro mem mem' n n' h
    simp only [runOps] at h
    split at h
    · rename_i mem1 n1 h1 h2
      obtain ⟨a1, a2⟩ := op_run_counts k bodies mem mem1 n n1 op h1 h2
      obtain ⟨b1, b2⟩ := ih mem1 mem' n1 n' h
      exact ⟨fun hn => b1 (a1 hn), fun hn => b2 (a2 hn)⟩
    · cases h

/-- C10: the count kept by the backend and the flush. From a newly created
backend, and from every backend on which `appending` (or the number of queued
entries) equals the number n of add calls that armed an idle interest since
the last flush, after every sequence of `add_read`, `add_write`, `del_read`,
`del_write` and `event_uring_wait` calls that return, made by the caller or,
during `event_uring_wait`, by the callbacks, `appending` again equals that
number, as does the number of queued entries; the del calls leave the backend
unchanged. `event_uring_wait` flushes before anything else: its effect is that
of the same call on the flushed backend; when `appending` is positive the
flush resets it to 0 and calls `io_uring_submit` once, handing every queued
entry to the kernel, and when it is 0 the flush changes nothing; the loop
itself never submits, whatever the callbacks call. -/
theorem pending_count_and_flush (k : EventFlags) :
    (∀ (bodies : Bodies) (ops : List Op) (size init_ret : Int) (sq_entries : Nat)
        (r : Int × EVENT_URING) (files : Nat → FILE_EVENT) (mem' : Mem) (n' : Nat),
      event_io_uring_create size init_ret sq_entries = some r →
      runOps k bodies { ep := r.2, files := files } 0 ops = some (mem', n') →
      mem'.ep.appending = n' ∧ mem'.ep.ring.sq.length = n') ∧
    (∀ (bodies : Bodies) (ops : List Op) (mem mem' : Mem) (n n' : Nat),
      runOps k bodies mem n ops = some (mem', n') →
      (mem.ep.appending = n → mem'.ep.appending = n') ∧
      (mem.ep.ring.sq.length = n → mem'.ep.ring.sq.length = n')) ∧
    (∀ (ep : EVENT_URING) (fe : FILE_EVENT),
      (event_uring_del_read k ep fe).1 = ep ∧ (event_uring_del_write k ep fe).1 = ep) ∧
    (∀ ep : EVENT_URING,
      (wait_flush ep).appending = 0 ∧
      (0 < ep.appending →
        (wait_flush ep).ring.submits = ep.ring.submits + 1 ∧
        (wait_flush ep).ring.inflight = ep.ring.inflight ++ ep.ring.sq ∧
        (wait_flush ep).ring.sq = []) ∧
      (ep.appending = 0 → wait_flush ep = ep)) ∧
    (∀ (procs : Procs) (mem : Mem) (cq : List Reply) (timeout : Int),
      event_uring_wait k procs mem cq timeout =
        event_uring_wait k procs { ep := wait_flush mem.ep, files := mem.files }
          cq timeout) ∧
    (∀ (bodies : Bodies) (mem : Mem) (cq : List Reply) (timeout : Int),
      (event_uring_wait k (procsOf k bodies) mem cq timeout).mem.ep.ring.submits =
        (wait_flush mem.ep).ring.submits ∧
      (event_uring_wait k (procsOf k bodies) mem cq timeout).mem.ep.ring.inflight =
        (wait_flush mem.ep).ring.inflight) := by
  refine ⟨?_, runOps_counts k, del_backend k, wait_flush_spec, ?_, ?_⟩
  · intro bodies ops size init_ret sq_entries r files mem' n' hc h
    have h0 : r.2.appending = 0 ∧ r.2.ring.sq.length = 0 := by
      unfold event_io_uring_create at hc
      simp only at hc
      split at hc
      · cases hc
      · simp only [Option.some.injEq] at hc
        subst hc
        exact ⟨rfl, rfl⟩
    obtain ⟨a1, a2⟩ := runOps_counts k bodies ops _ mem' 0 n' h
    exact ⟨a1 h0.1, a2 h0.2⟩
  · intro procs mem cq timeout
    have hidem : wait_flush (wait_flush mem.ep) = wait_flush mem.ep :=
      (wait_flush_spec (wait_flush mem.ep)).2.2 (wait_flush_spec mem.ep).1
    unfold event_uring_wait
    simp only [hidem]
  · intro bodies mem cq timeout
    unfold event_uring_wait
    exact wait_loop_keeps_submits k bodies (wait_timespec timeout) cq 0
      { mem with ep := wait_flush mem.ep }

/-- C10 on a concrete input, with an `r_proc` that arms READ again. From an
idle memory with an empty ring, `add_read 5`, `add_read 5`, `add_write 6`,
`del_read 5` arm twice, so `appending` is 2. On a newly created backend,
`add_read 5`, `add_write 6` and a wait that takes the completion of 5: the
wait resets `appending` and submits once, the callback arms READ on 5 again,
and `appending` is 1, the one arming call since the flush. -/
theorem pending_count_and_flush_witness :
    (runOps flags0 rearmBodies (memWith 0) 0
      [Op.add_read 5, Op.add_read 5, Op.add_write 6, Op.del_read 5]).map
        (fun r => (r.1.ep.appending, r.1.ep.ring.submits, r.2)) = some (2, 0, 2) ∧
    event_io_uring_create 100 0 8 = some (100, EVENT_URING.mk (emptyRing 8) 0) ∧
    (∃ mem' n', runOps flags0 rearmBodies
        { ep := EVENT_URING.mk (emptyRing 8) 0, files := (memWith 0).files } 0
        [Op.add_read 5, Op.add_write 6, Op.wait [completion 5 3] 100] = some (mem', n') ∧
      n' = 1 ∧ mem'.ep.ring.submits = 1 ∧
      mem'.ep.appending = n' ∧ mem'.ep.ring.sq.length = n') ∧
    ((0 : Nat) < 1 ∧
      (wait_flush fullBackend).ring.submits = fullBackend.ring.submits + 1 ∧
      (wait_flush fullBackend).ring.inflight =
        fullBackend.ring.inflight ++ fullBackend.ring.sq ∧
      (wait_flush fullBackend).ring.sq = []) :=
  ⟨by decide, by decide,
    ⟨_, _, (Option.some_get (by decide)).symm, by decide, by decide,
      (pending_count_and_flush flags0).1 rearmBodies
        [Op.add_read 5, Op.add_write 6, Op.wait [completion 5 3] 100] 100 0 8
        (100, EVENT_URING.mk (emptyRing 8) 0) (memWith 0).files _ _
        (by decide) (Option.some_get (by decide)).symm⟩,
    by decide,
    ((pending_count_and_flush flags0).2.2.2.1 fullBackend).2.1 (by decide)⟩

/-! ## Error returns of `event_uring_wait` -/

theorem wait_loop_prefix (k : EventFlags) (procs : Procs) (tp tp' : Option timespec)
    (r : Reply) (rest : List Reply) (hr : r.dispatched = false) :
    ∀ (pre : List Reply) (count count' : Nat) (mem : Mem),
      (∀ x ∈ pre, x.dispatched = true) →
      (wait_loop k procs tp (pre ++ r :: rest) count mem).items =
        (wait_loop k procs tp' pre count' mem).items ∧
      (wait_loop k procs tp (pre ++ r :: rest) count mem).mem =
        (wait_loop k procs tp' pre count' mem).mem ∧
      (wait_loop k procs tp (pre ++ r :: rest) count mem).cq = rest := by
  intro pre
  induction pre with
  | nil =>
    intro count count' mem _
    obtain ⟨h1, h2, h3, _⟩ := wait_loop_stopped k procs tp r rest count mem hr
    obtain ⟨n1, n2, _, _⟩ := wait_loop_nil k procs tp' count' mem
    simp only [List.nil_append]
    rw [h1, h2, h3, n1, n2]
    exact ⟨rfl, rfl, rfl⟩
  | cons x pre ih =>
    intro count count' mem hpre
    have hx : x.dispatched = true := hpre x (List.mem_cons_self _ _)
    obtain ⟨i1, i2, i3⟩ := ih (count + 1) (count' + 1) (dispatch k procs x.cqe mem).1
      (fun y hy => hpre y (List.mem_cons_of_mem _ hy))
    simp only [List.cons_append]
    rw [wait_loop_dispatched k procs tp x (pre ++ r :: rest) count mem hx,
      wait_loop_dispatched k procs tp' x pre count' mem hx]
    simp only
    rw [i1, i2, i3]
    exact ⟨rfl, rfl, rfl⟩

theorem dropWhile_prefix (r : Reply) (rest : List Reply) (hr : r.dispatched = false) :
    ∀ pre : List Reply, (∀ x ∈ pre, x.dispatched = true) →
      (pre ++ r :: rest).dropWhile Reply.dispatched = r :: rest ∧
      (pre ++ r :: rest).takeWhile Reply.dispatched = pre := by
  intro pre
  induction pre with
  | nil => intro _; simp [List.dropWhile_cons, List.takeWhile_cons, hr]
  | cons x pre ih =>
    intro hpre
    have hx : x.dispatched = true := hpre x (List.mem_cons_self _ _)
    obtain ⟨i1, i2⟩ := ih (fun y hy => hpre y (List.mem_cons_of_mem _ hy))
    simp [List.dropWhile_cons, List.takeWhile_cons, hx, i1, i2]

/-- C11: `event_uring_wait` is a total function of its inputs with no
assertion on its path, so an unrecoverable condition comes back as a return
value. It returns -1 exactly when the first answer that is not a completion
taken through the dispatch step is a failure of `io_uring_wait_cqes` /
`io_uring_peek_cqe` with a code other than `-ETIME` and `-EAGAIN`, or a
consumed completion whose result is `-ENOBUFS`. In the `-ENOBUFS` case the
completion is consumed, no callback is invoked for it and no file event is
touched because of it: the passes and the memory are those of the same call
on the completions before it. -/
theorem wait_error_return (k : EventFlags) (procs : Procs) (mem : Mem)
    (cq : List Reply) (timeout : Int) :
    ((event_uring_wait k procs mem cq timeout).ret = some (-1) ↔
      ∃ r rest, cq.dropWhile Reply.dispatched = r :: rest ∧
        ((r.ret ≠ 0 ∧ r.ret ≠ -ETIME ∧ r.ret ≠ -EAGAIN) ∨
          (r.ret = 0 ∧ r.cqe.res = -ENOBUFS))) ∧
    (∀ pre r rest, cq = pre ++ r :: rest → (∀ x ∈ pre, x.dispatched = true) →
      r.ret = 0 → r.cqe.res = -ENOBUFS →
      (event_uring_wait k procs mem cq timeout).ret = some (-1) ∧
      (event_uring_wait k procs mem cq timeout).cq = rest ∧
      (event_uring_wait k procs mem cq timeout).items =
        (event_uring_wait k procs mem pre timeout).items ∧
      (event_uring_wait k procs mem cq timeout).mem =
        (event_uring_wait k procs mem pre timeout).mem) := by
  obtain ⟨hret, _⟩ := wait_loop_ret k procs (wait_timespec timeout) cq 0
    { mem with ep := wait_flush mem.ep }
  have hiff : (event_uring_wait k procs mem cq timeout).ret = some (-1) ↔
      ∃ r rest, cq.dropWhile Reply.dispatched = r :: rest ∧
        ((r.ret ≠ 0 ∧ r.ret ≠ -ETIME ∧ r.ret ≠ -EAGAIN) ∨
          (r.ret = 0 ∧ r.cqe.res = -ENOBUFS)) := by
    unfold event_uring_wait
    rw [hret]
    cases hd : cq.dropWhile Reply.dispatched with
    | nil =>
      simp only [Nat.zero_add]
      constructor
      · intro h
        split at h
        · have := Option.some.inj h
          omega
        · cases htp : wait_timespec timeout with
          | none => rw [htp] at h; cases h
          | some ts =>
            rw [htp] at h
            have := Option.some.inj h
            omega
      · rintro ⟨r, rest, h, _⟩
        cases h
    | cons r rest =>
      have hnd : r.dispatched = false := by
        have hmem : r ∈ cq.dropWhile Reply.dispatched := by
          rw [hd]; exact List.mem_cons_self _ _
        have := List.head_dropWhile_not Reply.dispatched cq
          (by rw [hd]; exact List.cons_ne_nil _ _)
        simp only [hd, List.head_cons] at this
        simpa using this
      simp only [Nat.zero_add]
      constructor
      · intro h
        refine ⟨r, rest, rfl, ?_⟩
        by_cases h0 : r.ret = 0
        · right
          refine ⟨h0, ?_⟩
          simpa [Reply.dispatched, h0] using hnd
        · left
          refine ⟨h0, ?_, ?_⟩
          · intro ht
            rw [if_pos ht] at h
            have := Option.some.inj h
            omega
          · intro ha
            by_cases ht : r.ret = -ETIME
            · rw [if_pos ht] at h
              have := Option.some.inj h
              omega
            · rw [if_neg ht, if_pos ha] at h
              have := Option.some.inj h
              omega
      · rintro ⟨r', rest', h, hc⟩
        obtain ⟨e1, _⟩ := List.cons.inj h
        subst e1
        rcases hc with ⟨_, h1, h2⟩ | ⟨h0, _⟩
        · rw [if_neg h1, if_neg h2]
        · have h1 : r.ret ≠ -ETIME := by rw [h0]; decide
          have h2 : r.ret ≠ -EAGAIN := by rw [h0]; decide
          rw [if_neg h1, if_neg h2]
  refine ⟨hiff, ?_⟩
  intro pre r rest hcq hpre h0 hb
  have hnd : r.dispatched = false := by simp [Reply.dispatched, h0, hb]
  obtain ⟨d1, _⟩ := dropWhile_prefix r rest hnd pre hpre
  obtain ⟨p1, p2, p3⟩ := wait_loop_prefix k procs (wait_timespec timeout)
    (wait_timespec timeout) r rest hnd pre 0 0 { mem with ep := wait_flush mem.ep } hpre
  refine ⟨hiff.2 ⟨r, rest, by rw [hcq]; exact d1, Or.inr ⟨h0, hb⟩⟩, ?_, ?_, ?_⟩
  · subst hcq; unfold event_uring_wait; exact p3
  · subst hcq; unfold event_uring_wait; exact p1
  · subst hcq; unfold event_uring_wait; exact p2

/-- C11 on a concrete input: descriptor 5 completes normally, then the
completion of descriptor 7 carries `-ENOBUFS`: the call returns -1, the
callback of 5 was invoked, that of 7 was not, and READ stays set on 7. -/
theorem wait_error_return_witness :
    (∀ x ∈ [completion 5 10], x.dispatched = true) ∧
    (event_uring_wait flags0 idleProcs (memWith 1)
      [completion 5 10, completion 7 (-ENOBUFS), completion 6 1] 100).ret = some (-1) ∧
    (event_uring_wait flags0 idleProcs (memWith 1)
      [completion 5 10, completion 7 (-ENOBUFS), completion 6 1] 100).cq
        = [completion 6 1] ∧
    (event_uring_wait flags0 idleProcs (memWith 1)
      [completion 5 10, completion 7 (-ENOBUFS), completion 6 1] 100).items =
      (event_uring_wait flags0 idleProcs (memWith 1) [completion 5 10] 100).items ∧
    ((event_uring_wait flags0 idleProcs (memWith 1)
      [completion 5 10, completion 7 (-ENOBUFS), completion 6 1] 100).mem.files 7).mask
        = 1 :=
  ⟨by decide,
    ((wait_error_return flags0 idleProcs (memWith 1)
      [completion 5 10, completion 7 (-ENOBUFS), completion 6 1] 100).2
      [completion 5 10] (completion 7 (-ENOBUFS)) [completion 6 1] rfl (by decide)
      rfl rfl).1,
    ((wait_error_return flags0 idleProcs (memWith 1)
      [completion 5 10, completion 7 (-ENOBUFS), completion 6 1] 100).2
      [completion 5 10] (completion 7 (-ENOBUFS)) [completion 6 1] rfl (by decide)
      rfl rfl).2.1,
    ((wait_error_return flags0 idleProcs (memWith 1)
      [completion 5 10, completion 7 (-ENOBUFS), completion 6 1] 100).2
      [completion 5 10] (completion 7 (-ENOBUFS)) [completion 6 1] rfl (by decide)
      rfl rfl).2.2.1,
    by decide⟩

/-- C12, counterexample: descriptor 7 is armed for WRITE with `w_proc` set;
its completion carries the negative error code `-ENOBUFS`. `event_uring_wait`
returns -1 because of it, stores nothing in `wlen` and invokes no callback. -/
theorem enobufs_not_delivered_to_callback :
    armedWrite flags0 ((memWith 2).files 7) = true ∧
    (-ENOBUFS : Int) < 0 ∧
    (event_uring_wait flags0 idleProcs (memWith 2) [completion 7 (-ENOBUFS)] 100).ret
      = some (-1) ∧
    ((event_uring_wait flags0 idleProcs (memWith 2)
      [completion 7 (-ENOBUFS)] 100).mem.files 7).wlen = 0 ∧
    callsOf (event_uring_wait flags0 idleProcs (memWith 2)
      [completion 7 (-ENOBUFS)] 100).items = [] := by
  decide

/-- C12, amended: for every completion with a negative result other than
`-ENOBUFS` that `event_uring_wait` takes up (the successful answers at the
head of the queue whose result is not `-ENOBUFS` are all taken through the
dispatch step), an armed READ interest gets its callback, entered with the
negative code stored in `rlen` (in `iocp_sock` in ACCEPT mode), and an armed
WRITE interest gets its callback, entered with the code stored in `wlen` (in
`iocp_sock` in CONNECT mode); and a queue that holds only successful answers
with results other than `-ENOBUFS`, negative or not, never makes the call
return -1. -/
theorem negative_result_reaches_callback (k : EventFlags) (procs : Procs) (mem : Mem)
    (cq : List Reply) (timeout : Int) :
    (event_uring_wait k procs mem cq timeout).items.map Item.cqe =
      (cq.takeWhile Reply.dispatched).map Reply.cqe ∧
    (∀ it ∈ (event_uring_wait k procs mem cq timeout).items, it.cqe.res < 0 →
      (armedRead k it.before = true →
        ∃ c, it.calls.head? = some c ∧ c.kind = Interest.read ∧
          some c.proc = it.before.r_proc ∧ c.fe = it.cqe.user_data ∧
          (it.before.mask &&& EVENT_ACCEPT k ≠ 0 → c.seen.iocp_sock = it.cqe.res) ∧
          (it.before.mask &&& EVENT_ACCEPT k = 0 → c.seen.rlen = it.cqe.res)) ∧
      (armedWrite k it.mid = true →
        ∃ c, it.calls.getLast? = some c ∧ c.kind = Interest.write ∧
          some c.proc = it.mid.w_proc ∧ c.fe = it.cqe.user_data ∧
          (it.mid.mask &&& EVENT_CONNECT k ≠ 0 → c.seen.iocp_sock = it.cqe.res) ∧
          (it.mid.mask &&& EVENT_CONNECT k = 0 → c.seen.wlen = it.cqe.res))) ∧
    ((∀ x ∈ cq, x.ret = 0 ∧ x.cqe.res ≠ -ENOBUFS) →
      (event_uring_wait k procs mem cq timeout).ret ≠ some (-1) ∧
      (cq ≠ [] → (event_uring_wait k procs mem cq timeout).ret = some (cq.length : Int))) := by
  refine ⟨wait_loop_items_cqe k procs (wait_timespec timeout) cq 0
    { mem with ep := wait_flush mem.ep }, ?_, ?_⟩
  · apply wait_loop_items_forall
    intro cqe m _
    obtain ⟨h1, _, h3, _⟩ := dispatch_item_spec k procs cqe m
    rw [h1]
    constructor
    · intro ha
      obtain ⟨hb, f, hf⟩ := (armedRead_iff k _).1 ha
      have hrc : readCall k cqe (dispatch k procs cqe m).2.before =
          [Call.mk Interest.read f cqe.user_data
            (mark_read k cqe.res (dispatch k procs cqe m).2.before)] := by
        unfold readCall; rw [if_pos hb, hf]
      refine ⟨Call.mk Interest.read f cqe.user_data
        (mark_read k cqe.res (dispatch k procs cqe m).2.before),
        by rw [h3, hrc]; rfl, rfl, hf.symm, rfl, ?_, ?_⟩
      · intro hacc
        show (mark_read k cqe.res _).iocp_sock = cqe.res
        rw [(mark_read_stores k cqe.res _).1 hacc]
      · intro hacc
        show (mark_read k cqe.res _).rlen = cqe.res
        rw [(mark_read_stores k cqe.res _).2 hacc]
    · intro ha
      obtain ⟨hb, f, hf⟩ := (armedWrite_iff k _).1 ha
      have hwc : writeCall k cqe (dispatch k procs cqe m).2.mid =
          [Call.mk Interest.write f cqe.user_data
            (mark_write k cqe.res (dispatch k procs cqe m).2.mid)] := by
        unfold writeCall; rw [if_pos hb, hf]
      refine ⟨Call.mk Interest.write f cqe.user_data
        (mark_write k cqe.res (dispatch k procs cqe m).2.mid),
        by rw [h3, hwc]; simp, rfl, hf.symm, rfl, ?_, ?_⟩
      · intro hcon
        show (mark_write k cqe.res _).iocp_sock = cqe.res
        rw [(mark_write_stores k cqe.res _).1 hcon]
      · intro hcon
        show (mark_write k cqe.res _).wlen = cqe.res
        rw [(mark_write_stores k cqe.res _).2 hcon]
  · intro hok
    have hd : ∀ r ∈ cq, r.dispatched = true := by
      intro r hr
      simp [Reply.dispatched, (hok r hr).1, (hok r hr).2]
    have htake : cq.takeWhile Reply.dispatched = cq := List.takeWhile_eq_self_iff.2 hd
    have hdrop : cq.dropWhile Reply.dispatched = [] := List.dropWhile_eq_nil_iff.2 hd
    obtain ⟨hr, _⟩ := wait_loop_ret k procs (wait_timespec timeout) cq 0
      { mem with ep := wait_flush mem.ep }
    rw [hdrop, htake] at hr
    simp only [Nat.zero_add] at hr
    unfold event_uring_wait
    rw [hr]
    constructor
    · split
      · intro h
        have := Option.some.inj h
        omega
      · cases wait_timespec timeout with
        | none => intro h; cases h
        | some ts =>
          intro h
          have := Option.some.inj h
          omega
    · intro hne
      rw [if_pos (List.length_pos.2 hne)]

/-- C12, amended, on a concrete input: descriptor 7 armed for READ, the
completion carries the error code -104; `r_proc` is invoked with -104 in
`rlen` and the call returns 1. -/
theorem negative_result_reaches_callback_witness :
    (dispatch flags0 idleProcs (completion 7 (-104)).cqe (memWith 1)).2 ∈
      (event_uring_wait flags0 idleProcs (memWith 1) [completion 7 (-104)] 100).items ∧
    (∃ c, (dispatch flags0 idleProcs (completion 7 (-104)).cqe
        (memWith 1)).2.calls.head? = some c ∧ c.kind = Interest.read ∧
      some c.proc = (dispatch flags0 idleProcs (completion 7 (-104)).cqe
        (memWith 1)).2.before.r_proc ∧
      c.fe = 7 ∧
      ((mkEvent 7 1).mask &&& EVENT_ACCEPT flags0 = 0 → c.seen.rlen = -104)) ∧
    (event_uring_wait flags0 idleProcs (memWith 1) [completion 7 (-104)] 100).ret
      = some 1 :=
  ⟨by decide,
    (((negative_result_reaches_callback flags0 idleProcs (memWith 1)
        [completion 7 (-104)] 100).2.1
        (dispatch flags0 idleProcs (completion 7 (-104)).cqe (memWith 1)).2
        (by decide) (by decide)).1 (by decide)).imp
      (fun _ h => ⟨h.1, h.2.1, h.2.2.1, h.2.2.2.1, h.2.2.2.2.2⟩),
    ((negative_result_reaches_callback flags0 idleProcs (memWith 1)
      [completion 7 (-104)] 100).2.2 (by decide)).2 (by decide)⟩

/-! ## Repeated waits -/

theorem armed_after_wait_loop (k : EventFlags) (procs : Procs) (hk : KeepsArming procs)
    (tp : Option timespec) (p : Nat) :
    ∀ (cq : List Reply) (count : Nat) (mem : Mem),
      (armedRead k ((wait_loop k procs tp cq count mem).mem.files p) = true ↔
        armedRead k (mem.files p) = true ∧
          ¬ ∃ r ∈ cq.takeWhile Reply.dispatched, r.cqe.user_data = p) ∧
      (armedWrite k ((wait_loop k procs tp cq count mem).mem.files p) = true ↔
        armedWrite k (mem.files p) = true ∧
          ¬ ∃ r ∈ cq.takeWhile Reply.dispatched, r.cqe.user_data = p) := by
  intro cq
  induction cq with
  | nil =>
    intro count mem
    rw [(wait_loop_nil k procs tp count mem).2.1]
    simp
  | cons r rest ih =>
    intro count mem
    cases h : r.dispatched with
    | false =>
      rw [(wait_loop_stopped k procs tp r rest count mem h).2.1]
      simp [List.takeWhile_cons, h]
    | true =>
      rw [wait_loop_dispatched k procs tp r rest count mem h]
      obtain ⟨ihr, ihw⟩ := ih (count + 1) (dispatch k procs r.cqe mem).1
      obtain ⟨ar, aw⟩ := armed_after_dispatch k procs hk r.cqe mem p
      simp only [List.takeWhile_cons, h, if_true]
      rw [ihr, ihw, ar, aw]
      by_cases hp : p = r.cqe.user_data
      · subst hp
        simp
      · have hp' : r.cqe.user_data ≠ p := fun e => hp e.symm
        simp [hp, hp']

theorem tail_dropWhile_length (l : List Reply) :
    (l.dropWhile Reply.dispatched).tail.length ≤ l.length - 1 := by
  have h := congrArg List.length (List.takeWhile_append_dropWhile Reply.dispatched l)
  rw [List.length_append] at h
  rw [List.length_tail]
  omega

theorem delivered_split (l : List Reply) (p : Nat) :
    (∃ r ∈ l, r.dispatched = true ∧ r.cqe.user_data = p) ↔
      (∃ r ∈ l.takeWhile Reply.dispatched, r.cqe.user_data = p) ∨
      (∃ r ∈ (l.dropWhile Reply.dispatched).tail,
        r.dispatched = true ∧ r.cqe.user_data = p) := by
  have hsplit := List.takeWhile_append_dropWhile Reply.dispatched l
  constructor
  · rintro ⟨r, hr, hd, hp⟩
    rw [← hsplit, List.mem_append] at hr
    rcases hr with hr | hr
    · exact Or.inl ⟨r, hr, hp⟩
    · right
      cases hdw : l.dropWhile Reply.dispatched with
      | nil => rw [hdw] at hr; cases hr
      | cons x xs =>
        have hx := List.head_dropWhile_not Reply.dispatched l
          (by rw [hdw]; exact List.cons_ne_nil _ _)
        simp only [hdw, List.head_cons] at hx
        rw [hdw] at hr
        rcases List.mem_cons.1 hr with e | hr'
        · subst e; rw [hd] at hx; cases hx
        · exact ⟨r, hr', hd, hp⟩
  · rintro (⟨r, hr, hp⟩ | ⟨r, hr, hd, hp⟩)
    · refine ⟨r, ?_, List.mem_takeWhile_imp hr, hp⟩
      rw [← hsplit]; exact List.mem_append_left _ hr
    · refine ⟨r, ?_, hd, hp⟩
      rw [← hsplit]
      exact List.mem_append_right _ (List.mem_of_mem_tail hr)

theorem callsFor_append (i : Interest) (p : Nat) (a b : List Item) :
    callsFor i p (a ++ b) = callsFor i p a + callsFor i p b := by
  simp [callsFor, callsOf, List.countP_append]

theorem wait_all_calls (k : EventFlags) (procs : Procs) (hk : KeepsArming procs)
    (timeout : Int) (p : Nat) :
    ∀ (n : Nat) (mem : Mem) (cq : List Reply), cq.length ≤ n →
      (wait_all k procs timeout n mem cq).2.2.2 = [] ∧
      (wait_all k procs timeout n mem cq).1.length ≤ cq.length ∧
      callsFor Interest.read p (wait_all k procs timeout n mem cq).2.1 =
        (if armedRead k (mem.files p) = true ∧
            (∃ r ∈ cq, r.dispatched = true ∧ r.cqe.user_data = p) then 1 else 0) ∧
      callsFor Interest.write p (wait_all k procs timeout n mem cq).2.1 =
        (if armedWrite k (mem.files p) = true ∧
            (∃ r ∈ cq, r.dispatched = true ∧ r.cqe.user_data = p) then 1 else 0) := by
  intro n
  induction n with
  | zero =>
    intro mem cq hlen
    have : cq = [] := List.length_eq_zero.1 (by omega)
    subst this
    simp [wait_all, callsFor, callsOf]
  | succ n ih =>
    intro mem cq hlen
    cases cq with
    | nil => simp [wait_all, callsFor, callsOf]
    | cons r rest =>
      have hq : (event_uring_wait k procs mem (r :: rest) timeout).cq =
          ((r :: rest).dropWhile Reply.dispatched).tail := by
        unfold event_uring_wait
        exact (wait_loop_ret k procs _ (r :: rest) 0 _).2
      have hlen' : (event_uring_wait k procs mem (r :: rest) timeout).cq.length ≤ n := by
        rw [hq]
        have := tail_dropWhile_length (r :: rest)
        simp only [List.length_cons] at this hlen
        omega
      obtain ⟨i1, i2, i3, i4⟩ := ih (event_uring_wait k procs mem (r :: rest) timeout).mem
        (event_uring_wait k procs mem (r :: rest) timeout).cq hlen'
      obtain ⟨cr, cw⟩ := callsFor_wait_loop k procs hk (wait_timespec timeout) p
        (r :: rest) 0 { mem with ep := wait_flush mem.ep }
      obtain ⟨ar, aw⟩ := armed_after_wait_loop k procs hk (wait_timespec timeout) p
        (r :: rest) 0 { mem with ep := wait_flush mem.ep }
      have hsplit := delivered_split (r :: rest) p
      simp only [wait_all]
      refine ⟨i1, ?_, ?_, ?_⟩
      · simp only [List.length_cons] at hlen' hlen ⊢
        have := tail_dropWhile_length (r :: rest)
        rw [← hq] at this
        simp only [List.length_cons] at this
        omega
      · rw [callsFor_append, i3]
        have e1 : callsFor Interest.read p
            (event_uring_wait k procs mem (r :: rest) timeout).items = _ := cr
        rw [e1, hq]
        have e2 : (armedRead k ((event_uring_wait k procs mem (r :: rest)
            timeout).mem.files p) = true) ↔ _ := ar
        by_cases hT : ∃ x ∈ (r :: rest).takeWhile Reply.dispatched, x.cqe.user_data = p
        · have hno : ¬ (armedRead k ((event_uring_wait k procs mem (r :: rest)
              timeout).mem.files p) = true) := fun h => (e2.1 h).2 hT
          have hall : ∃ x ∈ r :: rest, x.dispatched = true ∧ x.cqe.user_data = p :=
            hsplit.2 (Or.inl hT)
          by_cases hA : armedRead k (mem.files p) = true
          · rw [if_pos ⟨hA, hT⟩, if_neg (fun h => hno h.1), if_pos ⟨hA, hall⟩]
          · rw [if_neg (fun h => hA h.1), if_neg (fun h => hno h.1),
              if_neg (fun h => hA h.1)]
        · by_cases hA : armedRead k (mem.files p) = true
          · have hyes : armedRead k ((event_uring_wait k procs mem (r :: rest)
                timeout).mem.files p) = true := e2.2 ⟨hA, hT⟩
            rw [if_neg (fun h => hT h.2)]
            by_cases hR : ∃ x ∈ ((r :: rest).dropWhile Reply.dispatched).tail,
                x.dispatched = true ∧ x.cqe.user_data = p
            · rw [if_pos ⟨hyes, hR⟩, if_pos ⟨hA, hsplit.2 (Or.inr hR)⟩]
            · have hnall : ¬ ∃ x ∈ r :: rest, x.dispatched = true ∧ x.cqe.user_data = p := by
                intro h
                rcases hsplit.1 h with h' | h'
                · exact hT h'
                · exact hR h'
              rw [if_neg (fun h => hR h.2), if_neg (fun h => hnall h.2)]
          · have hno : ¬ (armedRead k ((event_uring_wait k procs mem (r :: rest)
                timeout).mem.files p) = true) := fun h => hA (e2.1 h).1
            rw [if_neg (fun h => hA h.1), if_neg (fun h => hno h.1),
              if_neg (fun h => hA h.1)]
      · rw [callsFor_append, i4]
        have e1 : callsFor Interest.write p
            (event_uring_wait k procs mem (r :: rest) timeout).items = _ := cw
        rw [e1, hq]
        have e2 : (armedWrite k ((event_uring_wait k procs mem (r :: rest)
            timeout).mem.files p) = true) ↔ _ := aw
        by_cases hT : ∃ x ∈ (r :: rest).takeWhile Reply.dispatched, x.cqe.user_data = p
        · have hno : ¬ (armedWrite k ((event_uring_wait k procs mem (r :: rest)
              timeout).mem.files p) = true) := fun h => (e2.1 h).2 hT
          have hall : ∃ x ∈ r :: rest, x.dispatched = true ∧ x.cqe.user_data = p :=
            hsplit.2 (Or.inl hT)
          by_cases hA : armedWrite k (mem.files p) = true
          · rw [if_pos ⟨hA, hT⟩, if_neg (fun h => hno h.1), if_pos ⟨hA, hall⟩]
          · rw [if_neg (fun h => hA h.1), if_neg (fun h => hno h.1),
              if_neg (fun h => hA h.1)]
        · by_cases hA : armedWrite k (mem.files p) = true
          · have hyes : armedWrite k ((event_uring_wait k procs mem (r :: rest)
                timeout).mem.files p) = true := e2.2 ⟨hA, hT⟩
            rw [if_neg (fun h => hT h.2)]
            by_cases hR : ∃ x ∈ ((r :: rest).dropWhile Reply.dispatched).tail,
                x.dispatched = true ∧ x.cqe.user_data = p
            · rw [if_pos ⟨hyes, hR⟩, if_pos ⟨hA, hsplit.2 (Or.inr hR)⟩]
            · have hnall : ¬ ∃ x ∈ r :: rest, x.dispatched = true ∧ x.cqe.user_data = p := by
                intro h
                rcases hsplit.1 h with h' | h'
                · exact hT h'
                · exact hR h'
              rw [if_neg (fun h => hR h.2), if_neg (fun h => hnall h.2)]
          · have hno : ¬ (armedWrite k ((event_uring_wait k procs mem (r :: rest)
                timeout).mem.files p) = true) := fun h => hA (e2.1 h).1
            rw [if_neg (fun h => hA h.1), if_neg (fun h => hno h.1),
              if_neg (fun h => hA h.1)]

/-- C13, counterexample: descriptor 7 is armed for READ with `r_proc` set and
the script delivers its completion with the result `-ENOBUFS`. Waiting until
the queue is empty takes one call, which returns -1; the completion is
consumed, `r_proc` is never invoked and READ is still armed. -/
theorem enobufs_wakeup_lost :
    armedRead flags0 ((memWith 1).files 7) = true ∧
    (wait_all flags0 idleProcs 100 1 (memWith 1) [completion 7 (-ENOBUFS)]).1
      = [some (-1)] ∧
    (wait_all flags0 idleProcs 100 1 (memWith 1) [completion 7 (-ENOBUFS)]).2.2.2
      = [] ∧
    callsFor Interest.read 7
      (wait_all flags0 idleProcs 100 1 (memWith 1) [completion 7 (-ENOBUFS)]).2.1
      = 0 ∧
    armedRead flags0
      ((wait_all flags0 idleProcs 100 1 (memWith 1)
        [completion 7 (-ENOBUFS)]).2.2.1.files 7) = true := by
  decide

/-- C13, amended: for every finite script of answers (completions and
failures) and callbacks that neither arm nor disarm, calling
`event_uring_wait` repeatedly until the queue is empty takes at most as many
calls as the script has answers and invokes, exactly once, the callback of
every interest armed at the start for whose file event the script delivers a
successful completion with a result other than `-ENOBUFS`, also when some of
the calls return an error; the callbacks of the other interests are not
invoked. -/
theorem no_lost_wakeup_but_enobufs (k : EventFlags) (procs : Procs)
    (hk : KeepsArming procs) (timeout : Int) (mem : Mem) (cq : List Reply)
    (n : Nat) (hn : cq.length ≤ n) :
    (wait_all k procs timeout n mem cq).2.2.2 = [] ∧
    (wait_all k procs timeout n mem cq).1.length ≤ cq.length ∧
    ∀ p,
      callsFor Interest.read p (wait_all k procs timeout n mem cq).2.1 =
        (if armedRead k (mem.files p) = true ∧
            (∃ r ∈ cq, r.dispatched = true ∧ r.cqe.user_data = p) then 1 else 0) ∧
      callsFor Interest.write p (wait_all k procs timeout n mem cq).2.1 =
        (if armedWrite k (mem.files p) = true ∧
            (∃ r ∈ cq, r.dispatched = true ∧ r.cqe.user_data = p) then 1 else 0) := by
  refine ⟨(wait_all_calls k procs hk timeout 0 n mem cq hn).1,
    (wait_all_calls k procs hk timeout 0 n mem cq hn).2.1, ?_⟩
  intro p
  exact (wait_all_calls k procs hk timeout p n mem cq hn).2.2

/-- C13, amended, on a concrete input: the completion of descriptor 5, a
failure `-4` of the library, then the completion of descriptor 6. Two calls
empty the queue, the first returning -1 and the second 1, and both callbacks
are invoked once. -/
theorem no_lost_wakeup_but_enobufs_witness :
    KeepsArming idleProcs ∧
    [completion 5 10, Reply.mk (-4) (completion 0 0).cqe, completion 6 20].length ≤ 3 ∧
    (wait_all flags0 idleProcs 100 3 (memWith 1)
      [completion 5 10, Reply.mk (-4) (completion 0 0).cqe, completion 6 20]).1
      = [some (-1), some 1] ∧
    (wait_all flags0 idleProcs 100 3 (memWith 1)
      [completion 5 10, Reply.mk (-4) (completion 0 0).cqe, completion 6 20]).2.2.2
      = [] ∧
    callsFor Interest.read 5
      (wait_all flags0 idleProcs 100 3 (memWith 1)
        [completion 5 10, Reply.mk (-4) (completion 0 0).cqe, completion 6 20]).2.1
      = 1 ∧
    callsFor Interest.read 6
      (wait_all flags0 idleProcs 100 3 (memWith 1)
        [completion 5 10, Reply.mk (-4) (completion 0 0).cqe, completion 6 20]).2.1
      = 1 :=
  ⟨keepsArming_idleProcs, by decide, by decide,
    (no_lost_wakeup_but_enobufs flags0 idleProcs keepsArming_idleProcs 100 (memWith 1)
      [completion 5 10, Reply.mk (-4) (completion 0 0).cqe, completion 6 20] 3
      (by decide)).1,
    ((no_lost_wakeup_but_enobufs flags0 idleProcs keepsArming_idleProcs 100 (memWith 1)
      [completion 5 10, Reply.mk (-4) (completion 0 0).cqe, completion 6 20] 3
      (by decide)).2.2 5).1.trans
      (if_pos ⟨by decide, completion 5 10, by decide, by decide, rfl⟩),
    ((no_lost_wakeup_but_enobufs flags0 idleProcs keepsArming_idleProcs 100 (memWith 1)
      [completion 5 10, Reply.mk (-4) (completion 0 0).cqe, completion 6 20] 3
      (by decide)).2.2 6).1.trans
      (if_pos ⟨by decide, completion 6 20, by decide, by decide, rfl⟩)⟩

/-- C14, counterexample: the submission list is full and descriptor 6 is idle;
`event_uring_add_write` (and `event_uring_add_read`) do not return: the
assertion on the entry fails. -/
theorem arming_on_full_queue_aborts :
    fullBackend2.ring.sq.length = fullBackend2.ring.sq_entries ∧
    event_uring_add_write flags0 fullBackend2 6 (mkEvent 6 0) = none ∧
    event_uring_add_read flags0 fullBackend2 6 (mkEvent 6 0) = none := by
  decide

/-- C14, amended: when the submission queue has no free entry, arming an idle
interest with `event_uring_add_read` or `event_uring_add_write` fails the
assertion on the entry, so the call does not return; arming an interest that
is already armed returns 0 and changes nothing. The exhaustion is not
surfaced by `event_uring_wait`: its return value is the same whatever the
backend and the file events are. -/
theorem full_queue_add_asserts (k : EventFlags) (ep : EVENT_URING) (p : Nat)
    (fe : FILE_EVENT) (hfull : ep.ring.sq_entries ≤ ep.ring.sq.length) :
    (fe.mask &&& EVENT_READ k = 0 → event_uring_add_read k ep p fe = none) ∧
    (fe.mask &&& EVENT_WRITE k = 0 → event_uring_add_write k ep p fe = none) ∧
    (fe.mask &&& EVENT_READ k ≠ 0 → event_uring_add_read k ep p fe = some (ep, fe, 0)) ∧
    (fe.mask &&& EVENT_WRITE k ≠ 0 → event_uring_add_write k ep p fe = some (ep, fe, 0)) ∧
    (∀ (procs : Procs) (mem mem' : Mem) (cq : List Reply) (timeout : Int),
      (event_uring_wait k procs mem cq timeout).ret =
        (event_uring_wait k procs mem' cq timeout).ret) := by
  have hget : io_uring_get_sqe ep.ring = false := by
    simp [io_uring_get_sqe]; omega
  refine ⟨?_, ?_, ?_, ?_, ?_⟩
  · intro h; simp [event_uring_add_read, h, hget]
  · intro h; simp [event_uring_add_write, h, hget]
  · intro h; simp [event_uring_add_read, h]
  · intro h; simp [event_uring_add_write, h]
  · intro procs mem mem' cq timeout
    unfold event_uring_wait
    rw [(wait_loop_ret k procs _ cq 0 _).1, (wait_loop_ret k procs _ cq 0 _).1]

/-- C14, amended, on a concrete input: the full backend of two entries and
the idle descriptor 6. -/
theorem full_queue_add_asserts_witness :
    fullBackend2.ring.sq_entries ≤ fullBackend2.ring.sq.length ∧
    (mkEvent 6 0).mask &&& EVENT_READ flags0 = 0 ∧
    event_uring_add_read flags0 fullBackend2 6 (mkEvent 6 0) = none :=
  ⟨by decide, by decide,
    (full_queue_add_asserts flags0 fullBackend2 6 (mkEvent 6 0) (by decide)).1
      (by decide)⟩

/-! ## Order of the two callbacks -/

theorem call_mem_callsOf (items : List Item) (c : Call) (p : Nat) (i : Interest)
    (hc : c ∈ callsOf items) (hk : c.kind = i) (hp : c.fe = p) :
    0 < callsFor i p items := by
  unfold callsFor
  rw [List.countP_pos_iff]
  exact ⟨c, hc, by simp [hk, hp]⟩

theorem wait_loop_read_first (k : EventFlags) (procs : Procs) (hn : NoRearm k procs)
    (tp : Option timespec) :
    ∀ (cq : List Reply) (count : Nat) (mem : Mem),
      List.Pairwise
        (fun a b : Call => ¬ (a.kind = Interest.write ∧ b.kind = Interest.read ∧ a.fe = b.fe))
        (callsOf (wait_loop k procs tp cq count mem).items) := by
  intro cq
  induction cq with
  | nil =>
    intro count mem
    simp [(wait_loop_nil k procs tp count mem).1, callsOf]
  | cons r rest ih =>
    intro count mem
    cases h : r.dispatched with
    | false =>
      simp [(wait_loop_stopped k procs tp r rest count mem h).1, callsOf]
    | true =>
      rw [wait_loop_dispatched k procs tp r rest count mem h]
      obtain ⟨_, _, hc, _⟩ := dispatch_item_spec k procs r.cqe mem
      have ih' := ih (count + 1) (dispatch k procs r.cqe mem).1
      simp only [callsOf, List.map_cons, List.flatten_cons]
      simp only [callsOf] at ih'
      rw [List.pairwise_append]
      refine ⟨?_, ih', ?_⟩
      · rw [hc, List.pairwise_append]
        refine ⟨?_, ?_, ?_⟩
        · unfold readCall
          split
          · split <;> simp
          · simp
        · unfold writeCall
          split
          · split <;> simp
          · simp
        · intro a ha b hb hab
          have := (readCall_spec k r.cqe _ a ha).1
          rw [this] at hab
          cases hab.1
      · intro a ha b hb hab
        obtain ⟨hw, hr, hfe⟩ := hab
        have hafe : a.fe = r.cqe.user_data := by
          rw [hc, List.mem_append] at ha
          rcases ha with ha | ha
          · exact (readCall_spec k r.cqe _ a ha).2.1
          · exact (writeCall_spec k r.cqe _ a ha).2.1
        have hpos : 0 < callsFor Interest.read r.cqe.user_data
            (wait_loop k procs tp rest (count + 1) (dispatch k procs r.cqe mem).1).items :=
          call_mem_callsOf _ b _ _ hb hr (by rw [← hfe, hafe])
        have hle := (callsFor_le_armed k procs hn tp r.cqe.user_data rest (count + 1)
          (dispatch k procs r.cqe mem).1).1
        have hz : ¬ armedRead k ((dispatch k procs r.cqe mem).1.files r.cqe.user_data)
            = true :=
          fun e => ((armed_after_dispatch_le k procs hn r.cqe mem r.cqe.user_data).1 e).2 rfl
        rw [if_neg hz] at hle
        omega

/-- C15: for every completion `event_uring_wait` takes through the dispatch
step, a file event with READ armed and WRITE armed (as the write half finds
it) gets `r_proc` first and `w_proc` second, and in no pass does a `w_proc`
call precede an `r_proc` call. When the callbacks do not re-arm, over the
whole call no `r_proc` invocation of a file event comes after a `w_proc`
invocation of the same file event. -/
theorem read_dispatched_before_write (k : EventFlags) (procs : Procs) (mem : Mem)
    (cq : List Reply) (timeout : Int) :
    (∀ it ∈ (event_uring_wait k procs mem cq timeout).items,
      (armedRead k it.before = true → armedWrite k it.mid = true →
        it.calls.map Call.kind = [Interest.read, Interest.write]) ∧
      List.Pairwise
        (fun a b : Call => ¬ (a.kind = Interest.write ∧ b.kind = Interest.read))
        it.calls) ∧
    (NoRearm k procs →
      List.Pairwise
        (fun a b : Call => ¬ (a.kind = Interest.write ∧ b.kind = Interest.read ∧ a.fe = b.fe))
        (callsOf (event_uring_wait k procs mem cq timeout).items)) := by
  constructor
  · intro it hit
    have hk := (item_calls k procs mem cq timeout it hit).1
    constructor
    · intro hr hw
      rw [hk, if_pos hr, if_pos hw]; rfl
    · have hp : List.Pairwise
          (fun a b : Interest => ¬ (a = Interest.write ∧ b = Interest.read))
          (it.calls.map Call.kind) := by
        rw [hk]
        split <;> split <;> simp
      exact (List.pairwise_map.1 hp)
  · intro hn
    unfold event_uring_wait
    exact wait_loop_read_first k procs hn _ cq 0 _

/-- C15 on a concrete input: descriptor 7 with READ and WRITE armed gets
`r_proc` and then `w_proc` for its completion. -/
theorem read_dispatched_before_write_witness :
    (dispatch flags0 idleProcs (completion 7 10).cqe (memWith 3)).2 ∈
      (event_uring_wait flags0 idleProcs (memWith 3) [completion 7 10] 100).items ∧
    armedRead flags0
      (dispatch flags0 idleProcs (completion 7 10).cqe (memWith 3)).2.before = true ∧
    armedWrite flags0
      (dispatch flags0 idleProcs (completion 7 10).cqe (memWith 3)).2.mid = true ∧
    (dispatch flags0 idleProcs (completion 7 10).cqe (memWith 3)).2.calls.map Call.kind
      = [Interest.read, Interest.write] :=
  ⟨by decide, by decide, by decide,
    ((read_dispatched_before_write flags0 idleProcs (memWith 3) [completion 7 10] 100).1
      (dispatch flags0 idleProcs (completion 7 10).cqe (memWith 3)).2 (by decide)).1
      (by decide) (by decide)⟩

/-! ## Creation and the timeout -/

/-- C16: for every requested size (and whatever `io_uring_queue_init_params`
answers), when `event_io_uring_create` returns, the size it handed to
`io_uring_queue_init_params` lies in [1, 4096): it is the requested size when
that lies in the range, and 2048 otherwise; the replacement is silent, the
outcome being that of a request for the size handed on. The new backend has
nothing queued and `appending` 0. -/
theorem create_size_in_range (size init_ret : Int) (sq_entries : Nat) :
    (∀ r, event_io_uring_create size init_ret sq_entries = some r →
      1 ≤ r.1 ∧ r.1 < 4096 ∧
      (1 ≤ size ∧ size < 4096 → r.1 = size) ∧
      (size ≤ 0 ∨ 4096 ≤ size → r.1 = 2048) ∧
      event_io_uring_create r.1 init_ret sq_entries = some r ∧
      r.2.appending = 0 ∧ r.2.ring.sq = []) ∧
    ((event_io_uring_create size init_ret sq_entries).isSome = true ↔ 0 ≤ init_ret) := by
  constructor
  · intro r hr
    by_cases hinit : init_ret < 0
    · simp [event_io_uring_create, hinit] at hr
    · by_cases hs : size ≤ 0 ∨ size ≥ 4096
      · have hr' : r = ((2048 : Int), EVENT_URING.mk (emptyRing sq_entries) 0) := by
          simp only [event_io_uring_create, if_pos hs, if_neg hinit] at hr
          exact (Option.some.inj hr).symm
        subst hr'
        refine ⟨?_, ?_, fun h => ?_, fun _ => rfl, ?_, rfl, rfl⟩
        · show (1 : Int) ≤ 2048
          decide
        · show (2048 : Int) < 4096
          decide
        · exfalso; omega
        · simp [event_io_uring_create, hinit, emptyRing]
      · have hr' : r = (size, EVENT_URING.mk (emptyRing sq_entries) 0) := by
          simp only [event_io_uring_create, if_neg hs, if_neg hinit] at hr
          exact (Option.some.inj hr).symm
        subst hr'
        refine ⟨?_, ?_, fun _ => rfl, fun h => ?_, ?_, rfl, rfl⟩
        · show 1 ≤ size
          omega
        · show size < 4096
          omega
        · exfalso; omega
        · simp only [event_io_uring_create, if_neg hs, if_neg hinit, emptyRing]
  · by_cases hinit : init_ret < 0
    · simp [event_io_uring_create, hinit]
    · simp [event_io_uring_create, hinit]
      omega

/-- C16 on concrete inputs: the sizes 100, 0, -5, 4095 and 4096 handed on as
100, 2048, 2048, 4095 and 2048; the request for 100000 creates the backend
with size 2048. -/
theorem create_size_in_range_witness :
    (event_io_uring_create 100 0 128).map Prod.fst = some 100 ∧
    (event_io_uring_create 0 0 2048).map Prod.fst = some 2048 ∧
    (event_io_uring_create (-5) 0 2048).map Prod.fst = some 2048 ∧
    (event_io_uring_create 4095 0 4096).map Prod.fst = some 4095 ∧
    (event_io_uring_create 4096 0 2048).map Prod.fst = some 2048 ∧
    event_io_uring_create 100000 0 2048 = some (2048, EVENT_URING.mk (emptyRing 2048) 0) ∧
    ((2048 : Int), EVENT_URING.mk (emptyRing 2048) 0).1 = 2048 :=
  ⟨by decide, by decide, by decide, by decide, by decide, rfl,
    ((create_size_in_range 100000 0 2048).1 (2048, EVENT_URING.mk (emptyRing 2048) 0)
      rfl).2.2.2.1
      (Or.inr (by decide))⟩

/-- C17: for every timeout >= 0 (milliseconds) `event_uring_wait` hands
`io_uring_wait_cqes` the timespec with `tv_sec = timeout / 1000` and
`tv_nsec = (timeout mod 1000) * 1000000`, so that `0 <= tv_nsec < 10^9` and
`tv_sec * 1000 + tv_nsec / 10^6 = timeout`; the timeout 0 gives the zero
timespec. For every timeout < 0 it hands over no timespec. With no answer
available the call thus returns 0 for a timeout >= 0 and blocks for ever for
a timeout < 0. -/
theorem wait_timespec_exact (k : EventFlags) (procs : Procs) (mem : Mem)
    (cq : List Reply) (timeout : Int) :
    event_uring_wait k procs mem cq timeout =
      wait_loop k procs (wait_timespec timeout) cq 0
        { ep := wait_flush mem.ep, files := mem.files } ∧
    (0 ≤ timeout →
      ∃ ts, wait_timespec timeout = some ts ∧
        ts.tv_sec = timeout / 1000 ∧ ts.tv_nsec = (timeout % 1000) * 1000000 ∧
        0 ≤ ts.tv_nsec ∧ ts.tv_nsec < 1000000000 ∧
        ts.tv_sec * 1000 + ts.tv_nsec / 1000000 = timeout ∧
        (event_uring_wait k procs mem [] timeout).ret = some 0) ∧
    (wait_timespec 0 = some { tv_sec := 0, tv_nsec := 0 }) ∧
    (timeout < 0 →
      wait_timespec timeout = none ∧
      (event_uring_wait k procs mem [] timeout).ret = none) := by
  refine ⟨rfl, ?_, by decide, ?_⟩
  · intro ht
    have h1 : timeout.tdiv 1000 = timeout / 1000 :=
      Int.tdiv_eq_ediv ht (by decide)
    have h2 : timeout.tmod 1000 = timeout % 1000 :=
      Int.tmod_eq_emod ht (by decide)
    have hts : wait_timespec timeout =
        some { tv_sec := timeout / 1000, tv_nsec := (timeout % 1000) * 1000000 } := by
      simp [wait_timespec, ht, h1, h2]
    refine ⟨_, hts, rfl, rfl, ?_, ?_, ?_, ?_⟩
    · show 0 ≤ (timeout % 1000) * 1000000
      have := Int.emod_nonneg timeout (by decide : (1000 : Int) ≠ 0)
      omega
    · show (timeout % 1000) * 1000000 < 1000000000
      have := Int.emod_lt_of_pos timeout (by decide : (0 : Int) < 1000)
      omega
    · show timeout / 1000 * 1000 + (timeout % 1000) * 1000000 / 1000000 = timeout
      rw [Int.mul_ediv_cancel _ (by decide : (1000000 : Int) ≠ 0)]
      have := Int.ediv_add_emod timeout 1000
      omega
    · unfold event_uring_wait
      rw [(wait_loop_nil k procs _ 0 _).2.2.2, hts]
      rfl
  · intro ht
    have hts : wait_timespec timeout = none := by
      simp [wait_timespec]; omega
    refine ⟨hts, ?_⟩
    unfold event_uring_wait
    rw [(wait_loop_nil k procs _ 0 _).2.2.2, hts]
    rfl

/-- C17 on concrete inputs: 1500 ms is 1 s and 500000000 ns; -1 gives no
timespec. -/
theorem wait_timespec_exact_witness :
    (0 : Int) ≤ 1500 ∧
    wait_timespec 1500 = some { tv_sec := 1, tv_nsec := 500000000 } ∧
    (∃ ts, wait_timespec 1500 = some ts ∧
      ts.tv_sec = 1500 / 1000 ∧ ts.tv_nsec = (1500 % 1000) * 1000000 ∧
      0 ≤ ts.tv_nsec ∧ ts.tv_nsec < 1000000000 ∧
      ts.tv_sec * 1000 + ts.tv_nsec / 1000000 = 1500 ∧
      (event_uring_wait flags0 idleProcs (memWith 1) [] 1500).ret = some 0) ∧
    ((-1 : Int) < 0 ∧ wait_timespec (-1) = none ∧
      (event_uring_wait flags0 idleProcs (memWith 1) [] (-1)).ret = none) :=
  ⟨by decide, by decide,
    (wait_timespec_exact flags0 idleProcs (memWith 1) [] 1500).2.1 (by decide),
    by decide,
    (wait_timespec_exact flags0 idleProcs (memWith 1) [] (-1)).2.2.2 (by decide)⟩

end EventIoUring

namespace RedisObject

open redis_status redis_obj_t

/-! ## The members -/

@[simp] theorem status_mk (s : redis_status) (t : redis_obj_t) (p : Bool)
    (c : Option redis_object) (n : Int) (l : List redis_object) (b : List Char) :
    (redis_object.mk s t p c n l b).status_ = s := rfl

@[simp] theorem type_mk (s : redis_status) (t : redis_obj_t) (p : Bool)
    (c : Option redis_object) (n : Int) (l : List redis_object) (b : List Char) :
    (redis_object.mk s t p c n l b).type_ = t := rfl

@[simp] theorem parent_this_mk (s : redis_status) (t : redis_obj_t) (p : Bool)
    (c : Option redis_object) (n : Int) (l : List redis_object) (b : List Char) :
    (redis_object.mk s t p c n l b).parent_this = p := rfl

@[simp] theorem obj_mk (s : redis_status) (t : redis_obj_t) (p : Bool)
    (c : Option redis_object) (n : Int) (l : List redis_object) (b : List Char) :
    (redis_object.mk s t p c n l b).obj_ = c := rfl

@[simp] theorem cnt_mk (s : redis_status) (t : redis_obj_t) (p : Bool)
    (c : Option redis_object) (n : Int) (l : List redis_object) (b : List Char) :
    (redis_object.mk s t p c n l b).cnt_ = n := rfl

@[simp] theorem objs_mk (s : redis_status) (t : redis_obj_t) (p : Bool)
    (c : Option redis_object) (n : Int) (l : List redis_object) (b : List Char) :
    (redis_object.mk s t p c n l b).objs_ = l := rfl

@[simp] theorem buf_mk (s : redis_status) (t : redis_obj_t) (p : Bool)
    (c : Option redis_object) (n : Int) (l : List redis_object) (b : List Char) :
    (redis_object.mk s t p c n l b).buf_ = b := rfl

/-! ## `reset` -/

theorem is_reset_iff (o : redis_object) : is_reset o ↔ o = redis_object_new := by
  cases o
  simp [is_reset, redis_object_new, redis_object.status_, redis_object.type_,
    redis_object.buf_, redis_object.objs_, redis_object.obj_, redis_object.cnt_,
    redis_object.parent_this]
  tauto

theorem set_after_prefix (cache r : List redis_object) (x y : redis_object) :
    (cache ++ [x] ++ r).set cache.length y = cache ++ [y] ++ r := by
  induction cache with
  | nil => simp
  | cons a l ih => simp

mutual

theorem reset_spec (cache_max : Nat) :
    ∀ (o : redis_object) (cache : List redis_object),
      (reset cache_max cache o).2 = redis_object_new ∧
      (reset cache_max cache o).1 = cache ++
        List.replicate (min (descendants o) (cache_max - cache.length)) redis_object_new
  | redis_object.mk _ _ _ _ _ objs _, cache => by
    simp only [reset, descendants]
    exact ⟨trivial, reset_objs_spec cache_max objs cache⟩

theorem reset_objs_spec (cache_max : Nat) :
    ∀ (objs : List redis_object) (cache : List redis_object),
      reset_objs cache_max cache objs = cache ++
        List.replicate (min (descendants_list objs) (cache_max - cache.length))
          redis_object_new
  | [], cache => by simp [reset_objs, descendants_list]
  | obj :: rest, cache => by
    simp only [reset_objs, descendants_list]
    by_cases h : cache.length < cache_max
    · rw [if_pos h]
      obtain ⟨h2, h1⟩ := reset_spec cache_max obj (cache ++ [obj])
      rw [h1, h2, reset_objs_spec cache_max rest, set_after_prefix]
      simp only [List.append_assoc, List.length_append, List.length_replicate,
        List.length_singleton, List.singleton_append]
      rw [← List.replicate_succ, List.length_replicate, ← List.replicate_add]
      congr 2
      omega
    · rw [if_neg h, reset_objs_spec cache_max rest]
      have : cache_max - cache.length = 0 := by omega
      simp [this]

end

/-- C18: `redis_object::reset` hands a child to the shared cache exactly when
the cache holds fewer than `cache_max` objects at that moment, and deletes it
otherwise: the first child goes to the end of the cache when there is room and
leaves the cache as it is when there is none, and over the whole tree the
number of objects added is the smaller of the number of objects below the
reset object and the room left. After `reset` the old entries of the cache
are still there, its size is at most max(size before, `cache_max`), every
object added is in the freshly reset state (state begin, type unknown, empty
buffer, no children, parent itself), and so is the reset object. -/
theorem reset_returns_children_to_cache (cache_max : Nat) (cache : List redis_object)
    (o : redis_object) :
    is_reset (reset cache_max cache o).2 ∧
    (∃ added, (reset cache_max cache o).1 = cache ++ added ∧
      (∀ x ∈ added, is_reset x) ∧
      added.length = min (descendants o) (cache_max - cache.length)) ∧
    (reset cache_max cache o).1.length ≤ max cache.length cache_max ∧
    (∀ obj rest, o.objs_ = obj :: rest →
      (cache.length < cache_max →
        ∃ later, (reset cache_max cache o).1 = cache ++ redis_object_new :: later ∧
          (reset cache_max cache o).1 =
            (reset cache_max
              (reset cache_max (cache ++ [redis_object_new]) obj).1 (node rest)).1) ∧
      (¬ cache.length < cache_max → (reset cache_max cache o).1 = cache)) := by
  obtain ⟨h2, h1⟩ := reset_spec cache_max o cache
  refine ⟨(is_reset_iff _).2 h2, ⟨_, h1, ?_, by simp⟩, ?_, ?_⟩
  · intro x hx
    exact (is_reset_iff x).2 (List.eq_of_mem_replicate hx)
  · rw [h1]
    simp only [List.length_append, List.length_replicate]
    omega
  · intro obj rest ho
    cases o with
    | mk st ty pa ob cnt objs buf =>
      simp only [redis_object.objs_] at ho
      subst ho
      constructor
      · intro hlt
        refine ⟨List.replicate
          (min (descendants obj + descendants_list rest) (cache_max - cache.length - 1))
          redis_object_new, ?_, ?_⟩
        · rw [h1, ← List.replicate_succ]
          congr 2
          simp only [descendants, descendants_list]
          omega
        · rw [h1, (reset_spec cache_max (node rest) _).2,
            (reset_spec cache_max obj _).2]
          simp only [descendants, descendants_list, node, List.append_assoc,
            List.length_append, List.length_replicate, List.length_singleton,
            List.singleton_append]
          rw [← List.replicate_succ, List.length_replicate, ← List.replicate_add]
          congr 2
          omega
      · intro hge
        rw [h1]
        have : cache_max - cache.length = 0 := by omega
        simp [this]

/-- C18 on a concrete input: a bound of 2, an empty cache, and an object with
two children of which the first has one child of its own. The first child and
its child go to the cache, the second child is deleted. -/
theorem reset_returns_children_to_cache_witness :
    (node [node [leaf ['a']], leaf ['b']]).objs_ = [node [leaf ['a']], leaf ['b']] ∧
    (reset 2 [] (node [node [leaf ['a']], leaf ['b']])).1
      = [redis_object_new, redis_object_new] ∧
    (reset 2 [] (node [node [leaf ['a']], leaf ['b']])).2 = redis_object_new ∧
    (∃ later, (reset 2 [] (node [node [leaf ['a']], leaf ['b']])).1
      = [] ++ redis_object_new :: later ∧
      (reset 2 [] (node [node [leaf ['a']], leaf ['b']])).1 =
        (reset 2 (reset 2 ([] ++ [redis_object_new]) (node [leaf ['a']])).1
          (node [leaf ['b']])).1) :=
  ⟨rfl, rfl, rfl,
    ((reset_returns_children_to_cache 2 [] (node [node [leaf ['a']], leaf ['b']])).2.2.2
      (node [leaf ['a']]) [leaf ['b']] rfl).1 (by decide)⟩



/-! ## `get_line` -/

theorem get_line_cr (data buf : List Char) :
    get_line ('\r' :: data) buf = get_line data buf := by
  simp [get_line]

theorem get_line_lf (data buf : List Char) :
    get_line ('\n' :: data) buf = (data, buf, true) := by
  simp [get_line]

theorem get_line_other (c : Char) (data buf : List Char) (h1 : c ≠ '\r') (h2 : c ≠ '\n') :
    get_line (c :: data) buf = get_line data (buf ++ [c]) := by
  simp [get_line, h1, h2]

theorem get_line_buf (data : List Char) :
    ∀ buf, (get_line data buf).1 = (get_line data []).1 ∧
      (get_line data buf).2.1 = buf ++ (get_line data []).2.1 ∧
      (get_line data buf).2.2 = (get_line data []).2.2 := by
  induction data with
  | nil => intro buf; simp [get_line]
  | cons c data ih =>
    intro buf
    by_cases h1 : c = '\r'
    · subst h1
      simp only [get_line_cr]
      exact ih buf
    · by_cases h2 : c = '\n'
      · subst h2
        simp [get_line_lf]
      · simp only [get_line_other c data _ h1 h2]
        obtain ⟨a1, a2, a3⟩ := ih (buf ++ [c])
        obtain ⟨b1, b2, b3⟩ := ih ([] ++ [c])
        refine ⟨a1.trans b1.symm, ?_, a3.trans b3.symm⟩
        rw [a2, b2]
        simp

theorem get_line_not_found (data : List Char) :
    ∀ buf, (get_line data buf).2.2 = false → (get_line data buf).1 = [] := by
  induction data with
  | nil => intro buf _; simp [get_line]
  | cons c data ih =>
    intro buf h
    by_cases h1 : c = '\r'
    · subst h1
      rw [get_line_cr] at h ⊢
      exact ih buf h
    · by_cases h2 : c = '\n'
      · subst h2
        simp [get_line_lf] at h
      · rw [get_line_other c data _ h1 h2] at h ⊢
        exact ih _ h

theorem get_line_nil (buf : List Char) : get_line [] buf = ([], buf, false) := rfl

/-! ## Final states -/

theorem done_iff (o : redis_object) :
    done o = true ↔ o.status_ = redis_s_null ∨ o.status_ = redis_s_finish := by
  simp [done, failed, finish]

theorem not_done_iff (o : redis_object) :
    done o = false ↔ o.status_ ≠ redis_s_null ∧ o.status_ ≠ redis_s_finish := by
  simp [done, failed, finish]

theorem step1_done (cache : List redis_object) (o : redis_object) (c : Char)
    (h : done o = true) : step1 cache o c = (cache, o) := by
  rw [done_iff] at h
  cases o with
  | mk st ty pa ob cnt objs buf =>
    simp only [redis_object.status_] at h
    cases ob with
    | none =>
      rcases h with h | h <;> subst h <;> simp [step1, step_flat, status_tab]
    | some child =>
      rcases h with h | h <;> subst h <;> simp [step1]

theorem run_nil (s : List redis_object × redis_object) : run s [] = s := rfl

theorem run_cons (s : List redis_object × redis_object) (c : Char) (l : List Char) :
    run s (c :: l) = run (step1 s.1 s.2 c) l := rfl

theorem run_append (s : List redis_object × redis_object) (l1 l2 : List Char) :
    run s (l1 ++ l2) = run (run s l1) l2 := by
  simp [run, List.foldl_append]

theorem run_done (l : List Char) :
    ∀ (s : List redis_object × redis_object), done s.2 = true → run s l = s := by
  induction l with
  | nil => intro s _; rfl
  | cons c l ih =>
    intro s h
    rw [run_cons, step1_done s.1 s.2 c h]
    exact ih s h

theorem get_line_suffix (data : List Char) :
    ∀ buf, ∃ pre, data = pre ++ (get_line data buf).1 := by
  induction data with
  | nil => intro buf; exact ⟨[], rfl⟩
  | cons c data ih =>
    intro buf
    by_cases h1 : c = '\r'
    · subst h1
      rw [get_line_cr]
      obtain ⟨pre, h⟩ := ih buf
      exact ⟨'\r' :: pre, by rw [List.cons_append, ← h]⟩
    · by_cases h2 : c = '\n'
      · subst h2
        rw [get_line_lf]
        exact ⟨['\n'], rfl⟩
      · rw [get_line_other c data _ h1 h2]
        obtain ⟨pre, h⟩ := ih (buf ++ [c])
        exact ⟨c :: pre, by rw [List.cons_append, ← h]⟩


/-! ## The table on one byte and on many -/

theorem take_child_fresh (cache : List redis_object) (hc : all_fresh cache) :
    (take_child cache).2 = set_parent redis_object_new ∧ all_fresh (take_child cache).1 := by
  unfold take_child
  cases h : cache.getLast? with
  | none => exact ⟨rfl, hc⟩
  | some obj =>
    have hm : obj ∈ cache := List.mem_of_getLast?_eq_some h
    refine ⟨by rw [hc obj hm], ?_⟩
    intro x hx
    exact hc x (List.dropLast_subset cache hx)

theorem splits_begin (po : List redis_object → redis_object → List Char → Res)
    (cache : List redis_object) (o : redis_object) (c : Char) (rest : List Char)
    (hs : o.status_ = redis_s_begin) (ho : o.obj_ = none) (hn : node_ok o = true)
    (hc : all_fresh cache) : flat_step_ok po cache o c rest := by
  cases o with
  | mk st ty pa ob cnt objs buf =>
    simp only [redis_object.status_, redis_object.obj_] at hs ho
    subst hs ho
    simp only [flat_step_ok, step_flat, status_tab, parse_begin, redis_object.with_status,
      redis_object.type_, redis_object.parent_this, redis_object.obj_, redis_object.cnt_,
      redis_object.objs_, redis_object.buf_]
    refine ⟨?_, hc, Or.inr ⟨?_, [], rest, rfl, rfl, fun h => absurd rfl h⟩⟩
    · simp only [node_ok] at hn
      split_ifs <;> simp [node_ok] <;> simpa using hn
    · simp only [redis_object.status_]
      split_ifs <;> simp

theorem splits_line (po : List redis_object → redis_object → List Char → Res)
    (t : redis_obj_t) (cache : List redis_object) (o : redis_object) (c : Char)
    (rest : List Char)
    (hs : o.status_ = redis_s_status ∨ o.status_ = redis_s_error ∨
      o.status_ = redis_s_number)
    (ht : ∀ data, status_tab po cache o data = parse_line t cache o data)
    (ht1 : ∀ o1 data, o1.status_ = o.status_ →
      status_tab po cache o1 data = parse_line t cache o1 data)
    (ht0 : step_flat cache o c =
      (match parse_line t cache o [c] with
        | .ok r => (r.1, r.2.1)
        | .error _ => (cache, o)))
    (ho : o.obj_ = none) (hc : all_fresh cache) : flat_step_ok po cache o c rest := by
  cases o with
  | mk st ty pa ob cnt objs buf =>
    simp only [redis_object.status_, redis_object.obj_] at hs ho
    subst ho
    unfold flat_step_ok
    rw [ht0, ht]
    by_cases h1 : c = '\r'
    · subst h1
      have e : parse_line t cache (redis_object.mk st ty pa none cnt objs buf) ['\r'] =
          .ok (cache, redis_object.mk st ty pa none cnt objs buf, []) := by
        simp [parse_line, get_line_cr, get_line_nil]
      rw [e]
      refine ⟨?_, hc, Or.inl ⟨rfl, ?_⟩⟩
      · rcases hs with h | h | h <;> subst h <;> rfl
      · rw [ht]
        simp [parse_line, get_line_cr]
    · by_cases h2 : c = '\n'
      · subst h2
        by_cases hb : buf = []
        · subst hb
          have e : ∀ rest, parse_line t cache (redis_object.mk st ty pa none cnt objs [])
              ('\n' :: rest) =
              .ok (cache, redis_object.mk redis_s_null ty pa none cnt objs [], rest) := by
            intro rest
            simp [parse_line, get_line_lf]
          rw [e, e]
          refine ⟨rfl, hc, Or.inr ⟨?_, [], rest, rfl, rfl, fun h => absurd rfl h⟩⟩
          simp only [redis_object.status_]
          rcases hs with h | h | h <;> subst h <;> simp
        · have e : ∀ rest, parse_line t cache (redis_object.mk st ty pa none cnt objs buf)
              ('\n' :: rest) =
              .ok (cache, redis_object.mk redis_s_finish t pa none cnt objs buf, rest) := by
            intro rest
            simp [parse_line, get_line_lf, hb]
          rw [e, e]
          refine ⟨rfl, hc, Or.inr ⟨?_, [], rest, rfl, rfl, fun h => absurd rfl h⟩⟩
          simp only [redis_object.status_]
          rcases hs with h | h | h <;> subst h <;> simp
      · have e : parse_line t cache (redis_object.mk st ty pa none cnt objs buf) [c] =
            .ok (cache, redis_object.mk st ty pa none cnt objs (buf ++ [c]), []) := by
          simp [parse_line, get_line_other c _ _ h1 h2, get_line_nil]
        rw [e]
        refine ⟨?_, hc, Or.inl ⟨rfl, ?_⟩⟩
        · rcases hs with h | h | h <;> subst h <;> rfl
        · show parse_line t cache (redis_object.mk st ty pa none cnt objs buf) (c :: rest) =
            status_tab po cache (redis_object.mk st ty pa none cnt objs (buf ++ [c])) rest
          rw [ht1 (redis_object.mk st ty pa none cnt objs (buf ++ [c])) rest rfl]
          simp [parse_line, get_line_other c _ _ h1 h2]


theorem to_size_t_pos (v : Int) (h : 0 < to_int v) : 0 < to_size_t (to_int v) := by
  unfold to_size_t
  unfold to_int at h ⊢
  omega

theorem get_length_nil (o : redis_object) : get_length o [] = .ok (o, [], false) := by
  cases o
  simp [get_length, get_line_nil]

theorem get_length_cr (o : redis_object) (rest : List Char) :
    get_length o ('\r' :: rest) = get_length o rest := by
  simp [get_length, get_line_cr]

theorem get_length_other (o : redis_object) (c : Char) (rest : List Char)
    (h1 : c ≠ '\r') (h2 : c ≠ '\n') :
    get_length o (c :: rest) = get_length (o.with_buf (o.buf_ ++ [c])) rest := by
  cases o
  simp [get_length, get_line_other c _ _ h1 h2]

theorem get_length_lf (o : redis_object) :
    ∃ o1, (∀ rest, get_length o ('\n' :: rest) = .ok (o1, rest, true)) ∧
      o1.obj_ = o.obj_ ∧ o1.buf_ = [] ∧ o1.objs_ = o.objs_ ∧
      (o1.status_ = redis_s_null ∨
        (o1.status_ = o.status_ ∧ ∃ v, o1.cnt_ = to_int v)) := by
  cases o with
  | mk st ty pa ob cnt objs buf =>
    by_cases hb : buf = []
    · subst hb
      refine ⟨redis_object.mk redis_s_null ty pa ob cnt objs [], ?_, rfl, rfl, rfl,
        Or.inl rfl⟩
      intro rest
      simp [get_length, get_line_lf]
    · by_cases hv : (strtol buf).2 = 0 ∨ buf.getD (strtol buf).2 '\x00' ≠ '\x00'
      · refine ⟨redis_object.mk redis_s_null ty pa ob (to_int (strtol buf).1) objs [], ?_,
          rfl, rfl, rfl, Or.inl rfl⟩
        intro rest
        simp only [get_length, get_line_lf, redis_object.buf_]
        simp [hb, hv, -List.getD_eq_getElem?_getD]
      · refine ⟨redis_object.mk st ty pa ob (to_int (strtol buf).1) objs [], ?_,
          rfl, rfl, rfl, Or.inr ⟨rfl, _, rfl⟩⟩
        intro rest
        simp only [get_length, get_line_lf, redis_object.buf_]
        simp [hb, hv, -List.getD_eq_getElem?_getD]

theorem splits_strlen (po : List redis_object → redis_object → List Char → Res)
    (cache : List redis_object) (o : redis_object) (c : Char) (rest : List Char)
    (hs : o.status_ = redis_s_strlen) (ho : o.obj_ = none) (hn : node_ok o = true)
    (hc : all_fresh cache) : flat_step_ok po cache o c rest := by
  cases o with
  | mk st ty pa ob cnt objs buf =>
    simp only [redis_object.status_, redis_object.obj_] at hs ho
    subst hs ho
    have hcnt : cnt = 0 := by simpa [node_ok] using hn
    subst hcnt
    simp only [flat_step_ok, step_flat, status_tab, parse_strlen, redis_object.with_cnt,
      redis_object.status_, redis_object.type_, redis_object.parent_this,
      redis_object.obj_, redis_object.objs_, redis_object.buf_]
    by_cases h1 : c = '\r'
    · subst h1
      simp only [get_length_cr, get_length_nil]
      exact ⟨rfl, hc, Or.inl ⟨rfl, rfl⟩⟩
    · by_cases h2 : c = '\n'
      · subst h2
        obtain ⟨o1, e, ho1, hb1, _, hst⟩ :=
          get_length_lf (redis_object.mk redis_s_strlen ty pa none 0 objs buf)
        rw [e, e]
        cases o1 with
        | mk st1 ty1 pa1 ob1 cnt1 objs1 buf1 =>
          simp only [redis_object.obj_, redis_object.buf_, redis_object.status_,
            redis_object.cnt_] at ho1 hb1 hst
          subst ho1 hb1
          rcases hst with hst | ⟨hst, v, hv⟩
          · subst hst
            simp
            exact ⟨rfl, hc, Or.inr ⟨by simp, [], rest, rfl, rfl, fun h => absurd rfl h⟩⟩
          · subst hst hv
            by_cases hle : to_int v ≤ 0
            · simp [hle]
              exact ⟨rfl, hc, Or.inr ⟨by simp, [], rest, rfl, rfl, fun h => absurd rfl h⟩⟩
            · simp [hle]
              refine ⟨?_, hc, Or.inr ⟨by simp, [], rest, rfl, rfl, fun h => absurd rfl h⟩⟩
              simp only [node_ok, List.length_nil, decide_eq_true_eq]
              exact to_size_t_pos v (by omega)
      · simp only [get_length_other _ c _ h1 h2, get_length_nil, redis_object.with_buf,
          redis_object.status_, redis_object.type_, redis_object.parent_this,
          redis_object.obj_, redis_object.objs_, redis_object.buf_, redis_object.cnt_]
        simp
        exact ⟨rfl, hc, Or.inl ⟨rfl, rfl⟩⟩


theorem splits_arlen (po : List redis_object → redis_object → List Char → Res)
    (cache : List redis_object) (o : redis_object) (c : Char) (rest : List Char)
    (hs : o.status_ = redis_s_arlen) (ho : o.obj_ = none) (hn : node_ok o = true)
    (hc : all_fresh cache) : flat_step_ok po cache o c rest := by
  cases o with
  | mk st ty pa ob cnt objs buf =>
    simp only [redis_object.status_, redis_object.obj_] at hs ho
    subst hs ho
    have hcnt : cnt = 0 := by simpa [node_ok] using hn
    subst hcnt
    simp only [flat_step_ok, step_flat, status_tab, parse_arlen, redis_object.with_cnt,
      redis_object.status_, redis_object.type_, redis_object.parent_this,
      redis_object.obj_, redis_object.objs_, redis_object.buf_]
    by_cases h1 : c = '\r'
    · subst h1
      simp only [get_length_cr, get_length_nil]
      exact ⟨rfl, hc, Or.inl ⟨rfl, rfl⟩⟩
    · by_cases h2 : c = '\n'
      · subst h2
        obtain ⟨o1, e, ho1, hb1, _, hst⟩ :=
          get_length_lf (redis_object.mk redis_s_arlen ty pa none 0 objs buf)
        rw [e, e]
        cases o1 with
        | mk st1 ty1 pa1 ob1 cnt1 objs1 buf1 =>
          simp only [redis_object.obj_, redis_object.buf_, redis_object.status_,
            redis_object.cnt_] at ho1 hb1 hst
          subst ho1 hb1
          rcases hst with hst | ⟨hst, v, hv⟩
          · subst hst
            simp
            exact ⟨rfl, hc, Or.inr ⟨by simp, [], rest, rfl, rfl, fun h => absurd rfl h⟩⟩
          · subst hst hv
            by_cases hle : to_int v ≤ 0
            · simp [hle]
              exact ⟨rfl, hc, Or.inr ⟨by simp, [], rest, rfl, rfl, fun h => absurd rfl h⟩⟩
            · simp [hle]
              obtain ⟨hch, hfr⟩ := take_child_fresh cache hc
              refine ⟨?_, hfr, Or.inr ⟨by simp, [], rest, rfl, rfl, fun h => absurd rfl h⟩⟩
              rw [hch]
              simp only [node_ok, set_parent, redis_object_new, redis_object.status_,
                redis_object.type_, redis_object.obj_, redis_object.cnt_,
                redis_object.objs_, redis_object.buf_, done, failed, finish]
              simp
              omega
      · simp only [get_length_other _ c _ h1 h2, get_length_nil, redis_object.with_buf,
          redis_object.status_, redis_object.type_, redis_object.parent_this,
          redis_object.obj_, redis_object.objs_, redis_object.buf_, redis_object.cnt_]
        simp
        exact ⟨rfl, hc, Or.inl ⟨rfl, rfl⟩⟩

theorem get_data_last (c : Char) (rest buf : List Char) (want : Nat)
    (h : buf.length + 1 = want) :
    get_data (c :: rest) buf want = .ok (rest, buf ++ [c]) := by
  unfold get_data
  have h1 : ¬ ¬ buf.length < want := by omega
  have h2 : want - buf.length = 1 := by omega
  rw [if_neg h1]
  simp [h2]

theorem get_data_cons (c : Char) (rest buf : List Char) (want : Nat)
    (h : buf.length + 1 < want) :
    get_data (c :: rest) buf want = get_data rest (buf ++ [c]) want := by
  unfold get_data
  have h1 : ¬ ¬ buf.length < want := by omega
  have h2 : ¬ ¬ (buf ++ [c]).length < want := by
    simp only [List.length_append, List.length_singleton]; omega
  rw [if_neg h1, if_neg h2]
  obtain ⟨m, hm⟩ : ∃ m, want = buf.length + (m + 2) := ⟨want - buf.length - 2, by omega⟩
  subst hm
  have e1 : buf.length + (m + 2) - buf.length = m + 2 := by omega
  have e2 : buf.length + (m + 2) - (buf ++ [c]).length = m + 1 := by
    simp only [List.length_append, List.length_singleton]; omega
  simp only [e1, e2, List.length_cons]
  by_cases hk : m + 2 > rest.length + 1
  · have hk2 : m + 1 > rest.length := by omega
    rw [if_pos hk, if_pos hk2]
    simp
  · have hk2 : ¬ m + 1 > rest.length := by omega
    rw [if_neg hk, if_neg hk2]
    simp

theorem get_data_nil (buf : List Char) (want : Nat) (h : buf.length < want) :
    get_data [] buf want = .ok ([], buf) := by
  unfold get_data
  have h1 : ¬ ¬ buf.length < want := by omega
  rw [if_neg h1]
  simp

theorem splits_string (po : List redis_object → redis_object → List Char → Res)
    (cache : List redis_object) (o : redis_object) (c : Char) (rest : List Char)
    (hs : o.status_ = redis_s_string) (ho : o.obj_ = none) (hn : node_ok o = true)
    (hc : all_fresh cache) : flat_step_ok po cache o c rest := by
  cases o with
  | mk st ty pa ob cnt objs buf =>
    simp only [redis_object.status_, redis_object.obj_] at hs ho
    subst hs ho
    have hlen : buf.length < to_size_t cnt := by simpa [node_ok] using hn
    simp only [flat_step_ok, step_flat, status_tab, parse_string,
      redis_object.status_, redis_object.type_, redis_object.parent_this,
      redis_object.obj_, redis_object.objs_, redis_object.buf_, redis_object.cnt_,
      redis_object.with_buf, redis_object.with_status]
    by_cases hfull : buf.length + 1 = to_size_t cnt
    · rw [get_data_last c rest buf _ hfull, get_data_last c [] buf _ hfull]
      simp [hfull]
      exact ⟨rfl, hc, Or.inr ⟨by simp, [], rest, rfl, rfl, fun h => absurd rfl h⟩⟩
    · have hlt : buf.length + 1 < to_size_t cnt := by omega
      rw [get_data_cons c rest buf _ hlt, get_data_cons c [] buf _ hlt,
        get_data_nil _ _ (by simpa using hlt)]
      simp [hfull]
      refine ⟨?_, hc, Or.inl ⟨rfl, rfl⟩⟩
      simp only [node_ok, List.length_append, List.length_singleton, decide_eq_true_eq]
      omega

theorem splits_strend (po : List redis_object → redis_object → List Char → Res)
    (cache : List redis_object) (o : redis_object) (c : Char) (rest : List Char)
    (hs : o.status_ = redis_s_strend) (ho : o.obj_ = none)
    (hc : all_fresh cache) : flat_step_ok po cache o c rest := by
  cases o with
  | mk st ty pa ob cnt objs buf =>
    simp only [redis_object.status_, redis_object.obj_] at hs ho
    subst hs ho
    simp only [flat_step_ok, step_flat, status_tab, parse_strend,
      redis_object.status_, redis_object.type_, redis_object.parent_this,
      redis_object.obj_, redis_object.objs_, redis_object.buf_, redis_object.cnt_,
      redis_object.with_status]
    by_cases h1 : c = '\r'
    · subst h1
      simp only [get_line_cr, get_line_nil]
      simp
      exact ⟨rfl, hc, Or.inl ⟨rfl, rfl⟩⟩
    · by_cases h2 : c = '\n'
      · subst h2
        simp only [get_line_lf]
        simp
        exact ⟨rfl, hc, Or.inr ⟨by simp, [], rest, rfl, rfl, fun h => absurd rfl h⟩⟩
      · simp only [get_line_other c _ _ h1 h2, get_line_nil]
        have hb : (get_line rest ([] ++ [c])).2.1 ≠ [] := by
          rw [(get_line_buf rest _).2.1]
          simp
        rw [if_pos hb]
        simp
        obtain ⟨pre, hpre⟩ := get_line_suffix rest ([] ++ [c])
        exact ⟨rfl, hc, Or.inr ⟨by simp, pre, _, hpre, rfl, fun _ => rfl⟩⟩

theorem status_tab_flat (po po1 : List redis_object → redis_object → List Char → Res)
    (cache : List redis_object) (o : redis_object) (data : List Char)
    (h : o.status_ ≠ redis_s_array) :
    status_tab po cache o data = status_tab po1 cache o data := by
  cases o with
  | mk st ty pa ob cnt objs buf =>
    simp only [redis_object.status_] at h
    cases st <;> simp [status_tab] at h ⊢

theorem flat_status (o : redis_object) (h : flat o) : o.status_ ≠ redis_s_array := by
  cases o with
  | mk st ty pa ob cnt objs buf =>
    obtain ⟨h1, h2, _⟩ := h
    simp only [redis_object.obj_] at h1
    subst h1
    intro h3
    simp only [redis_object.status_] at h3
    subst h3
    simp [node_ok] at h2

theorem flat_of_node_ok (o : redis_object) (h : node_ok o = true) (hd : done o = false)
    (hs : o.status_ ≠ redis_s_array) : flat o := by
  refine ⟨?_, h, hd⟩
  rw [not_done_iff] at hd
  cases o with
  | mk st ty pa ob cnt objs buf =>
    cases ob with
    | none => rfl
    | some child =>
      simp only [redis_object.status_] at hs hd
      cases st <;> simp [node_ok] at h hs hd

theorem flat_cons (po : List redis_object → redis_object → List Char → Res)
    (cache : List redis_object) (o : redis_object) (c : Char) (rest : List Char)
    (hf : flat o) (hc : all_fresh cache) : flat_step_ok po cache o c rest := by
  obtain ⟨ho, hn, hd⟩ := hf
  have hst := flat_status o ⟨ho, hn, hd⟩
  rw [not_done_iff] at hd
  cases hs : o.status_ with
  | redis_s_begin => exact splits_begin po cache o c rest hs ho hn hc
  | redis_s_status =>
    refine splits_line po REDIS_OBJ_STATUS cache o c rest (Or.inl hs) ?_ ?_ ?_ ho hc
    · intro data; unfold status_tab; simp only [hs]; rfl
    · intro o1 data h1; rw [hs] at h1; unfold status_tab; simp only [h1]; rfl
    · unfold step_flat status_tab; simp only [hs]; rfl
  | redis_s_error =>
    refine splits_line po REDIS_OBJ_ERROR cache o c rest (Or.inr (Or.inl hs)) ?_ ?_ ?_ ho hc
    · intro data; unfold status_tab; simp only [hs]; rfl
    · intro o1 data h1; rw [hs] at h1; unfold status_tab; simp only [h1]; rfl
    · unfold step_flat status_tab; simp only [hs]; rfl
  | redis_s_number =>
    refine splits_line po REDIS_OBJ_INTEGER cache o c rest (Or.inr (Or.inr hs)) ?_ ?_ ?_ ho hc
    · intro data; unfold status_tab; simp only [hs]; rfl
    · intro o1 data h1; rw [hs] at h1; unfold status_tab; simp only [h1]; rfl
    · unfold step_flat status_tab; simp only [hs]; rfl
  | redis_s_strlen => exact splits_strlen po cache o c rest hs ho hn hc
  | redis_s_string => exact splits_string po cache o c rest hs ho hn hc
  | redis_s_strend => exact splits_strend po cache o c rest hs ho hc
  | redis_s_arlen => exact splits_arlen po cache o c rest hs ho hn hc
  | redis_s_array => exact absurd hs hst
  | redis_s_null => exact absurd hs hd.1
  | redis_s_finish => exact absurd hs hd.2

theorem flat_nil (po : List redis_object → redis_object → List Char → Res)
    (cache : List redis_object) (o : redis_object) (hf : flat o) :
    status_tab po cache o [] = .ok (cache, o, []) := by
  obtain ⟨ho, hn, hd⟩ := hf
  rw [not_done_iff] at hd
  cases o with
  | mk st ty pa ob cnt objs buf =>
    simp only [redis_object.obj_] at ho
    subst ho
    simp only [redis_object.status_] at hd
    cases st
    · simp [status_tab, parse_begin]
    · simp [status_tab, parse_status, parse_line, get_line_nil]
    · simp [status_tab, parse_error, parse_line, get_line_nil]
    · simp [status_tab, parse_number, parse_line, get_line_nil]
    · have hcnt : cnt = 0 := by simpa [node_ok] using hn
      subst hcnt
      simp [status_tab, parse_strlen, get_length_nil]
    · have hlen : buf.length < to_size_t cnt := by simpa [node_ok] using hn
      simp [status_tab, parse_string, get_data_nil _ _ hlen]
      omega
    · simp [status_tab, parse_strend, get_line_nil]
    · have hcnt : cnt = 0 := by simpa [node_ok] using hn
      subst hcnt
      simp [status_tab, parse_arlen, get_length_nil]
    · simp [node_ok] at hn
    · simp at hd
    · simp at hd


/-! ## What a call consumes -/

theorem minimal_nil (s : List redis_object × redis_object) : minimal s [] := by
  intro p q h hq
  have := List.append_eq_nil.1 h.symm
  exact absurd this.2 hq

theorem minimal_cons (s : List redis_object × redis_object) (c : Char) (l : List Char)
    (hd : done s.2 = false) (h : minimal (step1 s.1 s.2 c) l) : minimal s (c :: l) := by
  intro p q hpq hq
  cases p with
  | nil => exact hd
  | cons a p =>
    simp only [List.cons_append, List.cons.injEq] at hpq
    obtain ⟨ha, hl⟩ := hpq
    subst ha
    rw [run_cons]
    exact h p q hl hq

theorem minimal_single (s : List redis_object × redis_object) (c : Char)
    (hd : done s.2 = false) : minimal s [c] :=
  minimal_cons s c [] hd (minimal_nil _)

theorem minimal_append (s : List redis_object × redis_object) (l1 l2 : List Char)
    (h1 : minimal s l1) (hd : done (run s l1).2 = false) (h2 : minimal (run s l1) l2) :
    minimal s (l1 ++ l2) := by
  intro p q hpq hq
  rcases List.append_eq_append_iff.1 hpq with ⟨a, ha, hb⟩ | ⟨b, hb, ha⟩
  · -- p = l1 ++ a, l2 = a ++ q
    rw [ha, run_append]
    exact h2 a q hb hq
  · -- l1 = p ++ b, q = b ++ l2
    by_cases hbn : b = []
    · subst hbn
      simp only [List.append_nil] at hb
      subst hb
      exact hd
    · exact h1 p b hb hbn

theorem minimal_of_append (s : List redis_object × redis_object) (l1 l2 : List Char)
    (h : minimal s (l1 ++ l2)) : minimal s l1 := by
  intro p q hpq hq
  refine h p (q ++ l2) ?_ (by simp [hq])
  rw [hpq, List.append_assoc]

theorem minimal_not_done (s : List redis_object × redis_object) (l : List Char)
    (h : minimal s l) (hl : l ≠ []) : done s.2 = false :=
  h [] l rfl hl

theorem consumes_nil (s : List redis_object × redis_object) : consumes s [] s [] :=
  ⟨[], [], rfl, rfl, minimal_nil s, fun h => absurd rfl h, fun h => absurd rfl h⟩

theorem consumes_cons (s s2 : List redis_object × redis_object) (c : Char)
    (rest rest2 : List Char) (hd : done s.2 = false)
    (h : consumes (step1 s.1 s.2 c) rest s2 rest2) : consumes s (c :: rest) s2 rest2 := by
  obtain ⟨pre0, pre1, h1, h2, h3, h4, _⟩ := h
  refine ⟨c :: pre0, pre1, ?_, ?_, minimal_cons s c pre0 hd h3, h4, fun _ => by simp⟩
  · rw [h1]; rfl
  · rw [run_cons]; exact h2

theorem consumes_trans (s s1 s2 : List redis_object × redis_object)
    (data rest1 rest2 : List Char) (h1 : consumes s data s1 rest1)
    (hd : done s1.2 = false) (h2 : consumes s1 rest1 s2 rest2) :
    consumes s data s2 rest2 := by
  obtain ⟨p0, p1, e1, r1, m1, f1, n1⟩ := h1
  obtain ⟨q0, q1, e2, r2, m2, f2, n2⟩ := h2
  have hp1 : p1 = [] := by
    by_contra hne
    have := f1 hne
    simp [done, this] at hd
  subst hp1
  simp only [List.nil_append] at e1
  refine ⟨p0 ++ q0, q1, ?_, ?_, ?_, f2, ?_⟩
  · rw [e1, e2, List.append_assoc]
  · rw [run_append, ← r1]; exact r2
  · refine minimal_append s p0 q0 m1 ?_ ?_
    · rw [← r1]; exact hd
    · rw [← r1]; exact m2
  · intro hdata
    intro h
    have := List.append_eq_nil.1 h
    exact n1 hdata this.1

theorem step1_flat (cache : List redis_object) (o : redis_object) (c : Char)
    (h : o.obj_ = none) : step1 cache o c = step_flat cache o c := by
  cases o with
  | mk st ty pa ob cnt objs buf =>
    simp only [redis_object.obj_] at h
    subst h
    simp [step1]

theorem flat_spec (po : List redis_object → redis_object → List Char → Res)
    (data : List Char) :
    ∀ (cache : List redis_object) (o : redis_object), flat o → all_fresh cache →
      ∃ s1 rest, status_tab po cache o data = .ok (s1.1, s1.2, rest) ∧
        consumes (cache, o) data s1 rest ∧ node_ok s1.2 = true ∧ all_fresh s1.1 := by
  induction data with
  | nil =>
    intro cache o hf hc
    exact ⟨(cache, o), [], flat_nil po cache o hf, consumes_nil _, hf.2.1, hc⟩
  | cons c rest ih =>
    intro cache o hf hc
    obtain ⟨hn1, hc1, hsp⟩ := flat_cons po cache o c rest hf hc
    have hstep : step1 cache o c = step_flat cache o c := step1_flat cache o c hf.1
    rcases hsp with ⟨hsame, hr⟩ | ⟨hchg, pre1, rest1, hrest, hr, hfail⟩
    · have hf1 : flat (step_flat cache o c).2 := by
        refine flat_of_node_ok _ hn1 ?_ ?_
        · have := hf.2.2
          rw [not_done_iff] at this ⊢
          rw [hsame]; exact this
        · rw [hsame]; exact flat_status o hf
      obtain ⟨s2, rest2, h2, hcons, hn2, hc2⟩ := ih _ _ hf1 hc1
      refine ⟨s2, rest2, hr.trans h2, ?_, hn2, hc2⟩
      refine consumes_cons (cache, o) s2 c rest rest2 hf.2.2 ?_
      rw [hstep]; exact hcons
    · refine ⟨step_flat cache o c, rest1, hr, ?_, hn1, hc1⟩
      refine ⟨[c], pre1, by rw [hrest]; rfl, ?_, minimal_single _ c hf.2.2, hfail,
        fun _ => by simp⟩
      rw [run_cons, run_nil, hstep]


/-! ## Arrays -/

theorem pod_with_obj (cache : List redis_object) (o child : redis_object)
    (x : Option redis_object) :
    parse_object_done cache (o.with_obj x) child = parse_object_done cache o child := by
  cases o
  simp [parse_object_done]

theorem pod_not_done (cache : List redis_object) (o child : redis_object)
    (h : done child = false) :
    parse_object_done cache o child = (cache, o.with_obj (some child)) := by
  simp only [done, Bool.or_eq_false_iff] at h
  simp [parse_object_done, h.1, h.2]

theorem pod_ok (cache : List redis_object) (o child : redis_object)
    (hs : o.status_ = redis_s_array) (hcnt : 0 < o.cnt_) (hn : node_ok child = true)
    (hc : all_fresh cache) :
    node_ok (parse_object_done cache o child).2 = true ∧
      all_fresh (parse_object_done cache o child).1 ∧
      (failed child = true → failed (parse_object_done cache o child).2 = true) := by
  cases o with
  | mk st ty pa ob cnt objs buf =>
    simp only [redis_object.status_, redis_object.cnt_] at hs hcnt
    subst hs
    unfold parse_object_done
    by_cases h1 : failed child = true
    · rw [if_pos h1]
      cases child; simp [node_ok, hc, failed]
    · rw [if_neg h1]
      by_cases h2 : finish child = true
      · rw [if_neg (by simp [h2])]
        split_ifs with h3
        · cases child; simp [node_ok, hc, h1]
        · obtain ⟨e, hfr⟩ := take_child_fresh cache hc
          rw [e]
          refine ⟨?_, hfr, fun h => absurd h h1⟩
          simp [node_ok, set_parent, redis_object_new, done, failed, finish, hcnt]
      · rw [if_pos (by simp [h2])]
        refine ⟨?_, hc, fun h => absurd h h1⟩
        simp only [Bool.not_eq_true] at h1 h2
        simp [node_ok, hn, done, h1, h2, hcnt]

theorem step1_array (cache : List redis_object) (o child : redis_object) (c : Char)
    (hs : o.status_ = redis_s_array) (ho : o.obj_ = some child) :
    step1 cache o c =
      parse_object_done (step1 cache child c).1 o (step1 cache child c).2 := by
  cases o with
  | mk st ty pa ob cnt objs buf =>
    simp only [redis_object.status_, redis_object.obj_] at hs ho
    subst hs ho
    simp [step1]

theorem minimal_tail (s : List redis_object × redis_object) (c : Char) (l : List Char)
    (h : minimal s (c :: l)) : minimal (step1 s.1 s.2 c) l := by
  intro p q hpq hq
  have := h (c :: p) q (by rw [hpq]; rfl) hq
  rw [run_cons] at this
  exact this

theorem run_array (l : List Char) :
    ∀ (cache : List redis_object) (o child : redis_object),
      o.status_ = redis_s_array → o.obj_ = some child → l ≠ [] → minimal (cache, child) l →
      run (cache, o) l =
        parse_object_done (run (cache, child) l).1 o (run (cache, child) l).2 := by
  induction l with
  | nil => intro _ _ _ _ _ h; exact absurd rfl h
  | cons c l ih =>
    intro cache o child hs ho _ hmin
    rw [run_cons, run_cons]
    show run (step1 cache o c) l = _
    rw [step1_array cache o child c hs ho]
    by_cases hl : l = []
    · subst hl
      rfl
    · have hnd : done (step1 cache child c).2 = false := by
        have := hmin [c] l rfl hl
        rwa [run_cons, run_nil] at this
      rw [pod_not_done _ _ _ hnd]
      have hm2 := minimal_tail (cache, child) c l hmin
      rw [ih (step1 cache child c).1 (o.with_obj (some (step1 cache child c).2))
        (step1 cache child c).2 (by cases o; exact hs) (by cases o; rfl) hl hm2]
      rw [pod_with_obj]

theorem node_ok_array (o : redis_object) (hn : node_ok o = true)
    (hs : o.status_ = redis_s_array) :
    ∃ child, o.obj_ = some child ∧ node_ok child = true ∧ done child = false ∧
      0 < o.cnt_ := by
  cases o with
  | mk st ty pa ob cnt objs buf =>
    simp only [redis_object.status_] at hs
    subst hs
    cases ob with
    | none => simp [node_ok] at hn
    | some child =>
      simp only [node_ok, Bool.and_eq_true, Bool.not_eq_true', decide_eq_true_eq] at hn
      exact ⟨child, rfl, hn.1.1, hn.1.2, hn.2⟩

theorem with_obj_self (o child : redis_object) (h : o.obj_ = some child) :
    o.with_obj (some child) = o := by
  cases o
  simp only [redis_object.obj_] at h
  subst h
  rfl

theorem parse_object_spec (cache : List redis_object) (o : redis_object)
    (data : List Char) (hn : node_ok o = true) (hs : o.status_ = redis_s_array)
    (hU : ∀ child, o.obj_ = some child → call_ok update cache child data) :
    call_ok parse_object cache o data := by
  obtain ⟨child, ho, hnc, hdc, hcnt⟩ := node_ok_array o hn hs
  obtain ⟨N, s1, rest, hrun, ⟨pre0, pre1, e, r, m, f, ne⟩, hn1, hc1⟩ := hU child ho
  obtain ⟨k1, k2, k3⟩ := pod_ok s1.1 o s1.2 hs hcnt hn1 hc1
  have hdo : done o = false := by
    rw [not_done_iff, hs]; simp
  have hlift : ∀ p, p ≠ [] → minimal (cache, child) p →
      run (cache, o) p =
        parse_object_done (run (cache, child) p).1 o (run (cache, child) p).2 :=
    fun p hp hm => run_array p cache o child hs ho hp hm
  refine ⟨N + 1, parse_object_done s1.1 o s1.2, rest, ?_, ?_, k1, k2⟩
  · intro n hle
    obtain ⟨m1, rfl⟩ : ∃ m1, n = m1 + 1 := ⟨n - 1, by omega⟩
    have hcall := hrun m1 (by omega)
    simp only [parse_object, ho, hcall]
    rw [if_neg (by omega)]
  · refine ⟨pre0, pre1, e, ?_, ?_, fun h => k3 (f h), ne⟩
    · by_cases hp : pre0 = []
      · subst hp
        rw [run_nil] at r ⊢
        rw [r, pod_not_done _ _ _ hdc, with_obj_self o child ho]
      · rw [hlift pre0 hp m, ← r]
    · intro p q hpq hq
      by_cases hp : p = []
      · subst hp; exact hdo
      · have hmp : minimal (cache, child) p := minimal_of_append _ p q (hpq ▸ m)
        rw [hlift p hp hmp, pod_not_done _ _ _ (m p q hpq hq)]
        rw [not_done_iff]
        cases o
        simp only [redis_object.status_] at hs
        subst hs
        simp


/-! ## `update` and the caller's loop -/

theorem consumes_shorter (s s1 : List redis_object × redis_object) (data rest : List Char)
    (h : consumes s data s1 rest) (hd : data ≠ []) : rest.length < data.length := by
  obtain ⟨pre0, pre1, e, _, _, _, ne⟩ := h
  have := List.length_pos.2 (ne hd)
  rw [e]
  simp only [List.length_append]
  omega

theorem array_has_child (o : redis_object) (hn : node_ok o = true) (hd : done o = false) :
    o.obj_.isSome = true ↔ o.status_ = redis_s_array := by
  rw [not_done_iff] at hd
  cases o with
  | mk st ty pa ob cnt objs buf =>
    simp only [redis_object.status_] at hd
    cases ob with
    | none => cases st <;> simp [node_ok] at hn hd ⊢
    | some child => cases st <;> simp [node_ok] at hn hd ⊢

theorem loop_spec (cache : List redis_object) (o : redis_object) (data : List Char)
    (hn : node_ok o = true) (hd : done o = false) (hc : all_fresh cache)
    (hP : o.status_ = redis_s_array → call_ok parse_object cache o data)
    (hL : ∀ cache1 o1 data1, data1.length < data.length → node_ok o1 = true →
      done o1 = false → all_fresh cache1 → call_ends update_loop cache1 o1 data1) :
    call_ends update_loop cache o data := by
  by_cases hdata : data = []
  · subst hdata
    refine ⟨1, (cache, o), [], ?_, consumes_nil _, hn, hc, fun h => absurd rfl h⟩
    intro n hle
    obtain ⟨m, rfl⟩ : ∃ m, n = m + 1 := ⟨n - 1, by omega⟩
    simp [update_loop]
  · have hlen : ¬ data.length = 0 := fun h => hdata (List.length_eq_zero.1 h)
    -- the call of the table
    have htab : ∃ N s1 rest, (∀ n, N ≤ n →
        status_tab (parse_object n) cache o data = .ok (s1.1, s1.2, rest)) ∧
        consumes (cache, o) data s1 rest ∧ node_ok s1.2 = true ∧ all_fresh s1.1 := by
      by_cases hs : o.status_ = redis_s_array
      · obtain ⟨N, s1, rest, h1, h2, h3, h4⟩ := hP hs
        refine ⟨N, s1, rest, ?_, h2, h3, h4⟩
        intro n hle
        have hsome := (array_has_child o hn hd).2 hs
        unfold status_tab
        simp only [hs, parse_array]
        rw [if_neg (by simp [Option.isNone_iff_eq_none, Option.isSome_iff_ne_none.1 hsome])]
        exact h1 n hle
      · have hf : flat o := flat_of_node_ok o hn hd hs
        obtain ⟨s1, rest, h1, h2, h3, h4⟩ :=
          flat_spec (fun _ _ _ => .error Fault.assertion) data cache o hf hc
        refine ⟨0, s1, rest, ?_, h2, h3, h4⟩
        intro n _
        rw [status_tab_flat _ (fun _ _ _ => .error Fault.assertion) cache o data hs]
        exact h1
    obtain ⟨N, s1, rest, h1, h2, h3, h4⟩ := htab
    by_cases hd1 : done s1.2 = true
    · refine ⟨N + 1, s1, rest, ?_, h2, h3, h4, fun _ => hd1⟩
      intro n hle
      obtain ⟨m, rfl⟩ : ∃ m, n = m + 1 := ⟨n - 1, by omega⟩
      simp only [update_loop, if_neg hlen, h1 m (by omega)]
      rw [if_pos ((done_iff _).1 hd1)]
    · simp only [Bool.not_eq_true] at hd1
      obtain ⟨N2, s2, rest2, g1, g2, g3, g4, g5⟩ :=
        hL s1.1 s1.2 rest (consumes_shorter _ _ _ _ h2 hdata) h3 hd1 h4
      refine ⟨max N N2 + 1, s2, rest2, ?_, consumes_trans _ s1 _ _ _ _ h2 hd1 g2, g3, g4, g5⟩
      intro n hle
      obtain ⟨m, rfl⟩ : ∃ m, n = m + 1 := ⟨n - 1, by omega⟩
      simp only [update_loop, if_neg hlen, h1 m (by omega)]
      have hnd := (not_done_iff _).1 hd1
      rw [if_neg (by simp [hnd.1, hnd.2])]
      exact g1 m (by omega)

theorem update_spec (cache : List redis_object) (o : redis_object) (data : List Char)
    (hn : node_ok o = true) (hd : done o = false)
    (hP : o.status_ = redis_s_array → call_ok parse_object cache o data)
    (hL : call_ends update_loop cache o data) :
    call_ok update cache o data := by
  have hdd : ¬ (failed o = true ∨ finish o = true) := by
    simp only [done, Bool.or_eq_false_iff] at hd
    simp [hd.1, hd.2]
  by_cases hs : o.status_ = redis_s_array
  · obtain ⟨N, s1, rest, h1, h2, h3, h4⟩ := hP hs
    refine ⟨N + 1, s1, rest, ?_, h2, h3, h4⟩
    intro n hle
    obtain ⟨m, rfl⟩ : ∃ m, n = m + 1 := ⟨n - 1, by omega⟩
    simp only [update, if_neg hdd, if_pos ((array_has_child o hn hd).2 hs)]
    exact h1 m (by omega)
  · obtain ⟨N, s1, rest, h1, h2, h3, h4, _⟩ := hL
    refine ⟨N + 1, s1, rest, ?_, h2, h3, h4⟩
    intro n hle
    obtain ⟨m, rfl⟩ : ∃ m, n = m + 1 := ⟨n - 1, by omega⟩
    have : ¬ o.obj_.isSome = true := fun h => hs ((array_has_child o hn hd).1 h)
    simp only [update, if_neg hdd, if_neg this]
    exact h1 m (by omega)

theorem depth_child (o child : redis_object) (h : o.obj_ = some child) :
    depth child < depth o := by
  cases o
  simp only [redis_object.obj_] at h
  subst h
  simp [depth]

theorem specs_at (data : List Char)
    (hL : ∀ cache1 o1 data1, data1.length < data.length → node_ok o1 = true →
      done o1 = false → all_fresh cache1 → call_ends update_loop cache1 o1 data1) :
    ∀ (d : Nat) (o : redis_object) (cache : List redis_object), depth o ≤ d →
      node_ok o = true → done o = false → all_fresh cache →
      call_ok update cache o data ∧ call_ends update_loop cache o data ∧
        (o.status_ = redis_s_array → call_ok parse_object cache o data) := by
  intro d
  induction d with
  | zero =>
    intro o cache hdep hn hd hc
    have hP : o.status_ = redis_s_array → call_ok parse_object cache o data := by
      intro hs
      obtain ⟨child, ho, _⟩ := node_ok_array o hn hs
      have := depth_child o child ho
      omega
    have hLo := loop_spec cache o data hn hd hc hP hL
    exact ⟨update_spec cache o data hn hd hP hLo, hLo, hP⟩
  | succ d ih =>
    intro o cache hdep hn hd hc
    have hP : o.status_ = redis_s_array → call_ok parse_object cache o data := by
      intro hs
      refine parse_object_spec cache o data hn hs ?_
      intro child ho
      obtain ⟨child1, ho1, hn1, hd1, _⟩ := node_ok_array o hn hs
      rw [ho] at ho1
      cases ho1
      have := depth_child o child ho
      exact (ih child cache (by omega) hn1 hd1 hc).1
    have hLo := loop_spec cache o data hn hd hc hP hL
    exact ⟨update_spec cache o data hn hd hP hLo, hLo, hP⟩

theorem loop_total (L : Nat) :
    ∀ (data : List Char) (cache : List redis_object) (o : redis_object),
      data.length = L → node_ok o = true → done o = false → all_fresh cache →
      call_ends update_loop cache o data := by
  induction L using Nat.strong_induction_on with
  | _ L ih =>
    intro data cache o hlen hn hd hc
    refine (specs_at data ?_ (depth o) o cache (le_refl _) hn hd hc).2.1
    intro cache1 o1 data1 hlt hn1 hd1 hc1
    exact ih data1.length (by omega) data1 cache1 o1 rfl hn1 hd1 hc1

theorem update_total (cache : List redis_object) (o : redis_object) (data : List Char)
    (hn : node_ok o = true) (hd : done o = false) (hc : all_fresh cache) :
    call_ok update cache o data :=
  (specs_at data (fun cache1 o1 data1 _ hn1 hd1 hc1 =>
    loop_total data1.length data1 cache1 o1 rfl hn1 hd1 hc1)
    (depth o) o cache (le_refl _) hn hd hc).1

theorem feed_total (L : Nat) :
    ∀ (data : List Char) (cache : List redis_object) (o : redis_object),
      data.length = L → node_ok o = true → all_fresh cache →
      ∃ s1 rest, feed_ok cache o data s1 rest := by
  induction L using Nat.strong_induction_on with
  | _ L ih =>
    intro data cache o hlen hn hc
    by_cases hstop : data.length = 0 ∨ failed o = true ∨ finish o = true
    · refine ⟨(cache, o), data, ⟨1, ?_⟩, ?_, hn, hc, ?_⟩
      · intro n hle
        obtain ⟨m, rfl⟩ : ∃ m, n = m + 1 := ⟨n - 1, by omega⟩
        simp only [feed, if_pos hstop]
      · exact ⟨[], [], rfl, rfl, minimal_nil _, fun h => absurd rfl h⟩
      · intro hne
        rcases hstop with h0 | h0 | h0
        · exact absurd (List.length_eq_zero.1 h0) hne
        · simp [done, h0]
        · simp [done, h0]
    · have hd : done o = false := by
        simp only [not_or, Bool.not_eq_true] at hstop
        simp [done, hstop.2.1, hstop.2.2]
      have hdata : data ≠ [] := fun h => hstop (Or.inl (by rw [h]; rfl))
      obtain ⟨N1, s1, rest1, h1, h2, h3, h4⟩ := update_total cache o data hn hd hc
      have hshort := consumes_shorter _ _ _ _ h2 hdata
      by_cases hd1 : done s1.2 = true
      · refine ⟨s1, rest1, ⟨N1 + 2, ?_⟩, ?_, h3, h4, fun _ => hd1⟩
        · intro n hle
          obtain ⟨m, rfl⟩ : ∃ m, n = m + 2 := ⟨n - 2, by omega⟩
          simp only [feed, if_neg hstop, h1 (m + 1) (by omega)]
          rw [if_pos]
          right
          simpa [done] using hd1
        · obtain ⟨p0, p1, e, r, m, f, _⟩ := h2
          exact ⟨p0, p1, e, r, m, f⟩
      · simp only [Bool.not_eq_true] at hd1
        obtain ⟨s2, rest2, ⟨N2, g1⟩, g2, g3, g4, g5⟩ :=
          ih rest1.length (by omega) rest1 s1.1 s1.2 rfl h3 h4
        refine ⟨s2, rest2, ⟨max N1 N2 + 1, ?_⟩, ?_, g3, g4, g5⟩
        · intro n hle
          obtain ⟨m, rfl⟩ : ∃ m, n = m + 1 := ⟨n - 1, by omega⟩
          simp only [feed, if_neg hstop, h1 m (by omega)]
          exact g1 m (by omega)
        · obtain ⟨p0, p1, e1, r1, m1, f1, _⟩ := h2
          obtain ⟨q0, q1, e2, r2, m2, f2⟩ := g2
          have hp1 : p1 = [] := by
            by_contra hne
            have := f1 hne
            simp [done, this] at hd1
          subst hp1
          simp only [List.nil_append] at e1
          refine ⟨p0 ++ q0, q1, ?_, ?_, ?_, f2⟩
          · rw [e1, e2, List.append_assoc]
          · rw [run_append, ← r1]; exact r2
          · refine minimal_append (cache, o) p0 q0 m1 ?_ ?_
            · rw [← r1]; exact hd1
            · rw [← r1]; exact m2


/-! ## Feeding in chunks -/

theorem took_run (s s1 : List redis_object × redis_object) (data rest : List Char)
    (h : took s data s1 rest) (hr : rest ≠ [] → done s1.2 = true) : run s data = s1 := by
  obtain ⟨pre0, pre1, e, r, _, f⟩ := h
  rw [e, run_append, ← r]
  by_cases hnil : pre1 ++ rest = []
  · rw [hnil, run_nil]
  · refine run_done _ s1 ?_
    by_cases h1 : pre1 = []
    · subst h1
      exact hr (by simpa using hnil)
    · simp [done, f h1]

theorem minimal_unique (s : List redis_object × redis_object) (t r x y : List Char)
    (e : t ++ x = r ++ y) (mt : minimal s t) (mr : minimal s r)
    (dt : done (run s t).2 = true) (dr : done (run s r).2 = true) : t = r := by
  rcases List.append_eq_append_iff.1 e with ⟨a, ha, _⟩ | ⟨b, hb, _⟩
  · -- r = t ++ a
    by_cases hane : a = []
    · subst hane; simpa using ha.symm
    · have := mr t a ha hane
      rw [this] at dt
      cases dt
  · by_cases hbne : b = []
    · subst hbne; simpa using hb
    · have := mt r b hb hbne
      rw [this] at dr
      cases dr

theorem node_ok_new : node_ok redis_object_new = true := rfl

/-- C20, counterexample: the bytes `$3\r\nabcX\r\n`, whole and split after
`X`. Both ways the object ends failed, in the same state; fed whole, all 10
bytes are consumed; fed in two chunks, the first call consumes its 8 bytes
and the second consumes nothing, leaving `\r\n`. -/
theorem chunked_failure_consumes_less :
    feed 40 [] redis_object_new "$3\r\nabcX\r\n".toList =
      .ok ([], redis_object.mk redis_s_null REDIS_OBJ_STRING true none 3 [] "abc".toList,
        []) ∧
    feed 40 [] redis_object_new "$3\r\nabcX".toList =
      .ok ([], redis_object.mk redis_s_null REDIS_OBJ_STRING true none 3 [] "abc".toList,
        []) ∧
    feed 40 [] (redis_object.mk redis_s_null REDIS_OBJ_STRING true none 3 [] "abc".toList)
      "\r\n".toList =
      .ok ([], redis_object.mk redis_s_null REDIS_OBJ_STRING true none 3 [] "abc".toList,
        "\r\n".toList) ∧
    "$3\r\nabcX".toList ++ "\r\n".toList = "$3\r\nabcX\r\n".toList ∧
    ("$3\r\nabcX".toList.length - 0) + ("\r\n".toList.length - "\r\n".toList.length)
      ≠ "$3\r\nabcX\r\n".toList.length - 0 := by
  refine ⟨rfl, rfl, rfl, rfl, by decide⟩

/-- C20, amended: for every byte sequence split into two consecutive chunks
and every cache of reset objects, feeding a fresh object the first chunk and
then the second (each time calling `update` until the chunk is exhausted or
the object is finished or failed) returns, with enough steps allowed, and
leaves the object and the cache in the same state as feeding the whole
sequence as one chunk; when the object does not end failed, the total number
of bytes consumed is the same too. -/
theorem chunking_keeps_state (cache : List redis_object) (hc : all_fresh cache)
    (d1 d2 : List Char) :
    ∃ (s1 : List redis_object × redis_object) (rest1 : List Char)
      (s2 : List redis_object × redis_object) (rest2 rest : List Char),
      (∃ N, ∀ n, N ≤ n →
        feed n cache redis_object_new d1 = .ok (s1.1, s1.2, rest1) ∧
        feed n s1.1 s1.2 d2 = .ok (s2.1, s2.2, rest2) ∧
        feed n cache redis_object_new (d1 ++ d2) = .ok (s2.1, s2.2, rest)) ∧
      rest1 <:+ d1 ∧ rest2 <:+ d2 ∧ rest <:+ d1 ++ d2 ∧
      (failed s2.2 = false →
        (d1.length - rest1.length) + (d2.length - rest2.length) =
          (d1 ++ d2).length - rest.length) := by
  obtain ⟨s1, rest1, ⟨N1, f1⟩, t1, n1, c1, e1⟩ :=
    feed_total d1.length d1 cache redis_object_new rfl node_ok_new hc
  obtain ⟨s2, rest2, ⟨N2, f2⟩, t2, n2, c2, e2⟩ :=
    feed_total d2.length d2 s1.1 s1.2 rfl n1 c1
  obtain ⟨s, rest, ⟨N, f⟩, t, n, c, e⟩ :=
    feed_total (d1 ++ d2).length (d1 ++ d2) cache redis_object_new rfl node_ok_new hc
  have hs : s = s2 := by
    rw [← took_run _ _ _ _ t e, run_append, took_run _ _ _ _ t1 e1]
    exact took_run _ _ _ _ t2 e2
  subst hs
  obtain ⟨p0, p1, ep, rp, mp, fp⟩ := t1
  obtain ⟨q0, q1, eq, rq, mq, fq⟩ := t2
  obtain ⟨r0, r1, er, rr, mr, fr⟩ := t
  refine ⟨s1, rest1, s, rest2, rest, ⟨max N (max N1 N2), ?_⟩, ?_, ?_, ?_, ?_⟩
  · intro k hk
    exact ⟨f1 k (by omega), f2 k (by omega), f k (by omega)⟩
  · exact ⟨p0 ++ p1, by rw [ep, List.append_assoc]⟩
  · exact ⟨q0 ++ q1, by rw [eq, List.append_assoc]⟩
  · exact ⟨r0 ++ r1, by rw [er, List.append_assoc]⟩
  · intro hnf
    have hr1 : r1 = [] := by
      by_contra hne
      rw [fr hne] at hnf; cases hnf
    have hq1 : q1 = [] := by
      by_contra hne
      rw [fq hne] at hnf; cases hnf
    have hs1 : done s1.2 = true → s = s1 := by
      intro hd
      rw [rq]
      exact run_done q0 s1 hd
    have hp1 : p1 = [] := by
      by_contra hne
      have hf := fp hne
      have := hs1 (by simp [done, hf])
      rw [this, hf] at hnf; cases hnf
    subst hr1 hq1 hp1
    simp only [List.nil_append] at ep eq er
    -- the bytes taken in the two chunks, as one prefix of the whole
    have hq0 : rest1 ≠ [] → q0 = [] := by
      intro hne
      by_contra hq
      have := minimal_not_done s1 q0 mq hq
      rw [e1 hne] at this; cases this
    have hD : d1 ++ d2 = (p0 ++ q0) ++ (rest1 ++ rest2) := by
      by_cases hne : rest1 = []
      · subst hne
        rw [ep, eq]; simp
      · rw [ep, eq, hq0 hne]; simp
    have hmin : minimal (cache, redis_object_new) (p0 ++ q0) := by
      by_cases hq : q0 = []
      · subst hq; simpa using mp
      · refine minimal_append _ p0 q0 mp ?_ ?_
        · rw [← rp]; exact minimal_not_done s1 q0 mq hq
        · rw [← rp]; exact mq
    have hrun : run (cache, redis_object_new) (p0 ++ q0) = s := by
      rw [run_append, ← rp]; exact rq.symm
    have hlen : (p0 ++ q0).length = r0.length := by
      by_cases hd : done s.2 = true
      · have := minimal_unique (cache, redis_object_new) (p0 ++ q0) r0 (rest1 ++ rest2)
          rest (hD.symm.trans er) hmin mr (by rw [hrun]; exact hd) (by rw [← rr]; exact hd)
        rw [this]
      · have h1 : rest = [] := by
          by_contra hne; exact hd (e hne)
        have h2 : rest2 = [] := by
          by_contra hne; exact hd (e2 hne)
        have h3 : rest1 = [] := by
          by_contra hne
          have := hs1 (e1 hne)
          rw [this] at hd
          exact hd (e1 hne)
        subst h1 h2 h3
        have := hD.symm.trans er
        simp only [List.append_nil] at this
        rw [this]
    have l1 : d1.length = p0.length + rest1.length := by rw [ep]; simp
    have l2 : d2.length = q0.length + rest2.length := by rw [eq]; simp
    have l3 : (d1 ++ d2).length = r0.length + rest.length := by rw [er]; simp
    simp only [List.length_append] at hlen l3 ⊢
    omega

/-- C20, amended, on a concrete input: the bytes `*2\r\n$3\r\nabc\r\n:12\r\n`
split inside the bulk string; the two feeds leave the finished array the one
feed leaves and consume the 18 bytes between them. -/
theorem chunking_keeps_state_witness :
    all_fresh [redis_object_new] ∧
    (∃ (s1 : List redis_object × redis_object) (rest1 : List Char)
      (s2 : List redis_object × redis_object) (rest2 rest : List Char),
      (∃ N, ∀ n, N ≤ n →
        feed n [redis_object_new] redis_object_new "*2\r\n$3\r\nab".toList
          = .ok (s1.1, s1.2, rest1) ∧
        feed n s1.1 s1.2 "c\r\n:12\r\n".toList = .ok (s2.1, s2.2, rest2) ∧
        feed n [redis_object_new] redis_object_new
          ("*2\r\n$3\r\nab".toList ++ "c\r\n:12\r\n".toList) = .ok (s2.1, s2.2, rest)) ∧
      rest1 <:+ "*2\r\n$3\r\nab".toList ∧ rest2 <:+ "c\r\n:12\r\n".toList ∧
      rest <:+ "*2\r\n$3\r\nab".toList ++ "c\r\n:12\r\n".toList ∧
      (failed s2.2 = false →
        ("*2\r\n$3\r\nab".toList.length - rest1.length) +
          ("c\r\n:12\r\n".toList.length - rest2.length) =
          ("*2\r\n$3\r\nab".toList ++ "c\r\n:12\r\n".toList).length - rest.length)) ∧
    (feed 40 [redis_object_new] redis_object_new "*2\r\n$3\r\nab".toList).toOption.map
      (fun r => r.2.2) = some [] ∧
    ((feed 40 [redis_object_new] redis_object_new "*2\r\n$3\r\nab".toList).bind
      (fun r => feed 40 r.1 r.2.1 "c\r\n:12\r\n".toList)) =
      feed 40 [redis_object_new] redis_object_new "*2\r\n$3\r\nabc\r\n:12\r\n".toList ∧
    (feed 40 [redis_object_new] redis_object_new
      "*2\r\n$3\r\nabc\r\n:12\r\n".toList).toOption.map
      (fun r => (r.2.1.status_, r.2.1.objs_.map redis_object.buf_, r.2.2)) =
      some (redis_s_finish, ["abc".toList, "12".toList], []) :=
  ⟨by simp [all_fresh],
    chunking_keeps_state [redis_object_new] (by simp [all_fresh])
      "*2\r\n$3\r\nab".toList "c\r\n:12\r\n".toList,
    rfl, rfl, rfl⟩


/-! ## Decimal numbers -/

theorem digit_char_spec : ∀ d, d < 10 →
    isdigit (digit_char d) = true ∧ digit_val (digit_char d) = d := by
  decide

theorem isdigit_not_special (c : Char) (h : isdigit c = true) :
    c ≠ '\r' ∧ c ≠ '\n' ∧ isspace c = false ∧ c ≠ '-' ∧ c ≠ '+' := by
  simp only [isdigit, Bool.and_eq_true, decide_eq_true_eq] at h
  have h1 : ∀ d : Char, d.toNat < 48 → c ≠ d := by
    intro d hd e
    rw [e] at h
    omega
  have e1 := h1 '\r' (by decide)
  have e2 := h1 '\n' (by decide)
  have e3 := h1 ' ' (by decide)
  have e4 := h1 '\t' (by decide)
  have e5 := h1 '\x0b' (by decide)
  have e6 := h1 '\x0c' (by decide)
  refine ⟨e1, e2, ?_, h1 '-' (by decide), h1 '+' (by decide)⟩
  simp [isspace, e1, e2, e3, e4, e5, e6]

theorem to_digits_spec (f : Nat) :
    ∀ n, n < f → to_digits f n ≠ [] ∧ (∀ c ∈ to_digits f n, isdigit c = true) ∧
      (to_digits f n).foldl (fun a c => 10 * a + digit_val c) 0 = n := by
  induction f with
  | zero => intro n h; omega
  | succ f ih =>
    intro n h
    unfold to_digits
    by_cases h10 : n < 10
    · rw [if_pos h10]
      obtain ⟨a, b⟩ := digit_char_spec n h10
      refine ⟨by simp, ?_, ?_⟩
      · intro c hc
        rw [List.mem_singleton.1 hc]; exact a
      · simp [b]
    · rw [if_neg h10]
      obtain ⟨_, i2, i3⟩ := ih (n / 10) (by omega)
      obtain ⟨a, b⟩ := digit_char_spec (n % 10) (by omega)
      refine ⟨by simp, ?_, ?_⟩
      · intro c hc
        rcases List.mem_append.1 hc with hc | hc
        · exact i2 c hc
        · rw [List.mem_singleton.1 hc]; exact a
      · rw [List.foldl_append, i3]
        simp only [List.foldl_cons, List.foldl_nil, b]
        omega

theorem to_string_nat_spec (n : Nat) :
    to_string_nat n ≠ [] ∧ (∀ c ∈ to_string_nat n, isdigit c = true) ∧
      (to_string_nat n).foldl (fun a c => 10 * a + digit_val c) 0 = n :=
  to_digits_spec (n + 1) n (by omega)

theorem takeWhile_all {α : Type} (p : α → Bool) (l : List α) (h : ∀ x ∈ l, p x = true) :
    l.takeWhile p = l := by
  induction l with
  | nil => rfl
  | cons a l ih =>
    rw [List.takeWhile_cons, h a (List.mem_cons_self a l),
      ih (fun x hx => h x (List.mem_cons_of_mem a hx))]
    rfl

theorem strtol_digits (ds : List Char) (hne : ds ≠ []) (hd : ∀ c ∈ ds, isdigit c = true)
    (hmax : ((ds.foldl (fun a c => 10 * a + digit_val c) 0 : Nat) : Int) ≤ LONG_MAX) :
    strtol ds = (((ds.foldl (fun a c => 10 * a + digit_val c) 0 : Nat) : Int), ds.length) := by
  cases ds with
  | nil => exact absurd rfl hne
  | cons c l =>
    obtain ⟨_, _, hsp, hm, hp⟩ := isdigit_not_special c (hd c (List.mem_cons_self c l))
    have e1 : (c :: l).dropWhile isspace = c :: l := by
      rw [List.dropWhile_cons, hsp]; rfl
    have e2 : (c :: l).takeWhile isspace = [] := by
      rw [List.takeWhile_cons, hsp]; rfl
    have e3 : (c :: l).takeWhile isdigit = c :: l := takeWhile_all isdigit _ hd
    unfold strtol
    simp only [e1, e2, List.head?_cons, Option.some.injEq, hm, hp, or_self, if_false,
      List.drop_zero, e3, List.length_nil, Nat.zero_add, reduceCtorEq]
    have h1 : ¬ LONG_MAX < ((List.foldl (fun a c => 10 * a + digit_val c) 0 (c :: l) : Nat)
        : Int) := by omega
    have h2 : ¬ ((List.foldl (fun a c => 10 * a + digit_val c) 0 (c :: l) : Nat) : Int)
        < LONG_MIN := by
      unfold LONG_MIN; omega
    rw [if_neg h1, if_neg h2]


/-! ## The parser on printed text -/

theorem step_gather (cache : List redis_object) (st : redis_status) (ty : redis_obj_t)
    (pa : Bool) (cnt : Int) (objs : List redis_object) (buf : List Char) (c : Char)
    (hg : gathers st cnt) (h1 : c ≠ '\r') (h2 : c ≠ '\n') :
    step1 cache (redis_object.mk st ty pa none cnt objs buf) c =
      (cache, redis_object.mk st ty pa none cnt objs (buf ++ [c])) := by
  rcases hg with h | h | h | ⟨h | h, h0⟩
  · subst h
    simp [step1, step_flat, status_tab, parse_status, parse_line,
      get_line_other c _ _ h1 h2, get_line_nil]
  · subst h
    simp [step1, step_flat, status_tab, parse_error, parse_line,
      get_line_other c _ _ h1 h2, get_line_nil]
  · subst h
    simp [step1, step_flat, status_tab, parse_number, parse_line,
      get_line_other c _ _ h1 h2, get_line_nil]
  · subst h h0
    simp [step1, step_flat, status_tab, parse_strlen, get_length_other _ c _ h1 h2,
      get_length_nil]
  · subst h h0
    simp [step1, step_flat, status_tab, parse_arlen, get_length_other _ c _ h1 h2,
      get_length_nil]

theorem gathers_not_done (st : redis_status) (ty : redis_obj_t) (pa : Bool) (cnt : Int)
    (objs : List redis_object) (buf : List Char) (hg : gathers st cnt) :
    done (redis_object.mk st ty pa none cnt objs buf) = false := by
  rw [not_done_iff]
  rcases hg with h | h | h | ⟨h | h, _⟩ <;> subst h <;> simp

theorem run_gather (cache : List redis_object) (st : redis_status) (ty : redis_obj_t)
    (pa : Bool) (cnt : Int) (objs : List redis_object) (hg : gathers st cnt)
    (t : List Char) :
    ∀ buf, (∀ c ∈ t, c ≠ '\r' ∧ c ≠ '\n') →
      run (cache, redis_object.mk st ty pa none cnt objs buf) t =
        (cache, redis_object.mk st ty pa none cnt objs (buf ++ t)) ∧
      minimal (cache, redis_object.mk st ty pa none cnt objs buf) t := by
  induction t with
  | nil => intro buf _; exact ⟨by simp [run_nil], minimal_nil _⟩
  | cons c t ih =>
    intro buf h
    obtain ⟨h1, h2⟩ := h c (List.mem_cons_self c t)
    obtain ⟨i1, i2⟩ := ih (buf ++ [c]) (fun x hx => h x (List.mem_cons_of_mem c hx))
    have hs := step_gather cache st ty pa cnt objs buf c hg h1 h2
    constructor
    · rw [run_cons]
      show run (step1 cache _ c) t = _
      rw [hs, i1]
      simp
    · refine minimal_cons _ c t (gathers_not_done st ty pa cnt objs buf hg) ?_
      show minimal (step1 cache _ c) t
      rw [hs]; exact i2

theorem step_line_lf (cache : List redis_object) (st : redis_status) (ty : redis_obj_t)
    (pa : Bool) (cnt : Int) (objs : List redis_object) (buf : List Char)
    (hs : st = redis_s_status ∨ st = redis_s_error ∨ st = redis_s_number)
    (hb : buf ≠ []) :
    step1 cache (redis_object.mk st ty pa none cnt objs buf) '\n' =
      (cache, redis_object.mk redis_s_finish (line_type st) pa none cnt objs buf) := by
  rcases hs with h | h | h
  · subst h
    simp [step1, step_flat, status_tab, parse_status, parse_line, get_line_lf, hb, line_type]
  · subst h
    simp [step1, step_flat, status_tab, parse_error, parse_line, get_line_lf, hb, line_type]
  · subst h
    simp [step1, step_flat, status_tab, parse_number, parse_line, get_line_lf, hb, line_type]

theorem step_begin (cache : List redis_object) (ty : redis_obj_t) (pa : Bool) (cnt : Int)
    (objs : List redis_object) (buf : List Char) (c : Char) :
    step1 cache (redis_object.mk redis_s_begin ty pa none cnt objs buf) c =
      (cache, redis_object.mk
        (if c = ':' then redis_s_number
         else if c = '+' then redis_s_status
         else if c = '-' then redis_s_error
         else if c = '$' then redis_s_strlen
         else if c = '*' then redis_s_arlen
         else redis_s_null) ty pa none cnt objs buf) := by
  simp [step1, step_flat, status_tab, parse_begin]

/-- A line: the lead byte, a text without CR and LF that is not empty, LF. -/
theorem run_line (cache : List redis_object) (pa : Bool) (lead : Char) (st : redis_status)
    (text : List Char)
    (hl : (lead = '+' ∧ st = redis_s_status) ∨ (lead = '-' ∧ st = redis_s_error) ∨
      (lead = ':' ∧ st = redis_s_number))
    (hne : text ≠ []) (hp : ∀ c ∈ text, c ≠ '\r' ∧ c ≠ '\n') :
    run (cache, redis_object.mk redis_s_begin REDIS_OBJ_UNKOWN pa none 0 [] [])
        (lead :: text ++ ['\n']) =
      (cache, redis_object.mk redis_s_finish (line_type st) pa none 0 [] text) ∧
    minimal (cache, redis_object.mk redis_s_begin REDIS_OBJ_UNKOWN pa none 0 [] [])
      (lead :: text ++ ['\n']) := by
  have hst : st = redis_s_status ∨ st = redis_s_error ∨ st = redis_s_number := by
    rcases hl with h | h | h
    · exact Or.inl h.2
    · exact Or.inr (Or.inl h.2)
    · exact Or.inr (Or.inr h.2)
  have hg : gathers st 0 := by
    rcases hst with h | h | h
    · exact Or.inl h
    · exact Or.inr (Or.inl h)
    · exact Or.inr (Or.inr (Or.inl h))
  have hb : step1 cache (redis_object.mk redis_s_begin REDIS_OBJ_UNKOWN pa none 0 [] []) lead
      = (cache, redis_object.mk st REDIS_OBJ_UNKOWN pa none 0 [] []) := by
    rw [step_begin]
    rcases hl with ⟨h1, h2⟩ | ⟨h1, h2⟩ | ⟨h1, h2⟩ <;> subst h1 h2 <;> simp
  obtain ⟨r1, m1⟩ := run_gather cache st REDIS_OBJ_UNKOWN pa 0 [] hg text [] hp
  simp only [List.nil_append] at r1
  constructor
  · rw [List.cons_append, run_cons]
    show run (step1 cache _ lead) _ = _
    rw [hb, run_append, r1, run_cons, run_nil]
    exact step_line_lf cache st _ pa 0 [] text hst hne
  · rw [List.cons_append]
    refine minimal_cons _ lead _ rfl ?_
    show minimal (step1 cache _ lead) _
    rw [hb]
    refine minimal_append _ text ['\n'] m1 ?_ (minimal_single _ _ ?_)
    · rw [r1]; exact gathers_not_done st _ pa 0 [] text hg
    · rw [r1]; exact gathers_not_done st _ pa 0 [] text hg


theorem to_int_small (n : Nat) (h : n < 2147483648) : to_int (n : Int) = n := by
  unfold to_int; omega

theorem to_size_t_small (n : Nat) (h : n < 2147483648) : to_size_t (n : Int) = n := by
  unfold to_size_t; omega

theorem get_length_digits (o : redis_object) (n : Nat) (rest : List Char)
    (hb : o.buf_ = to_string_nat n) (hn : n < 2147483648) :
    get_length o ('\n' :: rest) = .ok ((o.with_cnt n).with_buf [], rest, true) := by
  obtain ⟨d1, d2, d3⟩ := to_string_nat_spec n
  have hs : strtol (to_string_nat n) = ((n : Int), (to_string_nat n).length) := by
    have := strtol_digits (to_string_nat n) d1 d2 (by rw [d3]; unfold LONG_MAX; omega)
    rw [d3] at this
    exact this
  cases o with
  | mk st ty pa ob cnt objs buf =>
    simp only [buf_mk] at hb
    subst hb
    simp only [get_length, get_line_lf, buf_mk, hs, to_int_small n hn]
    have hlen : (to_string_nat n).length ≠ 0 := fun h => d1 (List.length_eq_zero.1 h)
    have hget : (to_string_nat n).getD (to_string_nat n).length '\x00' = '\x00' := by
      rw [List.getD_eq_default]; exact le_refl _
    simp [d1, hlen, hget, -List.getD_eq_getElem?_getD]

theorem step_strlen_lf (cache : List redis_object) (ty : redis_obj_t) (pa : Bool)
    (objs : List redis_object) (n : Nat) (h0 : 0 < n) (hn : n < 2147483648) :
    step1 cache (redis_object.mk redis_s_strlen ty pa none 0 objs (to_string_nat n)) '\n' =
      (cache, redis_object.mk redis_s_string REDIS_OBJ_STRING pa none n objs []) := by
  have hg := get_length_digits
    (redis_object.mk redis_s_strlen ty pa none 0 objs (to_string_nat n)) n [] rfl hn
  simp only [redis_object.with_cnt, redis_object.with_buf, status_mk, type_mk,
    parent_this_mk, obj_mk, cnt_mk, objs_mk, buf_mk] at hg
  simp only [step1, step_flat, status_tab, status_mk, parse_strlen, redis_object.with_cnt,
    type_mk, parent_this_mk, obj_mk, cnt_mk, objs_mk, buf_mk, hg]
  have : ¬ ((n : Int) ≤ 0) := by omega
  simp [this]

theorem step_arlen_lf (cache : List redis_object) (ty : redis_obj_t) (pa : Bool)
    (objs : List redis_object) (n : Nat) (h0 : 0 < n) (hn : n < 2147483648) :
    step1 cache (redis_object.mk redis_s_arlen ty pa none 0 objs (to_string_nat n)) '\n' =
      ((take_child cache).1,
        redis_object.mk redis_s_array REDIS_OBJ_ARRAY pa (some (take_child cache).2) n
          objs []) := by
  have hg := get_length_digits
    (redis_object.mk redis_s_arlen ty pa none 0 objs (to_string_nat n)) n [] rfl hn
  simp only [redis_object.with_cnt, redis_object.with_buf, status_mk, type_mk,
    parent_this_mk, obj_mk, cnt_mk, objs_mk, buf_mk] at hg
  simp only [step1, step_flat, status_tab, status_mk, parse_arlen, redis_object.with_cnt,
    type_mk, parent_this_mk, obj_mk, cnt_mk, objs_mk, buf_mk, hg]
  have : ¬ ((n : Int) ≤ 0) := by omega
  simp [this]

theorem digits_plain (n : Nat) : ∀ c ∈ to_string_nat n, c ≠ '\r' ∧ c ≠ '\n' := by
  intro c hc
  obtain ⟨h1, h2, _⟩ := isdigit_not_special c ((to_string_nat_spec n).2.1 c hc)
  exact ⟨h1, h2⟩

/-- The head of a bulk string or an array: the lead byte, the count, LF. -/
theorem run_count (cache : List redis_object) (pa : Bool) (lead : Char) (st : redis_status)
    (n : Nat) (s1 : List redis_object × redis_object)
    (hl : (lead = '$' ∧ st = redis_s_strlen ∧
        s1 = (cache, redis_object.mk redis_s_string REDIS_OBJ_STRING pa none n [] [])) ∨
      (lead = '*' ∧ st = redis_s_arlen ∧
        s1 = ((take_child cache).1, redis_object.mk redis_s_array REDIS_OBJ_ARRAY pa
          (some (take_child cache).2) n [] [])))
    (h0 : 0 < n) (hn : n < 2147483648) :
    run (cache, redis_object.mk redis_s_begin REDIS_OBJ_UNKOWN pa none 0 [] [])
        (lead :: to_string_nat n ++ ['\n']) = s1 ∧
    minimal (cache, redis_object.mk redis_s_begin REDIS_OBJ_UNKOWN pa none 0 [] [])
      (lead :: to_string_nat n ++ ['\n']) := by
  have hst : st = redis_s_strlen ∨ st = redis_s_arlen := by
    rcases hl with h | h
    · exact Or.inl h.2.1
    · exact Or.inr h.2.1
  have hg : gathers st 0 := Or.inr (Or.inr (Or.inr ⟨hst, rfl⟩))
  have hb : step1 cache (redis_object.mk redis_s_begin REDIS_OBJ_UNKOWN pa none 0 [] []) lead
      = (cache, redis_object.mk st REDIS_OBJ_UNKOWN pa none 0 [] []) := by
    rw [step_begin]
    rcases hl with ⟨h1, h2, _⟩ | ⟨h1, h2, _⟩ <;> subst h1 h2 <;> simp
  obtain ⟨r1, m1⟩ :=
    run_gather cache st REDIS_OBJ_UNKOWN pa 0 [] hg (to_string_nat n) [] (digits_plain n)
  simp only [List.nil_append] at r1
  constructor
  · rw [List.cons_append, run_cons]
    show run (step1 cache _ lead) _ = _
    rw [hb, run_append, r1, run_cons, run_nil]
    rcases hl with ⟨_, h2, h3⟩ | ⟨_, h2, h3⟩
    · subst h2 h3
      exact step_strlen_lf cache _ pa [] n h0 hn
    · subst h2 h3
      exact step_arlen_lf cache _ pa [] n h0 hn
  · rw [List.cons_append]
    refine minimal_cons _ lead _ rfl ?_
    show minimal (step1 cache _ lead) _
    rw [hb]
    refine minimal_append _ (to_string_nat n) ['\n'] m1 ?_ (minimal_single _ _ ?_)
    · rw [r1]; exact gathers_not_done st _ pa 0 [] _ hg
    · rw [r1]; exact gathers_not_done st _ pa 0 [] _ hg

theorem step_string_more (cache : List redis_object) (ty : redis_obj_t) (pa : Bool)
    (cnt : Int) (objs : List redis_object) (buf : List Char) (c : Char)
    (h : buf.length + 1 < to_size_t cnt) :
    step1 cache (redis_object.mk redis_s_string ty pa none cnt objs buf) c =
      (cache, redis_object.mk redis_s_string ty pa none cnt objs (buf ++ [c])) := by
  simp only [step1, step_flat, status_tab, status_mk, parse_string, buf_mk, cnt_mk,
    get_data_cons c [] buf _ h]
  rw [get_data_nil _ _ (by simpa using h)]
  have : ¬ buf.length + 1 = to_size_t cnt := by omega
  simp [this]

theorem step_string_last (cache : List redis_object) (ty : redis_obj_t) (pa : Bool)
    (cnt : Int) (objs : List redis_object) (buf : List Char) (c : Char)
    (h : buf.length + 1 = to_size_t cnt) :
    step1 cache (redis_object.mk redis_s_string ty pa none cnt objs buf) c =
      (cache, redis_object.mk redis_s_strend ty pa none cnt objs (buf ++ [c])) := by
  simp only [step1, step_flat, status_tab, status_mk, parse_string, buf_mk, cnt_mk,
    get_data_last c [] buf _ h]
  simp [h]

theorem run_data (cache : List redis_object) (ty : redis_obj_t) (pa : Bool)
    (cnt : Int) (objs : List redis_object) (data : List Char) :
    ∀ buf, data ≠ [] → buf.length + data.length = to_size_t cnt →
      run (cache, redis_object.mk redis_s_string ty pa none cnt objs buf) data =
        (cache, redis_object.mk redis_s_strend ty pa none cnt objs (buf ++ data)) ∧
      minimal (cache, redis_object.mk redis_s_string ty pa none cnt objs buf) data := by
  induction data with
  | nil => intro _ h; exact absurd rfl h
  | cons c l ih =>
    intro buf _ hlen
    simp only [List.length_cons] at hlen
    by_cases hl : l = []
    · subst hl
      simp only [List.length_nil] at hlen
      refine ⟨?_, minimal_single _ c rfl⟩
      rw [run_cons, run_nil]
      exact step_string_last cache ty pa cnt objs buf c (by omega)
    · have hpos := List.length_pos.2 hl
      have hs := step_string_more cache ty pa cnt objs buf c (by omega)
      obtain ⟨i1, i2⟩ := ih (buf ++ [c]) hl (by
        simp only [List.length_append, List.length_singleton]; omega)
      constructor
      · rw [run_cons]
        show run (step1 cache _ c) l = _
        rw [hs, i1]
        simp
      · refine minimal_cons _ c l rfl ?_
        show minimal (step1 cache _ c) l
        rw [hs]; exact i2

theorem step_strend_lf (cache : List redis_object) (ty : redis_obj_t) (pa : Bool)
    (cnt : Int) (objs : List redis_object) (buf : List Char) :
    step1 cache (redis_object.mk redis_s_strend ty pa none cnt objs buf) '\n' =
      (cache, redis_object.mk redis_s_finish ty pa none cnt objs buf) := by
  simp [step1, step_flat, status_tab, parse_strend, get_line_lf]


theorem minimal_array (cache : List redis_object) (o child : redis_object) (l : List Char)
    (hs : o.status_ = redis_s_array) (ho : o.obj_ = some child)
    (m : minimal (cache, child) l) : minimal (cache, o) l := by
  intro p q hpq hq
  by_cases hp : p = []
  · subst hp
    rw [run_nil, not_done_iff, hs]
    simp
  · have hmp : minimal (cache, child) p := minimal_of_append _ p q (hpq ▸ m)
    rw [run_array p cache o child hs ho hp hmp, pod_not_done _ _ _ (m p q hpq hq)]
    rw [not_done_iff]
    cases o
    simp only [status_mk] at hs
    subst hs
    simp

theorem encode_ne_nil (b : Built) : encode b ≠ [] := by
  cases b <;> simp [encode]

theorem parsed_finish (pa : Bool) (b : Built) :
    (parsed pa b).status_ = redis_s_finish := by
  cases b <;> simp [parsed]

theorem to_string_int_plain (n : Int) :
    to_string_int n ≠ [] ∧ ∀ c ∈ to_string_int n, c ≠ '\r' ∧ c ≠ '\n' := by
  unfold to_string_int
  split
  · refine ⟨by simp, ?_⟩
    intro c hc
    rcases List.mem_cons.1 hc with h | h
    · subst h; exact ⟨by decide, by decide⟩
    · exact digits_plain _ c h
  · exact ⟨(to_string_nat_spec _).1, digits_plain _⟩

theorem plain_of_contains (t : List Char)
    (h1 : t.contains '\r' = false) (h2 : t.contains '\n' = false) :
    ∀ c ∈ t, c ≠ '\r' ∧ c ≠ '\n' := by
  intro c hc
  constructor
  · intro e; subst e
    simp [List.contains_iff_exists_mem_beq] at h1
    exact h1 hc
  · intro e; subst e
    simp [List.contains_iff_exists_mem_beq] at h2
    exact h2 hc

mutual

theorem round_run : ∀ (b : Built) (cache : List redis_object) (pa : Bool),
    well_built b = true → all_fresh cache →
    ∃ cache1, all_fresh cache1 ∧
      run (cache, redis_object.mk redis_s_begin REDIS_OBJ_UNKOWN pa none 0 [] [])
        (encode b) = (cache1, parsed pa b) ∧
      minimal (cache, redis_object.mk redis_s_begin REDIS_OBJ_UNKOWN pa none 0 [] [])
        (encode b)
  | Built.status text, cache, pa, hw, hc => by
    simp only [well_built, Bool.and_eq_true, Bool.not_eq_true', List.isEmpty_eq_false]
      at hw
    obtain ⟨r, m⟩ := run_line cache pa '+' redis_s_status text (Or.inl ⟨rfl, rfl⟩)
      (by simpa using hw.1.1) (plain_of_contains text hw.1.2 hw.2)
    exact ⟨cache, hc, r, m⟩
  | Built.error text, cache, pa, hw, hc => by
    simp only [well_built, Bool.and_eq_true, Bool.not_eq_true', List.isEmpty_eq_false]
      at hw
    obtain ⟨r, m⟩ := run_line cache pa '-' redis_s_error text (Or.inr (Or.inl ⟨rfl, rfl⟩))
      (by simpa using hw.1.1) (plain_of_contains text hw.1.2 hw.2)
    exact ⟨cache, hc, r, m⟩
  | Built.number n, cache, pa, _, hc => by
    obtain ⟨h1, h2⟩ := to_string_int_plain n
    obtain ⟨r, m⟩ := run_line cache pa ':' redis_s_number (to_string_int n)
      (Or.inr (Or.inr ⟨rfl, rfl⟩)) h1 h2
    exact ⟨cache, hc, r, m⟩
  | Built.string data, cache, pa, hw, hc => by
    simp only [well_built, Bool.and_eq_true, Bool.not_eq_true', List.isEmpty_eq_false,
      decide_eq_true_eq] at hw
    have hne : data ≠ [] := by simpa using hw.1
    have hpos : 0 < data.length := List.length_pos.2 hne
    obtain ⟨r1, m1⟩ := run_count cache pa '$' redis_s_strlen data.length _
      (Or.inl ⟨rfl, rfl, rfl⟩) hpos hw.2
    obtain ⟨r2, m2⟩ := run_data cache REDIS_OBJ_STRING pa data.length [] data [] hne
      (by rw [to_size_t_small _ hw.2]; simp)
    simp only [List.nil_append] at r2
    have e : encode (Built.string data) =
        ('$' :: to_string_nat data.length ++ ['\n']) ++ (data ++ ['\n']) := by
      simp [encode]
    refine ⟨cache, hc, ?_, ?_⟩
    · rw [e, run_append, r1, run_append, r2, run_cons, run_nil]
      exact step_strend_lf cache _ pa _ [] data
    · rw [e]
      refine minimal_append _ _ _ m1 (by rw [r1]; rfl) ?_
      rw [r1]
      refine minimal_append _ _ _ m2 (by rw [r2]; rfl) ?_
      rw [r2]
      exact minimal_single _ _ rfl
  | Built.array children, cache, pa, hw, hc => by
    simp only [well_built, Bool.and_eq_true, Bool.not_eq_true', List.isEmpty_eq_false,
      decide_eq_true_eq] at hw
    have hne : children ≠ [] := by simpa using hw.1.1
    have hpos : 0 < children.length := List.length_pos.2 hne
    obtain ⟨r1, m1⟩ := run_count cache pa '*' redis_s_arlen children.length _
      (Or.inr ⟨rfl, rfl, rfl⟩) hpos hw.1.2
    obtain ⟨hch, hfr⟩ := take_child_fresh cache hc
    rw [hch] at r1
    obtain ⟨cache1, hc1, r2, m2⟩ := round_run_list children (take_child cache).1 pa
      children.length [] hw.2 hfr hne (by simp) hw.1.2
    have e : encode (Built.array children) =
        ('*' :: to_string_nat children.length ++ ['\n']) ++ encode_list children := by
      simp [encode]
    refine ⟨cache1, hc1, ?_, ?_⟩
    · rw [e, run_append, r1, r2]
      simp [parsed]
    · rw [e]
      refine minimal_append _ _ _ m1 (by rw [r1]; rfl) ?_
      rw [r1]
      exact m2

theorem round_run_list : ∀ (bs : List Built) (cache : List redis_object) (pa : Bool)
    (n : Nat) (objs : List redis_object),
    well_built_list bs = true → all_fresh cache → bs ≠ [] → objs.length + bs.length = n →
    n < 2147483648 →
    ∃ cache1, all_fresh cache1 ∧
      run (cache, redis_object.mk redis_s_array REDIS_OBJ_ARRAY pa
          (some (set_parent redis_object_new)) n objs []) (encode_list bs) =
        (cache1, redis_object.mk redis_s_finish REDIS_OBJ_ARRAY pa none n
          (objs ++ parsed_list bs) []) ∧
      minimal (cache, redis_object.mk redis_s_array REDIS_OBJ_ARRAY pa
          (some (set_parent redis_object_new)) n objs []) (encode_list bs)
  | [], _, _, _, _, _, _, hne, _, _ => absurd rfl hne
  | b :: bs, cache, pa, n, objs, hw, hc, _, hlen, hn => by
    simp only [well_built_list, Bool.and_eq_true] at hw
    obtain ⟨cache1, hc1, r1, m1⟩ := round_run b cache false hw.1 hc
    have hP : run (cache, redis_object.mk redis_s_array REDIS_OBJ_ARRAY pa
          (some (set_parent redis_object_new)) n objs []) (encode b) =
        parse_object_done cache1 (redis_object.mk redis_s_array REDIS_OBJ_ARRAY pa
          (some (set_parent redis_object_new)) n objs []) (parsed false b) := by
      rw [run_array (encode b) cache (redis_object.mk redis_s_array REDIS_OBJ_ARRAY pa
          (some (set_parent redis_object_new)) n objs []) (set_parent redis_object_new)
          rfl rfl (encode_ne_nil b) m1]
      have : run (cache, set_parent redis_object_new) (encode b) = (cache1, parsed false b) :=
        r1
      rw [this]
    have hmP := minimal_array cache (redis_object.mk redis_s_array REDIS_OBJ_ARRAY pa
          (some (set_parent redis_object_new)) n objs []) (set_parent redis_object_new)
          (encode b) rfl rfl m1
    have hfin := parsed_finish false b
    simp only [List.length_cons] at hlen
    by_cases hbs : bs = []
    · subst hbs
      simp only [encode_list, List.append_nil, parsed_list]
      refine ⟨cache1, hc1, ?_, hmP⟩
      rw [hP]
      simp only [List.length_nil] at hlen
      simp [parse_object_done, failed, finish, hfin, to_size_t_small n hn, hlen]
    · have hpos := List.length_pos.2 hbs
      obtain ⟨hch, hfr⟩ := take_child_fresh cache1 hc1
      have hstep : parse_object_done cache1 (redis_object.mk redis_s_array REDIS_OBJ_ARRAY pa
          (some (set_parent redis_object_new)) n objs []) (parsed false b) =
          ((take_child cache1).1, redis_object.mk redis_s_array REDIS_OBJ_ARRAY pa
            (some (set_parent redis_object_new)) n (objs ++ [parsed false b]) []) := by
        have : ¬ objs.length + 1 = n := by omega
        simp [parse_object_done, failed, finish, hfin, to_size_t_small n hn, this, hch]
      obtain ⟨cache2, hc2, r2, m2⟩ := round_run_list bs (take_child cache1).1 pa n
        (objs ++ [parsed false b]) hw.2 hfr hbs (by
          simp only [List.length_append, List.length_singleton]; omega) hn
      refine ⟨cache2, hc2, ?_, ?_⟩
      · simp only [encode_list, parsed_list]
        rw [run_append, hP, hstep, r2]
        simp
      · simp only [encode_list]
        refine minimal_append _ _ _ hmP ?_ ?_
        · rw [hP, hstep]; rfl
        · rw [hP, hstep]; exact m2

end


/-! ## Printing what was built and what was parsed -/

theorem to_string_mk (st : redis_status) (ty : redis_obj_t) (pa : Bool)
    (ob : Option redis_object) (cnt : Int) (objs : List redis_object) (buf out : List Char)
    (tail : List Char)
    (hobjs : to_string_objs objs
      (if objs.isEmpty then out else out ++ '*' :: to_string_nat objs.length ++ ['\n']) =
      (out ++ tail, true)) :
    to_string (redis_object.mk st ty pa ob cnt objs buf) out =
      (out ++ tail ++ to_string_self ty buf, true) := by
  rw [to_string, hobjs]
  simp

theorem to_string_leaf (st : redis_status) (ty : redis_obj_t) (pa : Bool)
    (ob : Option redis_object) (cnt : Int) (buf out : List Char) :
    to_string (redis_object.mk st ty pa ob cnt [] buf) out =
      (out ++ to_string_self ty buf, true) := by
  have := to_string_mk st ty pa ob cnt [] buf out [] (by simp [to_string_objs])
  simpa using this

theorem to_string_array (st : redis_status) (pa : Bool) (ob : Option redis_object)
    (cnt : Int) (objs : List redis_object) (out tail : List Char) (hne : objs ≠ [])
    (hobjs : ∀ out, to_string_objs objs out = (out ++ tail, true)) :
    to_string (redis_object.mk st REDIS_OBJ_ARRAY pa ob cnt objs []) out =
      (out ++ '*' :: to_string_nat objs.length ++ '\n' :: tail, true) := by
  have he : objs.isEmpty = false := by
    cases objs with
    | nil => exact absurd rfl hne
    | cons a l => rfl
  have := to_string_mk st REDIS_OBJ_ARRAY pa ob cnt objs [] out
    ('*' :: to_string_nat objs.length ++ '\n' :: tail) (by
      rw [he]
      simp only [Bool.false_eq_true, if_false]
      rw [hobjs]
      simp)
  simpa [to_string_self] using this

mutual

theorem parsed_to_string : ∀ (b : Built) (pa : Bool) (out : List Char),
    well_built b = true → to_string (parsed pa b) out = (out ++ encode b, true)
  | Built.status text, pa, out, _ => by
    simp only [parsed, encode]; rw [to_string_leaf]; simp [to_string_self]
  | Built.error text, pa, out, _ => by
    simp only [parsed, encode]; rw [to_string_leaf]; simp [to_string_self]
  | Built.number n, pa, out, _ => by
    simp only [parsed, encode]; rw [to_string_leaf]; simp [to_string_self]
  | Built.string data, pa, out, _ => by
    simp only [parsed, encode]; rw [to_string_leaf]; simp [to_string_self]
  | Built.array children, pa, out, hw => by
    simp only [well_built, Bool.and_eq_true, Bool.not_eq_true', List.isEmpty_eq_false,
      decide_eq_true_eq] at hw
    have hlen := parsed_list_length children
    have hne : parsed_list children ≠ [] := by
      intro h
      rw [h] at hlen
      have : children = [] := List.length_eq_zero.1 hlen.symm
      simp [this] at hw
    simp only [parsed, encode]
    rw [to_string_array _ pa none _ _ out (encode_list children) hne
      (fun out => parsed_list_to_string children out hw.2), hlen]
    simp

theorem parsed_list_to_string : ∀ (bs : List Built) (out : List Char),
    well_built_list bs = true →
    to_string_objs (parsed_list bs) out = (out ++ encode_list bs, true)
  | [], out, _ => by simp [parsed_list, to_string_objs, encode_list]
  | b :: bs, out, hw => by
    simp only [well_built_list, Bool.and_eq_true] at hw
    simp only [parsed_list, to_string_objs, encode_list]
    rw [parsed_to_string b false out hw.1]
    simp only [Bool.true_eq_false, if_false]
    rw [parsed_list_to_string bs _ hw.2]
    simp

theorem parsed_list_length : ∀ (bs : List Built), (parsed_list bs).length = bs.length
  | [] => rfl
  | b :: bs => by
    simp only [parsed_list, List.length_cons]
    rw [parsed_list_length bs]

end


theorem create_child_spec (cache : List redis_object) (st : redis_status) (ty : redis_obj_t)
    (pa : Bool) (cnt : Int) (objs : List redis_object) (buf : List Char)
    (hc : all_fresh cache) :
    ∃ cnt1, create_child cache (redis_object.mk st ty pa none cnt objs buf) =
      ((take_child cache).1,
        redis_object.mk st REDIS_OBJ_ARRAY pa none cnt1
          (objs ++ [redis_object.mk redis_s_begin REDIS_OBJ_UNKOWN false none 0 [] []])
          buf) := by
  obtain ⟨hch, _⟩ := take_child_fresh cache hc
  refine ⟨to_int ((objs ++ [set_parent redis_object_new]).length % 18446744073709551616), ?_⟩
  simp only [create_child, hch, obj_mk, Option.isNone_none, if_true,
    redis_object.with_type, redis_object.with_objs, redis_object.with_cnt, status_mk,
    type_mk, parent_this_mk, cnt_mk, objs_mk, buf_mk]
  rfl

mutual

theorem built_spec : ∀ (b : Built) (cache : List redis_object) (pa : Bool),
    well_built b = true → all_fresh cache →
    all_fresh (build cache b
      (redis_object.mk redis_s_begin REDIS_OBJ_UNKOWN pa none 0 [] [])).1 ∧
    (∀ out, to_string (build cache b
      (redis_object.mk redis_s_begin REDIS_OBJ_UNKOWN pa none 0 [] [])).2 out =
        (out ++ encode b, true)) ∧
    content (build cache b
      (redis_object.mk redis_s_begin REDIS_OBJ_UNKOWN pa none 0 [] [])).2 =
        content (parsed pa b)
  | Built.status text, cache, pa, _, hc => by
    refine ⟨hc, fun out => ?_, ?_⟩
    · simp only [build, set_status, redis_object.with_type, redis_object.with_buf,
        status_mk, type_mk, parent_this_mk, obj_mk, cnt_mk, objs_mk, encode]
      rw [to_string_leaf]; simp [to_string_self]
    · simp [build, set_status, parsed, content, content_list]
  | Built.error text, cache, pa, _, hc => by
    refine ⟨hc, fun out => ?_, ?_⟩
    · simp only [build, set_error, redis_object.with_type, redis_object.with_buf,
        status_mk, type_mk, parent_this_mk, obj_mk, cnt_mk, objs_mk, encode]
      rw [to_string_leaf]; simp [to_string_self]
    · simp [build, set_error, parsed, content, content_list]
  | Built.number n, cache, pa, _, hc => by
    refine ⟨hc, fun out => ?_, ?_⟩
    · simp only [build, set_number, redis_object.with_type, redis_object.with_buf,
        status_mk, type_mk, parent_this_mk, obj_mk, cnt_mk, objs_mk, encode]
      rw [to_string_leaf]; simp [to_string_self]
    · simp [build, set_number, parsed, content, content_list]
  | Built.string data, cache, pa, hw, hc => by
    simp only [well_built, Bool.and_eq_true, Bool.not_eq_true', decide_eq_true_eq] at hw
    refine ⟨hc, fun out => ?_, ?_⟩
    · simp only [build, set_string, hw.1, Bool.false_eq_true, if_false,
        redis_object.with_type, redis_object.with_buf,
        status_mk, type_mk, parent_this_mk, obj_mk, cnt_mk, objs_mk, encode]
      rw [to_string_leaf]; simp [to_string_self]
    · simp [build, set_string, hw.1, parsed, content, content_list]
  | Built.array children, cache, pa, hw, hc => by
    simp only [well_built, Bool.and_eq_true, Bool.not_eq_true', decide_eq_true_eq] at hw
    obtain ⟨l, cnt1, e, hfr, hs, hcont, hlen⟩ := built_children_spec children cache
      redis_s_begin REDIS_OBJ_UNKOWN pa 0 [] [] hw.2 hc
    simp only [hw.1.1, Bool.false_eq_true, if_false, List.nil_append] at e
    have hne : l ≠ [] := by
      intro h
      rw [h] at hlen
      have : children = [] := List.length_eq_zero.1 hlen.symm
      rw [this] at hw
      simp at hw
    refine ⟨hfr, fun out => ?_, ?_⟩
    · simp only [build, e, encode]
      rw [to_string_array _ pa none _ _ out (encode_list children) hne hs, hlen]
      simp
    · simp only [build, e, parsed, content, hcont]

theorem built_children_spec : ∀ (bs : List Built) (cache : List redis_object)
    (st : redis_status) (ty : redis_obj_t) (pa : Bool) (cnt : Int)
    (objs : List redis_object) (buf : List Char),
    well_built_list bs = true → all_fresh cache →
    ∃ l cnt1,
      (build_children cache bs (redis_object.mk st ty pa none cnt objs buf)).2 =
        redis_object.mk st (if bs.isEmpty then ty else REDIS_OBJ_ARRAY) pa none cnt1
          (objs ++ l) buf ∧
      all_fresh (build_children cache bs (redis_object.mk st ty pa none cnt objs buf)).1 ∧
      (∀ out, to_string_objs l out = (out ++ encode_list bs, true)) ∧
      content_list l = content_list (parsed_list bs) ∧ l.length = bs.length
  | [], cache, st, ty, pa, cnt, objs, buf, _, hc =>
    ⟨[], cnt, by simp [build_children], hc, fun out => by simp [to_string_objs, encode_list],
      rfl, rfl⟩
  | b :: bs, cache, st, ty, pa, cnt, objs, buf, hw, hc => by
    simp only [well_built_list, Bool.and_eq_true] at hw
    obtain ⟨cnt1, ec⟩ := create_child_spec cache st ty pa cnt objs buf hc
    obtain ⟨_, hfr⟩ := take_child_fresh cache hc
    obtain ⟨b1, b2, b3⟩ := built_spec b (take_child cache).1 false hw.1 hfr
    obtain ⟨l, cnt2, e, hfr2, hs, hcont, hlen⟩ := built_children_spec bs
      (build (take_child cache).1 b
        (redis_object.mk redis_s_begin REDIS_OBJ_UNKOWN false none 0 [] [])).1
      st REDIS_OBJ_ARRAY pa cnt1
      (objs ++ [(build (take_child cache).1 b
        (redis_object.mk redis_s_begin REDIS_OBJ_UNKOWN false none 0 [] [])).2]) buf hw.2 b1
    have hstep : build_children cache (b :: bs) (redis_object.mk st ty pa none cnt objs buf) =
        build_children
          (build (take_child cache).1 b
            (redis_object.mk redis_s_begin REDIS_OBJ_UNKOWN false none 0 [] [])).1 bs
          (redis_object.mk st REDIS_OBJ_ARRAY pa none cnt1
            (objs ++ [(build (take_child cache).1 b
              (redis_object.mk redis_s_begin REDIS_OBJ_UNKOWN false none 0 [] [])).2])
            buf) := by
      rw [build_children, ec]
      simp [List.getLastD_concat]
    refine ⟨(build (take_child cache).1 b
        (redis_object.mk redis_s_begin REDIS_OBJ_UNKOWN false none 0 [] [])).2 :: l, cnt2,
      ?_, ?_, ?_, ?_, ?_⟩
    · rw [hstep, e]
      simp
    · rw [hstep]; exact hfr2
    · intro out
      simp only [to_string_objs, b2, Bool.true_eq_false, if_false, encode_list]
      rw [hs]
      simp
    · simp only [content_list, parsed_list, b3, hcont]
    · simp [hlen]

end


/-! ## Round trip -/

theorem parse_of_huge_length (data : List Char) (hlen : data.length = 2147483648)
    (cache : List redis_object) :
    (to_string (build cache (Built.string data) redis_object_new).2 []).1 =
      '$' :: "2147483648".toList ++ '\n' :: data ++ ['\n'] ∧
    feed 10 cache redis_object_new ('$' :: "2147483648".toList ++ '\n' :: data ++ ['\n']) =
      .ok (cache,
        redis_object.mk redis_s_finish REDIS_OBJ_UNKOWN true none (-2147483648) [] [],
        data ++ ['\n']) ∧
    (build cache (Built.string data) redis_object_new).2.type_ = REDIS_OBJ_STRING := by
  have hne : data.isEmpty = false := by
    cases data with
    | nil => simp at hlen
    | cons a l => rfl
  have hd : to_string_nat 2147483648 = "2147483648".toList := by decide
  refine ⟨?_, ?_, by simp [build, set_string, hne]⟩
  · simp only [build, set_string, hne, Bool.false_eq_true, if_false, redis_object_new,
      redis_object.with_type, redis_object.with_buf, status_mk, type_mk, parent_this_mk,
      obj_mk, cnt_mk, objs_mk]
    rw [to_string_leaf]
    simp [to_string_self, hlen, hd]
  · have hs : strtol "2147483648".toList = (2147483648, 10) := by decide
    have hg : get_line ("2147483648".toList ++ '\n' :: data ++ ['\n']) [] =
        (data ++ ['\n'], "2147483648".toList, true) := by
      simp [get_line]
    have hl : get_length (redis_object.mk redis_s_strlen REDIS_OBJ_UNKOWN true none 0 [] [])
        ("2147483648".toList ++ '\n' :: data ++ ['\n']) =
        .ok (redis_object.mk redis_s_strlen REDIS_OBJ_UNKOWN true none (-2147483648) [] [],
          data ++ ['\n'], true) := by
      simp only [get_length, buf_mk, hg, hs]
      simp [to_int, -List.getD_eq_getElem?_getD]
    have h1 : status_tab (parse_object 7) cache redis_object_new
        ('$' :: "2147483648".toList ++ '\n' :: data ++ ['\n']) =
        .ok (cache, redis_object.mk redis_s_strlen REDIS_OBJ_UNKOWN true none 0 [] [],
          "2147483648".toList ++ '\n' :: data ++ ['\n']) := by
      simp [status_tab, redis_object_new, parse_begin]
    have h2 : status_tab (parse_object 6) cache
        (redis_object.mk redis_s_strlen REDIS_OBJ_UNKOWN true none 0 [] [])
        ("2147483648".toList ++ '\n' :: data ++ ['\n']) =
        .ok (cache,
          redis_object.mk redis_s_finish REDIS_OBJ_UNKOWN true none (-2147483648) [] [],
          data ++ ['\n']) := by
      simp only [status_tab, status_mk, parse_strlen, redis_object.with_cnt, type_mk,
        parent_this_mk, obj_mk, objs_mk, buf_mk, hl]
      simp
    have hu : update 9 cache redis_object_new
        ('$' :: "2147483648".toList ++ '\n' :: data ++ ['\n']) =
        .ok (cache,
          redis_object.mk redis_s_finish REDIS_OBJ_UNKOWN true none (-2147483648) [] [],
          data ++ ['\n']) := by
      have e0 : ¬ (failed redis_object_new = true ∨ finish redis_object_new = true) := by
        decide
      have e1 : ¬ (redis_object_new.obj_.isSome = true) := by decide
      rw [update, if_neg e0, if_neg e1, update_loop, if_neg (by simp), h1]
      simp only [status_mk, reduceCtorEq, or_self, if_false]
      rw [update_loop, if_neg (by simp), h2]
      simp
    rw [feed, if_neg (by simp [failed, finish, redis_object_new]), hu]
    simp only
    rw [feed, if_pos (by simp [finish])]

/-- C19, counterexample: a bulk string of 2^31 bytes `a`, built with
`set_string`. `to_string` prints the length as `2147483648`; the parser reads
it with `(int) strtol`, gets -2147483648, and finishes at once: the type is
unknown, not string, the buffer is empty, and the 2^31 + 1 bytes after the
length line are not consumed. -/
theorem huge_string_not_round_trip :
    (to_string (build [] (Built.string (List.replicate 2147483648 'a'))
      redis_object_new).2 []).1 =
      '$' :: "2147483648".toList ++ '\n' :: List.replicate 2147483648 'a' ++ ['\n'] ∧
    feed 10 [] redis_object_new
      ('$' :: "2147483648".toList ++ '\n' :: List.replicate 2147483648 'a' ++ ['\n']) =
      .ok ([],
        redis_object.mk redis_s_finish REDIS_OBJ_UNKOWN true none (-2147483648) [] [],
        List.replicate 2147483648 'a' ++ ['\n']) ∧
    (build [] (Built.string (List.replicate 2147483648 'a')) redis_object_new).2.type_
      = REDIS_OBJ_STRING :=
  parse_of_huge_length (List.replicate 2147483648 'a') (List.length_replicate _ _) []


/-- C19, amended: for every object built with `set_status` / `set_error`
(a text that is not empty, without CR or LF), `set_number`, `set_string` (bytes
that are not empty, fewer than 2^31 of them) or as an array, not empty and of
fewer than 2^31 children, of such objects via `create_child`, feeding the
output of `to_string` to a fresh object (calling `update` until the input is
exhausted or the object is finished or failed) returns, with enough steps
allowed, ends finished and not failed, consumes the whole output, yields the
same type, text and children in order, and `to_string` of the parsed object
equals the original output. -/
theorem round_trip_below_int_max (b : Built) (hw : well_built b = true)
    (cacheB cacheP : List redis_object) (hB : all_fresh cacheB) (hP : all_fresh cacheP) :
    ∃ (s1 : List redis_object × redis_object),
      (∃ N, ∀ n, N ≤ n →
        feed n cacheP redis_object_new
          (to_string (build cacheB b redis_object_new).2 []).1 = .ok (s1.1, s1.2, [])) ∧
      (to_string (build cacheB b redis_object_new).2 []).2 = true ∧
      finish s1.2 = true ∧ failed s1.2 = false ∧
      content s1.2 = content (build cacheB b redis_object_new).2 ∧
      to_string s1.2 [] = to_string (build cacheB b redis_object_new).2 [] := by
  obtain ⟨_, b2, b3⟩ := built_spec b cacheB true hw hB
  have hout : to_string (build cacheB b redis_object_new).2 [] = (encode b, true) := by
    have := b2 []
    simpa using this
  obtain ⟨cache1, _, r1, m1⟩ := round_run b cacheP true hw hP
  obtain ⟨s1, rest, ⟨N, f⟩, t, _, _, e⟩ :=
    feed_total (encode b).length (encode b) cacheP redis_object_new rfl node_ok_new hP
  have hs1 : s1 = (cache1, parsed true b) := by
    rw [← took_run _ _ _ _ t e]
    exact r1
  have hfin : finish s1.2 = true := by
    rw [hs1]
    simp [finish, parsed_finish]
  have hnf : failed s1.2 = false := by
    rw [hs1]
    simp [failed, parsed_finish]
  have hrest : rest = [] := by
    obtain ⟨p0, p1, ep, rp, mp, fp⟩ := t
    have hp1 : p1 = [] := by
      by_contra hne
      rw [fp hne] at hnf; cases hnf
    subst hp1
    simp only [List.nil_append] at ep
    have hd1 : done s1.2 = true := by simp [done, hfin]
    have := minimal_unique (cacheP, redis_object_new) p0 (encode b) rest []
      (by rw [← ep]; simp) mp m1 (by rw [← rp]; exact hd1)
      (by
        have : run (cacheP, redis_object_new) (encode b) = (cache1, parsed true b) := r1
        rw [this, ← hs1]; exact hd1)
    rw [this] at ep
    simpa using ep.symm
  subst hrest
  refine ⟨s1, ⟨N, fun n hn => ?_⟩, by rw [hout], hfin, hnf, ?_, ?_⟩
  · rw [hout]; exact f n hn
  · rw [hs1]; exact b3.symm
  · rw [hs1, hout]
    have := parsed_to_string b true [] hw
    simpa using this

/-- C19, amended, on a concrete input: the array of the bulk string `abc`, the
number -12 and an array holding the status `OK`, built with one spare object
in the cache and parsed with none. -/
theorem round_trip_below_int_max_witness :
    well_built (Built.array [Built.string "abc".toList, Built.number (-12),
      Built.array [Built.status "OK".toList]]) = true ∧
    all_fresh [redis_object_new] ∧ all_fresh [] ∧
    (to_string (build [redis_object_new]
      (Built.array [Built.string "abc".toList, Built.number (-12),
        Built.array [Built.status "OK".toList]]) redis_object_new).2 []).1 =
      "*3\n$3\nabc\n:-12\n*1\n+OK\n".toList ∧
    (∃ (s1 : List redis_object × redis_object),
      (∃ N, ∀ n, N ≤ n →
        feed n [] redis_object_new
          (to_string (build [redis_object_new]
            (Built.array [Built.string "abc".toList, Built.number (-12),
              Built.array [Built.status "OK".toList]]) redis_object_new).2 []).1
          = .ok (s1.1, s1.2, [])) ∧
      (to_string (build [redis_object_new]
        (Built.array [Built.string "abc".toList, Built.number (-12),
          Built.array [Built.status "OK".toList]]) redis_object_new).2 []).2 = true ∧
      finish s1.2 = true ∧ failed s1.2 = false ∧
      content s1.2 = content (build [redis_object_new]
        (Built.array [Built.string "abc".toList, Built.number (-12),
          Built.array [Built.status "OK".toList]]) redis_object_new).2 ∧
      to_string s1.2 [] = to_string (build [redis_object_new]
        (Built.array [Built.string "abc".toList, Built.number (-12),
          Built.array [Built.status "OK".toList]]) redis_object_new).2 []) ∧
    (feed 60 [] redis_object_new "*3\n$3\nabc\n:-12\n*1\n+OK\n".toList).toOption.map
      (fun r => (r.2.1.status_, r.2.1.type_, r.2.1.objs_.map redis_object.buf_, r.2.2)) =
      some (redis_s_finish, REDIS_OBJ_ARRAY, ["abc".toList, "-12".toList, []], []) :=
  ⟨rfl, by simp [all_fresh], by simp [all_fresh], rfl,
    round_trip_below_int_max
      (Built.array [Built.string "abc".toList, Built.number (-12),
        Built.array [Built.status "OK".toList]]) rfl [redis_object_new] []
      (by simp [all_fresh]) (by simp [all_fresh]),
    rfl⟩


/-! ## More steps allowed change no result -/

theorem status_tab_stable
    (po po1 : List redis_object → redis_object → List Char → Res)
    (h : ∀ cache o data r, po cache o data = r → r ≠ .error Fault.fuel →
      po1 cache o data = r)
    (cache : List redis_object) (o : redis_object) (data : List Char) (r : Res)
    (hr : status_tab po cache o data = r) (hne : r ≠ .error Fault.fuel) :
    status_tab po1 cache o data = r := by
  by_cases hs : o.status_ = redis_s_array
  · unfold status_tab at hr ⊢
    simp only [hs, parse_array] at hr ⊢
    by_cases hn : o.obj_.isNone = true
    · rw [if_pos hn] at hr ⊢; exact hr
    · rw [if_neg hn] at hr ⊢
      exact h cache o data r hr hne
  · rw [status_tab_flat po1 po cache o data hs]; exact hr

theorem stable (n : Nat) :
    (∀ cache o data r, update n cache o data = r → r ≠ .error Fault.fuel →
      update (n + 1) cache o data = r) ∧
    (∀ cache o data r, parse_object n cache o data = r → r ≠ .error Fault.fuel →
      parse_object (n + 1) cache o data = r) ∧
    (∀ cache o data r, update_loop n cache o data = r → r ≠ .error Fault.fuel →
      update_loop (n + 1) cache o data = r) := by
  induction n with
  | zero =>
    refine ⟨?_, ?_, ?_⟩ <;>
    · intro cache o data r hr hne
      simp only [update, parse_object, update_loop] at hr
      exact absurd hr.symm hne
  | succ n ih =>
    obtain ⟨iu, ip, il⟩ := ih
    refine ⟨?_, ?_, ?_⟩
    · intro cache o data r hr hne
      rw [update] at hr ⊢
      by_cases hd : failed o = true ∨ finish o = true
      · rw [if_pos hd] at hr ⊢; exact hr
      · rw [if_neg hd] at hr ⊢
        by_cases ho : o.obj_.isSome = true
        · rw [if_pos ho] at hr ⊢
          exact ip cache o data r hr hne
        · rw [if_neg ho] at hr ⊢
          exact il cache o data r hr hne
    · intro cache o data r hr hne
      rw [parse_object] at hr ⊢
      by_cases hc : ¬ 0 < o.cnt_
      · rw [if_pos hc] at hr ⊢; exact hr
      · rw [if_neg hc] at hr ⊢
        cases ho : o.obj_ with
        | none => simp only [ho] at hr ⊢; exact hr
        | some child =>
          simp only [ho] at hr ⊢
          cases hu : update n cache child data with
          | error e =>
            simp only [hu] at hr
            have he : e ≠ Fault.fuel := by
              intro h; subst h; exact hne hr.symm
            rw [iu cache child data _ hu (by simpa using he)]
            exact hr
          | ok v =>
            simp only [hu] at hr
            rw [iu cache child data _ hu (by simp)]
            exact hr
    · intro cache o data r hr hne
      rw [update_loop] at hr ⊢
      by_cases hl : data.length = 0
      · rw [if_pos hl] at hr ⊢; exact hr
      · rw [if_neg hl] at hr ⊢
        cases ht : status_tab (parse_object n) cache o data with
        | error e =>
          simp only [ht] at hr
          have he : e ≠ Fault.fuel := by
            intro h; subst h; exact hne hr.symm
          rw [status_tab_stable _ (parse_object (n + 1)) ip cache o data _ ht
            (by simpa using he)]
          exact hr
        | ok v =>
          simp only [ht] at hr
          rw [status_tab_stable _ (parse_object (n + 1)) ip cache o data _ ht (by simp)]
          simp only
          by_cases hdn : v.2.1.status_ = redis_s_null ∨ v.2.1.status_ = redis_s_finish
          · rw [if_pos hdn] at hr ⊢; exact hr
          · rw [if_neg hdn] at hr ⊢
            exact il _ _ _ r hr hne

theorem update_stable (n m : Nat) (h : n ≤ m) (cache : List redis_object)
    (o : redis_object) (data : List Char) (r : Res)
    (hr : update n cache o data = r) (hne : r ≠ .error Fault.fuel) :
    update m cache o data = r := by
  induction m with
  | zero =>
    have : n = 0 := by omega
    subst this; exact hr
  | succ m ih =>
    by_cases hnm : n = m + 1
    · subst hnm; exact hr
    · exact (stable m).1 cache o data r (ih (by omega)) hne


/-! ## Every call returns -/

theorem update_done (n : Nat) (cache : List redis_object) (o : redis_object)
    (data : List Char) (hd : done o = true) :
    update (n + 1) cache o data = .ok (cache, o, data) := by
  have : failed o = true ∨ finish o = true := by
    simpa [done] using hd
  rw [update, if_pos this]

theorem update_returns (cache : List redis_object) (o : redis_object) (data : List Char)
    (hn : node_ok o = true) (hc : all_fresh cache) :
    ∃ N cache1 o1 rest, (∀ n, N ≤ n → update n cache o data = .ok (cache1, o1, rest)) ∧
      node_ok o1 = true ∧ all_fresh cache1 ∧ rest <:+ data ∧
      (done o = false → data ≠ [] → rest.length < data.length) ∧
      (done o = true → cache1 = cache ∧ o1 = o ∧ rest = data) := by
  by_cases hd : done o = true
  · refine ⟨1, cache, o, data, ?_, hn, hc, List.suffix_refl _, fun h => ?_, fun _ => ⟨rfl, rfl, rfl⟩⟩
    · intro n hle
      obtain ⟨m, rfl⟩ : ∃ m, n = m + 1 := ⟨n - 1, by omega⟩
      exact update_done m cache o data hd
    · rw [hd] at h; cases h
  · simp only [Bool.not_eq_true] at hd
    obtain ⟨N, s1, rest, h1, h2, h3, h4⟩ := update_total cache o data hn hd hc
    refine ⟨N, s1.1, s1.2, rest, h1, h3, h4, ?_, fun _ hne => consumes_shorter _ _ _ _ h2 hne,
      fun h => ?_⟩
    · obtain ⟨p0, p1, e, _⟩ := h2
      exact ⟨p0 ++ p1, by rw [e, List.append_assoc]⟩
    · rw [hd] at h; cases h

theorem update_result (n : Nat) (cache : List redis_object) (o : redis_object)
    (data : List Char) (hn : node_ok o = true) (hc : all_fresh cache)
    (r : List redis_object × redis_object × List Char)
    (hr : update n cache o data = .ok r) :
    node_ok r.2.1 = true ∧ all_fresh r.1 ∧ r.2.2 <:+ data ∧
      (done o = false → data ≠ [] → r.2.2.length < data.length) ∧
      (done o = true → r = (cache, o, data)) := by
  obtain ⟨N, cache1, o1, rest, h1, h2, h3, h4, h5, h6⟩ := update_returns cache o data hn hc
  have hbig := update_stable n (max n N) (le_max_left _ _) cache o data _ hr (by simp)
  rw [h1 (max n N) (le_max_right _ _)] at hbig
  have e : r = (cache1, o1, rest) := by
    injection hbig with h; exact h.symm
  subst e
  refine ⟨h2, h3, h4, h5, fun hd => ?_⟩
  obtain ⟨a, b, c⟩ := h6 hd
  rw [a, b, c]

theorem update_never_asserts (n : Nat) (cache : List redis_object) (o : redis_object)
    (data : List Char) (hn : node_ok o = true) (hc : all_fresh cache) (e : Fault)
    (hr : update n cache o data = .error e) : e = Fault.fuel := by
  by_contra hne
  obtain ⟨N, cache1, o1, rest, h1, _⟩ := update_returns cache o data hn hc
  have hbig := update_stable n (max n N) (le_max_left _ _) cache o data _ hr
    (by simpa using hne)
  rw [h1 (max n N) (le_max_right _ _)] at hbig
  cases hbig

theorem updates_result (ds : List (List Char)) :
    ∀ (n : Nat) (cache : List redis_object) (o : redis_object)
      (r : List redis_object × redis_object), node_ok o = true → all_fresh cache →
      updates n cache o ds = .ok r → node_ok r.2 = true ∧ all_fresh r.1 := by
  induction ds with
  | nil =>
    intro n cache o r hn hc hr
    simp only [updates] at hr
    injection hr with h
    subst h
    exact ⟨hn, hc⟩
  | cons d ds ih =>
    intro n cache o r hn hc hr
    rw [updates] at hr
    cases hu : update n cache o d with
    | error e => simp [hu] at hr
    | ok v =>
      simp only [hu] at hr
      obtain ⟨a, b, _⟩ := update_result n cache o d hn hc v hu
      exact ih n v.1 v.2.1 r a b hr

theorem updates_returns (ds : List (List Char)) :
    ∀ (cache : List redis_object) (o : redis_object), node_ok o = true → all_fresh cache →
      ∃ N r, ∀ n, N ≤ n → updates n cache o ds = .ok r := by
  induction ds with
  | nil =>
    intro cache o _ _
    exact ⟨0, (cache, o), fun n _ => by simp [updates]⟩
  | cons d ds ih =>
    intro cache o hn hc
    obtain ⟨N1, cache1, o1, rest, h1, h2, h3, _⟩ := update_returns cache o d hn hc
    obtain ⟨N2, r, g⟩ := ih cache1 o1 h2 h3
    refine ⟨max N1 N2, r, fun n hle => ?_⟩
    rw [updates, h1 n (by omega)]
    exact g n (by omega)

theorem updates_never_asserts (ds : List (List Char)) :
    ∀ (n : Nat) (cache : List redis_object) (o : redis_object) (e : Fault),
      node_ok o = true → all_fresh cache → updates n cache o ds = .error e →
      e = Fault.fuel := by
  induction ds with
  | nil =>
    intro n cache o e _ _ hr
    simp [updates] at hr
  | cons d ds ih =>
    intro n cache o e hn hc hr
    rw [updates] at hr
    cases hu : update n cache o d with
    | error e1 =>
      simp only [hu] at hr
      injection hr with h
      subst h
      exact update_never_asserts n cache o d hn hc e1 hu
    | ok v =>
      simp only [hu] at hr
      obtain ⟨a, b, _⟩ := update_result n cache o d hn hc v hu
      exact ih n v.1 v.2.1 e a b hr

theorem reached_ok (cache : List redis_object) (o : redis_object) (h : reached cache o) :
    node_ok o = true ∧ all_fresh cache := by
  obtain ⟨cache0, n, ds, hc, hr⟩ := h
  exact updates_result ds n cache0 redis_object_new (cache, o) node_ok_new hc hr

theorem updates_append (ds : List (List Char)) :
    ∀ (n : Nat) (cache : List redis_object) (o : redis_object) (d : List Char)
      (r : List redis_object × redis_object) (v : List redis_object × redis_object × List Char),
      updates n cache o ds = .ok r → update n r.1 r.2 d = .ok v →
      updates n cache o (ds ++ [d]) = .ok (v.1, v.2.1) := by
  induction ds with
  | nil =>
    intro n cache o d r v hr hv
    simp only [updates] at hr
    injection hr with h
    subst h
    simp [updates, hv]
  | cons d0 ds ih =>
    intro n cache o d r v hr hv
    rw [updates] at hr
    rw [List.cons_append, updates]
    cases hu : update n cache o d0 with
    | error e => simp [hu] at hr
    | ok w =>
      simp only [hu] at hr ⊢
      exact ih n w.1 w.2.1 d r v hr hv


/-! ## The pointer and its length -/

theorem bytes_at_zero (mem : Nat → Char) (data : Nat) : bytes_at mem data 0 = [] := rfl

theorem bytes_at_succ (mem : Nat → Char) (data len : Nat) :
    bytes_at mem data (len + 1) = mem data :: bytes_at mem (data + 1) len := by
  unfold bytes_at
  rw [List.range_succ_eq_map, List.map_cons, List.map_map]
  simp only [Nat.add_zero, List.cons.injEq, true_and]
  apply List.map_congr_left
  intro i _
  simp only [Function.comp_apply]
  congr 1
  omega

theorem bytes_at_length (mem : Nat → Char) (data len : Nat) :
    (bytes_at mem data len).length = len := by
  simp [bytes_at]

theorem bytes_at_split (mem : Nat → Char) (k : Nat) :
    ∀ data len, k ≤ len →
      (bytes_at mem data len).take k = bytes_at mem data k ∧
      (bytes_at mem data len).drop k = bytes_at mem (data + k) (len - k) := by
  induction k with
  | zero => intro data len _; simp [bytes_at_zero]
  | succ k ih =>
    intro data len h
    obtain ⟨m, rfl⟩ : ∃ m, len = m + 1 := ⟨len - 1, by omega⟩
    obtain ⟨a, b⟩ := ih (data + 1) m (by omega)
    rw [bytes_at_succ, bytes_at_succ, List.take_succ_cons, List.drop_succ_cons, a, b]
    refine ⟨rfl, ?_⟩
    have e1 : data + 1 + k = data + (k + 1) := by omega
    have e2 : m + 1 - (k + 1) = m - k := by omega
    rw [e1, e2]

theorem get_line_ptr_spec (mem : Nat → Char) (len : Nat) :
    ∀ data buf,
      (get_line_ptr mem data len buf).1 + (get_line_ptr mem data len buf).2.1 = data + len ∧
      get_line (bytes_at mem data len) buf =
        (bytes_at mem (get_line_ptr mem data len buf).1 (get_line_ptr mem data len buf).2.1,
          (get_line_ptr mem data len buf).2.2.1, (get_line_ptr mem data len buf).2.2.2) ∧
      ((get_line_ptr mem data len buf).2.2.2 = false →
        (get_line_ptr mem data len buf).2.1 = 0) := by
  induction len with
  | zero =>
    intro data buf
    simp [get_line_ptr, bytes_at_zero, get_line_nil]
  | succ len ih =>
    intro data buf
    rw [bytes_at_succ]
    by_cases h1 : mem data = '\r'
    · obtain ⟨a, b, c⟩ := ih (data + 1) buf
      simp only [get_line_ptr, h1, if_true, get_line_cr]
      exact ⟨by omega, b, c⟩
    · by_cases h2 : mem data = '\n'
      · simp [get_line_ptr, h2, get_line_lf]
        omega
      · obtain ⟨a, b, c⟩ := ih (data + 1) (buf ++ [mem data])
        simp only [get_line_ptr, h1, h2, if_false, get_line_other _ _ _ h1 h2]
        exact ⟨by omega, b, c⟩

theorem get_data_ptr_spec (mem : Nat → Char) (data len : Nat) (buf : List Char)
    (want : Nat) :
    (¬ buf.length < want →
      get_data_ptr mem data len buf want = .error Fault.assertion ∧
      get_data (bytes_at mem data len) buf want = .error Fault.assertion) ∧
    (buf.length < want →
      ∃ data1 len1 buf1, get_data_ptr mem data len buf want = .ok (data1, len1, buf1) ∧
        data1 + len1 = data + len ∧ len1 ≤ len ∧
        get_data (bytes_at mem data len) buf want = .ok (bytes_at mem data1 len1, buf1)) := by
  constructor
  · intro h
    simp [get_data_ptr, get_data, h]
  · intro h
    have hn : ¬ ¬ buf.length < want := not_not.2 h
    unfold get_data_ptr get_data
    rw [if_neg hn, if_neg hn]
    simp only [bytes_at_length]
    by_cases hw : want - buf.length > len
    · rw [if_pos hw]
      obtain ⟨a, b⟩ := bytes_at_split mem len data len (le_refl _)
      refine ⟨_, _, _, rfl, by omega, by omega, ?_⟩
      simp only [hw, if_true, a, b, Nat.sub_self]
    · rw [if_neg hw]
      obtain ⟨a, b⟩ := bytes_at_split mem (want - buf.length) data len (by omega)
      refine ⟨_, _, _, rfl, by omega, by omega, ?_⟩
      simp only [hw, if_false, a, b]

theorem parse_begin_ptr_spec (mem : Nat → Char) (cache : List redis_object)
    (o : redis_object) (data len : Nat) :
    (parse_begin_ptr mem o data len).2.1 + (parse_begin_ptr mem o data len).2.2
      = data + len ∧
    parse_begin cache o (bytes_at mem data len) =
      .ok (cache, (parse_begin_ptr mem o data len).1,
        bytes_at mem (parse_begin_ptr mem o data len).2.1
          (parse_begin_ptr mem o data len).2.2) := by
  cases len with
  | zero => simp [parse_begin_ptr, bytes_at_zero, parse_begin]
  | succ len =>
    rw [bytes_at_succ]
    simp only [parse_begin_ptr, Nat.add_one_ne_zero, if_false, parse_begin,
      Nat.add_sub_cancel]
    exact ⟨by omega, trivial⟩


/-! ## The calls with pointer and length agree with the calls on lists -/

theorem get_line_ptr_le (mem : Nat → Char) (len : Nat) :
    ∀ data buf, (get_line_ptr mem data len buf).2.1 ≤ len := by
  induction len with
  | zero => intro data buf; simp [get_line_ptr]
  | succ len ih =>
    intro data buf
    by_cases h1 : mem data = '\r'
    · have := ih (data + 1) buf
      simp only [get_line_ptr, h1, if_true]
      omega
    · by_cases h2 : mem data = '\n'
      · simp [get_line_ptr, h2]
      · have := ih (data + 1) (buf ++ [mem data])
        simp only [get_line_ptr, h1, h2, if_false]
        omega

theorem agrees_ok (mem : Nat → Char) (data len : Nat) (cache1 : List redis_object)
    (o1 : redis_object) (data1 len1 : Nat) (r : Res)
    (h1 : data1 + len1 = data + len) (h2 : len1 ≤ len)
    (h3 : r = .ok (cache1, o1, bytes_at mem data1 len1)) :
    agrees mem data len (.ok (cache1, o1, data1, len1)) r :=
  ⟨h1, h2, h3⟩

theorem agrees_error (mem : Nat → Char) (data len : Nat) (e : Fault) (r : Res)
    (h : r = .error e) : agrees mem data len (.error e) r := h

theorem parse_line_agrees (mem : Nat → Char) (t : redis_obj_t)
    (cache : List redis_object) (o : redis_object) (data len : Nat) :
    agrees mem data len (parse_line_ptr mem t cache o data len)
      (parse_line t cache o (bytes_at mem data len)) := by
  obtain ⟨a, b, _⟩ := get_line_ptr_spec mem len data o.buf_
  have hle := get_line_ptr_le mem len data o.buf_
  simp only [parse_line_ptr, parse_line, b, bytes_at_length]
  by_cases hf : (get_line_ptr mem data len o.buf_).2.2.2 = false
  · rw [if_pos hf, if_pos hf]
    by_cases hz : (get_line_ptr mem data len o.buf_).2.1 ≠ 0
    · rw [if_pos hz, if_pos hz]; exact agrees_error _ _ _ _ _ rfl
    · rw [if_neg hz, if_neg hz]; exact agrees_ok _ _ _ _ _ _ _ _ a hle rfl
  · rw [if_neg hf, if_neg hf]
    by_cases hb : (get_line_ptr mem data len o.buf_).2.2.1 = []
    · rw [if_pos hb, if_pos hb]; exact agrees_ok _ _ _ _ _ _ _ _ a hle rfl
    · rw [if_neg hb, if_neg hb]; exact agrees_ok _ _ _ _ _ _ _ _ a hle rfl

theorem parse_strend_agrees (mem : Nat → Char) (cache : List redis_object)
    (o : redis_object) (data len : Nat) :
    agrees mem data len (parse_strend_ptr mem cache o data len)
      (parse_strend cache o (bytes_at mem data len)) := by
  obtain ⟨a, b, _⟩ := get_line_ptr_spec mem len data []
  have hle := get_line_ptr_le mem len data []
  simp only [parse_strend_ptr, parse_strend, b, bytes_at_length]
  by_cases hb : (get_line_ptr mem data len []).2.2.1 ≠ []
  · rw [if_pos hb, if_pos hb]; exact agrees_ok _ _ _ _ _ _ _ _ a hle rfl
  · rw [if_neg hb, if_neg hb]
    by_cases hf : (get_line_ptr mem data len []).2.2.2 = false
    · rw [if_pos hf, if_pos hf]
      by_cases hz : (get_line_ptr mem data len []).2.1 ≠ 0
      · rw [if_pos hz, if_pos hz]; exact agrees_error _ _ _ _ _ rfl
      · rw [if_neg hz, if_neg hz]; exact agrees_ok _ _ _ _ _ _ _ _ a hle rfl
    · rw [if_neg hf, if_neg hf]; exact agrees_ok _ _ _ _ _ _ _ _ a hle rfl

theorem get_length_agrees (mem : Nat → Char) (o : redis_object) (data len : Nat) :
    (∀ e, get_length_ptr mem o data len = .error e →
      get_length o (bytes_at mem data len) = .error e) ∧
    (∀ o1 data1 len1 found, get_length_ptr mem o data len = .ok (o1, data1, len1, found) →
      data1 + len1 = data + len ∧ len1 ≤ len ∧
      get_length o (bytes_at mem data len) = .ok (o1, bytes_at mem data1 len1, found)) := by
  obtain ⟨a, b, _⟩ := get_line_ptr_spec mem len data o.buf_
  have hle := get_line_ptr_le mem len data o.buf_
  simp only [get_length_ptr, get_length, b, bytes_at_length]
  by_cases hf : (get_line_ptr mem data len o.buf_).2.2.2 = false
  · rw [if_pos hf, if_pos hf]
    by_cases hz : (get_line_ptr mem data len o.buf_).2.1 ≠ 0
    · rw [if_pos hz, if_pos hz]
      exact ⟨fun e h => (by injection h with h; rw [h]), fun _ _ _ _ h => (by cases h)⟩
    · rw [if_neg hz, if_neg hz]
      refine ⟨fun e h => (by cases h), fun o1 d1 l1 f h => ?_⟩
      simp only [Except.ok.injEq, Prod.mk.injEq] at h
      obtain ⟨e1, e2, e3, e4⟩ := h
      subst e1 e2 e3 e4
      exact ⟨a, hle, rfl⟩
  · rw [if_neg hf, if_neg hf]
    by_cases hb : (get_line_ptr mem data len o.buf_).2.2.1 = []
    · rw [if_pos hb, if_pos hb]
      refine ⟨fun e h => (by cases h), fun o1 d1 l1 f h => ?_⟩
      simp only [Except.ok.injEq, Prod.mk.injEq] at h
      obtain ⟨e1, e2, e3, e4⟩ := h
      subst e1 e2 e3 e4
      exact ⟨a, hle, rfl⟩
    · rw [if_neg hb, if_neg hb]
      by_cases hv : (strtol (get_line_ptr mem data len o.buf_).2.2.1).2 = 0 ∨
          (get_line_ptr mem data len o.buf_).2.2.1.getD
            (strtol (get_line_ptr mem data len o.buf_).2.2.1).2 '\x00' ≠ '\x00'
      · rw [if_pos hv, if_pos hv]
        refine ⟨fun e h => (by cases h), fun o1 d1 l1 f h => ?_⟩
        simp only [Except.ok.injEq, Prod.mk.injEq] at h
        obtain ⟨e1, e2, e3, e4⟩ := h
        subst e1 e2 e3 e4
        exact ⟨a, hle, rfl⟩
      · rw [if_neg hv, if_neg hv]
        refine ⟨fun e h => (by cases h), fun o1 d1 l1 f h => ?_⟩
        simp only [Except.ok.injEq, Prod.mk.injEq] at h
        obtain ⟨e1, e2, e3, e4⟩ := h
        subst e1 e2 e3 e4
        exact ⟨a, hle, rfl⟩


theorem parse_strlen_agrees (mem : Nat → Char) (cache : List redis_object)
    (o : redis_object) (data len : Nat) :
    agrees mem data len (parse_strlen_ptr mem cache o data len)
      (parse_strlen cache o (bytes_at mem data len)) := by
  obtain ⟨he, hok⟩ := get_length_agrees mem (o.with_cnt 0) data len
  unfold parse_strlen_ptr parse_strlen
  cases h : get_length_ptr mem (o.with_cnt 0) data len with
  | error e =>
    rw [he e h]
    exact agrees_error _ _ _ _ _ rfl
  | ok v =>
    obtain ⟨o1, data1, len1, found⟩ := v
    obtain ⟨a, b, c⟩ := hok o1 data1 len1 found h
    rw [c]
    simp only
    by_cases h1 : o1.status_ = redis_s_null ∨ found = false
    · rw [if_pos h1, if_pos h1]; exact agrees_ok _ _ _ _ _ _ _ _ a b rfl
    · rw [if_neg h1, if_neg h1]
      by_cases h2 : o1.cnt_ ≤ 0
      · rw [if_pos h2, if_pos h2]; exact agrees_ok _ _ _ _ _ _ _ _ a b rfl
      · rw [if_neg h2, if_neg h2]; exact agrees_ok _ _ _ _ _ _ _ _ a b rfl

theorem parse_arlen_agrees (mem : Nat → Char) (cache : List redis_object)
    (o : redis_object) (data len : Nat) :
    agrees mem data len (parse_arlen_ptr mem cache o data len)
      (parse_arlen cache o (bytes_at mem data len)) := by
  obtain ⟨he, hok⟩ := get_length_agrees mem (o.with_cnt 0) data len
  unfold parse_arlen_ptr parse_arlen
  cases h : get_length_ptr mem (o.with_cnt 0) data len with
  | error e =>
    rw [he e h]
    exact agrees_error _ _ _ _ _ rfl
  | ok v =>
    obtain ⟨o1, data1, len1, found⟩ := v
    obtain ⟨a, b, c⟩ := hok o1 data1 len1 found h
    rw [c]
    simp only
    by_cases h1 : o1.status_ = redis_s_null ∨ found = false
    · rw [if_pos h1, if_pos h1]; exact agrees_ok _ _ _ _ _ _ _ _ a b rfl
    · rw [if_neg h1, if_neg h1]
      by_cases h2 : o1.cnt_ ≤ 0
      · rw [if_pos h2, if_pos h2]; exact agrees_ok _ _ _ _ _ _ _ _ a b rfl
      · rw [if_neg h2, if_neg h2]; exact agrees_ok _ _ _ _ _ _ _ _ a b rfl

theorem parse_string_agrees (mem : Nat → Char) (cache : List redis_object)
    (o : redis_object) (data len : Nat) :
    agrees mem data len (parse_string_ptr mem cache o data len)
      (parse_string cache o (bytes_at mem data len)) := by
  obtain ⟨hbad, hgood⟩ := get_data_ptr_spec mem data len o.buf_ (to_size_t o.cnt_)
  unfold parse_string_ptr parse_string
  by_cases h : o.buf_.length < to_size_t o.cnt_
  · obtain ⟨data1, len1, buf1, e1, a, b, e2⟩ := hgood h
    rw [e1, e2]
    simp only
    by_cases hfull : buf1.length = to_size_t o.cnt_
    · rw [if_pos hfull, if_pos hfull]; exact agrees_ok _ _ _ _ _ _ _ _ a b rfl
    · rw [if_neg hfull, if_neg hfull]; exact agrees_ok _ _ _ _ _ _ _ _ a b rfl
  · obtain ⟨e1, e2⟩ := hbad h
    rw [e1, e2]
    exact agrees_error _ _ _ _ _ rfl

theorem parse_begin_agrees (mem : Nat → Char) (cache : List redis_object)
    (o : redis_object) (data len : Nat) :
    agrees mem data len
      (.ok (cache, (parse_begin_ptr mem o data len).1, (parse_begin_ptr mem o data len).2.1,
        (parse_begin_ptr mem o data len).2.2))
      (parse_begin cache o (bytes_at mem data len)) := by
  obtain ⟨a, b⟩ := parse_begin_ptr_spec mem cache o data len
  refine agrees_ok _ _ _ _ _ _ _ _ a ?_ b
  unfold parse_begin_ptr
  split
  · exact le_refl _
  · exact Nat.sub_le _ _

theorem status_tab_agrees (mem : Nat → Char)
    (pp : List redis_object → redis_object → Nat → Nat → ResPtr)
    (po : List redis_object → redis_object → List Char → Res)
    (h : ∀ cache o data len, agrees mem data len (pp cache o data len)
      (po cache o (bytes_at mem data len)))
    (cache : List redis_object) (o : redis_object) (data len : Nat) :
    agrees mem data len (status_tab_ptr mem pp cache o data len)
      (status_tab po cache o (bytes_at mem data len)) := by
  unfold status_tab_ptr status_tab
  cases hs : o.status_ with
  | redis_s_begin => exact parse_begin_agrees mem cache o data len
  | redis_s_status => exact parse_line_agrees mem _ cache o data len
  | redis_s_error => exact parse_line_agrees mem _ cache o data len
  | redis_s_number => exact parse_line_agrees mem _ cache o data len
  | redis_s_strlen => exact parse_strlen_agrees mem cache o data len
  | redis_s_string => exact parse_string_agrees mem cache o data len
  | redis_s_strend => exact parse_strend_agrees mem cache o data len
  | redis_s_arlen => exact parse_arlen_agrees mem cache o data len
  | redis_s_array =>
    simp only [parse_array]
    by_cases hn : o.obj_.isNone = true
    · rw [if_pos hn, if_pos hn]; exact agrees_error _ _ _ _ _ rfl
    · rw [if_neg hn, if_neg hn]; exact h cache o data len
  | redis_s_null => exact agrees_error _ _ _ _ _ rfl
  | redis_s_finish => exact agrees_error _ _ _ _ _ rfl

theorem agrees_all (mem : Nat → Char) (n : Nat) :
    (∀ cache o data len, agrees mem data len (update_ptr mem n cache o data len)
      (update n cache o (bytes_at mem data len))) ∧
    (∀ cache o data len, agrees mem data len (parse_object_ptr mem n cache o data len)
      (parse_object n cache o (bytes_at mem data len))) ∧
    (∀ cache o data len, agrees mem data len (update_loop_ptr mem n cache o data len)
      (update_loop n cache o (bytes_at mem data len))) := by
  induction n with
  | zero =>
    refine ⟨?_, ?_, ?_⟩ <;>
    · intro cache o data len
      simp only [update_ptr, parse_object_ptr, update_loop_ptr, update, parse_object,
        update_loop]
      exact agrees_error _ _ _ _ _ rfl
  | succ n ih =>
    obtain ⟨iu, ip, il⟩ := ih
    refine ⟨?_, ?_, ?_⟩
    · intro cache o data len
      rw [update_ptr, update]
      by_cases hd : failed o = true ∨ finish o = true
      · rw [if_pos hd, if_pos hd]
        exact agrees_ok _ _ _ _ _ _ _ _ rfl (le_refl _) rfl
      · rw [if_neg hd, if_neg hd]
        by_cases ho : o.obj_.isSome = true
        · rw [if_pos ho, if_pos ho]; exact ip cache o data len
        · rw [if_neg ho, if_neg ho]; exact il cache o data len
    · intro cache o data len
      rw [parse_object_ptr, parse_object]
      by_cases hc : ¬ 0 < o.cnt_
      · rw [if_pos hc, if_pos hc]; exact agrees_error _ _ _ _ _ rfl
      · rw [if_neg hc, if_neg hc]
        cases ho : o.obj_ with
        | none => exact agrees_error _ _ _ _ _ rfl
        | some child =>
          simp only
          have hu := iu cache child data len
          cases hp : update_ptr mem n cache child data len with
          | error e =>
            rw [hp] at hu
            have hu1 : update n cache child (bytes_at mem data len) = .error e := hu
            rw [hu1]
            exact agrees_error _ _ _ _ _ rfl
          | ok v =>
            obtain ⟨cache1, child1, data1, len1⟩ := v
            rw [hp] at hu
            obtain ⟨a, b, c⟩ := hu
            rw [c]
            exact agrees_ok _ _ _ _ _ _ _ _ a b rfl
    · intro cache o data len
      rw [update_loop_ptr, update_loop, bytes_at_length]
      by_cases hl : len = 0
      · rw [if_pos hl, if_pos hl]
        exact agrees_ok _ _ _ _ _ _ _ _ rfl (le_refl _) rfl
      · rw [if_neg hl, if_neg hl]
        have ht := status_tab_agrees mem (parse_object_ptr mem n) (parse_object n) ip
          cache o data len
        cases hp : status_tab_ptr mem (parse_object_ptr mem n) cache o data len with
        | error e =>
          rw [hp] at ht
          have ht1 : status_tab (parse_object n) cache o (bytes_at mem data len)
              = .error e := ht
          rw [ht1]
          exact agrees_error _ _ _ _ _ rfl
        | ok v =>
          obtain ⟨cache1, o1, data1, len1⟩ := v
          rw [hp] at ht
          obtain ⟨a, b, c⟩ := ht
          rw [c]
          simp only
          by_cases hdn : o1.status_ = redis_s_null ∨ o1.status_ = redis_s_finish
          · rw [if_pos hdn, if_pos hdn]; exact agrees_ok _ _ _ _ _ _ _ _ a b rfl
          · rw [if_neg hdn, if_neg hdn]
            have hrec := il cache1 o1 data1 len1
            cases hq : update_loop_ptr mem n cache1 o1 data1 len1 with
            | error e =>
              rw [hq] at hrec
              exact hrec
            | ok w =>
              obtain ⟨cache2, o2, data2, len2⟩ := w
              rw [hq] at hrec
              obtain ⟨a2, b2, c2⟩ := hrec
              exact agrees_ok _ _ _ _ _ _ _ _ (by omega) (by omega) c2


theorem update_ptr_ok (mem : Nat → Char) (n : Nat) (cache : List redis_object)
    (o : redis_object) (data len : Nat) (cache1 : List redis_object) (o1 : redis_object)
    (data1 len1 : Nat)
    (h : update_ptr mem n cache o data len = .ok (cache1, o1, data1, len1)) :
    data1 + len1 = data + len ∧ len1 ≤ len ∧
      update n cache o (bytes_at mem data len) = .ok (cache1, o1, bytes_at mem data1 len1) := by
  have := (agrees_all mem n).1 cache o data len
  rw [h] at this
  exact this

theorem update_ptr_error (mem : Nat → Char) (n : Nat) (cache : List redis_object)
    (o : redis_object) (data len : Nat) (e : Fault)
    (h : update_ptr mem n cache o data len = .error e) :
    update n cache o (bytes_at mem data len) = .error e := by
  have := (agrees_all mem n).1 cache o data len
  rw [h] at this
  exact this

theorem update_ptr_of_ok (mem : Nat → Char) (n : Nat) (cache : List redis_object)
    (o : redis_object) (data len : Nat) (cache1 : List redis_object) (o1 : redis_object)
    (rest : List Char)
    (h : update n cache o (bytes_at mem data len) = .ok (cache1, o1, rest)) :
    update_ptr mem n cache o data len =
      .ok (cache1, o1, data + len - rest.length, rest.length) := by
  cases hp : update_ptr mem n cache o data len with
  | error e =>
    rw [update_ptr_error mem n cache o data len e hp] at h
    cases h
  | ok v =>
    obtain ⟨c, o2, p1, l1⟩ := v
    obtain ⟨a, b, e⟩ := update_ptr_ok mem n cache o data len c o2 p1 l1 hp
    rw [h] at e
    simp only [Except.ok.injEq, Prod.mk.injEq] at e
    obtain ⟨e1, e2, e3⟩ := e
    subst e1 e2
    have hl : rest.length = l1 := by rw [e3, bytes_at_length]
    rw [hl]
    have : data + len - l1 = p1 := by omega
    rw [this]


theorem updates_stable (ds : List (List Char)) :
    ∀ (n m : Nat) (cache : List redis_object) (o : redis_object)
      (r : List redis_object × redis_object), n ≤ m →
      updates n cache o ds = .ok r → updates m cache o ds = .ok r := by
  induction ds with
  | nil =>
    intro n m cache o r _ hr
    simpa [updates] using hr
  | cons d ds ih =>
    intro n m cache o r hle hr
    rw [updates] at hr ⊢
    cases hu : update n cache o d with
    | error e => simp [hu] at hr
    | ok v =>
      simp only [hu] at hr
      rw [update_stable n m hle cache o d _ hu (by simp)]
      exact ih n m v.1 v.2.1 r hle hr

theorem reached_step (cache : List redis_object) (o : redis_object) (n : Nat)
    (data : List Char) (v : List redis_object × redis_object × List Char)
    (h : reached cache o) (hv : update n cache o data = .ok v) : reached v.1 v.2.1 := by
  obtain ⟨cache0, n0, ds, hc, hr⟩ := h
  refine ⟨cache0, max n n0, ds ++ [data], hc, ?_⟩
  refine updates_append ds (max n n0) cache0 redis_object_new data (cache, o) v
    (updates_stable ds n0 _ _ _ _ (le_max_right _ _) hr) ?_
  exact update_stable n _ (le_max_left _ _) cache o data _ hv (by simp)

theorem node_ok_string (o : redis_object) (hn : node_ok o = true)
    (hs : o.status_ = redis_s_string) : o.buf_.length < to_size_t o.cnt_ := by
  cases o with
  | mk st ty pa ob cnt objs buf =>
    simp only [status_mk] at hs
    subst hs
    cases ob with
    | none => simpa [node_ok] using hn
    | some child => simp [node_ok] at hn

/-- C21: for every object reached by parsing from a fresh object (with a
cache of reset objects) and every input with `len > 0`: on an object neither
finished nor failed a call of `update` returns, with enough steps allowed, a
pointer past the input pointer and at most `len` past it, advanced by exactly
what `len` has decreased, so it consumes at least one byte and at most `len`;
this holds of every call that returns, whatever the bound on its steps. On an
object finished or failed the call returns the object, the pointer and `len`
as they are. The same in terms of the list of the `len` bytes at the pointer,
with which the call with pointer and length agrees: what a call leaves is the
end of its input and shorter than it. Hence the loop of the caller, which
repeats `update` until the input is exhausted or the object is finished or
failed, returns with enough steps allowed. -/
theorem update_consumes_and_ends (cache : List redis_object) (o : redis_object)
    (hr : reached cache o) :
    (∀ (mem : Nat → Char) (p len : Nat), 0 < len →
      (done o = false →
        ∃ N cache1 o1 p1 len1,
          (∀ n, N ≤ n → update_ptr mem n cache o p len = .ok (cache1, o1, p1, len1)) ∧
          p < p1 ∧ p1 ≤ p + len ∧ p1 - p = len - len1 ∧ reached cache1 o1) ∧
      (∀ n cache1 o1 p1 len1,
        update_ptr mem n cache o p len = .ok (cache1, o1, p1, len1) →
        p ≤ p1 ∧ p1 ≤ p + len ∧ p1 - p = len - len1 ∧ len1 ≤ len ∧
        (done o = false → p < p1) ∧
        (done o = true → cache1 = cache ∧ o1 = o ∧ p1 = p ∧ len1 = len) ∧
        update n cache o (bytes_at mem p len) = .ok (cache1, o1, bytes_at mem p1 len1)) ∧
      (done o = true → ∀ n, update_ptr mem (n + 1) cache o p len = .ok (cache, o, p, len))) ∧
    (∀ (data : List Char), data ≠ [] →
      (done o = false →
        ∃ N cache1 o1 rest,
          (∀ n, N ≤ n → update n cache o data = .ok (cache1, o1, rest)) ∧
          rest <:+ data ∧ rest.length < data.length ∧ reached cache1 o1) ∧
      (∀ n r, update n cache o data = .ok r →
        r.2.2 <:+ data ∧ (done o = false → r.2.2.length < data.length) ∧
        (done o = true → r = (cache, o, data))) ∧
      (done o = true → ∀ n, update (n + 1) cache o data = .ok (cache, o, data)) ∧
      (∃ N cache1 o1 rest,
        (∀ n, N ≤ n → feed n cache o data = .ok (cache1, o1, rest)) ∧
        rest <:+ data ∧ (rest = [] ∨ done o1 = true))) := by
  obtain ⟨hn, hc⟩ := reached_ok cache o hr
  have hlist : ∀ (data : List Char), data ≠ [] →
      (done o = false →
        ∃ N cache1 o1 rest,
          (∀ n, N ≤ n → update n cache o data = .ok (cache1, o1, rest)) ∧
          rest <:+ data ∧ rest.length < data.length ∧ reached cache1 o1) ∧
      (∀ n r, update n cache o data = .ok r →
        r.2.2 <:+ data ∧ (done o = false → r.2.2.length < data.length) ∧
        (done o = true → r = (cache, o, data))) := by
    intro data hd
    constructor
    · intro hnd
      obtain ⟨N, cache1, o1, rest, h1, _, _, h4, h5, _⟩ := update_returns cache o data hn hc
      exact ⟨N, cache1, o1, rest, h1, h4, h5 hnd hd,
        reached_step cache o N data (cache1, o1, rest) hr (h1 N (le_refl _))⟩
    · intro n r hu
      obtain ⟨_, _, a, b, c⟩ := update_result n cache o data hn hc r hu
      exact ⟨a, fun h => b h hd, c⟩
  constructor
  · intro mem p len hlen
    have hd : bytes_at mem p len ≠ [] := by
      intro h
      have := bytes_at_length mem p len
      rw [h] at this
      simp at this
      omega
    obtain ⟨h1, h2⟩ := hlist (bytes_at mem p len) hd
    refine ⟨?_, ?_, ?_⟩
    · intro hnd
      obtain ⟨N, cache1, o1, rest, g1, g2, g3, g4⟩ := h1 hnd
      rw [bytes_at_length] at g3
      refine ⟨N, cache1, o1, p + len - rest.length, rest.length,
        fun n hle => update_ptr_of_ok mem n cache o p len cache1 o1 rest (g1 n hle),
        by omega, by omega, by omega, g4⟩
    · intro n cache1 o1 p1 len1 hu
      obtain ⟨a, b, c⟩ := update_ptr_ok mem n cache o p len cache1 o1 p1 len1 hu
      obtain ⟨_, g2, g3⟩ := h2 n _ c
      simp only [bytes_at_length] at g2
      refine ⟨by omega, by omega, by omega, b, fun h => ?_, fun h => ?_, c⟩
      · have := g2 h
        omega
      · have e := g3 h
        simp only [Prod.mk.injEq] at e
        obtain ⟨e1, e2, e3⟩ := e
        have hl : len1 = len := by
          have := congrArg List.length e3
          simpa [bytes_at_length] using this
        exact ⟨e1, e2, by omega, hl⟩
    · intro hdone n
      have : failed o = true ∨ finish o = true := by simpa [done] using hdone
      rw [update_ptr, if_pos this]
  · intro data hd
    obtain ⟨h1, h2⟩ := hlist data hd
    refine ⟨h1, h2, fun hdone n => update_done n cache o data hdone, ?_⟩
    obtain ⟨s1, rest, ⟨N, f⟩, ⟨p0, p1, e, _⟩, _, _, hrest⟩ :=
      feed_total data.length data cache o rfl hn hc
    refine ⟨N, s1.1, s1.2, rest, f, ⟨p0 ++ p1, by rw [e, List.append_assoc]⟩, ?_⟩
    by_cases h : rest = []
    · exact Or.inl h
    · exact Or.inr (hrest h)

/-- C21 on a concrete input: the object reached on `*2\r\n$3\r\nab`, called
with the pointer at address 2 of a memory that holds `c\r\n:1` there and with
`len` 5: the call takes `c\r\n`, the bytes that end the current child, and
returns the pointer 5 and `len` 2; the caller's loop goes on and leaves
nothing. -/
theorem update_consumes_and_ends_witness :
    reached [] (run ([], redis_object_new) "*2\r\n$3\r\nab".toList).2 ∧
    (0 : Nat) < 5 ∧
    done (run ([], redis_object_new) "*2\r\n$3\r\nab".toList).2 = false ∧
    (∃ N cache1 o1 p1 len1,
      (∀ n, N ≤ n →
        update_ptr (fun i => "xxc\r\n:1yy".toList.getD i 'z') n []
          (run ([], redis_object_new) "*2\r\n$3\r\nab".toList).2 2 5
          = .ok (cache1, o1, p1, len1)) ∧
      2 < p1 ∧ p1 ≤ 2 + 5 ∧ p1 - 2 = 5 - len1 ∧ reached cache1 o1) ∧
    (update_ptr (fun i => "xxc\r\n:1yy".toList.getD i 'z') 20 []
      (run ([], redis_object_new) "*2\r\n$3\r\nab".toList).2 2 5).toOption.map
      (fun r => r.2.2) = some (5, 2) ∧
    (update 20 [] (run ([], redis_object_new) "*2\r\n$3\r\nab".toList).2
      "c\r\n:1".toList).toOption.map (fun r => r.2.2) = some ":1".toList ∧
    (feed 20 [] (run ([], redis_object_new) "*2\r\n$3\r\nab".toList).2
      "c\r\n:1".toList).toOption.map (fun r => r.2.2) = some [] :=
  ⟨⟨[], 20, ["*2\r\n$3\r\nab".toList], by simp [all_fresh], rfl⟩, by decide, rfl,
    ((update_consumes_and_ends [] (run ([], redis_object_new) "*2\r\n$3\r\nab".toList).2
      ⟨[], 20, ["*2\r\n$3\r\nab".toList], by simp [all_fresh], rfl⟩).1
      (fun i => "xxc\r\n:1yy".toList.getD i 'z') 2 5 (by decide)).1 rfl,
    rfl, rfl, rfl⟩

/-- C22: starting from a fresh object and a cache that holds only reset
objects, for every sequence of calls of `update`, each on an arbitrary input,
the calls return, with enough steps allowed, and whatever the steps allowed no
call is stopped by an assertion or leaves the table: `get_data` is entered
with `buf_.size() < cnt_`, `parse_object` and `parse_array` with a current
child and `cnt_ > 0`. The object reached is as the assertions need it: in the
state string the buffer holds fewer bytes than the count, in the state array
there is a current child and the count is positive, and so for the current
child; this holds of the calls on lists and of the calls with pointer and
length alike. And `get_line` reports that it found no line end only with its
input exhausted (`len == 0`). -/
theorem no_assertion_fails (cache : List redis_object) (hc : all_fresh cache)
    (ds : List (List Char)) :
    (∃ N r, (∀ n, N ≤ n → updates n cache redis_object_new ds = .ok r) ∧
      node_ok r.2 = true ∧ all_fresh r.1) ∧
    (∀ n e, updates n cache redis_object_new ds = .error e → e = Fault.fuel) ∧
    (∀ n r, updates n cache redis_object_new ds = .ok r →
      node_ok r.2 = true ∧
      (r.2.status_ = redis_s_string → r.2.buf_.length < to_size_t r.2.cnt_) ∧
      (r.2.status_ = redis_s_array →
        ∃ child, r.2.obj_ = some child ∧ node_ok child = true ∧ done child = false ∧
          0 < r.2.cnt_) ∧
      (∀ data m e, update m r.1 r.2 data = .error e → e = Fault.fuel) ∧
      (∀ mem p len m e, update_ptr mem m r.1 r.2 p len = .error e → e = Fault.fuel)) ∧
    (∀ data buf, (get_line data buf).2.2 = false → (get_line data buf).1 = []) ∧
    (∀ mem p len buf, (get_line_ptr mem p len buf).2.2.2 = false →
      (get_line_ptr mem p len buf).2.1 = 0) := by
  refine ⟨?_, ?_, ?_, fun data buf h => get_line_not_found data buf h,
    fun mem p len buf h => (get_line_ptr_spec mem len p buf).2.2 h⟩
  · obtain ⟨N, r, h⟩ := updates_returns ds cache redis_object_new node_ok_new hc
    obtain ⟨a, b⟩ := updates_result ds N cache redis_object_new r node_ok_new hc
      (h N (le_refl _))
    exact ⟨N, r, h, a, b⟩
  · intro n e h
    exact updates_never_asserts ds n cache redis_object_new e node_ok_new hc h
  · intro n r h
    obtain ⟨a, b⟩ := updates_result ds n cache redis_object_new r node_ok_new hc h
    exact ⟨a, node_ok_string r.2 a, node_ok_array r.2 a,
      fun data m e he => update_never_asserts m r.1 r.2 data a b e he,
      fun mem p len m e he => update_never_asserts m r.1 r.2 (bytes_at mem p len) a b e
        (update_ptr_error mem m r.1 r.2 p len e he)⟩

/-- C22 on a concrete input: five calls, on `*2\r\n$`, on the empty input, on
`3\r\nabc\r`, on `\n` and on `:1\r\n`, with one spare object in the cache. -/
theorem no_assertion_fails_witness :
    all_fresh [redis_object_new] ∧
    (∃ N r, (∀ n, N ≤ n →
        updates n [redis_object_new] redis_object_new
          ["*2\r\n$".toList, [], "3\r\nabc\r".toList, "\n".toList, ":1\r\n".toList] = .ok r) ∧
      node_ok r.2 = true ∧ all_fresh r.1) ∧
    (updates 20 [redis_object_new] redis_object_new
      ["*2\r\n$".toList, [], "3\r\nabc\r".toList, "\n".toList, ":1\r\n".toList]).toOption.map
      (fun r => (r.2.status_, r.2.objs_.map redis_object.buf_)) =
      some (redis_s_finish, ["abc".toList, "1".toList]) :=
  ⟨by simp [all_fresh],
    (no_assertion_fails [redis_object_new] (by simp [all_fresh])
      ["*2\r\n$".toList, [], "3\r\nabc\r".toList, "\n".toList, ":1\r\n".toList]).1,
    rfl⟩

end RedisObject
